import Mathlib

/-! # MultiSeg: region table, merge strategies and growth engine

A shallow embedding of the segmentation core of `mseg` (`Region.cpp`,
`AbstractMerger.cpp`, `EuclideanMerger.cpp`, `MultiSeg.cpp`, `Utils.cpp`,
`CVTable.cpp`, `Pyramid.cpp`).

Modelling conventions

* `std::size_t` quantities (ids, sizes, coordinates) are natural numbers; all of
  them are bounded by the number of pixels of the raster, so no wrap-around is
  modelled.
* `double` values (means, thresholds, distances) are exact rationals.
* The unqualified calls `abs(x)` on a `double` in `AbstractMerger.cpp` and
  `EuclideanMerger.cpp` are calls of `int abs(int)`: no floating-point overload of
  `abs` is declared in the global namespace of these files in a g++/libstdc++ build,
  so the argument is converted to `int` first (`intAbs`). The files that write
  `std::abs` are not affected.
* A `Region*` is the id of the region it points to; the heap of regions is the
  region table `m_regions`, a `std::map` kept as a list in ascending id order.
  A pointer to a deleted region is an id that is absent from the table.
* The labelled raster is a grid of cells addressed by `(lin, col)`; reads and
  writes outside `nlines x ncols` fail as `TeRaster::getElement/setElement` do.
  The sentinel `std::string::npos` is `npos`.
* The input raster handed to the engine has the dimensions of the labelled
  raster (asserted by `updateRegionStatistics`); it is a total function
  `lin col band -> value`.
* The conversions between `std::size_t` and `int` in `CVTable::getCV` are taken
  modulo `2^64` and `2^32`; a table file is the list of its rows, each row the
  list of its values.
* A pyramid level is a raster with bounds; a read outside `nlines x ncols` fails.
-/

namespace MSeg

/-! ## Region (Region.h / Region.cpp) -/

/-- An area of the image being segmented; field names follow `Region.h`. -/
structure Region where
  m_id : Nat
  m_size : Nat
  m_xStart : Nat
  m_yStart : Nat
  m_xBound : Nat
  m_yBound : Nat
  m_mean : List ℚ
  m_variance : List ℚ
  m_cv : List ℚ
  m_neighbours : List Nat
  deriving DecidableEq

namespace Region

/-- The constructor `Region::Region(id, pixel, lin, col)`: a region is a pixel. -/
def new (id : Nat) (pixel : List ℚ) (lin col : Nat) : Region :=
  { m_id := id
    m_size := 1
    m_mean := pixel
    m_xStart := col
    m_xBound := col + 1
    m_yStart := lin
    m_yBound := lin + 1
    m_variance := List.replicate pixel.length 0
    m_cv := List.replicate pixel.length 0
    m_neighbours := [] }

/-- `Region::getNBands`. -/
def getNBands (r : Region) : Nat := r.m_mean.length

/-- `Region::updateBounds(Region*)`: union of the bounds. -/
def updateBounds (r region : Region) : Region :=
  { r with
    m_xStart := min r.m_xStart region.m_xStart
    m_yStart := min r.m_yStart region.m_yStart
    m_xBound := max r.m_xBound region.m_xBound
    m_yBound := max r.m_yBound region.m_yBound }

/-- `Region::setSize`. -/
def setSize (r : Region) (size : Nat) : Region := { r with m_size := size }

/-- `Region::isNeighbour`: `std::find` over the neighbour list. -/
def isNeighbour (r : Region) (region : Nat) : Bool := r.m_neighbours.contains region

/-- `Region::addNeighbour`: appended at the back unless already present. -/
def addNeighbour (r : Region) (region : Nat) : Region :=
  if r.isNeighbour region then r
  else { r with m_neighbours := r.m_neighbours ++ [region] }

/-- `Region::removeNeighbour`: `std::list::remove`, every occurrence goes. -/
def removeNeighbour (r : Region) (region : Nat) : Region :=
  { r with m_neighbours := r.m_neighbours.filter (fun n => n != region) }

/-- The cell `(lin, col)` lies in the bounding box `[yStart, yBound) x [xStart, xBound)`. -/
def inBox (r : Region) (lin col : Nat) : Prop :=
  r.m_yStart ≤ lin ∧ lin < r.m_yBound ∧ r.m_xStart ≤ col ∧ col < r.m_xBound

instance (r : Region) (lin col : Nat) : Decidable (r.inBox lin col) := by
  unfold inBox; infer_instance

end Region

/-! ## Merge strategies (AbstractMerger.cpp, EuclideanMerger.cpp) -/

/-- The parameter map `m_params`, one field per parameter name used by the engine. -/
structure MergerParams where
  euclidean_distance_threshold : ℚ
  cv_threshold : ℚ

/-- An `AbstractMerger`: its parameters, the strict-mode flag and the pure virtual
band-wise operations `predicate(r1, r2, band)` and `isHomogenous(r, band)`. -/
structure AbstractMerger where
  m_params : MergerParams
  m_strictMode : Bool
  predicateBand : MergerParams → Region → Region → Nat → Bool
  isHomogenousBand : MergerParams → Region → Nat → Bool

/-- The band loop shared by `AbstractMerger::predicate` and
`AbstractMerger::isHomogenous`: `bands` are the indices still to visit and
`valids` the counter of bands that agreed so far. -/
def bandLoop (strictMode : Bool) (test : Nat → Bool) : List Nat → Nat → Bool
  | [], valids => decide (valids > 0)
  | i :: rest, valids =>
    let isValid := test i
    if isValid == false && strictMode == true then false
    else if isValid == true && strictMode == false then true
    else if isValid == true then bandLoop strictMode test rest (valids + 1)
    else bandLoop strictMode test rest valids

/-- The implicit conversion of a `double` to `int`: the fraction is discarded, the
value is truncated toward zero. The conversion of a value whose truncation does not
fit an `int` is undefined and is not modelled. -/
def truncInt (x : ℚ) : Int := if 0 ≤ x then Rat.floor x else -Rat.floor (-x)

/-- The unqualified call `abs(x)` on a `double` `x`, as written in
`getSquaredEuclideanDistance`, `EuclideanMerger::predicate` and
`EuclideanMerger::getDissimilarity`: the call of `int abs(int)` on the truncated
argument, whose result is converted back to `double` where it is used. -/
def intAbs (x : ℚ) : ℚ := ((|truncInt x| : Int) : ℚ)

namespace AbstractMerger

/-- `AbstractMerger::setParam("euclidean_distance_threshold", value)`. -/
def setEuclideanDistanceThreshold (m : AbstractMerger) (value : ℚ) : AbstractMerger :=
  { m with m_params := { m.m_params with euclidean_distance_threshold := value } }

/-- `AbstractMerger::predicate(r1, r2)`. -/
def predicate (m : AbstractMerger) (r1 r2 : Region) : Bool :=
  bandLoop m.m_strictMode (fun i => m.predicateBand m.m_params r1 r2 i)
    (List.range r1.getNBands) 0

/-- `AbstractMerger::isHomogenous(r)`. -/
def isHomogenous (m : AbstractMerger) (r : Region) : Bool :=
  bandLoop m.m_strictMode (fun i => m.isHomogenousBand m.m_params r i)
    (List.range r.getNBands) 0

/-- `AbstractMerger::getSquaredEuclideanDistance(p1, p2)`: the loop accumulates
`abs(p1[i] - p2[i])` over the bands, with the `abs` of `int`. -/
def getSquaredEuclideanDistance (p1 p2 : List ℚ) : ℚ :=
  (List.zipWith (fun a b => intAbs (a - b)) p1 p2).foldl (fun distance d => distance + d) 0

end AbstractMerger

namespace EuclideanMerger

/-- `EuclideanMerger::merge(r1, r2)`: the new value of `*r1` (`*r2` is only read). -/
def merge (r1 r2 : Region) : Region :=
  let r := r1.updateBounds r2
  let size1 := r1.m_size
  let size2 := r2.m_size
  let mean := List.zipWith
    (fun mean1 mean2 => ((mean1 * size1) + (mean2 * size2)) / (((size1 + size2 : Nat)) : ℚ))
    r1.m_mean r2.m_mean
  { r with m_mean := mean, m_size := size1 + size2 }

/-- `EuclideanMerger::predicate(r1, r2, band)`:
`abs(mean1[band] - mean2[band]) <= t`, with the `abs` of `int`. -/
def predicateBand (p : MergerParams) (r1 r2 : Region) (band : Nat) : Bool :=
  decide (intAbs (r1.m_mean.getD band 0 - r2.m_mean.getD band 0) ≤
    p.euclidean_distance_threshold)

/-- `EuclideanMerger::isHomogenous(r, band)`. -/
def isHomogenousBand (p : MergerParams) (r : Region) (band : Nat) : Bool :=
  decide (r.m_cv.getD band 0 ≤ p.cv_threshold)

/-- The `EuclideanMerger` object: strict mode is on by construction. -/
def new (p : MergerParams) : AbstractMerger :=
  { m_params := p
    m_strictMode := true
    predicateBand := predicateBand
    isHomogenousBand := isHomogenousBand }

end EuclideanMerger

/-! ## The region table and the labelled raster -/

/-- `Utils::GenerateId`. -/
def GenerateId (lin col nCols : Nat) : Nat := lin * nCols + col

/-- The sentinel `std::string::npos` written into invalidated label cells. -/
def npos : Nat := 2 ^ 64 - 1

/-- Lookup in a `std::map<std::size_t, Region*>`: `MultiSeg::getRegion`. -/
def getRegion (rs : List Region) (id : Nat) : Option Region :=
  rs.find? (fun r => r.m_id == id)

/-- The statement `m_regions[id] = region` with `id = region->getId()`: the table
stays in ascending id order, an existing entry with that id is replaced. -/
def insertRegion : List Region → Region → List Region
  | [], region => [region]
  | x :: xs, region =>
    if region.m_id < x.m_id then region :: x :: xs
    else if region.m_id = x.m_id then region :: xs
    else x :: insertRegion xs region

/-- The call `m_regions.erase(id)`. -/
def eraseRegion (rs : List Region) (id : Nat) : List Region :=
  rs.filter (fun r => r.m_id != id)

/-- A member call `p->f(...)` through the pointer `p` to the region `id`: the
object is replaced by `f` of itself; nothing happens when no such region is live. -/
def updateRegion (rs : List Region) (id : Nat) (f : Region → Region) : List Region :=
  rs.map (fun r => if r.m_id = id then f r else r)

/-- The pair of calls `a->addNeighbour(b); b->addNeighbour(a);`. -/
def linkRegions (rs : List Region) (a b : Nat) : List Region :=
  updateRegion (updateRegion rs a (fun r => r.addNeighbour b)) b (fun r => r.addNeighbour a)

/-- Insertion of a key into a `std::map` of which only the keys are tracked. -/
def insertKey : List Nat → Nat → List Nat
  | [], k => [k]
  | x :: xs, k =>
    if k < x then k :: x :: xs
    else if k = x then x :: xs
    else x :: insertKey xs k

/-- The labelled raster `m_labelledImage`: `cell lin col` is the stored value. -/
structure LabelImage where
  nlines : Nat
  ncols : Nat
  cell : Nat → Nat → Nat

namespace LabelImage

/-- `TeRaster::getElement(col, lin, value)`: fails outside the raster. -/
def getElement (img : LabelImage) (col lin : Nat) : Option Nat :=
  if lin < img.nlines ∧ col < img.ncols then some (img.cell lin col) else none

/-- `TeRaster::setElement(col, lin, value)`: nothing is written outside the raster. -/
def setElement (img : LabelImage) (col lin value : Nat) : LabelImage :=
  if lin < img.nlines ∧ col < img.ncols then
    { img with cell := fun l c => if l = lin ∧ c = col then value else img.cell l c }
  else img

end LabelImage

/-- The cells of a bounding box in scan order: the loops
`for lin in [yStart, yBound) for col in [xStart, xBound)`. -/
def boxCells (r : Region) : List (Nat × Nat) :=
  (List.range' r.m_yStart (r.m_yBound - r.m_yStart)).flatMap
    (fun lin => (List.range' r.m_xStart (r.m_xBound - r.m_xStart)).map (fun col => (lin, col)))

/-- The input raster of the current level: `image lin col band`. -/
abbrev Image := Nat → Nat → Nat → ℚ

/-- The engine state: the fields of `MultiSeg` that the growth engine reads or writes. -/
structure MultiSeg where
  m_bands : List Nat
  m_regions : List Region
  m_labelledImage : LabelImage
  m_merger : AbstractMerger
  m_minArea : Nat
  m_similarityIncreaseStep : Nat
  m_enableMutualBestFitting : Bool
  m_growUntilStop : Bool
  m_considerRegionVsRegion : Bool
  m_currentSimilarity : ℚ

/-- The values of the used bands at a pixel (`getPixelValues`). -/
def getPixelValues (bands : List Nat) (image : Image) (lin col : Nat) : List ℚ :=
  bands.map (fun b => image lin col b)

/-! ## Region initialisation (MultiSeg::initializeRegions) -/

/-- The neighbourhood block of `initializeRegions`: the region `id` is linked with
the region `neighbourId` when `getRegion` finds it. -/
def linkIfFound (rs : List Region) (id neighbourId : Nat) : List Region :=
  match getRegion rs neighbourId with
  | some neighbour => linkRegions rs id neighbour.m_id
  | none => rs

/-- The body of the two pixel loops of `initializeRegions`. -/
def initializePixel (bands : List Nat) (image : Image) (nCols : Nat)
    (st : List Region × LabelImage) (lin col : Nat) : List Region × LabelImage :=
  let pixel := getPixelValues bands image lin col
  let id := GenerateId lin col nCols
  let region := Region.new id pixel lin col
  let rs := insertRegion st.1 region
  let img := st.2.setElement col lin id
  let rs := if lin ≠ 0 then linkIfFound rs id (GenerateId (lin - 1) col nCols) else rs
  let rs := if col ≠ 0 then linkIfFound rs id (GenerateId lin (col - 1) nCols) else rs
  (rs, img)

/-- `MultiSeg::initializeRegions(image)`; `nLines` and `nCols` are those of the
image, which are those of the labelled raster allocated from its parameters. -/
def initializeRegions (s : MultiSeg) (image : Image) : MultiSeg :=
  let nLines := s.m_labelledImage.nlines
  let nCols := s.m_labelledImage.ncols
  let st := (List.range nLines).foldl
    (fun st lin => (List.range nCols).foldl
      (fun st col => initializePixel s.m_bands image nCols st lin col) st)
    (s.m_regions, s.m_labelledImage)
  { s with m_regions := st.1, m_labelledImage := st.2 }

/-! ## Merging two regions (MultiSeg.cpp) -/

/-- The call `m_merger->merge(r1, r2)` through the pointers `r1`, `r2`. -/
def mergeInTable (rs : List Region) (r1 r2 : Nat) : List Region :=
  match getRegion rs r2 with
  | some region2 => updateRegion rs r1 (fun region1 => EuclideanMerger.merge region1 region2)
  | none => rs

/-- `MultiSeg::updateNeighborhoodAfterMerge(region, merged)`. The loop runs over the
neighbour list of `merged`, which its body does not touch as long as `merged` is
neither `region` nor its own neighbour. -/
def updateNeighborhoodAfterMerge (rs : List Region) (region merged : Nat) : List Region :=
  match getRegion rs merged with
  | none => rs
  | some m =>
    let rs := m.m_neighbours.foldl
      (fun rs n =>
        if n ≠ region then
          updateRegion
            (updateRegion (updateRegion rs region (fun r => r.addNeighbour n))
              n (fun r => r.addNeighbour region))
            n (fun r => r.removeNeighbour merged)
        else rs) rs
    updateRegion rs region (fun r => r.removeNeighbour merged)

/-- `MultiSeg::updateLabelledImage(region, merged)`: a cell whose read fails is skipped. -/
def updateLabelledImage (img : LabelImage) (regionId : Nat) (merged : Region) : LabelImage :=
  (boxCells merged).foldl
    (fun img p =>
      match img.getElement p.2 p.1 with
      | some value => if value = merged.m_id then img.setElement p.2 p.1 regionId else img
      | none => img) img

/-- The merge block of `mergeRegions`, `mergeRegionsRandomly` and `mergeSmallRegions`:
`merge`, `updateNeighborhoodAfterMerge`, `updateLabelledImage`, then the absorbed
region is deleted and erased from the table. -/
def mergeStep (s : MultiSeg) (region merged : Nat) : MultiSeg :=
  match getRegion s.m_regions merged with
  | none => s
  | some m =>
    let rs := mergeInTable s.m_regions region merged
    let rs := updateNeighborhoodAfterMerge rs region merged
    let img := updateLabelledImage s.m_labelledImage region m
    let rs := eraseRegion rs merged
    { s with m_regions := rs, m_labelledImage := img }

/-! ## Closest neighbour selection -/

/-- The value `std::numeric_limits<double>::max()`. -/
def dblMax : ℚ := 2 ^ 1024 - 2 ^ 971

/-- The regions a neighbour list points to, in list order. -/
def neighbourRegions (rs : List Region) (region : Region) : List Region :=
  region.m_neighbours.filterMap (getRegion rs)

/-- `MultiSeg::getClosestRegions(region)`: the neighbours that pass the predicate. -/
def getClosestRegions (s : MultiSeg) (region : Region) : List Region :=
  (neighbourRegions s.m_regions region).filter
    (fun currentNeighbor =>
      if decide (region.m_size > 1) && decide (currentNeighbor.m_size > 1)
          && !s.m_considerRegionVsRegion then false
      else s.m_merger.predicate region currentNeighbor)

/-- `MultiSeg::getClosestRegion(region, useAllNeighbours)`. -/
def getClosestRegion (s : MultiSeg) (region : Region) (useAllNeighbours : Bool) :
    Option Region :=
  let closestRegions :=
    if useAllNeighbours then neighbourRegions s.m_regions region else getClosestRegions s region
  match closestRegions with
  | [] => none
  | [only] => some only
  | _ =>
    (closestRegions.foldl
      (fun (acc : Option Region × ℚ) currentNeighbor =>
        let euclideanDistance :=
          AbstractMerger.getSquaredEuclideanDistance region.m_mean currentNeighbor.m_mean
        if euclideanDistance < acc.2 then (some currentNeighbor, euclideanDistance) else acc)
      (none, dblMax)).1

/-- The partner selection at the head of the loop bodies of `mergeRegions` and
`mergeRegionsRandomly`: the closest neighbour, dropped when mutual best fitting
is required and the neighbour's own closest region is not `currentRegion`. -/
def findMergePartner (s : MultiSeg) (currentRegion : Region) : Option Region :=
  match getClosestRegion s currentRegion false with
  | none => none
  | some closestNeighbour =>
    if s.m_enableMutualBestFitting then
      match getClosestRegion s closestNeighbour false with
      | none => none
      | some backClosestNeighbour =>
        if backClosestNeighbour.m_id ≠ currentRegion.m_id then none else some closestNeighbour
    else some closestNeighbour

/-! ## Growth scans -/

/-- A merge performed by a scan: the state right before it and the two regions. -/
structure MergeEvent where
  before : MultiSeg
  survivor : Nat
  absorbed : Nat

/-- The state of a scan: the engine, the keys of the map argument `regions`, the
counter `mergedRegions`, and (ghost) the merges performed so far. -/
structure Scan where
  seg : MultiSeg
  regions : List Nat
  mergedRegions : Nat
  log : List MergeEvent

/-- The merge block of a growth scan: `mergeStep`, the erase from `regions`, and
`++mergedRegions`. -/
def Scan.merge (sc : Scan) (currentRegion closestNeighbour : Region) : Scan :=
  { seg := mergeStep sc.seg currentRegion.m_id closestNeighbour.m_id
    regions := sc.regions.filter (fun k => k != closestNeighbour.m_id)
    mergedRegions := sc.mergedRegions + 1
    log := sc.log ++ [⟨sc.seg, currentRegion.m_id, closestNeighbour.m_id⟩] }

/-- The increment `++regionsIt` of a map iterator that stands at key `cur`. -/
def nextKey (regions : List Nat) (cur : Nat) : Option Nat :=
  regions.find? (fun k => decide (cur < k))

/-- The `while(regionsIt != regionsItEnd)` loop of `mergeRegions`; the iterator is
the key it stands at, `none` at the end. `none` as result: out of fuel. -/
def mergeRegionsLoop : Nat → Scan → Option Nat → Option Scan
  | 0, _, _ => none
  | _ + 1, sc, none => some sc
  | fuel + 1, sc, some cur =>
    match getRegion sc.seg.m_regions cur with
    | none => mergeRegionsLoop fuel sc (nextKey sc.regions cur)
    | some currentRegion =>
      match findMergePartner sc.seg currentRegion with
      | some closestNeighbour =>
        let sc' := sc.merge currentRegion closestNeighbour
        if sc.seg.m_growUntilStop then mergeRegionsLoop fuel sc' (some cur)
        else mergeRegionsLoop fuel sc' (nextKey sc'.regions cur)
      | none => mergeRegionsLoop fuel sc (nextKey sc.regions cur)

/-- `MultiSeg::mergeRegions(regions)`. -/
def mergeRegions (s : MultiSeg) (regions : List Nat) : Option Scan :=
  mergeRegionsLoop (s.m_regions.length + regions.length + 1) ⟨s, regions, 0, []⟩ regions.head?

/-- The `while(true)` loop of `mergeRegionsRandomly` for the region `cur`. -/
def growRegion : Nat → Scan → Nat → Option Scan
  | 0, _, _ => none
  | fuel + 1, sc, cur =>
    match getRegion sc.seg.m_regions cur with
    | none => some sc
    | some currentRegion =>
      match findMergePartner sc.seg currentRegion with
      | some closestNeighbour =>
        let sc' := sc.merge currentRegion closestNeighbour
        if !sc.seg.m_growUntilStop then some sc'
        else growRegion fuel sc' cur
      | none => some sc

/-- The `for` loop of `mergeRegionsRandomly` over the shuffled ids. -/
def mergeRegionsRandomlyLoop : List Nat → Scan → Option Scan
  | [], sc => some sc
  | id :: ids, sc =>
    if sc.regions.contains id then
      match growRegion (sc.seg.m_regions.length + 1) sc id with
      | none => none
      | some sc' => mergeRegionsRandomlyLoop ids sc'
    else mergeRegionsRandomlyLoop ids sc

/-- `MultiSeg::mergeRegionsRandomly(regions)`; `shuffle` is what
`std::random_shuffle` does to the id vector at this call. -/
def mergeRegionsRandomly (shuffle : List Nat → List Nat) (s : MultiSeg) (regions : List Nat) :
    Option Scan :=
  mergeRegionsRandomlyLoop (shuffle regions) ⟨s, regions, 0, []⟩

/-- The state of the `while(true)` loop of `executeRegionGrowing`; `counts` (ghost)
lists the size of the region table after each scan made so far. -/
structure Growth where
  seg : MultiSeg
  regions : List Nat
  iteration : Nat
  noMergeIterations : Nat
  threshold : ℚ
  counts : List Nat

/-- The `while(true)` loop of `executeRegionGrowing`. `none` as result: out of fuel. -/
def executeRegionGrowingLoop (useRandomSeeds : Bool) (shuffle : Nat → List Nat → List Nat)
    (maxIterations : Nat) : Nat → Growth → Option Growth
  | 0, _ => none
  | fuel + 1, g =>
    match (if useRandomSeeds = false then mergeRegions g.seg g.regions
           else mergeRegionsRandomly (shuffle g.iteration) g.seg g.regions) with
    | none => none
    | some sc =>
      let mergedRegions := sc.mergedRegions
      let iteration := g.iteration + 1
      let g1 : Growth :=
        { g with seg := sc.seg, regions := sc.regions, iteration := iteration,
                 counts := g.counts ++ [sc.seg.m_regions.length] }
      if iteration = maxIterations then some g1
      else if mergedRegions = 0 then
        let noMergeIterations := g.noMergeIterations + 1
        if noMergeIterations > g.seg.m_similarityIncreaseStep then
          some { g1 with noMergeIterations := noMergeIterations }
        else
          let threshold := g.threshold
            + g.seg.m_currentSimilarity / ((g.seg.m_similarityIncreaseStep + 1 : Nat) : ℚ)
          executeRegionGrowingLoop useRandomSeeds shuffle maxIterations fuel
            { g1 with
              noMergeIterations := noMergeIterations
              threshold := threshold
              seg := { sc.seg with
                m_merger := sc.seg.m_merger.setEuclideanDistanceThreshold threshold } }
      else executeRegionGrowingLoop useRandomSeeds shuffle maxIterations fuel g1

/-- `MultiSeg::executeRegionGrowing(regions, useRandomSeeds, maxIterations)`. -/
def executeRegionGrowing (s : MultiSeg) (regions : List Nat) (useRandomSeeds : Bool)
    (shuffle : Nat → List Nat → List Nat) (maxIterations : Nat) : Option Growth :=
  let threshold := s.m_currentSimilarity / ((s.m_similarityIncreaseStep + 1 : Nat) : ℚ)
  let s0 := { s with m_merger := s.m_merger.setEuclideanDistanceThreshold threshold }
  match executeRegionGrowingLoop useRandomSeeds shuffle maxIterations
      (s.m_regions.length + s.m_similarityIncreaseStep + 1)
      ⟨s0, regions, 0, 0, threshold, []⟩ with
  | none => none
  | some g =>
    some { g with seg := { g.seg with
      m_merger := g.seg.m_merger.setEuclideanDistanceThreshold g.seg.m_currentSimilarity } }

/-! ## Removing and splitting regions -/

/-- `MultiSeg::removeRegion(region, linkNeighbourhood)`. Both loops run over the
neighbour list of `region`, which their bodies do not touch as long as `region`
is not its own neighbour. -/
def removeRegion (rs : List Region) (region : Nat) (linkNeighbourhood : Bool) : List Region :=
  match getRegion rs region with
  | none => rs
  | some r =>
    let rs := r.m_neighbours.foldl
      (fun rs neighbor =>
        let rs := updateRegion rs neighbor (fun n => n.removeNeighbour region)
        let isEmpty := match getRegion rs neighbor with
          | some n => n.m_neighbours.isEmpty
          | none => false
        if linkNeighbourhood || isEmpty then
          r.m_neighbours.foldl
            (fun rs nn => if neighbor ≠ nn then linkRegions rs neighbor nn else rs) rs
        else rs) rs
    eraseRegion rs region

/-- `MultiSeg::invalidateRegionPixels(region)`. -/
def invalidateRegionPixels (img : LabelImage) (region : Region) : LabelImage :=
  (boxCells region).foldl
    (fun img p =>
      match img.getElement p.2 p.1 with
      | some idValue => if idValue ≠ region.m_id then img else img.setElement p.2 p.1 npos
      | none => img) img

/-- The state of the pixel loops of `splitRegion`. -/
structure Split where
  regions : List Region
  labelledImage : LabelImage
  newRegions : List Nat
  lastId : Nat

/-- One of the four neighbourhood blocks of `splitRegion`: the new region is linked
with the region whose id is stored at `(lin, col)`, unless that cell is invalidated. -/
def linkWithCell (rs : List Region) (img : LabelImage) (id col lin : Nat) : List Region :=
  match img.getElement col lin with
  | none => rs
  | some idValue =>
    if idValue ≠ npos then
      match getRegion rs idValue with
      | some neighbour => linkRegions rs id neighbour.m_id
      | none => rs
    else rs

/-- The body of the pixel loops of `splitRegion`. -/
def splitPixel (bands : List Nat) (image : Image) (st : Split) (lin col : Nat) : Split :=
  match st.labelledImage.getElement col lin with
  | none => st
  | some idValue =>
    if idValue ≠ npos then st
    else
      let pixel := getPixelValues bands image lin col
      let id := st.lastId + 1
      let newRegion := Region.new id pixel lin col
      let rs := insertRegion st.regions newRegion
      let newRegions := insertKey st.newRegions id
      let img := st.labelledImage.setElement col lin id
      let lastLine := img.nlines - 1
      let lastCol := img.ncols - 1
      let rs := if lin ≠ 0 then linkWithCell rs img id col (lin - 1) else rs
      let rs := if col ≠ 0 then linkWithCell rs img id (col - 1) lin else rs
      let rs := if lin < lastLine then linkWithCell rs img id col (lin + 1) else rs
      let rs := if col < lastCol then linkWithCell rs img id (col + 1) lin else rs
      { regions := rs, labelledImage := img, newRegions := newRegions, lastId := id }

/-- The id of the last entry of the table (`m_regions.rbegin()`). -/
def lastRegionId (rs : List Region) : Nat :=
  match rs.getLast? with
  | some r => r.m_id
  | none => 0

/-- `MultiSeg::splitRegion(region, image, newRegions)`: the engine after the call and
the keys of `newRegions`. -/
def splitRegion (s : MultiSeg) (region : Region) (image : Image) (newRegions : List Nat) :
    MultiSeg × List Nat :=
  let img := invalidateRegionPixels s.m_labelledImage region
  let lastId := lastRegionId s.m_regions
  let st := (boxCells region).foldl
    (fun st p => splitPixel s.m_bands image st p.1 p.2)
    { regions := s.m_regions, labelledImage := img, newRegions := newRegions, lastId := lastId }
  ({ s with m_regions := removeRegion st.regions region.m_id false,
            m_labelledImage := st.labelledImage }, st.newRegions)

/-! ## Well-formedness predicates -/

/-- The table is a `std::map`: its ids are strictly ascending. -/
def TableSorted (rs : List Region) : Prop :=
  (rs.map (fun r => r.m_id)).Pairwise (fun a b => a < b)

instance (rs : List Region) : Decidable (TableSorted rs) := by
  unfold TableSorted; infer_instance

/-- The neighbour relation is symmetric and refers to live regions only: if a live
region `ra` lists `b`, then `b` is live and lists `ra`. -/
def SymmetricLive (rs : List Region) : Prop :=
  ∀ ra ∈ rs, ∀ b ∈ ra.m_neighbours, ∃ rb ∈ rs, rb.m_id = b ∧ ra.m_id ∈ rb.m_neighbours

instance (rs : List Region) : Decidable (SymmetricLive rs) := by
  unfold SymmetricLive; infer_instance

/-- No region is its own neighbour. -/
def NoSelfNeighbour (rs : List Region) : Prop :=
  ∀ r ∈ rs, r.m_id ∉ r.m_neighbours

instance (rs : List Region) : Decidable (NoSelfNeighbour rs) := by
  unfold NoSelfNeighbour; infer_instance

/-- The sum of the sizes of all live regions. -/
def sumSizes (rs : List Region) : Nat := (rs.map (fun r => r.m_size)).sum

/-- Every cell of the label grid holds the id of a live region and lies inside that
region's bounding box. -/
def GridConsistent (rs : List Region) (img : LabelImage) : Prop :=
  ∀ lin, lin < img.nlines → ∀ col, col < img.ncols →
    ∃ r ∈ rs, r.m_id = img.cell lin col ∧ r.inBox lin col

instance (rs : List Region) (img : LabelImage) : Decidable (GridConsistent rs img) := by
  unfold GridConsistent; infer_instance

/-- The neighbour list of the region `a`, empty when `a` is not live. -/
def neighboursOf (rs : List Region) (a : Nat) : List Nat :=
  match getRegion rs a with
  | some r => r.m_neighbours
  | none => []

/-- A region without its neighbour list. -/
def Region.core (r : Region) : Region := { r with m_neighbours := [] }

/-- The region `a` is in the table. -/
def isLive (rs : List Region) (a : Nat) : Bool := (getRegion rs a).isSome

/-- The termination measure of the loop of `mergeRegions`: the size of the table
plus the number of keys from the iterator on. -/
def scanMeasure (sc : Scan) (it : Option Nat) : Nat :=
  sc.seg.m_regions.length +
    match it with
    | none => 0
    | some cur => 1 + (sc.regions.filter (fun k => decide (cur < k))).length

/-! ## Sample inputs -/

/-- A one-band image whose columns 0 and 1 hold 10 and whose other columns hold 200. -/
def sampleImage : Image := fun _ col _ => if col < 2 then 10 else 200

/-- An engine with an empty table over an `nlines x ncols` labelled raster, one band,
the Euclidean strategy with threshold 5 and the flags of the `MultiSeg` constructor. -/
def sampleSeg (nlines ncols : Nat) : MultiSeg :=
  { m_bands := [0]
    m_regions := []
    m_labelledImage := ⟨nlines, ncols, fun _ _ => 0⟩
    m_merger := EuclideanMerger.new ⟨5, 0⟩
    m_minArea := 0
    m_similarityIncreaseStep := 0
    m_enableMutualBestFitting := true
    m_growUntilStop := true
    m_considerRegionVsRegion := true
    m_currentSimilarity := 5 }

/-- The log `log` is the sequence of merges that leads from `s` to `s'`: each event
starts in the state the previous one left. -/
def logChain : MultiSeg → List MergeEvent → MultiSeg → Prop
  | s, [], s' => s' = s
  | s, e :: rest, s' => e.before = s ∧ logChain (mergeStep s e.survivor e.absorbed) rest s'

/-- In the state right before the merge, the two regions are each other's closest
region. -/
def MutualBest (e : MergeEvent) : Prop :=
  ∃ A B, getRegion e.before.m_regions e.survivor = some A ∧
    getRegion e.before.m_regions e.absorbed = some B ∧
    getClosestRegion e.before A false = some B ∧
    getClosestRegion e.before B false = some A

/-- The common shape of the pixel loops of `updateLabelledImage` and
`invalidateRegionPixels`: every listed cell that reads `old` is set to `new`. -/
def relabelCells (img : LabelImage) (cells : List (Nat × Nat)) (old new : Nat) : LabelImage :=
  cells.foldl
    (fun img p =>
      match img.getElement p.2 p.1 with
      | some value => if value = old then img.setElement p.2 p.1 new else img
      | none => img) img

/-- The left pixel of a 1 x 2 grid as a region, linked with the right one. -/
def pixelA : Region := { Region.new 0 [10] 0 0 with m_neighbours := [1] }

/-- The right pixel of a 1 x 2 grid as a region, linked with the left one. -/
def pixelB : Region := { Region.new 1 [10] 0 1 with m_neighbours := [0] }

/-- The engine right after region initialisation on a 1 x 2 grid of value 10. -/
def twoPixelSeg : MultiSeg :=
  { sampleSeg 1 2 with
    m_regions := [pixelA, pixelB]
    m_labelledImage := ⟨1, 2, fun _ col => col⟩ }

/-- Row-major indices `i` and `y` of a grid with `W` columns belong to pixels that are
4-neighbours: one row apart in the same column, or side by side in the same row. -/
def adjacentIndex (W i y : Nat) : Prop :=
  y = i + W ∨ i = y + W ∨ (y = i + 1 ∧ y % W ≠ 0) ∨ (i = y + 1 ∧ i % W ≠ 0)

/-- The body of the pixel loops of `initializeRegions` at the pixel of row-major
index `k`, where `GenerateId` gives `k`, `k - W` above and `k - 1` to the left. -/
def initializeIndex (bands : List Nat) (image : Image) (W : Nat)
    (st : List Region × LabelImage) (k : Nat) : List Region × LabelImage :=
  let rs := insertRegion st.1 (Region.new k (getPixelValues bands image (k / W) (k % W))
    (k / W) (k % W))
  let rs := if W ≤ k then linkIfFound rs k (k - W) else rs
  let rs := if k % W ≠ 0 then linkIfFound rs k (k - 1) else rs
  (rs, st.2.setElement (k % W) (k / W) k)

/-- The cell is one that the pixel loops of `splitRegion` turn into a region: it is
inside the raster and reads `npos`. -/
def isInvalidated (img : LabelImage) (p : Nat × Nat) : Bool :=
  decide (p.1 < img.nlines ∧ p.2 < img.ncols ∧ img.cell p.1 p.2 = npos)

/-- The single-pixel regions that `splitRegion` creates for the given cells, in scan
order, with the ids `lastId + 1`, `lastId + 2`, ... -/
def newRegionsFrom (bands : List Nat) (image : Image) : Nat → List (Nat × Nat) → List Region
  | _, [] => []
  | lastId, p :: rest =>
    Region.new (lastId + 1) (getPixelValues bands image p.1 p.2) p.1 p.2
      :: newRegionsFrom bands image (lastId + 1) rest

/-- The cells inside the raster and inside the bounding box of `region` that carry
its id, in scan order. -/
def regionCells (img : LabelImage) (region : Region) : List (Nat × Nat) :=
  (boxCells region).filter
    (fun p => decide (p.1 < img.nlines ∧ p.2 < img.ncols ∧ img.cell p.1 p.2 = region.m_id))

/-- All cells of the raster in row-major order. -/
def gridCells (img : LabelImage) : List (Nat × Nat) :=
  (List.range img.nlines).flatMap (fun lin => (List.range img.ncols).map (fun col => (lin, col)))

/-- The number of cells of the raster that carry the given id. -/
def countLabel (img : LabelImage) (id : Nat) : Nat :=
  ((gridCells img).filter (fun p => img.cell p.1 p.2 == id)).length

/-- Scan order of cells: row by row, then column by column. -/
def cellBefore (p q : Nat × Nat) : Prop := p.1 < q.1 ∨ (p.1 = q.1 ∧ p.2 < q.2)

/-! ## Small regions (MultiSeg.cpp) -/

/-- The body of the `while` loop of `mergeSmallRegions` at the table entry of key
`cur`; the second component is the counter `mergedRegions`. -/
def mergeSmallRegionsStep (st : MultiSeg × Nat) (cur : Nat) : MultiSeg × Nat :=
  match getRegion st.1.m_regions cur with
  | none => st
  | some currentRegion =>
    if currentRegion.m_size > st.1.m_minArea then st
    else
      match getClosestRegion st.1 currentRegion true with
      | none => st
      | some closestNeighbour =>
        (mergeStep st.1 closestNeighbour.m_id currentRegion.m_id, st.2 + 1)

/-- `MultiSeg::mergeSmallRegions()`. The iterator over `m_regions` is advanced before
the erase, and the merge block erases only the entry the iterator has just left, so
the loop visits the keys the table has at the call, in ascending order. -/
def mergeSmallRegions (s : MultiSeg) : MultiSeg × Nat :=
  (s.m_regions.map (fun r => r.m_id)).foldl mergeSmallRegionsStep (s, 0)

/-- The sum of the sizes of the live regions is the number of cells of the label
grid. -/
def SizeInvariant (s : MultiSeg) : Prop :=
  sumSizes s.m_regions = s.m_labelledImage.nlines * s.m_labelledImage.ncols

instance (s : MultiSeg) : Decidable (SizeInvariant s) := by
  unfold SizeInvariant; infer_instance

/-! ## Pyramid levels (Utils.cpp) -/

/-- The `while(levelSize >= minimumSize)` loop of `ComputeMaxLevels`. `none` as
result: out of fuel. -/
def ComputeMaxLevelsLoop (minimumSize : Nat) : Nat → Nat → Nat → Option Nat
  | 0, _, _ => none
  | fuel + 1, levelSize, maxlevels =>
    if levelSize ≥ minimumSize then
      ComputeMaxLevelsLoop minimumSize fuel (levelSize / 2) (maxlevels + 1)
    else some maxlevels

/-- `Utils::ComputeMaxLevels(nlines, ncols, minimumSize)`. -/
def ComputeMaxLevels (nlines ncols minimumSize : Nat) : Option Nat :=
  ComputeMaxLevelsLoop minimumSize (min nlines ncols + 1) (min nlines ncols / 2) 0

/-- The `while(true)` loop of `processSmallRegions`; the second component counts
(ghost) the merges of all passes. `none` as result: out of fuel. -/
def processSmallRegionsLoop : Nat → MultiSeg → Nat → Option (MultiSeg × Nat)
  | 0, _, _ => none
  | fuel + 1, s, total =>
    let pass := mergeSmallRegions s
    let mergedRegions := pass.2
    if mergedRegions = 0 then some (pass.1, total)
    else processSmallRegionsLoop fuel pass.1 (total + mergedRegions)

/-- `MultiSeg::processSmallRegions()`, with the number of merges it performs. -/
def processSmallRegions (s : MultiSeg) : Option (MultiSeg × Nat) :=
  if s.m_minArea > 1 then processSmallRegionsLoop (s.m_regions.length + 1) s 0
  else some (s, 0)

/-- A 1 x (a + b) grid with two linked regions: region 0 covers the first `a` cells
(mean 10), region 1 the other `b` cells (mean 12); the minimum area is `minArea`. -/
def twoRegionSeg (a b minArea : Nat) : MultiSeg :=
  { sampleSeg 1 (a + b) with
    m_minArea := minArea
    m_regions :=
      [{ Region.new 0 [10] 0 0 with m_size := a, m_xBound := a, m_neighbours := [1] },
       { Region.new 1 [12] 0 a with m_size := b, m_xBound := a + b, m_neighbours := [0] }]
    m_labelledImage := ⟨1, a + b, fun _ col => if col < a then 0 else 1⟩ }

/-- A 1 x 3 strip of three pixel regions: region 1 of mean 10.9 on the left, region 0
of mean 10 in the middle, region 2 of mean 10.2 on the right, with minimum area 1. -/
def tieSeg : MultiSeg :=
  { sampleSeg 1 3 with
    m_minArea := 1
    m_regions :=
      [{ Region.new 0 [10] 0 1 with m_neighbours := [1, 2] },
       { Region.new 1 [109 / 10] 0 0 with m_neighbours := [0] },
       { Region.new 2 [51 / 5] 0 2 with m_neighbours := [0] }]
    m_labelledImage := ⟨1, 3, fun _ col => if col = 0 then 1 else if col = 1 then 0 else 2⟩ }

/-! ## Table of coefficients of variation (CVTable.cpp) -/

/-- The conversion `static_cast<int>(n)` of a `std::size_t`: the low 32 bits, read as
a two's complement number. -/
def toInt (n : Nat) : Int :=
  if n % 2 ^ 32 < 2 ^ 31 then ((n % 2 ^ 32 : Nat) : Int) else ((n % 2 ^ 32 : Nat) : Int) - 2 ^ 32

/-- The conversion `static_cast<std::size_t>(k)` of an `int`. -/
def toSizeT (k : Int) : Nat := (k % 2 ^ 64).toNat

/-- The difference `a - b` of two `std::size_t` values, modulo `2^64`. -/
def subSizeT (a b : Nat) : Nat := (a % 2 ^ 64 + 2 ^ 64 - b % 2 ^ 64) % 2 ^ 64

/-- A `CVTable`: the header (numbers of samples) and the map
`[ENL, N Samples] -> cv`, kept as a list of entries with at most one per key. -/
structure CVTable where
  m_header : List Nat
  m_table : List ((Nat × Nat) × ℚ)

/-- The table built by the default constructor `CVTable::CVTable()`. -/
def CVTable.new : CVTable := { m_header := [], m_table := [] }

/-- The statement `m_table[key] = value`. -/
def tableInsert (table : List ((Nat × Nat) × ℚ)) (key : Nat × Nat) (value : ℚ) :
    List ((Nat × Nat) × ℚ) :=
  (key, value) :: table.filter (fun e => e.1 != key)

/-- The call `m_table.find(key)`, `none` for `m_table.end()`. -/
def tableFind (table : List ((Nat × Nat) × ℚ)) (key : Nat × Nat) : Option ℚ :=
  (table.find? (fun e => e.1 == key)).map (fun e => e.2)

/-- The step of `nSamples` at the end of the body of the value loop of `load`. -/
def nextSamples (nSamples : Nat) : Nat :=
  if nSamples < 100 then nSamples + 10
  else if nSamples < 1000 then nSamples + 50
  else if nSamples < 4000 then nSamples + 500
  else nSamples + 1000

/-- The body of the loop of `load` over the values of the row of look `ENL`; the
third component of the state is `nSamples`. -/
def loadValue (ENL : Nat) (st : CVTable × Nat) (value : ℚ) : CVTable × Nat :=
  let header := if st.1.m_header.length < 39 then st.1.m_header ++ [st.2] else st.1.m_header
  ({ m_header := header, m_table := tableInsert st.1.m_table (ENL, st.2) value },
    nextSamples st.2)

/-- The body of the `while(file.good())` loop of `load`: `cvs` holds the values of the
row just read; the second component of the state is `ENL`. -/
def loadRow (st : CVTable × Nat) (cvs : List ℚ) : CVTable × Nat :=
  let ENL := st.2 + 1
  ((cvs.foldl (loadValue ENL) (st.1, 10)).1, ENL)

/-- The loop of `CVTable::load(path)` over the rows of the opened file, each row
given by its values. -/
def CVTable.loadRows (t : CVTable) (rows : List (List ℚ)) : CVTable :=
  (rows.foldl loadRow (t, 0)).1

/-- `CVTable::load(const std::string& path)`: `files path` is the content of the
file, `none` when it cannot be opened; an exception is an error value. -/
def CVTable.loadFile (t : CVTable) (files : String → Option (List (List ℚ))) (path : String) :
    Except String CVTable :=
  match files path with
  | none =>
    Except.error
      "Error loading table of Coefficients of Variation. The .csv file not exist at tables/ directory."
  | some rows => Except.ok (t.loadRows rows)

/-- `CVTable::verifyCV(cv)`: the value of `isValid`. -/
def verifyCV (cv : ℚ) : Bool :=
  decide (cv = 0.99999) || decide (cv = 0.999) || decide (cv = 0.995) || decide (cv = 0.99) ||
    decide (cv = 0.95) || decide (cv = 0.90) || decide (cv = 0.85) || decide (cv = 0.80)

/-- `CVTable::load(const double& cv)`. -/
def CVTable.load (t : CVTable) (files : String → Option (List (List ℚ))) (cv : ℚ) :
    Except String CVTable :=
  if verifyCV cv = false then
    Except.error
      "Invalid confidence level. The allowed values are: 0.99999, 0.999, 0.995, 0.99, 0.95, 0.90, 0.85, 0.80."
  else if cv > 0.999 then Except.ok t
  else if cv = 0.999 then t.loadFile files "./tables/tab_01.csv"
  else if cv = 0.995 then t.loadFile files "./tables/tab_05.csv"
  else if cv = 0.99 then t.loadFile files "./tables/tab_1.csv"
  else if cv = 0.95 then t.loadFile files "./tables/tab_5.csv"
  else if cv = 0.90 then t.loadFile files "./tables/tab_10.csv"
  else if cv = 0.85 then t.loadFile files "./tables/tab_15.csv"
  else if cv = 0.80 then t.loadFile files "./tables/tab_20.csv"
  else Except.ok t

/-- The rounding loop of `getCV` over the header; the state is `(minDiff, nChosen)`. -/
def roundSamples (header : List Nat) (nSamples : Nat) (start : Nat × Nat) : Nat × Nat :=
  header.foldl
    (fun (acc : Nat × Nat) h =>
      let diffLower := toSizeT |toInt (subSizeT nSamples h)|
      if diffLower < acc.1 then (diffLower, h) else acc)
    start

/-- `CVTable::getCV(ENL, nSamples)`: the returned value (`none` when the key is not
found) and the values left in the reference arguments `ENL` and `nSamples`. -/
def CVTable.getCV (t : CVTable) (ENL nSamples : Nat) : Option ℚ × Nat × Nat :=
  if t.m_table.isEmpty then (some dblMax, ENL, nSamples)
  else
    let ENL := toSizeT (min (toInt ENL) 250)
    let nChosen := toSizeT (min (toInt nSamples) 9000)
    let nChosen := (roundSamples t.m_header nSamples (npos, nChosen)).2
    (tableFind t.m_table (ENL, nChosen), ENL, nChosen)

/-- The 39 numbers of samples of the header. -/
def breakpoints : List Nat :=
  [10, 20, 30, 40, 50, 60, 70, 80, 90, 100, 150, 200, 250, 300, 350, 400, 450, 500, 550, 600,
   650, 700, 750, 800, 850, 900, 950, 1000, 1500, 2000, 2500, 3000, 3500, 4000, 5000, 6000,
   7000, 8000, 9000]

/-- The `i`-th value that `nSamples` takes in the value loop of `load`. -/
def samplesAt : Nat → Nat
  | 0 => 10
  | i + 1 => nextSamples (samplesAt i)

/-- A file of 250 rows of 39 values: the value of row `r` at column `c` is
`r + c / 100`. -/
def sampleRows : List (List ℚ) :=
  (List.range 250).map
    (fun (r : Nat) => (List.range 39).map (fun (c : Nat) => (r : ℚ) + (c : ℚ) / 100))

/-! ## Hierarchical pyramid (Pyramid.cpp) -/

/-- A raster with bands: `cell lin col band` is the stored value. -/
structure Raster where
  nlines : Nat
  ncols : Nat
  nbands : Nat
  cell : Nat → Nat → Nat → ℚ

/-- `TeRaster::getElement(col, lin, value, band)`: `none` when the read fails,
outside `nlines x ncols`. -/
def Raster.getElement (r : Raster) (col lin band : Nat) : Option ℚ :=
  if col < r.ncols ∧ lin < r.nlines then some (r.cell lin col band) else none

/-- `TeRaster::setElement(col, lin, value, band)`: nothing is written outside
`nlines x ncols`. -/
def Raster.setElement (r : Raster) (col lin : Nat) (value : ℚ) (band : Nat) : Raster :=
  if col < r.ncols ∧ lin < r.nlines then
    { r with cell := fun l c b => if l = lin ∧ c = col ∧ b = band then value else r.cell l c b }
  else r

/-- One of the four guarded reads in the body of `Pyramid::build`: a value that is
read is added to `mean` and counted in `nPixels`. -/
def addSource (previousLevel : Raster) (col lin band : Nat) (acc : ℚ × Nat) : ℚ × Nat :=
  match previousLevel.getElement col lin band with
  | some value => (acc.1 + value, acc.2 + 1)
  | none => acc

/-- The values `mean` and `nPixels` after the four reads for the new pixel
`(lin, col)` and the band `b`. -/
def readSources (previousLevel : Raster) (lin col b : Nat) : ℚ × Nat :=
  let linToRead := lin * 2
  let colToRead := col * 2
  let acc := addSource previousLevel colToRead linToRead b (0, 0)
  let acc := addSource previousLevel (colToRead + 1) linToRead b acc
  let acc := addSource previousLevel colToRead (linToRead + 1) b acc
  addSource previousLevel (colToRead + 1) (linToRead + 1) b acc

/-- `Pyramid::build(previousLevel, newLevel)`: the new content of `newLevel`. The
quotient by `nPixels = 0`, not a number in C++, is 0 here. -/
def Pyramid.build (previousLevel newLevel : Raster) : Raster :=
  (List.range newLevel.nlines).foldl
    (fun img lin =>
      (List.range newLevel.ncols).foldl
        (fun img col =>
          (List.range newLevel.nbands).foldl
            (fun img b =>
              let acc := readSources previousLevel lin col b
              img.setElement col lin (acc.1 / (acc.2 : ℚ)) b)
            img)
        img)
    newLevel

/-- A 3 x 3 raster of one band whose value at `(lin, col)` is `3 * lin + col`. -/
def sampleRaster : Raster := ⟨3, 3, 1, fun lin col _ => 3 * (lin : ℚ) + (col : ℚ)⟩

/-- The next pyramid level for `sampleRaster` before it is filled: 2 x 2 pixels. -/
def sampleLevel : Raster := ⟨2, 2, 1, fun _ _ _ => 0⟩

/-- The values, at band `b`, of those of the four source pixels `(2lin, 2col)`,
`(2lin, 2col+1)`, `(2lin+1, 2col)`, `(2lin+1, 2col+1)` that exist in the previous
level. -/
def sourceValues (previousLevel : Raster) (lin col b : Nat) : List ℚ :=
  [(2 * lin, 2 * col), (2 * lin, 2 * col + 1), (2 * lin + 1, 2 * col),
    (2 * lin + 1, 2 * col + 1)].filterMap
    (fun p => previousLevel.getElement p.2 p.1 b)

/-! ## Region statistics (MultiSeg::updateRegionStatistics) -/

/-- `Region::setMean`. -/
def Region.setMean (r : Region) (mean : List ℚ) : Region := { r with m_mean := mean }

/-- `Region::setVariance`. -/
def Region.setVariance (r : Region) (variance : List ℚ) : Region :=
  { r with m_variance := variance }

/-- `Region::setCV`. -/
def Region.setCV (r : Region) (cv : List ℚ) : Region := { r with m_cv := cv }

/-- The body of the pixel loops of `updateRegionStatistics` for `currentRegion`; the
state holds `mean` (the band sums), `regionSize` and `regionPixels`. A cell whose
read fails is skipped. -/
def statisticsPixel (bands : List Nat) (image : Image) (img : LabelImage) (nSamples : Nat)
    (currentRegion : Region) (st : List ℚ × Nat × List (List ℚ)) (p : Nat × Nat) :
    List ℚ × Nat × List (List ℚ) :=
  match img.getElement p.2 p.1 with
  | none => st
  | some idValue =>
    if idValue ≠ currentRegion.m_id then st
    else
      let pixel := getPixelValues bands image p.1 p.2
      let mean := List.zipWith (fun m pixelValue => m + pixelValue) st.1 pixel
      let regionPixels := if st.2.2.length ≤ nSamples then st.2.2 ++ [pixel] else st.2.2
      (mean, st.2.1 + 1, regionPixels)

/-- The pixel loops of `updateRegionStatistics` over the bounding box of
`currentRegion`: the band sums, the region size and the samples. -/
def regionStatistics (bands : List Nat) (image : Image) (img : LabelImage) (nSamples : Nat)
    (currentRegion : Region) : List ℚ × Nat × List (List ℚ) :=
  (boxCells currentRegion).foldl (statisticsPixel bands image img nSamples currentRegion)
    (List.replicate bands.length 0, 0, [])

/-- The statistics `updateRegionStatistics` stores in a region with at least one
pixel: mean and size, then the variance of the samples and the coefficient of
variation; `sqrt` stands for `std::sqrt`. -/
def storeStatistics (sqrt : ℚ → ℚ) (stats : List ℚ × Nat × List (List ℚ)) (r : Region) :
    Region :=
  let regionSize := stats.2.1
  let regionPixels := stats.2.2
  let mean := stats.1.map (fun m => m / (regionSize : ℚ))
  let variance := (List.range mean.length).map (fun b =>
    (regionPixels.foldl
      (fun v currentPixel =>
        v + (currentPixel.getD b 0 - mean.getD b 0) * (currentPixel.getD b 0 - mean.getD b 0))
      0) / (regionPixels.length : ℚ))
  let cv := (List.range mean.length).map (fun b =>
    if mean.getD b 0 ≠ 0 then sqrt (variance.getD b 0) / mean.getD b 0 else 0)
  (((r.setMean mean).setSize regionSize).setVariance variance).setCV cv

/-- The body of the `while` loop of `updateRegionStatistics` at the table entry of key
`cur`. -/
def updateRegionStatisticsStep (sqrt : ℚ → ℚ) (nSamples : Nat) (bands : List Nat)
    (image : Image) (img : LabelImage) (rs : List Region) (cur : Nat) : List Region :=
  match getRegion rs cur with
  | none => rs
  | some currentRegion =>
    let stats := regionStatistics bands image img nSamples currentRegion
    if stats.2.1 = 0 then removeRegion rs cur true
    else updateRegion rs cur (storeStatistics sqrt stats)

/-- `MultiSeg::updateRegionStatistics(image)`; `nSamples` is the field `m_nSamples`
and `sqrt` stands for `std::sqrt`. The iterator over `m_regions` is advanced before
`removeRegion`, which erases only the entry the iterator has just left, so the loop
visits the keys the table has at the call, in ascending order. -/
def updateRegionStatistics (sqrt : ℚ → ℚ) (nSamples : Nat) (s : MultiSeg) (image : Image) :
    MultiSeg :=
  let rs := (s.m_regions.map (fun r => r.m_id)).foldl
    (updateRegionStatisticsStep sqrt nSamples s.m_bands image s.m_labelledImage) s.m_regions
  { s with m_regions := rs }

/-- The two linked pixel regions of `twoPixelSeg` over a label grid on which both
cells carry the id 0: no cell carries the id of region 1. -/
def staleSeg : MultiSeg := { twoPixelSeg with m_labelledImage := ⟨1, 2, fun _ _ => 0⟩ }

/-! ## Moving to a finer level (Region.cpp, MultiSeg.cpp) -/

/-- `Region::updateBounds(scale, maxLin, maxCol)`. -/
def Region.updateBoundsScaled (r : Region) (scale maxLin maxCol : Nat) : Region :=
  { r with
    m_xStart := if r.m_xStart ≠ 0 then r.m_xStart * scale - 1 else r.m_xStart
    m_yStart := if r.m_yStart ≠ 0 then r.m_yStart * scale - 1 else r.m_yStart
    m_xBound := min (r.m_xBound * scale) maxCol
    m_yBound := min (r.m_yBound * scale) maxLin }

/-- `MultiSeg::resizeRegions()`. -/
def resizeRegions (s : MultiSeg) : MultiSeg :=
  { s with
    m_regions := s.m_regions.map
      (fun r => r.updateBoundsScaled 2 s.m_labelledImage.nlines s.m_labelledImage.ncols) }

/-- `AbstractMerger::setParam("cv_threshold", value)`. -/
def AbstractMerger.setCvThreshold (m : AbstractMerger) (value : ℚ) : AbstractMerger :=
  { m with m_params := { m.m_params with cv_threshold := value } }

/-- The fields of `MultiSeg` that `updateThresholds` reads or writes. -/
structure LevelState where
  m_similarity : ℚ
  m_ENL : ℚ
  m_cv : ℚ
  m_currentLevel : Nat
  m_currentSimilarity : ℚ
  m_currentENL : ℚ
  m_currentCV : ℚ
  m_nSamples : Nat
  m_merger : AbstractMerger

/-- The conversion `static_cast<std::size_t>(x)` of a `double` `x` with
`0 <= x < 2^64`: the fraction is dropped. The conversion of a value outside this
range is undefined and is not modelled. -/
def truncSizeT (x : ℚ) : Nat := (Rat.floor x).toNat

/-- `MultiSeg::updateThresholds(currentLevel)`. The parameters `vcritic_factor` and
`ENL`, which the last block sets for radar cartoon images, are not among the
parameters kept in `MergerParams`. -/
def updateThresholds (st : LevelState) (currentLevel : Nat) : LevelState :=
  let lag01 : ℚ := (((2 : ℚ) ^ currentLevel - 1) / ((2 : ℚ) ^ currentLevel)) * (1 / 2)
  let lag10 : ℚ := (((2 : ℚ) ^ currentLevel - 1) / ((2 : ℚ) ^ currentLevel)) * (1 / 2)
  let lag11 : ℚ := (((2 : ℚ) ^ currentLevel - 1) / ((2 : ℚ) ^ currentLevel)) * (1 / 2)
  let currentSimilarity : ℚ :=
    (st.m_similarity / (4 : ℚ) ^ currentLevel) * (1 + (2 * (lag01 + lag10 + lag11)))
  let merger := st.m_merger.setEuclideanDistanceThreshold currentSimilarity
  let currentENL : ℚ := (st.m_ENL * (4 : ℚ) ^ currentLevel) / (1 + (2 * (lag01 + lag10 + lag11)))
  let currentENL : ℚ := ((min (truncSizeT currentENL) 250 : Nat) : ℚ)
  let currentCV : ℚ :=
    (st.m_cv / (4 : ℚ) ^ currentLevel) * (1 + (2 * (lag01 + lag10 + lag11)))
  let merger := merger.setCvThreshold currentCV
  { st with
    m_currentLevel := currentLevel
    m_currentSimilarity := currentSimilarity
    m_currentENL := currentENL
    m_currentCV := currentCV
    m_nSamples := (st.m_nSamples * 4) % 2 ^ 64
    m_merger := merger }

/-- A level state as `Reset` leaves it, for similarity 20, `ENL` and `cv` as given,
with the Euclidean strategy. -/
def sampleLevelState (ENL cv : ℚ) : LevelState :=
  { m_similarity := 20
    m_ENL := ENL
    m_cv := cv
    m_currentLevel := 0
    m_currentSimilarity := 0
    m_currentENL := 0
    m_currentCV := 0
    m_nSamples := npos
    m_merger := EuclideanMerger.new ⟨0, 0⟩ }

/-! ## Border adjustment (MultiSeg::adjustRegionBorders) -/

/-- `AbstractMerger::getDissimilarity(p, r)`: the sum over the bands of the band-wise
dissimilarity `getDissimilarity(p, r, band)` of the strategy. -/
def AbstractMerger.getDissimilarity (getDissimilarityBand : List ℚ → Region → Nat → ℚ)
    (p : List ℚ) (r : Region) : ℚ :=
  (List.range p.length).foldl (fun value i => value + getDissimilarityBand p r i) 0

/-- `EuclideanMerger::getDissimilarity(p, r, band)`: `abs(p[band] - mean[band])`, with
the `abs` of `int`. -/
def EuclideanMerger.getDissimilarityBand (p : List ℚ) (r : Region) (band : Nat) : ℚ :=
  intAbs (p.getD band 0 - r.m_mean.getD band 0)

/-- `MultiSeg::computeBorderDestiny(linA, colA, rA, linB, colB, rB, image)` for the
band-wise dissimilarity of the current strategy. -/
def computeBorderDestiny (getDissimilarityBand : List ℚ → Region → Nat → ℚ)
    (bands : List Nat) (image : Image) (linA colA : Nat) (rA : Region) (linB colB : Nat)
    (rB : Region) : Nat :=
  let pixelAValues := getPixelValues bands image linA colA
  let pixelBValues := getPixelValues bands image linB colB
  let VAa := AbstractMerger.getDissimilarity getDissimilarityBand pixelAValues rA
  let VBa := AbstractMerger.getDissimilarity getDissimilarityBand pixelAValues rB
  let VBb := AbstractMerger.getDissimilarity getDissimilarityBand pixelBValues rB
  let VAb := AbstractMerger.getDissimilarity getDissimilarityBand pixelBValues rA
  if VAa < VBa ∧ VBb ≥ VAb then rA.m_id
  else if VAa > VBa ∧ VBb ≤ VAb then rB.m_id
  else npos

/-- The enumeration `BorderPixelType`. -/
inductive BorderPixelType where
  | Top
  | Bottom
  | Right
  | Left
  deriving DecidableEq

/-- One of the four blocks of `isBorderPixel`: the cell `(lin, col)` is read, and the
answer is given when it holds another id than `regionId`. -/
def otherRegionAt (img : LabelImage) (regionId lin col : Nat) (type : BorderPixelType) :
    Option (Nat × Nat × Nat × BorderPixelType) :=
  match img.getElement col lin with
  | some nid => if nid ≠ regionId then some (lin, col, nid, type) else none
  | none => none

/-- `MultiSeg::isBorderPixel`: `none` for `false`, otherwise the output parameters
`(neighbourLin, neighbourCol, neighbourRegionId, neighbourPixelType)`. -/
def isBorderPixel (img : LabelImage) (lin col regionId lastLin lastCol : Nat) :
    Option (Nat × Nat × Nat × BorderPixelType) :=
  let left := if col ≠ 0 then otherRegionAt img regionId lin (col - 1) BorderPixelType.Left
    else none
  match left with
  | some r => some r
  | none =>
    let right := if col < lastCol then
      otherRegionAt img regionId lin (col + 1) BorderPixelType.Right else none
    match right with
    | some r => some r
    | none =>
      let top := if lin ≠ 0 then otherRegionAt img regionId (lin - 1) col BorderPixelType.Top
        else none
      match top with
      | some r => some r
      | none =>
        if lin < lastLin then otherRegionAt img regionId (lin + 1) col BorderPixelType.Bottom
        else none

/-- `Region::updateYStart`. -/
def Region.updateYStart (r : Region) (y : Nat) : Region :=
  { r with m_yStart := min r.m_yStart y }

/-- `Region::updateYBound`. -/
def Region.updateYBound (r : Region) (y : Nat) : Region :=
  { r with m_yBound := max r.m_yBound y }

/-- `Region::updateXStart`. -/
def Region.updateXStart (r : Region) (x : Nat) : Region :=
  { r with m_xStart := min r.m_xStart x }

/-- `Region::updateXBound`. -/
def Region.updateXBound (r : Region) (x : Nat) : Region :=
  { r with m_xBound := max r.m_xBound x }

/-- A call of `computeBorderDestiny` made by a pass (ghost): the border pixel, its
neighbour pixel, the region being visited, the neighbouring region and the result. -/
structure Comparison where
  pixel : Nat × Nat
  neighbourPixel : Nat × Nat
  region : Nat
  neighbourRegion : Nat
  destiny : Nat
  deriving DecidableEq

/-- The state of a border-adjustment pass: the table, the labelled raster, the set
`alreadyAdjustedPixels`, and (ghost) the comparisons made so far. -/
structure BorderPass where
  regions : List Region
  labelledImage : LabelImage
  alreadyAdjustedPixels : List (Nat × Nat)
  comparisons : List Comparison

/-- The call `pixels.insert(p)` on a `std::set`. -/
def insertPixel (pixels : List (Nat × Nat)) (p : Nat × Nat) : List (Nat × Nat) :=
  if p ∈ pixels then pixels else pixels ++ [p]

/-- The `switch(borderType)` at the end of the body of the pixel loops of
`adjustRegionBorders(region, ...)`. -/
def growBounds (r : Region) (borderType : BorderPixelType) (neighbourLin neighbourCol : Nat) :
    Region :=
  match borderType with
  | BorderPixelType.Top => r.updateYStart neighbourLin
  | BorderPixelType.Bottom => r.updateYBound (neighbourLin + 1)
  | BorderPixelType.Left => r.updateXStart neighbourCol
  | BorderPixelType.Right => r.updateXBound (neighbourCol + 1)

/-- The body of the pixel loops of `adjustRegionBorders(region, image,
alreadyAdjustedPixels)` at the pixel `p = (lin, col)`, for the region of id `region`.
A cell whose read fails and a region that is not found are skipped. -/
def adjustPixel (getDissimilarityBand : List ℚ → Region → Nat → ℚ) (bands : List Nat)
    (image : Image) (region : Nat) (st : BorderPass) (p : Nat × Nat) : BorderPass :=
  if p ∈ st.alreadyAdjustedPixels then st
  else
    match st.labelledImage.getElement p.2 p.1 with
    | none => st
    | some idValue =>
      if idValue ≠ region then st
      else
        let lastLine := st.labelledImage.nlines - 1
        let lastCol := st.labelledImage.ncols - 1
        match isBorderPixel st.labelledImage p.1 p.2 region lastLine lastCol with
        | none => st
        | some (neighbourLin, neighbourCol, neighbourRegionId, borderType) =>
          if (neighbourLin, neighbourCol) ∈ st.alreadyAdjustedPixels then st
          else
            match getRegion st.regions region, getRegion st.regions neighbourRegionId with
            | some r, some neighbourRegion =>
              let rs := if !r.isNeighbour neighbourRegion.m_id then
                linkRegions st.regions r.m_id neighbourRegion.m_id else st.regions
              let destiny := computeBorderDestiny getDissimilarityBand bands image p.1 p.2 r
                neighbourLin neighbourCol neighbourRegion
              let comparisons := st.comparisons ++
                [⟨p, (neighbourLin, neighbourCol), r.m_id, neighbourRegion.m_id, destiny⟩]
              if destiny = npos then
                { st with
                  regions := rs
                  alreadyAdjustedPixels :=
                    insertPixel (insertPixel st.alreadyAdjustedPixels p)
                      (neighbourLin, neighbourCol)
                  comparisons := comparisons }
              else if destiny = neighbourRegion.m_id then
                { st with regions := rs, comparisons := comparisons }
              else
                { regions := updateRegion rs r.m_id
                    (fun r => growBounds r borderType neighbourLin neighbourCol)
                  labelledImage := st.labelledImage.setElement neighbourCol neighbourLin destiny
                  alreadyAdjustedPixels :=
                    insertPixel (insertPixel st.alreadyAdjustedPixels p)
                      (neighbourLin, neighbourCol)
                  comparisons := comparisons }
            | _, _ => st

/-- `MultiSeg::adjustRegionBorders(region, image, alreadyAdjustedPixels)`: the loops
run over the bounding box the region has at the call. -/
def adjustRegion (getDissimilarityBand : List ℚ → Region → Nat → ℚ) (bands : List Nat)
    (image : Image) (st : BorderPass) (region : Nat) : BorderPass :=
  match getRegion st.regions region with
  | none => st
  | some r => (boxCells r).foldl (adjustPixel getDissimilarityBand bands image region) st

/-- `MultiSeg::adjustRegionBorders(image)`: one pass over the regions of the table,
with a fresh set `alreadyAdjustedPixels`. -/
def adjustRegionBorders (getDissimilarityBand : List ℚ → Region → Nat → ℚ) (s : MultiSeg)
    (image : Image) : BorderPass :=
  (s.m_regions.map (fun r => r.m_id)).foldl
    (adjustRegion getDissimilarityBand s.m_bands image)
    { regions := s.m_regions
      labelledImage := s.m_labelledImage
      alreadyAdjustedPixels := []
      comparisons := [] }

/-- The image of one band on a 1 x 4 grid with the values 0, 12, 12, 12. -/
def borderImage : Image := fun _ col _ => if col = 0 then 0 else 12

/-- The 1 x 4 grid over `borderImage` with two linked regions: region 0 covers the
columns 0 and 1 (mean 6), region 1 the columns 2 and 3 (mean 12). -/
def borderSeg : MultiSeg :=
  { sampleSeg 1 4 with
    m_regions :=
      [{ Region.new 0 [6] 0 0 with m_size := 2, m_xBound := 2, m_neighbours := [1] },
       { Region.new 1 [12] 0 2 with m_size := 2, m_xBound := 4, m_neighbours := [0] }]
    m_labelledImage := ⟨1, 4, fun _ col => if col < 2 then 0 else 1⟩ }

/-- The comparison had no winner or was won by the region being visited: the two
outcomes after which `adjustRegionBorders` inserts both pixels into
`alreadyAdjustedPixels`. -/
def Comparison.settled (e : Comparison) : Prop :=
  e.destiny = npos ∨ e.destiny ≠ e.neighbourRegion

instance (e : Comparison) : Decidable e.settled := by
  unfold Comparison.settled; infer_instance

/-- The pixels of the comparison `e'` are other pixels than those of `e`. -/
def Comparison.disjointFrom (e' e : Comparison) : Prop :=
  e'.pixel ≠ e.pixel ∧ e'.pixel ≠ e.neighbourPixel ∧
    e'.neighbourPixel ≠ e.pixel ∧ e'.neighbourPixel ≠ e.neighbourPixel

instance (e' e : Comparison) : Decidable (e'.disjointFrom e) := by
  unfold Comparison.disjointFrom; infer_instance

/-- The image of one band on a 1 x 3 grid with the values 10, 9, 13. -/
def destinyImage : Image := fun _ col _ => if col = 0 then 10 else if col = 1 then 9 else 13

/-- The region of the pixel `(0, 0)` of `destinyImage`, of mean 10. -/
def destinyA : Region := { Region.new 0 [10] 0 0 with m_neighbours := [1] }

/-- The region of the pixels `(0, 1)` and `(0, 2)` of `destinyImage`, of mean 11. -/
def destinyB : Region :=
  { Region.new 1 [11] 0 1 with m_size := 2, m_xBound := 3, m_neighbours := [0] }

/-- The 1 x 3 grid over `destinyImage` with the regions `destinyA` and `destinyB`. -/
def destinySeg : MultiSeg :=
  { sampleSeg 1 3 with
    m_regions := [destinyA, destinyB]
    m_labelledImage := ⟨1, 3, fun _ col => if col = 0 then 0 else 1⟩ }

/-! ## The scans of one growth call (ghost) -/

/-- One scan of `executeRegionGrowing` (ghost): the loop state `head` in which the
call of `mergeRegions` or `mergeRegionsRandomly` started, and the number
`mergedRegions` it returned. -/
structure ScanRecord where
  head : Growth
  mergedRegions : Nat

/-- The `while(true)` loop of `executeRegionGrowing`, as `executeRegionGrowingLoop`,
returning next to the final state the list (ghost) of the scans made. -/
def executeRegionGrowingTrace (useRandomSeeds : Bool) (shuffle : Nat → List Nat → List Nat)
    (maxIterations : Nat) : Nat → Growth → Option (Growth × List ScanRecord)
  | 0, _ => none
  | fuel + 1, g =>
    match (if useRandomSeeds = false then mergeRegions g.seg g.regions
           else mergeRegionsRandomly (shuffle g.iteration) g.seg g.regions) with
    | none => none
    | some sc =>
      let mergedRegions := sc.mergedRegions
      let iteration := g.iteration + 1
      let g1 : Growth :=
        { g with seg := sc.seg, regions := sc.regions, iteration := iteration,
                 counts := g.counts ++ [sc.seg.m_regions.length] }
      if iteration = maxIterations then some (g1, [⟨g, mergedRegions⟩])
      else if mergedRegions = 0 then
        let noMergeIterations := g.noMergeIterations + 1
        if noMergeIterations > g.seg.m_similarityIncreaseStep then
          some ({ g1 with noMergeIterations := noMergeIterations }, [⟨g, mergedRegions⟩])
        else
          let threshold := g.threshold
            + g.seg.m_currentSimilarity / ((g.seg.m_similarityIncreaseStep + 1 : Nat) : ℚ)
          (executeRegionGrowingTrace useRandomSeeds shuffle maxIterations fuel
            { g1 with
              noMergeIterations := noMergeIterations
              threshold := threshold
              seg := { sc.seg with
                m_merger := sc.seg.m_merger.setEuclideanDistanceThreshold threshold } }).map
            (fun p => (p.1, ⟨g, mergedRegions⟩ :: p.2))
      else
        (executeRegionGrowingTrace useRandomSeeds shuffle maxIterations fuel g1).map
          (fun p => (p.1, ⟨g, mergedRegions⟩ :: p.2))

/-- The scans (ghost) of the call
`executeRegionGrowing(regions, useRandomSeeds, maxIterations)`, in order. -/
def executeRegionGrowingScans (s : MultiSeg) (regions : List Nat) (useRandomSeeds : Bool)
    (shuffle : Nat → List Nat → List Nat) (maxIterations : Nat) : Option (List ScanRecord) :=
  let threshold := s.m_currentSimilarity / ((s.m_similarityIncreaseStep + 1 : Nat) : ℚ)
  let s0 := { s with m_merger := s.m_merger.setEuclideanDistanceThreshold threshold }
  (executeRegionGrowingTrace useRandomSeeds shuffle maxIterations
      (s.m_regions.length + s.m_similarityIncreaseStep + 1)
      ⟨s0, regions, 0, 0, threshold, []⟩).map Prod.snd

/-- The number of scans of the list that merged nothing. -/
def zeroMergeScans (scans : List ScanRecord) : Nat :=
  (scans.filter (fun e => decide (e.mergedRegions = 0))).length

/-! ## The visits of a growth scan (ghost) -/

/-- One pass through the loop body of a growth scan (ghost): the state of the scan
and the key of the map `regions` whose region is visited. -/
structure Visit where
  state : Scan
  key : Nat

/-- The loop of `mergeRegions`, as `mergeRegionsLoop`, returning next to the final
state the list (ghost) of the visits made. -/
def mergeRegionsVisits : Nat → Scan → Option Nat → Option (Scan × List Visit)
  | 0, _, _ => none
  | _ + 1, sc, none => some (sc, [])
  | fuel + 1, sc, some cur =>
    match getRegion sc.seg.m_regions cur with
    | none =>
      (mergeRegionsVisits fuel sc (nextKey sc.regions cur)).map
        (fun p => (p.1, ⟨sc, cur⟩ :: p.2))
    | some currentRegion =>
      match findMergePartner sc.seg currentRegion with
      | some closestNeighbour =>
        let sc' := sc.merge currentRegion closestNeighbour
        if sc.seg.m_growUntilStop then
          (mergeRegionsVisits fuel sc' (some cur)).map (fun p => (p.1, ⟨sc, cur⟩ :: p.2))
        else
          (mergeRegionsVisits fuel sc' (nextKey sc'.regions cur)).map
            (fun p => (p.1, ⟨sc, cur⟩ :: p.2))
      | none =>
        (mergeRegionsVisits fuel sc (nextKey sc.regions cur)).map
          (fun p => (p.1, ⟨sc, cur⟩ :: p.2))

/-- The visits (ghost) of `MultiSeg::mergeRegions(regions)`, next to its result. -/
def mergeRegionsTrace (s : MultiSeg) (regions : List Nat) : Option (Scan × List Visit) :=
  mergeRegionsVisits (s.m_regions.length + regions.length + 1) ⟨s, regions, 0, []⟩ regions.head?

/-- The `while(true)` loop of `mergeRegionsRandomly`, as `growRegion`, returning next
to the final state the list (ghost) of the visits made. -/
def growRegionVisits : Nat → Scan → Nat → Option (Scan × List Visit)
  | 0, _, _ => none
  | fuel + 1, sc, cur =>
    match getRegion sc.seg.m_regions cur with
    | none => some (sc, [⟨sc, cur⟩])
    | some currentRegion =>
      match findMergePartner sc.seg currentRegion with
      | some closestNeighbour =>
        let sc' := sc.merge currentRegion closestNeighbour
        if !sc.seg.m_growUntilStop then some (sc', [⟨sc, cur⟩])
        else (growRegionVisits fuel sc' cur).map (fun p => (p.1, ⟨sc, cur⟩ :: p.2))
      | none => some (sc, [⟨sc, cur⟩])

/-- The `for` loop of `mergeRegionsRandomly`, as `mergeRegionsRandomlyLoop`, returning
next to the final state the list (ghost) of the visits made. -/
def mergeRegionsRandomlyVisits : List Nat → Scan → Option (Scan × List Visit)
  | [], sc => some (sc, [])
  | id :: ids, sc =>
    if sc.regions.contains id then
      match growRegionVisits (sc.seg.m_regions.length + 1) sc id with
      | none => none
      | some (sc', visits) =>
        (mergeRegionsRandomlyVisits ids sc').map (fun p => (p.1, visits ++ p.2))
    else mergeRegionsRandomlyVisits ids sc

/-- The visits (ghost) of `MultiSeg::mergeRegionsRandomly(regions)`, next to its
result. -/
def mergeRegionsRandomlyTrace (shuffle : List Nat → List Nat) (s : MultiSeg)
    (regions : List Nat) : Option (Scan × List Visit) :=
  mergeRegionsRandomlyVisits (shuffle regions) ⟨s, regions, 0, []⟩

/-- Every key of the working set `regions` of the scan is a key of the region table. -/
def WorkingSetLive (sc : Scan) : Prop :=
  ∀ k ∈ sc.regions, isLive sc.seg.m_regions k = true

instance (sc : Scan) : Decidable (WorkingSetLive sc) := by
  unfold WorkingSetLive; infer_instance

/-- The visit touches no deleted region: the working set lies inside the region table,
the visited key is a key of the table, every neighbour listed in the table is a key
of the table, and a partner selected at this visit is a live region other than the
visited one, which the merge block erases from the table and from the working set,
leaving the working set inside the table. -/
def Visit.safe (v : Visit) : Prop :=
  WorkingSetLive v.state ∧ v.key ∈ v.state.regions ∧
  isLive v.state.seg.m_regions v.key = true ∧
  (∀ r ∈ v.state.seg.m_regions, ∀ b ∈ r.m_neighbours,
    isLive v.state.seg.m_regions b = true) ∧
  ∀ currentRegion closestNeighbour,
    getRegion v.state.seg.m_regions v.key = some currentRegion →
    findMergePartner v.state.seg currentRegion = some closestNeighbour →
    isLive v.state.seg.m_regions closestNeighbour.m_id = true ∧
    closestNeighbour.m_id ≠ v.key ∧
    isLive (v.state.merge currentRegion closestNeighbour).seg.m_regions
      closestNeighbour.m_id = false ∧
    closestNeighbour.m_id ∉ (v.state.merge currentRegion closestNeighbour).regions ∧
    WorkingSetLive (v.state.merge currentRegion closestNeighbour)

/-! ## Exact statistics (ghost) -/

/-- The cells of the raster that carry the given id, in row-major order. -/
def labelCells (img : LabelImage) (id : Nat) : List (Nat × Nat) :=
  (gridCells img).filter (fun p => img.cell p.1 p.2 == id)

/-- Every region of the table has as size the number of cells of the label grid that
carry its id, and as mean of each used band the sum of the image values at those
cells divided by their number. -/
def StatisticsExact (s : MultiSeg) (image : Image) : Prop :=
  ∀ r ∈ s.m_regions,
    r.m_size = countLabel s.m_labelledImage r.m_id ∧
    r.m_mean = s.m_bands.map (fun b =>
      ((labelCells s.m_labelledImage r.m_id).map (fun p => image p.1 p.2 b)).sum /
        ((countLabel s.m_labelledImage r.m_id : Nat) : ℚ))

/-- Every cell of the raster that carries the id of a region of the table lies inside
the bounding box of that region. -/
def BoxCovers (rs : List Region) (img : LabelImage) : Prop :=
  ∀ r ∈ rs, ∀ lin col, lin < img.nlines → col < img.ncols →
    img.cell lin col = r.m_id → r.inBox lin col

/-- A sequence of merge blocks: each pair is the survivor and the absorbed region. -/
def mergeSteps (s : MultiSeg) (steps : List (Nat × Nat)) : MultiSeg :=
  steps.foldl (fun s p => mergeStep s p.1 p.2) s

/-- Each merge block of the sequence is applied to two distinct regions that are in
the table when it is their turn. -/
def validSteps : MultiSeg → List (Nat × Nat) → Bool
  | _, [] => true
  | s, p :: rest =>
    decide (p.1 ≠ p.2) && isLive s.m_regions p.1 && isLive s.m_regions p.2
      && validSteps (mergeStep s p.1 p.2) rest

/-- The cell `q` is a 4-neighbour of the cell `p`: above, below, left or right of it. -/
def adjacentCell (p q : Nat × Nat) : Prop :=
  (q.2 = p.2 ∧ (q.1 + 1 = p.1 ∨ q.1 = p.1 + 1)) ∨
    (q.1 = p.1 ∧ (q.2 + 1 = p.2 ∨ q.2 = p.2 + 1))

instance (p q : Nat × Nat) : Decidable (adjacentCell p q) := by
  unfold adjacentCell; infer_instance

/-- The ids `x` and `y` label two cells of the raster of which the second is a
4-neighbour of the first. -/
def ownNeighbourCells (img : LabelImage) (x y : Nat) : Prop :=
  ∃ p q : Nat × Nat, p.1 < img.nlines ∧ p.2 < img.ncols ∧ q.1 < img.nlines ∧
    q.2 < img.ncols ∧ adjacentCell p q ∧ img.cell p.1 p.2 = x ∧ img.cell q.1 q.2 = y

/-- The left region of `twoRegionSeg 2 1 0`: the two cells `(0, 0)` and `(0, 1)`. -/
def leftRegion : Region :=
  { Region.new 0 [10] 0 0 with m_size := 2, m_xBound := 2, m_neighbours := [1] }

/-! # Properties -/

/-! ## Band aggregation -/

theorem bandLoop_strict (test : Nat → Bool) (l : List Nat) (valids : Nat) :
    bandLoop true test l valids = true ↔ (∀ i ∈ l, test i = true) ∧ 0 < valids + l.length := by
  induction l generalizing valids with
  | nil => simp [bandLoop]
  | cons i rest ih =>
    cases h : test i
    · simp [bandLoop, h]
    · simp [bandLoop, h, ih]

theorem bandLoop_nonstrict (test : Nat → Bool) (l : List Nat) (valids : Nat) :
    bandLoop false test l valids = true ↔ (∃ i ∈ l, test i = true) ∨ 0 < valids := by
  induction l generalizing valids with
  | nil => simp [bandLoop]
  | cons i rest ih =>
    cases h : test i
    · simp [bandLoop, h, ih]
    · simp [bandLoop, h]

/-- C9: for regions with the same number `n >= 1` of bands, `predicate` is the
conjunction of the band-wise predicate over all bands in strict mode and their
disjunction in non-strict mode; `isHomogenous` aggregates the band-wise
homogeneity test the same way; with no band both return false in either mode. -/
theorem predicate_isHomogenous_aggregate (m : AbstractMerger) (r1 r2 : Region)
    (hbands : r1.getNBands = r2.getNBands) :
    (1 ≤ r1.getNBands → m.m_strictMode = true →
      ((m.predicate r1 r2 = true ↔
          ∀ band, band < r1.getNBands → m.predicateBand m.m_params r1 r2 band = true) ∧
       (m.isHomogenous r1 = true ↔
          ∀ band, band < r1.getNBands → m.isHomogenousBand m.m_params r1 band = true))) ∧
    (1 ≤ r1.getNBands → m.m_strictMode = false →
      ((m.predicate r1 r2 = true ↔
          ∃ band, band < r1.getNBands ∧ m.predicateBand m.m_params r1 r2 band = true) ∧
       (m.isHomogenous r1 = true ↔
          ∃ band, band < r1.getNBands ∧ m.isHomogenousBand m.m_params r1 band = true))) ∧
    (r1.getNBands = 0 → m.predicate r1 r2 = false ∧ m.isHomogenous r1 = false) := by
  refine ⟨?_, ?_, ?_⟩
  · intro hn hs
    simp only [AbstractMerger.predicate, AbstractMerger.isHomogenous, hs, bandLoop_strict,
      List.mem_range, List.length_range]
    constructor <;> constructor
    · exact fun h => h.1
    · exact fun h => ⟨h, by omega⟩
    · exact fun h => h.1
    · exact fun h => ⟨h, by omega⟩
  · intro _ hs
    simp [AbstractMerger.predicate, AbstractMerger.isHomogenous, hs, bandLoop_nonstrict]
  · intro h0
    simp [AbstractMerger.predicate, AbstractMerger.isHomogenous, h0, bandLoop]

/-- C9 at a concrete pair of one-band regions under the Euclidean strategy. -/
theorem predicate_isHomogenous_aggregate_witness :
    (Region.new 0 [1] 0 0).getNBands = (Region.new 1 [1] 0 1).getNBands ∧
    ((EuclideanMerger.new ⟨5, 0⟩).predicate (Region.new 0 [1] 0 0) (Region.new 1 [1] 0 1) = true ↔
      ∀ band, band < (Region.new 0 [1] 0 0).getNBands →
        (EuclideanMerger.new ⟨5, 0⟩).predicateBand (EuclideanMerger.new ⟨5, 0⟩).m_params
          (Region.new 0 [1] 0 0) (Region.new 1 [1] 0 1) band = true) :=
  ⟨rfl, ((predicate_isHomogenous_aggregate (EuclideanMerger.new ⟨5, 0⟩) (Region.new 0 [1] 0 0)
    (Region.new 1 [1] 0 1) rfl).1 (by decide) rfl).1⟩

/-! ## Lookups in the region table -/

theorem getRegion_some {rs : List Region} {a : Nat} {r : Region} (h : getRegion rs a = some r) :
    r.m_id = a ∧ r ∈ rs := by
  unfold getRegion at h
  have h1 := List.find?_some h
  have h2 := List.mem_of_find?_eq_some h
  exact ⟨by simpa using h1, h2⟩

theorem getRegion_isSome_iff {rs : List Region} {a : Nat} :
    (getRegion rs a).isSome = true ↔ a ∈ rs.map (fun r => r.m_id) := by
  unfold getRegion
  simp only [List.find?_isSome, List.mem_map, beq_iff_eq]

theorem getRegion_eq_none_iff {rs : List Region} {a : Nat} :
    getRegion rs a = none ↔ a ∉ rs.map (fun r => r.m_id) := by
  rw [← getRegion_isSome_iff]
  cases getRegion rs a <;> simp

theorem getRegion_cons (x : Region) (rs : List Region) (a : Nat) :
    getRegion (x :: rs) a = if x.m_id = a then some x else getRegion rs a := by
  unfold getRegion
  by_cases h : x.m_id = a <;> simp [List.find?_cons, h]

theorem getRegion_updateRegion (rs : List Region) (a : Nat) (f : Region → Region)
    (hf : ∀ r, (f r).m_id = r.m_id) (x : Nat) :
    getRegion (updateRegion rs a f) x =
      if x = a then (getRegion rs x).map f else getRegion rs x := by
  induction rs with
  | nil => simp [updateRegion, getRegion]
  | cons y ys ih =>
    have ih' : getRegion (List.map (fun r => if r.m_id = a then f r else r) ys) x =
        if x = a then (getRegion ys x).map f else getRegion ys x := ih
    simp only [updateRegion, List.map_cons, getRegion_cons, ih']
    by_cases hy : y.m_id = a <;> by_cases hx : x = a <;> by_cases hyx : y.m_id = x <;>
      simp_all

theorem ids_updateRegion (rs : List Region) (a : Nat) (f : Region → Region)
    (hf : ∀ r, (f r).m_id = r.m_id) :
    (updateRegion rs a f).map (fun r => r.m_id) = rs.map (fun r => r.m_id) := by
  simp only [updateRegion, List.map_map]
  apply List.map_congr_left
  intro r _
  by_cases h : r.m_id = a <;> simp [h, hf]

theorem length_updateRegion (rs : List Region) (a : Nat) (f : Region → Region) :
    (updateRegion rs a f).length = rs.length := by
  simp [updateRegion]

theorem getRegion_eraseRegion (rs : List Region) (a x : Nat) :
    getRegion (eraseRegion rs a) x = if x = a then none else getRegion rs x := by
  induction rs with
  | nil => simp [eraseRegion, getRegion]
  | cons y ys ih =>
    have ih' : getRegion (List.filter (fun r => r.m_id != a) ys) x =
        if x = a then none else getRegion ys x := ih
    by_cases hy : y.m_id = a <;> by_cases hx : x = a <;> by_cases hyx : y.m_id = x <;>
      simp_all [eraseRegion, List.filter_cons, getRegion_cons]

theorem ids_eraseRegion (rs : List Region) (a : Nat) :
    (eraseRegion rs a).map (fun r => r.m_id) = (rs.map (fun r => r.m_id)).filter (fun k => k != a) := by
  simp only [eraseRegion, List.filter_map]
  rfl

theorem getRegion_insertRegion (rs : List Region) (r : Region) (x : Nat) :
    getRegion (insertRegion rs r) x = if r.m_id = x then some r else getRegion rs x := by
  induction rs with
  | nil =>
    by_cases hx : r.m_id = x <;> simp_all [insertRegion, getRegion_cons, getRegion]
  | cons y ys ih =>
    unfold insertRegion
    by_cases h1 : r.m_id < y.m_id
    · by_cases hx : r.m_id = x <;> simp_all [getRegion_cons]
    · by_cases h2 : r.m_id = y.m_id
      · by_cases hx : r.m_id = x <;> simp_all [getRegion_cons]
      · simp only [h1, if_false, h2, getRegion_cons, ih]
        by_cases hx : r.m_id = x <;> by_cases hyx : y.m_id = x <;> simp_all

theorem insertRegion_append (rs : List Region) (r : Region)
    (h : ∀ x ∈ rs, x.m_id < r.m_id) : insertRegion rs r = rs ++ [r] := by
  induction rs with
  | nil => rfl
  | cons y ys ih =>
    have hy : y.m_id < r.m_id := h y (List.mem_cons_self _ _)
    have h1 : ¬ r.m_id < y.m_id := by omega
    have h2 : ¬ r.m_id = y.m_id := by omega
    simp only [insertRegion, h1, h2, if_false, List.cons_append]
    rw [ih (fun x hx => h x (List.mem_cons_of_mem _ hx))]

/-! ## EuclideanMerger::merge -/

theorem merge_id (r1 r2 : Region) : (EuclideanMerger.merge r1 r2).m_id = r1.m_id := rfl

theorem merge_inBox_iff (r1 r2 : Region) (lin col : Nat) :
    (EuclideanMerger.merge r1 r2).inBox lin col ↔
      (min r1.m_yStart r2.m_yStart ≤ lin ∧ lin < max r1.m_yBound r2.m_yBound ∧
       min r1.m_xStart r2.m_xStart ≤ col ∧ col < max r1.m_xBound r2.m_xBound) := Iff.rfl

theorem merge_inBox_of_inBox (r1 r2 : Region) (lin col : Nat)
    (h : r1.inBox lin col ∨ r2.inBox lin col) : (EuclideanMerger.merge r1 r2).inBox lin col := by
  rw [merge_inBox_iff]
  unfold Region.inBox at h
  omega

/-- C6: `EuclideanMerger::merge(r1, r2)` on regions with the same band count and
sizes at least 1 adds the sizes, blends every band mean weighted by size, takes the
smallest box containing both boxes, keeps the id, variance, CV and neighbour list of
`r1`, and leaves `r2` as it was. -/
theorem euclideanMerger_merge_spec (r1 r2 : Region)
    (hbands : r1.getNBands = r2.getNBands) (hs1 : 1 ≤ r1.m_size) (hs2 : 1 ≤ r2.m_size) :
    (EuclideanMerger.merge r1 r2).m_size = r1.m_size + r2.m_size ∧
    (EuclideanMerger.merge r1 r2).getNBands = r1.getNBands ∧
    (∀ band (h1 : band < r1.m_mean.length) (h2 : band < r2.m_mean.length)
        (h : band < (EuclideanMerger.merge r1 r2).m_mean.length),
      (EuclideanMerger.merge r1 r2).m_mean[band] =
        (r1.m_mean[band] * r1.m_size + r2.m_mean[band] * r2.m_size) /
          ((r1.m_size : ℚ) + (r2.m_size : ℚ)) ∧
      (EuclideanMerger.merge r1 r2).m_mean[band] * ((r1.m_size : ℚ) + (r2.m_size : ℚ)) =
        r1.m_mean[band] * r1.m_size + r2.m_mean[band] * r2.m_size) ∧
    ((EuclideanMerger.merge r1 r2).m_xStart = min r1.m_xStart r2.m_xStart ∧
     (EuclideanMerger.merge r1 r2).m_yStart = min r1.m_yStart r2.m_yStart ∧
     (EuclideanMerger.merge r1 r2).m_xBound = max r1.m_xBound r2.m_xBound ∧
     (EuclideanMerger.merge r1 r2).m_yBound = max r1.m_yBound r2.m_yBound) ∧
    (∀ lin col, r1.inBox lin col ∨ r2.inBox lin col →
      (EuclideanMerger.merge r1 r2).inBox lin col) ∧
    (∀ box : Region,
      r1.m_xStart < r1.m_xBound → r1.m_yStart < r1.m_yBound →
      r2.m_xStart < r2.m_xBound → r2.m_yStart < r2.m_yBound →
      (∀ lin col, r1.inBox lin col ∨ r2.inBox lin col → box.inBox lin col) →
      ∀ lin col, (EuclideanMerger.merge r1 r2).inBox lin col → box.inBox lin col) ∧
    ((EuclideanMerger.merge r1 r2).m_id = r1.m_id ∧
     (EuclideanMerger.merge r1 r2).m_variance = r1.m_variance ∧
     (EuclideanMerger.merge r1 r2).m_cv = r1.m_cv ∧
     (EuclideanMerger.merge r1 r2).m_neighbours = r1.m_neighbours) ∧
    (∀ rs : List Region, r1.m_id ≠ r2.m_id →
      getRegion rs r1.m_id = some r1 → getRegion rs r2.m_id = some r2 →
      getRegion (mergeInTable rs r1.m_id r2.m_id) r2.m_id = some r2 ∧
      getRegion (mergeInTable rs r1.m_id r2.m_id) r1.m_id = some (EuclideanMerger.merge r1 r2) ∧
      ∀ x, x ≠ r1.m_id → getRegion (mergeInTable rs r1.m_id r2.m_id) x = getRegion rs x) := by
  have hlen : r1.m_mean.length = r2.m_mean.length := hbands
  have hne : ((r1.m_size : ℚ) + (r2.m_size : ℚ)) ≠ 0 := by
    have : (0 : ℚ) < (r1.m_size : ℚ) + (r2.m_size : ℚ) := by positivity
    exact ne_of_gt this
  refine ⟨rfl, ?_, ?_, ⟨rfl, rfl, rfl, rfl⟩, merge_inBox_of_inBox r1 r2, ?_, ⟨rfl, rfl, rfl, rfl⟩, ?_⟩
  · simp [EuclideanMerger.merge, Region.getNBands, hlen]
  · intro band h1 h2 h
    have hval : (EuclideanMerger.merge r1 r2).m_mean[band] =
        (r1.m_mean[band] * r1.m_size + r2.m_mean[band] * r2.m_size) /
          ((r1.m_size : ℚ) + (r2.m_size : ℚ)) := by
      simp [EuclideanMerger.merge]
    refine ⟨hval, ?_⟩
    rw [hval, div_mul_cancel₀ _ hne]
  · intro box hx1 hy1 hx2 hy2 hall lin col hin
    rw [merge_inBox_iff] at hin
    have a1 := hall r1.m_yStart r1.m_xStart (Or.inl ⟨le_refl _, hy1, le_refl _, hx1⟩)
    have a2 := hall (r1.m_yBound - 1) (r1.m_xBound - 1)
      (Or.inl ⟨by omega, by omega, by omega, by omega⟩)
    have b1 := hall r2.m_yStart r2.m_xStart (Or.inr ⟨le_refl _, hy2, le_refl _, hx2⟩)
    have b2 := hall (r2.m_yBound - 1) (r2.m_xBound - 1)
      (Or.inr ⟨by omega, by omega, by omega, by omega⟩)
    unfold Region.inBox at a1 a2 b1 b2 ⊢
    omega
  · intro rs hne12 hg1 hg2
    have hf : ∀ r, (EuclideanMerger.merge r r2).m_id = r.m_id := fun _ => rfl
    simp only [mergeInTable, hg2]
    refine ⟨?_, ?_, ?_⟩
    · rw [getRegion_updateRegion _ _ _ hf, if_neg (Ne.symm hne12), hg2]
    · rw [getRegion_updateRegion _ _ _ hf, if_pos rfl, hg1]; rfl
    · intro x hx
      rw [getRegion_updateRegion _ _ _ hf, if_neg hx]

/-- C6 at two one-band pixels: sizes 1 and 1 give size 2. -/
theorem euclideanMerger_merge_spec_witness :
    (Region.new 0 [1] 0 0).getNBands = (Region.new 1 [3] 0 1).getNBands ∧
    1 ≤ (Region.new 0 [1] 0 0).m_size ∧ 1 ≤ (Region.new 1 [3] 0 1).m_size ∧
    (EuclideanMerger.merge (Region.new 0 [1] 0 0) (Region.new 1 [3] 0 1)).m_size =
      (Region.new 0 [1] 0 0).m_size + (Region.new 1 [3] 0 1).m_size :=
  ⟨rfl, by decide, by decide,
    (euclideanMerger_merge_spec (Region.new 0 [1] 0 0) (Region.new 1 [3] 0 1) rfl
      (by decide) (by decide)).1⟩

/-! ## The distance used by getClosestRegion -/

/-- C7 (evaluation at the failing input): for the two-band means `(0, 0)` and
`(3, 0)` `getSquaredEuclideanDistance` returns 3, the sum of the absolute band
differences, and not the sum 9 of their squares; with neighbours of means `(3, 0)`
and `(2, 2)`, both passing the predicate, `getClosestRegion` returns the first one,
whose sum of squared differences 9 is larger than the 8 of the second one. -/
theorem getSquaredEuclideanDistance_is_sum_of_abs :
    AbstractMerger.getSquaredEuclideanDistance [0, 0] [3, 0] = 3 ∧
    (3 - 0 : ℚ) ^ 2 + (0 - 0) ^ 2 = 9 ∧
    (getClosestRegion
      { m_bands := [0, 1]
        m_regions :=
          [{ Region.new 0 [0, 0] 0 0 with m_neighbours := [1, 2] },
           { Region.new 1 [3, 0] 0 1 with m_neighbours := [0] },
           { Region.new 2 [2, 2] 1 0 with m_neighbours := [0] }]
        m_labelledImage := ⟨2, 2, fun _ _ => 0⟩
        m_merger := EuclideanMerger.new ⟨100, 0⟩
        m_minArea := 0
        m_similarityIncreaseStep := 0
        m_enableMutualBestFitting := true
        m_growUntilStop := true
        m_considerRegionVsRegion := true
        m_currentSimilarity := 100 }
      { Region.new 0 [0, 0] 0 0 with m_neighbours := [1, 2] } false).map (fun r => r.m_id)
      = some 1 ∧
    ((2 - 0 : ℚ) ^ 2 + (2 - 0) ^ 2 < (3 - 0) ^ 2 + (0 - 0) ^ 2) := by
  refine ⟨by decide!, by norm_num, by decide!, by norm_num⟩

/-! ## The neighbour relation under the table operations -/

theorem isLive_iff_mem {rs : List Region} {a : Nat} :
    isLive rs a = true ↔ a ∈ rs.map (fun r => r.m_id) := getRegion_isSome_iff

theorem isLive_of_getRegion {rs : List Region} {a : Nat} {r : Region}
    (h : getRegion rs a = some r) : isLive rs a = true := by
  simp [isLive, h]

theorem mem_neighboursOf {rs : List Region} {x y : Nat} :
    y ∈ neighboursOf rs x ↔ ∃ r, getRegion rs x = some r ∧ y ∈ r.m_neighbours := by
  unfold neighboursOf
  cases h : getRegion rs x <;> simp

theorem isLive_of_mem_neighboursOf {rs : List Region} {x y : Nat}
    (h : y ∈ neighboursOf rs x) : isLive rs x = true := by
  obtain ⟨r, hr, _⟩ := mem_neighboursOf.1 h
  exact isLive_of_getRegion hr

theorem mem_addNeighbour (r : Region) (b y : Nat) :
    y ∈ (r.addNeighbour b).m_neighbours ↔ y ∈ r.m_neighbours ∨ y = b := by
  unfold Region.addNeighbour Region.isNeighbour
  by_cases hb : b ∈ r.m_neighbours
  · have h : r.m_neighbours.contains b = true := by simpa using hb
    simp only [h, if_true]
    constructor
    · exact Or.inl
    · rintro (h1 | h1)
      · exact h1
      · exact h1 ▸ hb
  · have h : ¬ r.m_neighbours.contains b = true := by simpa using hb
    simp only [h, if_false, List.mem_append, List.mem_singleton, Bool.false_eq_true]

theorem mem_removeNeighbour (r : Region) (b y : Nat) :
    y ∈ (r.removeNeighbour b).m_neighbours ↔ y ∈ r.m_neighbours ∧ y ≠ b := by
  simp [Region.removeNeighbour]

theorem addNeighbour_id (r : Region) (b : Nat) : (r.addNeighbour b).m_id = r.m_id := by
  unfold Region.addNeighbour; split <;> rfl

theorem removeNeighbour_id (r : Region) (b : Nat) : (r.removeNeighbour b).m_id = r.m_id := rfl

theorem addNeighbour_core (r : Region) (b : Nat) : (r.addNeighbour b).core = r.core := by
  unfold Region.addNeighbour; split <;> rfl

theorem removeNeighbour_core (r : Region) (b : Nat) : (r.removeNeighbour b).core = r.core := rfl

theorem isLive_updateRegion (rs : List Region) (a : Nat) (f : Region → Region)
    (hf : ∀ r, (f r).m_id = r.m_id) (x : Nat) :
    isLive (updateRegion rs a f) x = isLive rs x := by
  unfold isLive
  rw [getRegion_updateRegion rs a f hf]
  split <;> simp

theorem isLive_eraseRegion (rs : List Region) (a x : Nat) :
    isLive (eraseRegion rs a) x = (isLive rs x && decide (x ≠ a)) := by
  unfold isLive
  rw [getRegion_eraseRegion]
  by_cases h : x = a <;> simp [h]

theorem isLive_insertRegion (rs : List Region) (r : Region) (x : Nat) :
    isLive (insertRegion rs r) x = (decide (r.m_id = x) || isLive rs x) := by
  unfold isLive
  rw [getRegion_insertRegion]
  by_cases h : r.m_id = x <;> simp [h]

theorem mem_neighboursOf_add (rs : List Region) (a b x y : Nat) :
    y ∈ neighboursOf (updateRegion rs a (fun r => r.addNeighbour b)) x ↔
      y ∈ neighboursOf rs x ∨ (x = a ∧ y = b ∧ isLive rs a = true) := by
  simp only [mem_neighboursOf, getRegion_updateRegion rs a _ (fun r => addNeighbour_id r b), isLive]
  by_cases hx : x = a
  · subst hx
    cases h : getRegion rs x <;> simp [mem_addNeighbour]
  · simp [hx]

theorem mem_neighboursOf_remove (rs : List Region) (a b x y : Nat) :
    y ∈ neighboursOf (updateRegion rs a (fun r => r.removeNeighbour b)) x ↔
      y ∈ neighboursOf rs x ∧ ¬ (x = a ∧ y = b) := by
  simp only [mem_neighboursOf,
    getRegion_updateRegion rs a _ (fun r => removeNeighbour_id r b)]
  by_cases hx : x = a
  · subst hx
    cases h : getRegion rs x <;> simp [mem_removeNeighbour]
  · simp [hx]

theorem mem_neighboursOf_erase (rs : List Region) (a x y : Nat) :
    y ∈ neighboursOf (eraseRegion rs a) x ↔ y ∈ neighboursOf rs x ∧ x ≠ a := by
  simp only [mem_neighboursOf, getRegion_eraseRegion]
  by_cases hx : x = a <;> simp [hx]

theorem mem_neighboursOf_insert (rs : List Region) (r : Region) (x y : Nat) :
    y ∈ neighboursOf (insertRegion rs r) x ↔
      (r.m_id = x ∧ y ∈ r.m_neighbours) ∨ (r.m_id ≠ x ∧ y ∈ neighboursOf rs x) := by
  simp only [mem_neighboursOf, getRegion_insertRegion]
  by_cases hx : r.m_id = x <;> simp [hx]

theorem mem_neighboursOf_link (rs : List Region) (a b x y : Nat) :
    y ∈ neighboursOf (linkRegions rs a b) x ↔
      y ∈ neighboursOf rs x ∨ (x = a ∧ y = b ∧ isLive rs a = true) ∨
        (x = b ∧ y = a ∧ isLive rs b = true) := by
  unfold linkRegions
  rw [mem_neighboursOf_add, mem_neighboursOf_add,
    isLive_updateRegion _ _ _ (fun r => addNeighbour_id r b)]
  tauto

theorem isLive_link (rs : List Region) (a b x : Nat) :
    isLive (linkRegions rs a b) x = isLive rs x := by
  unfold linkRegions
  rw [isLive_updateRegion _ _ _ (fun r => addNeighbour_id r a),
    isLive_updateRegion _ _ _ (fun r => addNeighbour_id r b)]

/-! ## updateNeighborhoodAfterMerge -/

/-- The body of the loop of `updateNeighborhoodAfterMerge`. -/
theorem mem_neighboursOf_mergeBody (rs : List Region) (R m n x y : Nat) (hRm : R ≠ m)
    (hn : n ≠ R) :
    y ∈ neighboursOf
        (updateRegion
          (updateRegion (updateRegion rs R (fun r => r.addNeighbour n))
            n (fun r => r.addNeighbour R))
          n (fun r => r.removeNeighbour m)) x ↔
      (y ∈ neighboursOf rs x ∧ ¬ (x = n ∧ y = m)) ∨ (x = R ∧ y = n ∧ isLive rs R = true) ∨
        (x = n ∧ y = R ∧ isLive rs n = true) := by
  rw [mem_neighboursOf_remove, mem_neighboursOf_add, mem_neighboursOf_add,
    isLive_updateRegion _ _ _ (fun r => addNeighbour_id r n)]
  constructor
  · rintro ⟨(h | h) | h, h2⟩
    · exact Or.inl ⟨h, h2⟩
    · exact Or.inr (Or.inl h)
    · exact Or.inr (Or.inr h)
  · rintro (⟨h, h2⟩ | ⟨h1, h2, h3⟩ | ⟨h1, h2, h3⟩)
    · exact ⟨Or.inl (Or.inl h), h2⟩
    · exact ⟨Or.inl (Or.inr ⟨h1, h2, h3⟩), fun h => hn (h.1 ▸ h1)⟩
    · exact ⟨Or.inr ⟨h1, h2, h3⟩, fun h => hRm (h2 ▸ h.2)⟩

theorem isLive_mergeLoop (R m : Nat) (P : List Nat) (rs : List Region) (x : Nat) :
    isLive (P.foldl
      (fun rs n =>
        if n ≠ R then
          updateRegion
            (updateRegion (updateRegion rs R (fun r => r.addNeighbour n))
              n (fun r => r.addNeighbour R))
            n (fun r => r.removeNeighbour m)
        else rs) rs) x = isLive rs x := by
  induction P generalizing rs with
  | nil => rfl
  | cons n P ih =>
    rw [List.foldl_cons, ih]
    by_cases hn : n = R
    · simp [hn]
    · simp only [ne_eq, hn, not_false_eq_true, if_true]
      rw [isLive_updateRegion _ _ _ (fun r => removeNeighbour_id r m),
        isLive_updateRegion _ _ _ (fun r => addNeighbour_id r R),
        isLive_updateRegion _ _ _ (fun r => addNeighbour_id r n)]

theorem mem_neighboursOf_mergeLoop (R m : Nat) (hRm : R ≠ m) (P : List Nat) (rs : List Region)
    (x y : Nat) :
    y ∈ neighboursOf (P.foldl
      (fun rs n =>
        if n ≠ R then
          updateRegion
            (updateRegion (updateRegion rs R (fun r => r.addNeighbour n))
              n (fun r => r.addNeighbour R))
            n (fun r => r.removeNeighbour m)
        else rs) rs) x ↔
      (y ∈ neighboursOf rs x ∧ ¬ (x ∈ P ∧ x ≠ R ∧ y = m)) ∨
        (x = R ∧ y ∈ P ∧ y ≠ R ∧ isLive rs R = true) ∨
        (y = R ∧ x ∈ P ∧ x ≠ R ∧ isLive rs x = true) := by
  induction P generalizing rs with
  | nil => simp
  | cons n P ih =>
    rw [List.foldl_cons, ih]
    by_cases hn : n = R
    · subst hn
      simp only [ne_eq, not_true_eq_false, if_false, List.mem_cons]
      constructor
      · rintro (⟨h, h2⟩ | ⟨h1, h2, h3, h4⟩ | ⟨h1, h2, h3, h4⟩)
        · refine Or.inl ⟨h, ?_⟩
          rintro ⟨h5 | h5, h6, h7⟩
          · exact h6 h5
          · exact h2 ⟨h5, h6, h7⟩
        · exact Or.inr (Or.inl ⟨h1, Or.inr h2, h3, h4⟩)
        · exact Or.inr (Or.inr ⟨h1, Or.inr h2, h3, h4⟩)
      · rintro (⟨h, h2⟩ | ⟨h1, h2 | h2, h3, h4⟩ | ⟨h1, h2 | h2, h3, h4⟩)
        · exact Or.inl ⟨h, fun h5 => h2 ⟨Or.inr h5.1, h5.2⟩⟩
        · exact absurd h2 h3
        · exact Or.inr (Or.inl ⟨h1, h2, h3, h4⟩)
        · exact absurd h2 h3
        · exact Or.inr (Or.inr ⟨h1, h2, h3, h4⟩)
    · simp only [ne_eq, hn, not_false_eq_true, if_true, List.mem_cons]
      rw [mem_neighboursOf_mergeBody rs R m n x y hRm hn,
        isLive_updateRegion _ _ _ (fun r => removeNeighbour_id r m),
        isLive_updateRegion _ _ _ (fun r => addNeighbour_id r R),
        isLive_updateRegion _ _ _ (fun r => addNeighbour_id r n),
        isLive_updateRegion _ _ _ (fun r => removeNeighbour_id r m),
        isLive_updateRegion _ _ _ (fun r => addNeighbour_id r R),
        isLive_updateRegion _ _ _ (fun r => addNeighbour_id r n)]
      constructor
      · rintro (⟨(⟨h, h2⟩ | ⟨h1, h2, h3⟩ | ⟨h1, h2, h3⟩), h4⟩ | ⟨h1, h2, h3, h4⟩ |
          ⟨h1, h2, h3, h4⟩)
        · refine Or.inl ⟨h, ?_⟩
          rintro ⟨h5 | h5, h6, h7⟩
          · exact h2 ⟨h5, h7⟩
          · exact h4 ⟨h5, h6, h7⟩
        · exact Or.inr (Or.inl ⟨h1, Or.inl h2, h2 ▸ hn, h3⟩)
        · exact Or.inr (Or.inr ⟨h2, Or.inl h1, h1 ▸ hn, h1 ▸ h3⟩)
        · exact Or.inr (Or.inl ⟨h1, Or.inr h2, h3, h4⟩)
        · exact Or.inr (Or.inr ⟨h1, Or.inr h2, h3, h4⟩)
      · rintro (⟨h, h2⟩ | ⟨h1, h2 | h2, h3, h4⟩ | ⟨h1, h2 | h2, h3, h4⟩)
        · exact Or.inl ⟨Or.inl ⟨h, fun h5 => h2 ⟨Or.inl h5.1, h5.1 ▸ hn, h5.2⟩⟩,
            fun h5 => h2 ⟨Or.inr h5.1, h5.2⟩⟩
        · exact Or.inl ⟨Or.inr (Or.inl ⟨h1, h2, h4⟩), fun h5 => h5.2.1 h1⟩
        · exact Or.inr (Or.inl ⟨h1, h2, h3, h4⟩)
        · exact Or.inl ⟨Or.inr (Or.inr ⟨h2, h1, h2 ▸ h4⟩), fun h5 => hRm (h1 ▸ h5.2.2)⟩
        · exact Or.inr (Or.inr ⟨h1, h2, h3, h4⟩)

/-! ## Sorted tables -/

theorem getRegion_eq_some_iff {rs : List Region} (hs : TableSorted rs) {a : Nat} {r : Region} :
    getRegion rs a = some r ↔ r ∈ rs ∧ r.m_id = a := by
  constructor
  · intro h
    exact ⟨(getRegion_some h).2, (getRegion_some h).1⟩
  · rintro ⟨hmem, hid⟩
    induction rs with
    | nil => cases hmem
    | cons y ys ih =>
      unfold TableSorted at hs
      rw [List.map_cons, List.pairwise_cons] at hs
      rw [getRegion_cons]
      rcases List.mem_cons.1 hmem with h | h
      · subst h; simp [hid]
      · have hlt : y.m_id < r.m_id := hs.1 _ (List.mem_map_of_mem _ h)
        have : ¬ y.m_id = a := by omega
        simp only [this, if_false]
        exact ih hs.2 h

theorem symmetricLive_iff {rs : List Region} (hs : TableSorted rs) :
    SymmetricLive rs ↔ ∀ x y, y ∈ neighboursOf rs x → x ∈ neighboursOf rs y := by
  constructor
  · intro h x y hy
    obtain ⟨r, hr, hyr⟩ := mem_neighboursOf.1 hy
    obtain ⟨hmem, hid⟩ := (getRegion_eq_some_iff hs).1 hr
    obtain ⟨rb, hrb, hbid, hin⟩ := h r hmem y hyr
    exact mem_neighboursOf.2 ⟨rb, (getRegion_eq_some_iff hs).2 ⟨hrb, hbid⟩, hid ▸ hin⟩
  · intro h ra hra b hb
    have h1 : b ∈ neighboursOf rs ra.m_id :=
      mem_neighboursOf.2 ⟨ra, (getRegion_eq_some_iff hs).2 ⟨hra, rfl⟩, hb⟩
    obtain ⟨rb, hrb, hin⟩ := mem_neighboursOf.1 (h _ _ h1)
    obtain ⟨hmem, hid⟩ := (getRegion_eq_some_iff hs).1 hrb
    exact ⟨rb, hmem, hid, hin⟩

theorem noSelfNeighbour_iff {rs : List Region} (hs : TableSorted rs) :
    NoSelfNeighbour rs ↔ ∀ x, x ∉ neighboursOf rs x := by
  constructor
  · intro h x hx
    obtain ⟨r, hr, hxr⟩ := mem_neighboursOf.1 hx
    obtain ⟨hmem, hid⟩ := (getRegion_eq_some_iff hs).1 hr
    exact h r hmem (hid ▸ hxr)
  · intro h r hr hin
    exact h r.m_id (mem_neighboursOf.2 ⟨r, (getRegion_eq_some_iff hs).2 ⟨hr, rfl⟩, hin⟩)

theorem tableSorted_of_ids_eq {rs rs' : List Region}
    (h : rs'.map (fun r => r.m_id) = rs.map (fun r => r.m_id)) (hs : TableSorted rs) :
    TableSorted rs' := by
  unfold TableSorted at *
  rw [h]; exact hs

theorem tableSorted_eraseRegion {rs : List Region} (hs : TableSorted rs) (a : Nat) :
    TableSorted (eraseRegion rs a) := by
  unfold TableSorted at *
  rw [ids_eraseRegion]
  exact hs.filter _

/-! ## Cores: everything but the neighbour lists -/

theorem core_id (r : Region) : r.core.m_id = r.m_id := rfl

theorem ids_of_core (rs : List Region) :
    (rs.map Region.core).map (fun r => r.m_id) = rs.map (fun r => r.m_id) := by
  simp [List.map_map, Function.comp_def, core_id]

theorem ids_eq_of_core_eq {rs rs' : List Region} (h : rs'.map Region.core = rs.map Region.core) :
    rs'.map (fun r => r.m_id) = rs.map (fun r => r.m_id) := by
  rw [← ids_of_core rs', h, ids_of_core]

theorem map_core_updateRegion (rs : List Region) (a : Nat) (f : Region → Region)
    (hf : ∀ r, (f r).core = r.core) :
    (updateRegion rs a f).map Region.core = rs.map Region.core := by
  simp only [updateRegion, List.map_map]
  apply List.map_congr_left
  intro r _
  by_cases h : r.m_id = a <;> simp [h, hf]

theorem map_core_linkRegions (rs : List Region) (a b : Nat) :
    (linkRegions rs a b).map Region.core = rs.map Region.core := by
  unfold linkRegions
  rw [map_core_updateRegion _ _ _ (fun r => addNeighbour_core r a),
    map_core_updateRegion _ _ _ (fun r => addNeighbour_core r b)]

theorem getRegion_map_core (rs : List Region) (x : Nat) :
    getRegion (rs.map Region.core) x = (getRegion rs x).map Region.core := by
  induction rs with
  | nil => rfl
  | cons y ys ih =>
    rw [List.map_cons, getRegion_cons, getRegion_cons, ih, core_id]
    split <;> rfl

theorem getRegion_core_eq {rs rs' : List Region} (h : rs'.map Region.core = rs.map Region.core)
    (x : Nat) : (getRegion rs' x).map Region.core = (getRegion rs x).map Region.core := by
  rw [← getRegion_map_core, ← getRegion_map_core, h]

theorem map_core_mergeLoop (R m : Nat) (P : List Nat) (rs : List Region) :
    (P.foldl
      (fun rs n =>
        if n ≠ R then
          updateRegion
            (updateRegion (updateRegion rs R (fun r => r.addNeighbour n))
              n (fun r => r.addNeighbour R))
            n (fun r => r.removeNeighbour m)
        else rs) rs).map Region.core = rs.map Region.core := by
  induction P generalizing rs with
  | nil => rfl
  | cons n P ih =>
    rw [List.foldl_cons, ih]
    by_cases hn : n = R
    · simp [hn]
    · simp only [ne_eq, hn, not_false_eq_true, if_true]
      rw [map_core_updateRegion _ _ _ (fun r => removeNeighbour_core r m),
        map_core_updateRegion _ _ _ (fun r => addNeighbour_core r R),
        map_core_updateRegion _ _ _ (fun r => addNeighbour_core r n)]

theorem map_core_updateNeighborhoodAfterMerge (rs : List Region) (R m : Nat) :
    (updateNeighborhoodAfterMerge rs R m).map Region.core = rs.map Region.core := by
  unfold updateNeighborhoodAfterMerge
  cases h : getRegion rs m with
  | none => rfl
  | some mr =>
    simp only
    rw [map_core_updateRegion _ _ _ (fun r => removeNeighbour_core r m), map_core_mergeLoop]

theorem isLive_updateNeighborhoodAfterMerge (rs : List Region) (R m x : Nat) :
    isLive (updateNeighborhoodAfterMerge rs R m) x = isLive rs x := by
  unfold updateNeighborhoodAfterMerge
  cases h : getRegion rs m with
  | none => rfl
  | some mr =>
    simp only
    rw [isLive_updateRegion _ _ _ (fun r => removeNeighbour_id r m), isLive_mergeLoop]

theorem mem_neighboursOf_updateNeighborhoodAfterMerge (rs : List Region) (R m : Nat)
    (hRm : R ≠ m) (hm : isLive rs m = true) (x y : Nat) :
    y ∈ neighboursOf (updateNeighborhoodAfterMerge rs R m) x ↔
      ((y ∈ neighboursOf rs x ∧ ¬ (x ∈ neighboursOf rs m ∧ x ≠ R ∧ y = m)) ∨
        (x = R ∧ y ∈ neighboursOf rs m ∧ y ≠ R ∧ isLive rs R = true) ∨
        (y = R ∧ x ∈ neighboursOf rs m ∧ x ≠ R ∧ isLive rs x = true)) ∧
      ¬ (x = R ∧ y = m) := by
  unfold updateNeighborhoodAfterMerge
  cases h : getRegion rs m with
  | none => simp [isLive, h] at hm
  | some mr =>
    have hL : neighboursOf rs m = mr.m_neighbours := by simp [neighboursOf, h]
    simp only
    rw [mem_neighboursOf_remove, mem_neighboursOf_mergeLoop R m hRm, hL]

/-! ## The merge step -/

theorem ids_mergeInTable (rs : List Region) (R m : Nat) :
    (mergeInTable rs R m).map (fun r => r.m_id) = rs.map (fun r => r.m_id) := by
  unfold mergeInTable
  cases getRegion rs m with
  | none => rfl
  | some mr =>
    exact ids_updateRegion rs R (fun region1 => EuclideanMerger.merge region1 mr) (fun _ => rfl)

theorem getRegion_mergeInTable (rs : List Region) (R m : Nat) (mr : Region)
    (hm : getRegion rs m = some mr) (x : Nat) :
    getRegion (mergeInTable rs R m) x =
      if x = R then (getRegion rs x).map (fun r => EuclideanMerger.merge r mr)
      else getRegion rs x := by
  unfold mergeInTable
  rw [hm]
  exact getRegion_updateRegion rs R (fun region1 => EuclideanMerger.merge region1 mr)
    (fun _ => rfl) x

theorem isLive_mergeInTable (rs : List Region) (R m x : Nat) :
    isLive (mergeInTable rs R m) x = isLive rs x := by
  unfold mergeInTable
  cases getRegion rs m with
  | none => rfl
  | some mr =>
    exact isLive_updateRegion rs R (fun region1 => EuclideanMerger.merge region1 mr)
      (fun _ => rfl) x

theorem neighboursOf_mergeInTable (rs : List Region) (R m x : Nat) :
    neighboursOf (mergeInTable rs R m) x = neighboursOf rs x := by
  unfold mergeInTable
  cases hm : getRegion rs m with
  | none => rfl
  | some mr =>
    unfold neighboursOf
    show (match getRegion (updateRegion rs R
        (fun region1 => EuclideanMerger.merge region1 mr)) x with
      | some r => r.m_neighbours
      | none => []) = _
    rw [getRegion_updateRegion rs R (fun region1 => EuclideanMerger.merge region1 mr)
      (fun _ => rfl)]
    by_cases hx : x = R
    · rw [if_pos hx]
      cases getRegion rs x <;> rfl
    · rw [if_neg hx]

theorem mergeStep_regions (s : MultiSeg) (R m : Nat) (mr : Region)
    (hm : getRegion s.m_regions m = some mr) :
    (mergeStep s R m).m_regions =
      eraseRegion (updateNeighborhoodAfterMerge (mergeInTable s.m_regions R m) R m) m := by
  simp [mergeStep, hm]

theorem mergeStep_labelledImage (s : MultiSeg) (R m : Nat) (mr : Region)
    (hm : getRegion s.m_regions m = some mr) :
    (mergeStep s R m).m_labelledImage = updateLabelledImage s.m_labelledImage R mr := by
  simp [mergeStep, hm]

theorem ids_mergeStep (s : MultiSeg) (R m : Nat) (hm : isLive s.m_regions m = true) :
    (mergeStep s R m).m_regions.map (fun r => r.m_id) =
      (s.m_regions.map (fun r => r.m_id)).filter (fun k => k != m) := by
  unfold isLive at hm
  obtain ⟨mr, hmr⟩ := Option.isSome_iff_exists.1 hm
  rw [mergeStep_regions s R m mr hmr, ids_eraseRegion,
    ids_eq_of_core_eq (map_core_updateNeighborhoodAfterMerge _ R m), ids_mergeInTable]

theorem tableSorted_mergeStep (s : MultiSeg) (R m : Nat) (hs : TableSorted s.m_regions) :
    TableSorted (mergeStep s R m).m_regions := by
  cases hm : getRegion s.m_regions m with
  | none => simpa [mergeStep, hm] using hs
  | some mr =>
    have hl : isLive s.m_regions m = true := by simp [isLive, hm]
    unfold TableSorted at *
    rw [ids_mergeStep s R m hl]
    exact hs.filter _

theorem isLive_mergeStep (s : MultiSeg) (R m : Nat) (hm : isLive s.m_regions m = true)
    (x : Nat) :
    isLive (mergeStep s R m).m_regions x = (isLive s.m_regions x && decide (x ≠ m)) := by
  have hm' := hm
  unfold isLive at hm'
  obtain ⟨mr, hmr⟩ := Option.isSome_iff_exists.1 hm'
  rw [mergeStep_regions s R m mr hmr, isLive_eraseRegion, isLive_updateNeighborhoodAfterMerge,
    isLive_mergeInTable]

theorem mem_neighboursOf_mergeStep (s : MultiSeg) (R m : Nat) (hRm : R ≠ m)
    (hm : isLive s.m_regions m = true) (x y : Nat) :
    y ∈ neighboursOf (mergeStep s R m).m_regions x ↔
      (((y ∈ neighboursOf s.m_regions x ∧
            ¬ (x ∈ neighboursOf s.m_regions m ∧ x ≠ R ∧ y = m)) ∨
          (x = R ∧ y ∈ neighboursOf s.m_regions m ∧ y ≠ R ∧ isLive s.m_regions R = true) ∨
          (y = R ∧ x ∈ neighboursOf s.m_regions m ∧ x ≠ R ∧ isLive s.m_regions x = true)) ∧
        ¬ (x = R ∧ y = m)) ∧ x ≠ m := by
  have hm' := hm
  unfold isLive at hm'
  obtain ⟨mr, hmr⟩ := Option.isSome_iff_exists.1 hm'
  rw [mergeStep_regions s R m mr hmr, mem_neighboursOf_erase,
    mem_neighboursOf_updateNeighborhoodAfterMerge _ R m hRm
      (by rw [isLive_mergeInTable]; exact hm)]
  simp only [neighboursOf_mergeInTable, isLive_mergeInTable]

theorem mergeStep_symmetric (s : MultiSeg) (R m : Nat) (hRm : R ≠ m)
    (hR : isLive s.m_regions R = true) (hm : isLive s.m_regions m = true)
    (hsym : ∀ x y, y ∈ neighboursOf s.m_regions x → x ∈ neighboursOf s.m_regions y) :
    ∀ x y, y ∈ neighboursOf (mergeStep s R m).m_regions x →
      x ∈ neighboursOf (mergeStep s R m).m_regions y := by
  intro x y h
  rw [mem_neighboursOf_mergeStep s R m hRm hm] at h ⊢
  obtain ⟨⟨hD, hnot⟩, hxm⟩ := h
  rcases hD with ⟨h1, h2⟩ | ⟨h1, h2, h3, h4⟩ | ⟨h1, h2, h3, h4⟩
  · have hym : y ≠ m := by
      intro hy
      subst hy
      have hx : x ∈ neighboursOf s.m_regions y := hsym _ _ h1
      by_cases hxR : x = R
      · exact hnot ⟨hxR, rfl⟩
      · exact h2 ⟨hx, hxR, rfl⟩
    exact ⟨⟨Or.inl ⟨hsym _ _ h1, fun h5 => hxm h5.2.2⟩, fun h5 => hxm h5.2⟩, hym⟩
  · have hym : y ≠ m := fun hy => hnot ⟨h1, hy⟩
    have hly : isLive s.m_regions y = true := isLive_of_mem_neighboursOf (hsym _ _ h2)
    exact ⟨⟨Or.inr (Or.inr ⟨h1, h2, h3, hly⟩), fun h5 => hxm h5.2⟩, hym⟩
  · have hym : y ≠ m := fun hy => hRm (h1 ▸ hy)
    exact ⟨⟨Or.inr (Or.inl ⟨h1, h2, h3, hR⟩), fun h5 => hxm h5.2⟩, hym⟩

theorem mergeStep_noSelf (s : MultiSeg) (R m : Nat) (hRm : R ≠ m)
    (hm : isLive s.m_regions m = true)
    (hno : ∀ x, x ∉ neighboursOf s.m_regions x) :
    ∀ x, x ∉ neighboursOf (mergeStep s R m).m_regions x := by
  intro x h
  rw [mem_neighboursOf_mergeStep s R m hRm hm] at h
  obtain ⟨⟨hD, _⟩, _⟩ := h
  rcases hD with ⟨h1, _⟩ | ⟨h1, _, h3, _⟩ | ⟨h1, _, h3, _⟩
  · exact hno x h1
  · exact h3 h1
  · exact h3 h1

/-! ## Region count and total size -/

theorem sumSizes_cons (x : Region) (rs : List Region) :
    sumSizes (x :: rs) = x.m_size + sumSizes rs := by
  simp [sumSizes]

theorem sumSizes_append (rs rs' : List Region) :
    sumSizes (rs ++ rs') = sumSizes rs + sumSizes rs' := by
  simp [sumSizes]

theorem tableSorted_cons {x : Region} {rs : List Region} (hs : TableSorted (x :: rs)) :
    (∀ r ∈ rs, x.m_id < r.m_id) ∧ TableSorted rs := by
  unfold TableSorted at *
  rw [List.map_cons, List.pairwise_cons] at hs
  refine ⟨fun r hr => hs.1 _ (List.mem_map_of_mem _ hr), hs.2⟩

theorem eraseRegion_of_not_live (rs : List Region) (a : Nat)
    (h : ∀ r ∈ rs, r.m_id ≠ a) : eraseRegion rs a = rs := by
  unfold eraseRegion
  rw [List.filter_eq_self]
  intro r hr
  simpa using h r hr

theorem updateRegion_of_not_live (rs : List Region) (a : Nat) (f : Region → Region)
    (h : ∀ r ∈ rs, r.m_id ≠ a) : updateRegion rs a f = rs := by
  unfold updateRegion
  conv_rhs => rw [← List.map_id rs]
  apply List.map_congr_left
  intro r hr
  simp [h r hr]

theorem length_eraseRegion {rs : List Region} (hs : TableSorted rs) {a : Nat}
    (hl : isLive rs a = true) : (eraseRegion rs a).length + 1 = rs.length := by
  induction rs with
  | nil => simp [isLive, getRegion] at hl
  | cons y ys ih =>
    obtain ⟨hlt, hs'⟩ := tableSorted_cons hs
    by_cases hy : y.m_id = a
    · have hne : ∀ r ∈ ys, r.m_id ≠ a := fun r hr => by have := hlt r hr; omega
      have : eraseRegion (y :: ys) a = ys := by
        have h1 := eraseRegion_of_not_live ys a hne
        simp only [eraseRegion, List.filter_cons, hy, bne_self_eq_false, Bool.false_eq_true,
          if_false] at h1 ⊢
        exact h1
      rw [this]; rfl
    · have hl' : isLive ys a = true := by
        simpa [isLive, getRegion_cons, hy] using hl
      have hb : (y.m_id != a) = true := by simpa using hy
      have : eraseRegion (y :: ys) a = y :: eraseRegion ys a := by
        simp [eraseRegion, List.filter_cons, hb]
      rw [this, List.length_cons, List.length_cons, ih hs' hl']

theorem sumSizes_eraseRegion {rs : List Region} (hs : TableSorted rs) {a : Nat} {ra : Region}
    (hl : getRegion rs a = some ra) : sumSizes (eraseRegion rs a) + ra.m_size = sumSizes rs := by
  induction rs with
  | nil => simp [getRegion] at hl
  | cons y ys ih =>
    obtain ⟨hlt, hs'⟩ := tableSorted_cons hs
    rw [getRegion_cons] at hl
    by_cases hy : y.m_id = a
    · rw [if_pos hy] at hl
      have hne : ∀ r ∈ ys, r.m_id ≠ a := fun r hr => by have := hlt r hr; omega
      have : eraseRegion (y :: ys) a = ys := by
        have h1 := eraseRegion_of_not_live ys a hne
        simp only [eraseRegion, List.filter_cons, hy, bne_self_eq_false, Bool.false_eq_true,
          if_false] at h1 ⊢
        exact h1
      cases hl
      rw [this, sumSizes_cons]; omega
    · rw [if_neg hy] at hl
      have hb : (y.m_id != a) = true := by simpa using hy
      have : eraseRegion (y :: ys) a = y :: eraseRegion ys a := by
        simp [eraseRegion, List.filter_cons, hb]
      rw [this, sumSizes_cons, sumSizes_cons]
      have := ih hs' hl
      omega

theorem sumSizes_updateRegion {rs : List Region} (hs : TableSorted rs) {a : Nat} {ra : Region}
    (hl : getRegion rs a = some ra) (f : Region → Region) :
    sumSizes (updateRegion rs a f) + ra.m_size = sumSizes rs + (f ra).m_size := by
  induction rs with
  | nil => simp [getRegion] at hl
  | cons y ys ih =>
    obtain ⟨hlt, hs'⟩ := tableSorted_cons hs
    rw [getRegion_cons] at hl
    have hcons : updateRegion (y :: ys) a f =
        (if y.m_id = a then f y else y) :: updateRegion ys a f := rfl
    by_cases hy : y.m_id = a
    · rw [if_pos hy] at hl
      have hne : ∀ r ∈ ys, r.m_id ≠ a := fun r hr => by have := hlt r hr; omega
      cases hl
      rw [hcons, if_pos hy, updateRegion_of_not_live ys a f hne, sumSizes_cons, sumSizes_cons]
      omega
    · rw [if_neg hy] at hl
      rw [hcons, if_neg hy, sumSizes_cons, sumSizes_cons]
      have := ih hs' hl
      omega

theorem sumSizes_eq_of_core_eq {rs rs' : List Region}
    (h : rs'.map Region.core = rs.map Region.core) : sumSizes rs' = sumSizes rs := by
  have h1 : ∀ l : List Region, sumSizes l = ((l.map Region.core).map (fun r => r.m_size)).sum := by
    intro l
    simp [sumSizes, List.map_map, Function.comp_def, Region.core]
  rw [h1 rs', h1 rs, h]

theorem length_eq_of_core_eq {rs rs' : List Region}
    (h : rs'.map Region.core = rs.map Region.core) : rs'.length = rs.length := by
  have := congrArg List.length h
  simpa using this

theorem length_mergeStep (s : MultiSeg) (R m : Nat) (hs : TableSorted s.m_regions)
    (hm : isLive s.m_regions m = true) :
    (mergeStep s R m).m_regions.length + 1 = s.m_regions.length := by
  have h1 := congrArg List.length (ids_mergeStep s R m hm)
  have h2 := congrArg List.length (ids_eraseRegion s.m_regions m)
  have h3 := length_eraseRegion hs hm
  simp only [List.length_map] at h1 h2
  omega

theorem sumSizes_mergeStep (s : MultiSeg) (R m : Nat) (hs : TableSorted s.m_regions)
    (hRm : R ≠ m) (hR : isLive s.m_regions R = true) (hm : isLive s.m_regions m = true) :
    sumSizes (mergeStep s R m).m_regions = sumSizes s.m_regions := by
  obtain ⟨mr, hmr⟩ := Option.isSome_iff_exists.1 hm
  obtain ⟨rr, hrr⟩ := Option.isSome_iff_exists.1 hR
  rw [mergeStep_regions s R m mr hmr]
  have hs1 : TableSorted (mergeInTable s.m_regions R m) :=
    tableSorted_of_ids_eq (ids_mergeInTable _ R m) hs
  have hcore := map_core_updateNeighborhoodAfterMerge (mergeInTable s.m_regions R m) R m
  have hs2 : TableSorted (updateNeighborhoodAfterMerge (mergeInTable s.m_regions R m) R m) :=
    tableSorted_of_ids_eq (ids_eq_of_core_eq hcore) hs1
  -- the absorbed region keeps its size up to the erase
  have hm1 : getRegion (mergeInTable s.m_regions R m) m = some mr := by
    rw [getRegion_mergeInTable _ R m mr hmr, if_neg (Ne.symm hRm), hmr]
  have hm2 := getRegion_core_eq hcore m
  rw [hm1] at hm2
  cases hm3 : getRegion (updateNeighborhoodAfterMerge (mergeInTable s.m_regions R m) R m) m with
  | none => simp [hm3] at hm2
  | some mr2 =>
    rw [hm3] at hm2
    have hsize : mr2.m_size = mr.m_size := by
      have := congrArg (fun o => o.map (fun r => r.m_size)) hm2
      simpa [Region.core] using this
    have e1 := sumSizes_eraseRegion hs2 hm3
    have e2 := sumSizes_eq_of_core_eq hcore
    have e3 : sumSizes (mergeInTable s.m_regions R m) + rr.m_size =
        sumSizes s.m_regions + (EuclideanMerger.merge rr mr).m_size := by
      unfold mergeInTable
      rw [hmr]
      exact sumSizes_updateRegion hs hrr _
    have e4 : (EuclideanMerger.merge rr mr).m_size = rr.m_size + mr.m_size := rfl
    omega

/-! ## Partner selection returns live regions -/

theorem mem_neighbourRegions {rs : List Region} {region c : Region}
    (h : c ∈ neighbourRegions rs region) :
    c.m_id ∈ region.m_neighbours ∧ getRegion rs c.m_id = some c := by
  unfold neighbourRegions at h
  obtain ⟨a, ha, hc⟩ := List.mem_filterMap.1 h
  have hid := (getRegion_some hc).1
  subst hid
  exact ⟨ha, hc⟩

theorem closestFold_mem (mean : List ℚ) (l : List Region) (acc : Option Region × ℚ)
    (c : Region)
    (h : (l.foldl
      (fun (acc : Option Region × ℚ) currentNeighbor =>
        let euclideanDistance :=
          AbstractMerger.getSquaredEuclideanDistance mean currentNeighbor.m_mean
        if euclideanDistance < acc.2 then (some currentNeighbor, euclideanDistance) else acc)
      acc).1 = some c) : c ∈ l ∨ acc.1 = some c := by
  induction l generalizing acc with
  | nil => exact Or.inr h
  | cons n l ih =>
    rw [List.foldl_cons] at h
    rcases ih _ h with h1 | h1
    · exact Or.inl (List.mem_cons_of_mem _ h1)
    · by_cases hd : AbstractMerger.getSquaredEuclideanDistance mean n.m_mean < acc.2
      · simp only [hd, if_true, Option.some.injEq] at h1
        exact Or.inl (h1 ▸ List.mem_cons_self _ _)
      · simp only [hd, if_false] at h1
        exact Or.inr h1

theorem getClosestRegion_mem {s : MultiSeg} {region c : Region} {useAll : Bool}
    (h : getClosestRegion s region useAll = some c) :
    c ∈ neighbourRegions s.m_regions region := by
  have hsub : ∀ x, x ∈ (if useAll then neighbourRegions s.m_regions region
      else getClosestRegions s region) → x ∈ neighbourRegions s.m_regions region := by
    intro x hx
    cases useAll
    · simp only [Bool.false_eq_true, if_false, getClosestRegions] at hx
      exact (List.mem_filter.1 hx).1
    · simpa using hx
  unfold getClosestRegion at h
  generalize (if useAll then neighbourRegions s.m_regions region
      else getClosestRegions s region) = l at h hsub
  match l, h with
  | [], h => cases h
  | [only], h =>
    simp only [Option.some.injEq] at h
    exact hsub _ (h ▸ List.mem_cons_self _ _)
  | a :: b :: t, h =>
    rcases closestFold_mem region.m_mean (a :: b :: t) _ c h with h1 | h1
    · exact hsub _ h1
    · cases h1

theorem getClosestRegion_live {s : MultiSeg} {region c : Region} {useAll : Bool}
    (h : getClosestRegion s region useAll = some c) :
    c.m_id ∈ region.m_neighbours ∧ getRegion s.m_regions c.m_id = some c :=
  mem_neighbourRegions (getClosestRegion_mem h)

theorem findMergePartner_closest {s : MultiSeg} {cur c : Region}
    (h : findMergePartner s cur = some c) : getClosestRegion s cur false = some c := by
  unfold findMergePartner at h
  cases h1 : getClosestRegion s cur false with
  | none => simp [h1] at h
  | some cn =>
    simp only [h1] at h
    by_cases hm : s.m_enableMutualBestFitting = true
    · simp only [hm, if_true] at h
      cases h2 : getClosestRegion s cn false with
      | none => simp [h2] at h
      | some back =>
        simp only [h2] at h
        by_cases hb : back.m_id ≠ cur.m_id
        · simp [hb] at h
        · simp only [hb, if_false, Option.some.injEq] at h
          rw [h]
    · simp only [hm, Bool.false_eq_true, if_false, Option.some.injEq] at h
      rw [h]

theorem findMergePartner_live {s : MultiSeg} {cur c : Region}
    (h : findMergePartner s cur = some c) :
    c.m_id ∈ cur.m_neighbours ∧ getRegion s.m_regions c.m_id = some c :=
  getClosestRegion_live (findMergePartner_closest h)

/-! ## Termination and invariants of the growth scans -/

theorem length_filter_lt_mono (l : List Nat) (cur nx : Nat) (h : cur < nx) :
    (l.filter (fun k => decide (nx < k))).length ≤ (l.filter (fun k => decide (cur < k))).length := by
  apply List.Sublist.length_le
  apply List.monotone_filter_right
  intro a ha
  simp only [decide_eq_true_eq] at ha ⊢
  omega

theorem nextKey_measure (l : List Nat) (cur nx : Nat) (h : nextKey l cur = some nx) :
    (l.filter (fun k => decide (nx < k))).length + 1 ≤
      (l.filter (fun k => decide (cur < k))).length := by
  unfold nextKey at h
  have hlt : cur < nx := by simpa using List.find?_some h
  have hmem : nx ∈ l := List.mem_of_find?_eq_some h
  clear h
  induction l with
  | nil => cases hmem
  | cons a t ih =>
    by_cases ha : a = nx
    · subst ha
      have h1 := length_filter_lt_mono t cur a hlt
      simp only [List.filter_cons, lt_irrefl, decide_False, Bool.false_eq_true, if_false,
        hlt, decide_True, if_true, List.length_cons]
      omega
    · have hmem' : nx ∈ t := by
        rcases List.mem_cons.1 hmem with h1 | h1
        · exact absurd h1.symm ha
        · exact h1
      have := ih hmem'
      by_cases h2 : nx < a
      · have h3 : cur < a := by omega
        simp only [List.filter_cons, h2, h3, decide_True, if_true, List.length_cons]
        omega
      · by_cases h3 : cur < a
        · simp only [List.filter_cons, h2, h3, decide_True, decide_False, if_true,
            Bool.false_eq_true, if_false, List.length_cons]
          omega
        · simp only [List.filter_cons, h2, h3, decide_False, Bool.false_eq_true, if_false]
          exact this

theorem length_filter_filter_le (l : List Nat) (c cur : Nat) :
    ((l.filter (fun k => k != c)).filter (fun k => decide (cur < k))).length ≤
      (l.filter (fun k => decide (cur < k))).length := by
  apply List.Sublist.length_le
  exact (List.filter_sublist l).filter _

theorem length_mergeStep_lt (s : MultiSeg) (R m : Nat) (hm : isLive s.m_regions m = true) :
    (mergeStep s R m).m_regions.length < s.m_regions.length := by
  have h1 := congrArg List.length (ids_mergeStep s R m hm)
  simp only [List.length_map] at h1
  rw [h1]
  have hmem : m ∈ s.m_regions.map (fun r => r.m_id) := isLive_iff_mem.1 hm
  have := List.length_filter_lt_length_iff_exists.2
    (⟨m, hmem, by simp⟩ : ∃ x ∈ s.m_regions.map (fun r => r.m_id), ¬ (fun k => k != m) x = true)
  simpa using this

theorem scan_merge_length_lt (sc : Scan) (cr cn : Region)
    (h : findMergePartner sc.seg cr = some cn) :
    (sc.merge cr cn).seg.m_regions.length < sc.seg.m_regions.length :=
  length_mergeStep_lt _ _ _ (isLive_of_getRegion (findMergePartner_live h).2)

theorem mergeRegionsLoop_isSome :
    ∀ (fuel : Nat) (sc : Scan) (it : Option Nat), scanMeasure sc it < fuel →
      (mergeRegionsLoop fuel sc it).isSome = true := by
  intro fuel
  induction fuel with
  | zero => intro sc it h; omega
  | succ fuel ih =>
    intro sc it h
    cases it with
    | none => simp [mergeRegionsLoop]
    | some cur =>
      have hadv : ∀ sc0 : Scan, sc0.seg.m_regions.length ≤ sc.seg.m_regions.length →
          (sc0.regions.filter (fun k => decide (cur < k))).length ≤
            (sc.regions.filter (fun k => decide (cur < k))).length →
          scanMeasure sc0 (nextKey sc0.regions cur) < fuel := by
        intro sc0 hlen hcnt
        unfold scanMeasure at h ⊢
        cases hn : nextKey sc0.regions cur with
        | none => simp only at h ⊢; omega
        | some nx =>
          have := nextKey_measure _ _ _ hn
          simp only at h ⊢
          omega
      unfold mergeRegionsLoop
      cases hg : getRegion sc.seg.m_regions cur with
      | none => exact ih _ _ (hadv sc (le_refl _) (le_refl _))
      | some cr =>
        simp only
        cases hp : findMergePartner sc.seg cr with
        | none => exact ih _ _ (hadv sc (le_refl _) (le_refl _))
        | some cn =>
          simp only
          have hlt := scan_merge_length_lt sc cr cn hp
          have hcnt : ((sc.merge cr cn).regions.filter (fun k => decide (cur < k))).length ≤
              (sc.regions.filter (fun k => decide (cur < k))).length :=
            length_filter_filter_le _ _ _
          split
          · apply ih
            unfold scanMeasure at h ⊢
            simp only at h ⊢
            omega
          · exact ih _ _ (hadv _ (le_of_lt hlt) hcnt)

theorem mergeRegionsLoop_invariant (Inv : Scan → Prop)
    (hstep : ∀ sc cur cr cn, Inv sc → getRegion sc.seg.m_regions cur = some cr →
      findMergePartner sc.seg cr = some cn → Inv (sc.merge cr cn)) :
    ∀ (fuel : Nat) (sc : Scan) (it : Option Nat) (sc' : Scan), Inv sc →
      mergeRegionsLoop fuel sc it = some sc' → Inv sc' := by
  intro fuel
  induction fuel with
  | zero => intro sc it sc' _ h; simp [mergeRegionsLoop] at h
  | succ fuel ih =>
    intro sc it sc' hinv h
    cases it with
    | none =>
      simp only [mergeRegionsLoop, Option.some.injEq] at h
      exact h ▸ hinv
    | some cur =>
      unfold mergeRegionsLoop at h
      cases hg : getRegion sc.seg.m_regions cur with
      | none => rw [hg] at h; exact ih _ _ _ hinv h
      | some cr =>
        rw [hg] at h
        simp only at h
        cases hp : findMergePartner sc.seg cr with
        | none => rw [hp] at h; exact ih _ _ _ hinv h
        | some cn =>
          rw [hp] at h
          simp only at h
          have hinv' := hstep sc cur cr cn hinv hg hp
          split at h
          · exact ih _ _ _ hinv' h
          · exact ih _ _ _ hinv' h

theorem growRegion_isSome :
    ∀ (fuel : Nat) (sc : Scan) (cur : Nat), sc.seg.m_regions.length < fuel →
      (growRegion fuel sc cur).isSome = true := by
  intro fuel
  induction fuel with
  | zero => intro sc cur h; omega
  | succ fuel ih =>
    intro sc cur h
    unfold growRegion
    cases hg : getRegion sc.seg.m_regions cur with
    | none => rfl
    | some cr =>
      simp only
      cases hp : findMergePartner sc.seg cr with
      | none => rfl
      | some cn =>
        simp only
        have hlt := scan_merge_length_lt sc cr cn hp
        split
        · rfl
        · apply ih; omega

theorem growRegion_invariant (Inv : Scan → Prop)
    (hstep : ∀ sc cur cr cn, Inv sc → getRegion sc.seg.m_regions cur = some cr →
      findMergePartner sc.seg cr = some cn → Inv (sc.merge cr cn)) :
    ∀ (fuel : Nat) (sc : Scan) (cur : Nat) (sc' : Scan), Inv sc →
      growRegion fuel sc cur = some sc' → Inv sc' := by
  intro fuel
  induction fuel with
  | zero => intro sc cur sc' _ h; simp [growRegion] at h
  | succ fuel ih =>
    intro sc cur sc' hinv h
    unfold growRegion at h
    cases hg : getRegion sc.seg.m_regions cur with
    | none =>
      rw [hg] at h
      simp only [Option.some.injEq] at h
      exact h ▸ hinv
    | some cr =>
      rw [hg] at h
      simp only at h
      cases hp : findMergePartner sc.seg cr with
      | none =>
        rw [hp] at h
        simp only [Option.some.injEq] at h
        exact h ▸ hinv
      | some cn =>
        rw [hp] at h
        simp only at h
        have hinv' := hstep sc cur cr cn hinv hg hp
        split at h
        · simp only [Option.some.injEq] at h
          exact h ▸ hinv'
        · exact ih _ _ _ hinv' h

theorem mergeRegionsRandomlyLoop_isSome :
    ∀ (ids : List Nat) (sc : Scan), (mergeRegionsRandomlyLoop ids sc).isSome = true := by
  intro ids
  induction ids with
  | nil => intro sc; rfl
  | cons id ids ih =>
    intro sc
    unfold mergeRegionsRandomlyLoop
    split
    · have := growRegion_isSome (sc.seg.m_regions.length + 1) sc id (Nat.lt_succ_self _)
      obtain ⟨sc1, h1⟩ := Option.isSome_iff_exists.1 this
      rw [h1]
      exact ih sc1
    · exact ih sc

theorem mergeRegionsRandomlyLoop_invariant (Inv : Scan → Prop)
    (hstep : ∀ sc cur cr cn, Inv sc → getRegion sc.seg.m_regions cur = some cr →
      findMergePartner sc.seg cr = some cn → Inv (sc.merge cr cn)) :
    ∀ (ids : List Nat) (sc sc' : Scan), Inv sc →
      mergeRegionsRandomlyLoop ids sc = some sc' → Inv sc' := by
  intro ids
  induction ids with
  | nil =>
    intro sc sc' hinv h
    simp only [mergeRegionsRandomlyLoop, Option.some.injEq] at h
    exact h ▸ hinv
  | cons id ids ih =>
    intro sc sc' hinv h
    unfold mergeRegionsRandomlyLoop at h
    split at h
    · cases h1 : growRegion (sc.seg.m_regions.length + 1) sc id with
      | none => rw [h1] at h; cases h
      | some sc1 =>
        rw [h1] at h
        exact ih _ _ (growRegion_invariant Inv hstep _ _ _ _ hinv h1) h
    · exact ih _ _ hinv h

/-! ## Region count over growth scans -/

theorem mergeStep_similarityIncreaseStep (s : MultiSeg) (R m : Nat) :
    (mergeStep s R m).m_similarityIncreaseStep = s.m_similarityIncreaseStep := by
  unfold mergeStep
  cases getRegion s.m_regions m <;> rfl

/-- An invariant of every growth scan: the table stays sorted, each merge removes
exactly one entry, and the annealing step count is not touched. -/
theorem scan_count_step (n k : Nat) (sc : Scan) (cur : Nat) (cr cn : Region)
    (hinv : TableSorted sc.seg.m_regions ∧ sc.seg.m_regions.length + sc.mergedRegions = n ∧
      sc.seg.m_similarityIncreaseStep = k)
    (_hg : getRegion sc.seg.m_regions cur = some cr)
    (hp : findMergePartner sc.seg cr = some cn) :
    TableSorted (sc.merge cr cn).seg.m_regions ∧
      (sc.merge cr cn).seg.m_regions.length + (sc.merge cr cn).mergedRegions = n ∧
      (sc.merge cr cn).seg.m_similarityIncreaseStep = k := by
  obtain ⟨hs, hn, hk⟩ := hinv
  have hl : isLive sc.seg.m_regions cn.m_id = true :=
    isLive_of_getRegion (findMergePartner_live hp).2
  refine ⟨tableSorted_mergeStep _ _ _ hs, ?_, ?_⟩
  · have := length_mergeStep sc.seg cr.m_id cn.m_id hs hl
    simp only [Scan.merge]
    omega
  · simp only [Scan.merge, mergeStep_similarityIncreaseStep, hk]

theorem mergeRegions_count (s : MultiSeg) (regions : List Nat) (hs : TableSorted s.m_regions) :
    ∃ sc, mergeRegions s regions = some sc ∧ TableSorted sc.seg.m_regions ∧
      sc.seg.m_regions.length + sc.mergedRegions = s.m_regions.length ∧
      sc.seg.m_similarityIncreaseStep = s.m_similarityIncreaseStep := by
  have hsome : (mergeRegions s regions).isSome = true := by
    apply mergeRegionsLoop_isSome
    unfold scanMeasure
    cases regions with
    | nil => simp
    | cons h t =>
      have : ((h :: t).filter (fun k => decide (h < k))).length ≤ t.length := by
        simp only [List.filter_cons, lt_irrefl, decide_False, Bool.false_eq_true, if_false]
        exact List.length_filter_le _ _
      simp only [List.head?_cons, List.length_cons]
      omega
  obtain ⟨sc, hsc⟩ := Option.isSome_iff_exists.1 hsome
  refine ⟨sc, hsc, ?_⟩
  exact mergeRegionsLoop_invariant _
    (scan_count_step s.m_regions.length s.m_similarityIncreaseStep) _ ⟨s, regions, 0, []⟩ _ _
    ⟨hs, rfl, rfl⟩ hsc

theorem mergeRegionsRandomly_count (shuffle : List Nat → List Nat) (s : MultiSeg)
    (regions : List Nat) (hs : TableSorted s.m_regions) :
    ∃ sc, mergeRegionsRandomly shuffle s regions = some sc ∧ TableSorted sc.seg.m_regions ∧
      sc.seg.m_regions.length + sc.mergedRegions = s.m_regions.length ∧
      sc.seg.m_similarityIncreaseStep = s.m_similarityIncreaseStep := by
  have hsome : (mergeRegionsRandomly shuffle s regions).isSome = true :=
    mergeRegionsRandomlyLoop_isSome _ _
  obtain ⟨sc, hsc⟩ := Option.isSome_iff_exists.1 hsome
  refine ⟨sc, hsc, ?_⟩
  exact mergeRegionsRandomlyLoop_invariant _
    (scan_count_step s.m_regions.length s.m_similarityIncreaseStep) _ ⟨s, regions, 0, []⟩ _
    ⟨hs, rfl, rfl⟩ hsc

theorem executeRegionGrowingLoop_counts (useRandomSeeds : Bool)
    (shuffle : Nat → List Nat → List Nat) (maxIterations : Nat) :
    ∀ (fuel : Nat) (g : Growth), TableSorted g.seg.m_regions →
      g.noMergeIterations ≤ g.seg.m_similarityIncreaseStep →
      g.seg.m_regions.length + (g.seg.m_similarityIncreaseStep + 1 - g.noMergeIterations) ≤ fuel →
      ∃ g' tail, executeRegionGrowingLoop useRandomSeeds shuffle maxIterations fuel g = some g' ∧
        g'.counts = g.counts ++ tail ∧
        List.Chain' (fun a b => b ≤ a) (g.seg.m_regions.length :: tail) ∧
        (g.seg.m_regions.length :: tail).getLast? = some g'.seg.m_regions.length ∧
        tail ≠ [] := by
  intro fuel
  induction fuel with
  | zero => intro g _ h1 h2; omega
  | succ fuel ih =>
    intro g hs hno hfuel
    have hscan : ∃ sc, (if useRandomSeeds = false then mergeRegions g.seg g.regions
        else mergeRegionsRandomly (shuffle g.iteration) g.seg g.regions) = some sc ∧
        TableSorted sc.seg.m_regions ∧
        sc.seg.m_regions.length + sc.mergedRegions = g.seg.m_regions.length ∧
        sc.seg.m_similarityIncreaseStep = g.seg.m_similarityIncreaseStep := by
      cases useRandomSeeds
      · simpa using mergeRegions_count g.seg g.regions hs
      · simpa using mergeRegionsRandomly_count (shuffle g.iteration) g.seg g.regions hs
    obtain ⟨sc, hsc, hs', hcnt, hstep⟩ := hscan
    have hle : sc.seg.m_regions.length ≤ g.seg.m_regions.length := by omega
    have hone : List.Chain' (fun a b => b ≤ a)
        (g.seg.m_regions.length :: [sc.seg.m_regions.length]) := by
      simp [List.chain'_cons, hle]
    unfold executeRegionGrowingLoop
    rw [hsc]
    simp only
    by_cases hmax : g.iteration + 1 = maxIterations
    · rw [if_pos hmax]
      exact ⟨_, [sc.seg.m_regions.length], rfl, rfl, hone, rfl, by simp⟩
    · rw [if_neg hmax]
      by_cases hzero : sc.mergedRegions = 0
      · rw [if_pos hzero]
        by_cases hbrk : g.noMergeIterations + 1 > g.seg.m_similarityIncreaseStep
        · rw [if_pos hbrk]
          exact ⟨_, [sc.seg.m_regions.length], rfl, rfl, hone, rfl, by simp⟩
        · rw [if_neg hbrk]
          obtain ⟨g', tail, h1, h2, h3, h4, _⟩ := ih
            { g with seg := { sc.seg with
                        m_merger := sc.seg.m_merger.setEuclideanDistanceThreshold
                          (g.threshold + g.seg.m_currentSimilarity /
                            ((g.seg.m_similarityIncreaseStep + 1 : Nat) : ℚ)) }
                     regions := sc.regions
                     iteration := g.iteration + 1
                     counts := g.counts ++ [sc.seg.m_regions.length]
                     noMergeIterations := g.noMergeIterations + 1
                     threshold := g.threshold + g.seg.m_currentSimilarity /
                            ((g.seg.m_similarityIncreaseStep + 1 : Nat) : ℚ) }
            hs' (by simp only [hstep]; omega) (by simp only [hstep]; omega)
          refine ⟨g', sc.seg.m_regions.length :: tail, h1, ?_, ?_, ?_, by simp⟩
          · rw [h2]; simp
          · exact List.Chain'.cons hle h3
          · rw [List.getLast?_cons_cons]; exact h4
      · rw [if_neg hzero]
        obtain ⟨g', tail, h1, h2, h3, h4, _⟩ := ih
          { g with seg := sc.seg, regions := sc.regions, iteration := g.iteration + 1,
                   counts := g.counts ++ [sc.seg.m_regions.length] }
          hs' (by simp only [hstep]; omega) (by simp only [hstep]; omega)
        refine ⟨g', sc.seg.m_regions.length :: tail, h1, ?_, ?_, ?_, by simp⟩
        · rw [h2]; simp
        · exact List.Chain'.cons hle h3
        · rw [List.getLast?_cons_cons]; exact h4

/-- C4: on a region table kept as a `std::map`, `mergeRegions` and
`mergeRegionsRandomly` return, and the number `mergedRegions` they return is exactly
the number of entries the table lost; over the scans of one `executeRegionGrowing`
call, which returns too, the region count never increases. -/
theorem growth_scan_region_count (s : MultiSeg) (regions : List Nat)
    (hs : TableSorted s.m_regions) :
    (∃ sc, mergeRegions s regions = some sc ∧
      sc.seg.m_regions.length + sc.mergedRegions = s.m_regions.length) ∧
    (∀ shuffle : List Nat → List Nat, ∃ sc, mergeRegionsRandomly shuffle s regions = some sc ∧
      sc.seg.m_regions.length + sc.mergedRegions = s.m_regions.length) ∧
    (∀ (useRandomSeeds : Bool) (shuffle : Nat → List Nat → List Nat) (maxIterations : Nat),
      ∃ g, executeRegionGrowing s regions useRandomSeeds shuffle maxIterations = some g ∧
        g.counts ≠ [] ∧
        List.Chain' (fun before after => after ≤ before) (s.m_regions.length :: g.counts) ∧
        g.counts.getLast? = some g.seg.m_regions.length ∧
        g.seg.m_regions.length ≤ s.m_regions.length) := by
  refine ⟨?_, ?_, ?_⟩
  · obtain ⟨sc, h1, _, h2, _⟩ := mergeRegions_count s regions hs
    exact ⟨sc, h1, h2⟩
  · intro shuffle
    obtain ⟨sc, h1, _, h2, _⟩ := mergeRegionsRandomly_count shuffle s regions hs
    exact ⟨sc, h1, h2⟩
  · intro useRandomSeeds shuffle maxIterations
    obtain ⟨g', tail, h1, h2, h3, h4, h5⟩ :=
      executeRegionGrowingLoop_counts useRandomSeeds shuffle maxIterations
        (s.m_regions.length + s.m_similarityIncreaseStep + 1)
        ⟨{ s with
            m_merger := s.m_merger.setEuclideanDistanceThreshold
              (s.m_currentSimilarity / ((s.m_similarityIncreaseStep + 1 : Nat) : ℚ)) },
          regions, 0, 0, s.m_currentSimilarity / ((s.m_similarityIncreaseStep + 1 : Nat) : ℚ), []⟩
        hs (Nat.zero_le _) (by simp only; omega)
    simp only [List.nil_append] at h2
    have hlast : tail.getLast? = some g'.seg.m_regions.length := by
      cases tail with
      | nil => exact absurd rfl h5
      | cons a t => rwa [List.getLast?_cons_cons] at h4
    have hle : g'.seg.m_regions.length ≤ s.m_regions.length := by
      have hrel : ∀ a ∈ tail, a ≤ s.m_regions.length := by
        have htr : List.Chain (fun before after => after ≤ before) s.m_regions.length tail := h3
        have := List.pairwise_cons.1 (List.chain_iff_pairwise.1 htr)
        exact this.1
      exact hrel _ (List.mem_of_getLast?_eq_some hlast)
    unfold executeRegionGrowing
    simp only
    rw [h1]
    exact ⟨_, rfl, by simpa [h2] using h5, by simpa [h2] using h3, by simpa [h2] using hlast, hle⟩

/-- C4 on the 1 x 2 grid of two pixels of value 10. -/
theorem growth_scan_region_count_witness :
    TableSorted (initializeRegions (sampleSeg 1 2) sampleImage).m_regions ∧
    ∃ sc, mergeRegions (initializeRegions (sampleSeg 1 2) sampleImage) [0, 1] = some sc ∧
      sc.seg.m_regions.length + sc.mergedRegions =
        (initializeRegions (sampleSeg 1 2) sampleImage).m_regions.length :=
  ⟨by decide, (growth_scan_region_count _ [0, 1] (by decide)).1⟩

/-! ## Mutual best fitting -/

theorem logChain_append (s s' : MultiSeg) (log : List MergeEvent) (A B : Nat)
    (h : logChain s log s') :
    logChain s (log ++ [⟨s', A, B⟩]) (mergeStep s' A B) := by
  induction log generalizing s with
  | nil =>
    simp only [logChain] at h
    subst h
    exact ⟨rfl, rfl⟩
  | cons e rest ih =>
    obtain ⟨h1, h2⟩ := h
    exact ⟨h1, ih _ h2⟩

theorem mergeStep_enableMutualBestFitting (s : MultiSeg) (R m : Nat) :
    (mergeStep s R m).m_enableMutualBestFitting = s.m_enableMutualBestFitting := by
  unfold mergeStep
  cases getRegion s.m_regions m <;> rfl

theorem findMergePartner_mutual {s : MultiSeg} {cur c : Region}
    (hmb : s.m_enableMutualBestFitting = true) (h : findMergePartner s cur = some c) :
    ∃ back, getClosestRegion s c false = some back ∧ back.m_id = cur.m_id := by
  have h1 := findMergePartner_closest h
  unfold findMergePartner at h
  simp only [h1, hmb, if_true] at h
  cases h2 : getClosestRegion s c false with
  | none => simp [h2] at h
  | some back =>
    simp only [h2] at h
    by_cases hb : back.m_id ≠ cur.m_id
    · simp [hb] at h
    · exact ⟨back, rfl, not_not.1 hb⟩

theorem findMergePartner_none_of_not_mutual {s : MultiSeg} {A B : Region}
    (hmb : s.m_enableMutualBestFitting = true)
    (hAB : getClosestRegion s A false = some B)
    (hback : getClosestRegion s B false = none ∨
      ∃ A', getClosestRegion s B false = some A' ∧ A'.m_id ≠ A.m_id) :
    findMergePartner s A = none := by
  unfold findMergePartner
  simp only [hAB, hmb, if_true]
  rcases hback with h | ⟨A', h, hne⟩
  · simp [h]
  · simp [h, hne]

/-- The invariant of a growth scan under mutual best fitting. -/
theorem scan_mutual_step (s : MultiSeg) (sc : Scan) (cur : Nat) (cr cn : Region)
    (hinv : sc.seg.m_enableMutualBestFitting = true ∧ logChain s sc.log sc.seg ∧
      sc.mergedRegions = sc.log.length ∧ ∀ e ∈ sc.log, MutualBest e)
    (hg : getRegion sc.seg.m_regions cur = some cr)
    (hp : findMergePartner sc.seg cr = some cn) :
    (sc.merge cr cn).seg.m_enableMutualBestFitting = true ∧
      logChain s (sc.merge cr cn).log (sc.merge cr cn).seg ∧
      (sc.merge cr cn).mergedRegions = (sc.merge cr cn).log.length ∧
      ∀ e ∈ (sc.merge cr cn).log, MutualBest e := by
  obtain ⟨hmb, hchain, hlen, hall⟩ := hinv
  refine ⟨?_, ?_, ?_, ?_⟩
  · simp only [Scan.merge, mergeStep_enableMutualBestFitting, hmb]
  · exact logChain_append s sc.seg sc.log cr.m_id cn.m_id hchain
  · simp [Scan.merge, hlen]
  · intro e he
    simp only [Scan.merge, List.mem_append, List.mem_singleton] at he
    rcases he with he | he
    · exact hall e he
    · subst he
      have hcur : getRegion sc.seg.m_regions cr.m_id = some cr := by
        rw [(getRegion_some hg).1]; exact hg
      obtain ⟨back, hb1, hb2⟩ := findMergePartner_mutual hmb hp
      have hb3 := (getClosestRegion_live hb1).2
      rw [hb2, hcur] at hb3
      have hback : back = cr := (Option.some.inj hb3).symm
      exact ⟨cr, cn, hcur, (findMergePartner_live hp).2, findMergePartner_closest hp,
        hback ▸ hb1⟩

/-- C8: with mutual best fitting enabled, every merge of a growth scan joins two
regions that are each other's closest region in the state right before the merge,
and a visit of a region whose closest region has no closest region, or another one,
merges nothing and leaves the engine as it is. -/
theorem mutual_best_fitting (s : MultiSeg) (hmb : s.m_enableMutualBestFitting = true) :
    (∀ regions sc, mergeRegions s regions = some sc →
      logChain s sc.log sc.seg ∧ sc.mergedRegions = sc.log.length ∧
        ∀ e ∈ sc.log, MutualBest e) ∧
    (∀ shuffle regions sc, mergeRegionsRandomly shuffle s regions = some sc →
      logChain s sc.log sc.seg ∧ sc.mergedRegions = sc.log.length ∧
        ∀ e ∈ sc.log, MutualBest e) ∧
    (∀ (sc : Scan) (cur : Nat) (A B : Region) (fuel : Nat), sc.seg = s →
      getRegion s.m_regions cur = some A →
      getClosestRegion s A false = some B →
      (getClosestRegion s B false = none ∨
        ∃ A', getClosestRegion s B false = some A' ∧ A'.m_id ≠ A.m_id) →
      findMergePartner s A = none ∧
      mergeRegionsLoop (fuel + 1) sc (some cur) =
        mergeRegionsLoop fuel sc (nextKey sc.regions cur) ∧
      growRegion (fuel + 1) sc cur = some sc) := by
  refine ⟨?_, ?_, ?_⟩
  · intro regions sc h
    exact (mergeRegionsLoop_invariant _ (scan_mutual_step s) _ ⟨s, regions, 0, []⟩ _ _
      ⟨hmb, rfl, rfl, by simp⟩ h).2
  · intro shuffle regions sc h
    exact (mergeRegionsRandomlyLoop_invariant _ (scan_mutual_step s) _ ⟨s, regions, 0, []⟩ _
      ⟨hmb, rfl, rfl, by simp⟩ h).2
  · intro sc cur A B fuel hsc hg hAB hback
    have hnone := findMergePartner_none_of_not_mutual hmb hAB hback
    subst hsc
    refine ⟨hnone, ?_, ?_⟩
    · rw [mergeRegionsLoop]
      simp only [hg, hnone]
    · rw [growRegion]
      simp only [hg, hnone]

/-- C8 on the 1 x 2 grid of two pixels of value 10. -/
theorem mutual_best_fitting_witness :
    (initializeRegions (sampleSeg 1 2) sampleImage).m_enableMutualBestFitting = true ∧
    ∀ regions sc, mergeRegions (initializeRegions (sampleSeg 1 2) sampleImage) regions = some sc →
      logChain (initializeRegions (sampleSeg 1 2) sampleImage) sc.log sc.seg ∧
        sc.mergedRegions = sc.log.length ∧ ∀ e ∈ sc.log, MutualBest e :=
  ⟨rfl, (mutual_best_fitting _ rfl).1⟩

/-! ## The labelled raster -/

theorem setElement_nlines (img : LabelImage) (col lin v : Nat) :
    (img.setElement col lin v).nlines = img.nlines := by
  unfold LabelImage.setElement; split <;> rfl

theorem setElement_ncols (img : LabelImage) (col lin v : Nat) :
    (img.setElement col lin v).ncols = img.ncols := by
  unfold LabelImage.setElement; split <;> rfl

theorem setElement_cell (img : LabelImage) (col lin v l c : Nat) :
    (img.setElement col lin v).cell l c =
      if l = lin ∧ c = col ∧ lin < img.nlines ∧ col < img.ncols then v else img.cell l c := by
  unfold LabelImage.setElement
  by_cases h1 : lin < img.nlines <;> by_cases h2 : col < img.ncols <;>
    by_cases h3 : l = lin <;> by_cases h4 : c = col <;> simp [h1, h2, h3, h4]

theorem getElement_eq (img : LabelImage) (col lin : Nat) :
    img.getElement col lin =
      if lin < img.nlines ∧ col < img.ncols then some (img.cell lin col) else none := rfl

theorem mem_boxCells (r : Region) (l c : Nat) : (l, c) ∈ boxCells r ↔ r.inBox l c := by
  unfold boxCells Region.inBox
  simp only [List.mem_flatMap, List.mem_range', List.mem_map, Prod.mk.injEq]
  constructor
  · rintro ⟨lin, ⟨i, hi, rfl⟩, col, ⟨j, hj, rfl⟩, h1, h2⟩
    subst h1 h2
    omega
  · rintro ⟨h1, h2, h3, h4⟩
    exact ⟨l, ⟨l - r.m_yStart, by omega, by omega⟩, c, ⟨c - r.m_xStart, by omega, by omega⟩,
      rfl, rfl⟩

theorem relabelCells_dims (cells : List (Nat × Nat)) (img : LabelImage) (old new : Nat) :
    (relabelCells img cells old new).nlines = img.nlines ∧
      (relabelCells img cells old new).ncols = img.ncols := by
  induction cells generalizing img with
  | nil => exact ⟨rfl, rfl⟩
  | cons p rest ih =>
    unfold relabelCells
    rw [List.foldl_cons]
    have := ih (match img.getElement p.2 p.1 with
      | some value => if value = old then img.setElement p.2 p.1 new else img
      | none => img)
    unfold relabelCells at this
    rw [this.1, this.2]
    cases img.getElement p.2 p.1 with
    | none => exact ⟨rfl, rfl⟩
    | some v =>
      simp only
      split
      · exact ⟨setElement_nlines _ _ _ _, setElement_ncols _ _ _ _⟩
      · exact ⟨rfl, rfl⟩

theorem relabelCells_cell (cells : List (Nat × Nat)) (img : LabelImage) (old new l c : Nat) :
    (relabelCells img cells old new).cell l c =
      if (l, c) ∈ cells ∧ l < img.nlines ∧ c < img.ncols ∧ img.cell l c = old then new
      else img.cell l c := by
  induction cells generalizing img with
  | nil => simp [relabelCells]
  | cons p rest ih =>
    have hstep : relabelCells img (p :: rest) old new =
        relabelCells (match img.getElement p.2 p.1 with
          | some value => if value = old then img.setElement p.2 p.1 new else img
          | none => img) rest old new := by
      unfold relabelCells; rw [List.foldl_cons]
    rw [hstep, ih]
    obtain ⟨pl, pc⟩ := p
    simp only [getElement_eq, List.mem_cons, Prod.mk.injEq]
    by_cases hin : pl < img.nlines ∧ pc < img.ncols
    · simp only [hin, and_self, if_true]
      by_cases hold : img.cell pl pc = old
      · simp only [hold, if_true, setElement_nlines, setElement_ncols, setElement_cell]
        by_cases hp : l = pl ∧ c = pc
        · obtain ⟨h1, h2⟩ := hp
          subst h1 h2
          simp only [and_self, hin, if_true, true_or, hold, true_and]
          split <;> rfl
        · have hp' : ¬ (l = pl ∧ c = pc ∧ pl < img.nlines ∧ pc < img.ncols) :=
            fun h => hp ⟨h.1, h.2.1⟩
          simp only [hp', if_false, hp, false_or]
      · simp only [hold, if_false]
        by_cases hp : l = pl ∧ c = pc
        · obtain ⟨h1, h2⟩ := hp
          subst h1 h2
          simp [hold]
        · simp only [hp, false_or]
    · simp only [hin, if_false]
      by_cases hp : l = pl ∧ c = pc
      · obtain ⟨h1, h2⟩ := hp
        subst h1 h2
        have : ¬ (l < img.nlines ∧ c < img.ncols ∧ img.cell l c = old) :=
          fun h => hin ⟨h.1, h.2.1⟩
        have h2 : ¬ ((l, c) ∈ rest ∧ l < img.nlines ∧ c < img.ncols ∧ img.cell l c = old) :=
          fun h => this h.2
        simp [this, h2]
      · simp only [hp, false_or]

theorem updateLabelledImage_eq (img : LabelImage) (regionId : Nat) (merged : Region) :
    updateLabelledImage img regionId merged =
      relabelCells img (boxCells merged) merged.m_id regionId := rfl

theorem invalidateRegionPixels_eq (img : LabelImage) (region : Region) :
    invalidateRegionPixels img region = relabelCells img (boxCells region) region.m_id npos := by
  unfold invalidateRegionPixels relabelCells
  congr 1
  funext img p
  cases img.getElement p.2 p.1 with
  | none => rfl
  | some v =>
    simp only
    by_cases h : v = region.m_id <;> simp [h]

/-! ## Label-grid consistency under the merge step -/

theorem inBox_of_core_eq {r q : Region} (h : r.core = q.core) (l c : Nat) :
    r.inBox l c ↔ q.inBox l c := by
  have h1 : r.core.m_yStart = q.core.m_yStart := congrArg Region.m_yStart h
  have h2 : r.core.m_yBound = q.core.m_yBound := congrArg Region.m_yBound h
  have h3 : r.core.m_xStart = q.core.m_xStart := congrArg Region.m_xStart h
  have h4 : r.core.m_xBound = q.core.m_xBound := congrArg Region.m_xBound h
  change r.m_yStart = q.m_yStart at h1
  change r.m_yBound = q.m_yBound at h2
  change r.m_xStart = q.m_xStart at h3
  change r.m_xBound = q.m_xBound at h4
  unfold Region.inBox
  rw [h1, h2, h3, h4]

theorem getRegion_core_mergeStep (s : MultiSeg) (R m : Nat) (rr mr : Region)
    (hR : getRegion s.m_regions R = some rr) (hm : getRegion s.m_regions m = some mr)
    (x : Nat) (hx : x ≠ m) :
    (getRegion (mergeStep s R m).m_regions x).map Region.core =
      if x = R then some (EuclideanMerger.merge rr mr).core
      else (getRegion s.m_regions x).map Region.core := by
  rw [mergeStep_regions s R m mr hm, getRegion_eraseRegion, if_neg hx,
    getRegion_core_eq (map_core_updateNeighborhoodAfterMerge _ R m),
    getRegion_mergeInTable _ R m mr hm]
  by_cases hxR : x = R
  · subst hxR
    simp [hR]
  · simp [hxR]

/-- C3: a merge step keeps the label grid consistent. If every cell holds the id of a
live region and lies inside its bounding box, the same holds after `merge`,
`updateLabelledImage` and the erase of the absorbed region; the cells that held the
absorbed id hold the survivor's id, no cell holds the absorbed id, every other cell
is unchanged. -/
theorem merge_step_label_grid (s : MultiSeg) (R m : Nat) (rr mr : Region)
    (hs : TableSorted s.m_regions)
    (hgrid : GridConsistent s.m_regions s.m_labelledImage)
    (hR : getRegion s.m_regions R = some rr) (hm : getRegion s.m_regions m = some mr)
    (hRm : R ≠ m) :
    GridConsistent (mergeStep s R m).m_regions (mergeStep s R m).m_labelledImage ∧
    (mergeStep s R m).m_labelledImage.nlines = s.m_labelledImage.nlines ∧
    (mergeStep s R m).m_labelledImage.ncols = s.m_labelledImage.ncols ∧
    (∀ lin col, lin < s.m_labelledImage.nlines → col < s.m_labelledImage.ncols →
      (s.m_labelledImage.cell lin col = m →
        (mergeStep s R m).m_labelledImage.cell lin col = R) ∧
      (s.m_labelledImage.cell lin col ≠ m →
        (mergeStep s R m).m_labelledImage.cell lin col = s.m_labelledImage.cell lin col) ∧
      (mergeStep s R m).m_labelledImage.cell lin col ≠ m) ∧
    getRegion (mergeStep s R m).m_regions m = none := by
  have himg := mergeStep_labelledImage s R m mr hm
  have hmid : mr.m_id = m := (getRegion_some hm).1
  have hdims := relabelCells_dims (boxCells mr) s.m_labelledImage mr.m_id R
  have hcell : ∀ lin col, lin < s.m_labelledImage.nlines → col < s.m_labelledImage.ncols →
      (mergeStep s R m).m_labelledImage.cell lin col =
        if s.m_labelledImage.cell lin col = m then R else s.m_labelledImage.cell lin col := by
    intro lin col hl hc
    rw [himg, updateLabelledImage_eq, relabelCells_cell, hmid]
    by_cases hv : s.m_labelledImage.cell lin col = m
    · obtain ⟨r, hr, hrid, hbox⟩ := hgrid lin hl col hc
      have hrm : r = mr := by
        have := (getRegion_eq_some_iff hs).2 ⟨hr, hrid.trans hv⟩
        rw [hm] at this
        exact (Option.some.inj this).symm
      subst hrm
      simp [hv, hl, hc, (mem_boxCells _ lin col).2 hbox]
    · simp [hv]
  refine ⟨?_, ?_, ?_, ?_, ?_⟩
  · intro lin hl col hc
    rw [himg, updateLabelledImage_eq, hdims.1] at hl
    rw [himg, updateLabelledImage_eq, hdims.2] at hc
    rw [hcell lin col hl hc]
    obtain ⟨r, hr, hrid, hbox⟩ := hgrid lin hl col hc
    have hrget : getRegion s.m_regions (s.m_labelledImage.cell lin col) = some r :=
      (getRegion_eq_some_iff hs).2 ⟨hr, hrid⟩
    -- the region that owns the cell after the step
    have hfind : ∀ x, x ≠ m → ∀ q : Region,
        (if x = R then some (EuclideanMerger.merge rr mr).core
          else (getRegion s.m_regions x).map Region.core) = some q.core →
        q.inBox lin col → ∃ r' ∈ (mergeStep s R m).m_regions, r'.m_id = x ∧ r'.inBox lin col := by
      intro x hx q hq hqbox
      have h1 := getRegion_core_mergeStep s R m rr mr hR hm x hx
      rw [hq] at h1
      cases h2 : getRegion (mergeStep s R m).m_regions x with
      | none => simp [h2] at h1
      | some r' =>
        rw [h2] at h1
        have hcore : r'.core = q.core := by simpa using h1
        exact ⟨r', (getRegion_some h2).2, (getRegion_some h2).1,
          (inBox_of_core_eq hcore lin col).2 hqbox⟩
    by_cases hv : s.m_labelledImage.cell lin col = m
    · rw [if_pos hv]
      have hrm : r = mr := by
        rw [hv, hm] at hrget
        exact (Option.some.inj hrget).symm
      subst hrm
      exact hfind R hRm (EuclideanMerger.merge rr r) (by simp)
        (merge_inBox_of_inBox rr r lin col (Or.inr hbox))
    · rw [if_neg hv]
      by_cases hvR : s.m_labelledImage.cell lin col = R
      · have hrr : r = rr := by
          rw [hvR, hR] at hrget
          exact (Option.some.inj hrget).symm
        subst hrr
        rw [hvR]
        exact hfind R hRm (EuclideanMerger.merge r mr) (by simp)
          (merge_inBox_of_inBox r mr lin col (Or.inl hbox))
      · exact hfind _ hv r (by simp [hvR, hrget]) hbox
  · rw [himg, updateLabelledImage_eq]; exact hdims.1
  · rw [himg, updateLabelledImage_eq]; exact hdims.2
  · intro lin col hl hc
    rw [hcell lin col hl hc]
    refine ⟨fun h => by simp [h], fun h => by simp [h], ?_⟩
    by_cases hv : s.m_labelledImage.cell lin col = m
    · simp [hv, hRm]
    · simp [hv]
  · rw [mergeStep_regions s R m mr hm, getRegion_eraseRegion, if_pos rfl]

/-- C3 on the 1 x 2 grid: the right pixel is merged into the left one. -/
theorem merge_step_label_grid_witness :
    TableSorted twoPixelSeg.m_regions ∧
    GridConsistent twoPixelSeg.m_regions twoPixelSeg.m_labelledImage ∧
    getRegion twoPixelSeg.m_regions 0 = some pixelA ∧
    getRegion twoPixelSeg.m_regions 1 = some pixelB ∧
    GridConsistent (mergeStep twoPixelSeg 0 1).m_regions
      (mergeStep twoPixelSeg 0 1).m_labelledImage :=
  ⟨by decide, by decide, rfl, rfl,
    (merge_step_label_grid twoPixelSeg 0 1 pixelA pixelB (by decide) (by decide) rfl rfl
      (by decide)).1⟩

/-! ## Region initialisation: from the pixel loops to row-major indices -/

theorem generateId_div_mod (k W : Nat) : GenerateId (k / W) (k % W) W = k := by
  unfold GenerateId
  exact Nat.div_add_mod' k W

theorem initializePixel_eq_index (bands : List Nat) (image : Image) (W : Nat) (hW : 0 < W)
    (st : List Region × LabelImage) (k : Nat) :
    initializePixel bands image W st (k / W) (k % W) = initializeIndex bands image W st k := by
  have hid := generateId_div_mod k W
  have hlin : (k / W ≠ 0) ↔ W ≤ k := by
    rw [Ne, Nat.div_eq_zero_iff hW]
    omega
  have hup : W ≤ k → GenerateId (k / W - 1) (k % W) W = k - W := by
    intro h
    have h1 : 1 ≤ k / W := Nat.pos_of_ne_zero (hlin.2 h)
    unfold GenerateId at hid ⊢
    have : (k / W - 1) * W = k / W * W - W := by
      rw [Nat.sub_mul, Nat.one_mul]
    have h2 : W ≤ k / W * W := by
      calc W = 1 * W := (Nat.one_mul W).symm
        _ ≤ k / W * W := Nat.mul_le_mul_right W h1
    omega
  have hleft : k % W ≠ 0 → GenerateId (k / W) (k % W - 1) W = k - 1 := by
    intro h
    unfold GenerateId at hid ⊢
    omega
  unfold initializePixel initializeIndex
  simp only [hid]
  by_cases h1 : W ≤ k
  · have h1' : k / W ≠ 0 := hlin.2 h1
    simp only [h1', ne_eq, not_false_eq_true, if_true, h1, hup h1]
    by_cases h2 : k % W ≠ 0
    · simp only [h2, ne_eq, not_false_eq_true, if_true, hleft h2]
    · simp only [h2, if_false]
  · have h1' : ¬ k / W ≠ 0 := fun h => h1 (hlin.1 h)
    simp only [h1', if_false, h1]
    by_cases h2 : k % W ≠ 0
    · simp only [h2, ne_eq, not_false_eq_true, if_true, hleft h2]
    · simp only [h2, if_false]

theorem foldl_rows_eq_index {σ : Type} (f : σ → Nat → Nat → σ) (W : Nat) (hW : 0 < W) :
    ∀ (H : Nat) (st : σ),
      (List.range H).foldl (fun st lin => (List.range W).foldl (fun st col => f st lin col) st) st
        = (List.range (H * W)).foldl (fun st k => f st (k / W) (k % W)) st := by
  intro H
  induction H with
  | zero => intro st; simp
  | succ n ih =>
    intro st
    rw [List.range_succ, List.foldl_append, ih, List.foldl_cons, List.foldl_nil,
      Nat.succ_mul, List.range_add, List.foldl_append, List.foldl_map]
    apply List.foldl_ext
    intro a col hcol
    have hc : col < W := List.mem_range.1 hcol
    have h1 : (n * W + col) / W = n := by
      rw [Nat.add_comm, Nat.add_mul_div_right _ _ hW, Nat.div_eq_of_lt hc, Nat.zero_add]
    have h2 : (n * W + col) % W = col := by
      rw [Nat.add_comm, Nat.add_mul_mod_self_right, Nat.mod_eq_of_lt hc]
    rw [h1, h2]

theorem initializeRegions_eq_index (s : MultiSeg) (image : Image)
    (hW : 0 < s.m_labelledImage.ncols) :
    (initializeRegions s image).m_regions =
      ((List.range (s.m_labelledImage.nlines * s.m_labelledImage.ncols)).foldl
        (initializeIndex s.m_bands image s.m_labelledImage.ncols)
        (s.m_regions, s.m_labelledImage)).1 ∧
    (initializeRegions s image).m_labelledImage =
      ((List.range (s.m_labelledImage.nlines * s.m_labelledImage.ncols)).foldl
        (initializeIndex s.m_bands image s.m_labelledImage.ncols)
        (s.m_regions, s.m_labelledImage)).2 := by
  have h := foldl_rows_eq_index
    (fun st lin col => initializePixel s.m_bands image s.m_labelledImage.ncols st lin col)
    s.m_labelledImage.ncols hW s.m_labelledImage.nlines (s.m_regions, s.m_labelledImage)
  have h2 : (fun st k => initializePixel s.m_bands image s.m_labelledImage.ncols st
      (k / s.m_labelledImage.ncols) (k % s.m_labelledImage.ncols)) =
      initializeIndex s.m_bands image s.m_labelledImage.ncols := by
    funext st k
    exact initializePixel_eq_index _ _ _ hW st k
  rw [h2] at h
  unfold initializeRegions
  simp only
  rw [h]
  exact ⟨rfl, rfl⟩

/-! ## Region initialisation: the invariant of the pixel loops -/

theorem linkIfFound_of_live (rs : List Region) (a b : Nat) (h : isLive rs b = true) :
    linkIfFound rs a b = linkRegions rs a b := by
  obtain ⟨n, hn⟩ := Option.isSome_iff_exists.1 h
  unfold linkIfFound
  simp only [hn, (getRegion_some hn).1]

theorem map_core_linkIfFound (rs : List Region) (a b : Nat) :
    (linkIfFound rs a b).map Region.core = rs.map Region.core := by
  unfold linkIfFound
  cases getRegion rs b with
  | none => rfl
  | some n => exact map_core_linkRegions _ _ _

theorem forall_updateRegion (P : Region → Prop) (rs : List Region) (a : Nat)
    (f : Region → Region) (hf : ∀ r, P r → P (f r)) (h : ∀ r ∈ rs, P r) :
    ∀ r ∈ updateRegion rs a f, P r := by
  intro r hr
  unfold updateRegion at hr
  obtain ⟨q, hq, rfl⟩ := List.mem_map.1 hr
  by_cases hqa : q.m_id = a
  · simp only [hqa, if_true]; exact hf q (h q hq)
  · simp only [hqa, if_false]; exact h q hq

theorem nodup_addNeighbour (r : Region) (b : Nat) (h : r.m_neighbours.Nodup) :
    (r.addNeighbour b).m_neighbours.Nodup := by
  unfold Region.addNeighbour Region.isNeighbour
  by_cases hb : b ∈ r.m_neighbours
  · have h1 : r.m_neighbours.contains b = true := by simpa using hb
    simp only [h1, if_true]; exact h
  · have h1 : ¬ r.m_neighbours.contains b = true := by simpa using hb
    simp only [h1, if_false, Bool.false_eq_true]
    rw [List.nodup_append]
    refine ⟨h, List.nodup_singleton b, ?_⟩
    intro x hx hx2
    rw [List.mem_singleton] at hx2
    exact hb (hx2 ▸ hx)

theorem nodup_removeNeighbour (r : Region) (b : Nat) (h : r.m_neighbours.Nodup) :
    (r.removeNeighbour b).m_neighbours.Nodup := by
  unfold Region.removeNeighbour
  exact h.filter _

theorem nodup_linkRegions (rs : List Region) (a b : Nat)
    (h : ∀ r ∈ rs, r.m_neighbours.Nodup) : ∀ r ∈ linkRegions rs a b, r.m_neighbours.Nodup := by
  unfold linkRegions
  apply forall_updateRegion _ _ _ _ (fun r hr => nodup_addNeighbour r a hr)
  exact forall_updateRegion _ _ _ _ (fun r hr => nodup_addNeighbour r b hr) h

theorem nodup_linkIfFound (rs : List Region) (a b : Nat)
    (h : ∀ r ∈ rs, r.m_neighbours.Nodup) : ∀ r ∈ linkIfFound rs a b, r.m_neighbours.Nodup := by
  unfold linkIfFound
  cases getRegion rs b with
  | none => exact h
  | some n => exact nodup_linkRegions _ _ _ h

theorem mem_insertRegion (rs : List Region) (x r : Region) (h : r ∈ insertRegion rs x) :
    r = x ∨ r ∈ rs := by
  induction rs with
  | nil =>
    simp only [insertRegion, List.mem_singleton] at h
    exact Or.inl h
  | cons y ys ih =>
    unfold insertRegion at h
    by_cases h1 : x.m_id < y.m_id
    · rw [if_pos h1] at h
      simp only [List.mem_cons] at h
      rcases h with h | h | h
      · exact Or.inl h
      · subst h; exact Or.inr (List.mem_cons_self _ _)
      · exact Or.inr (List.mem_cons_of_mem _ h)
    · by_cases h2 : x.m_id = y.m_id
      · rw [if_neg h1, if_pos h2] at h
        simp only [List.mem_cons] at h
        rcases h with h | h
        · exact Or.inl h
        · exact Or.inr (List.mem_cons_of_mem _ h)
      · rw [if_neg h1, if_neg h2] at h
        simp only [List.mem_cons] at h
        rcases h with h | h
        · subst h; exact Or.inr (List.mem_cons_self _ _)
        · rcases ih h with h3 | h3
          · exact Or.inl h3
          · exact Or.inr (List.mem_cons_of_mem _ h3)

theorem index_cell_iff (W : Nat) (hW : 0 < W) (l c k : Nat) :
    (l = k / W ∧ c = k % W) ↔ (c < W ∧ l * W + c = k) := by
  constructor
  · rintro ⟨h1, h2⟩
    subst h1 h2
    exact ⟨Nat.mod_lt _ hW, Nat.div_add_mod' k W⟩
  · rintro ⟨h1, h2⟩
    subst h2
    constructor
    · rw [Nat.add_comm, Nat.add_mul_div_right _ _ hW, Nat.div_eq_of_lt h1, Nat.zero_add]
    · rw [Nat.add_comm, Nat.add_mul_mod_self_right, Nat.mod_eq_of_lt h1]

theorem adjacentIndex_step (W k x y : Nat) (hW : 0 < W) :
    ((x < k ∧ y < k ∧ adjacentIndex W x y) ∨
      (W ≤ k ∧ ((x = k ∧ y = k - W) ∨ (x = k - W ∧ y = k))) ∨
      (k % W ≠ 0 ∧ ((x = k ∧ y = k - 1) ∨ (x = k - 1 ∧ y = k)))) ↔
    (x < k + 1 ∧ y < k + 1 ∧ adjacentIndex W x y) := by
  have hk0 : k % W ≠ 0 → 1 ≤ k := by
    intro h
    rcases Nat.eq_zero_or_pos k with h0 | h0
    · subst h0; simp at h
    · exact h0
  constructor
  · rintro (⟨h1, h2, h3⟩ | ⟨h1, ⟨h2, h3⟩ | ⟨h2, h3⟩⟩ | ⟨h1, ⟨h2, h3⟩ | ⟨h2, h3⟩⟩)
    · exact ⟨by omega, by omega, h3⟩
    · subst h2 h3
      exact ⟨by omega, by omega, Or.inr (Or.inl (by omega))⟩
    · subst h2 h3
      exact ⟨by omega, by omega, Or.inl (by omega)⟩
    · subst h2 h3
      have := hk0 h1
      exact ⟨by omega, by omega, Or.inr (Or.inr (Or.inr ⟨by omega, h1⟩))⟩
    · subst h3
      have := hk0 h1
      exact ⟨by omega, by omega, Or.inr (Or.inr (Or.inl ⟨by omega, h1⟩))⟩
  · rintro ⟨hx, hy, hadj⟩
    by_cases hxk : x = k
    · subst hxk
      rcases hadj with h | h | ⟨h, _⟩ | ⟨h, h'⟩
      · omega
      · exact Or.inr (Or.inl ⟨by omega, Or.inl ⟨rfl, by omega⟩⟩)
      · omega
      · exact Or.inr (Or.inr ⟨h', Or.inl ⟨rfl, by omega⟩⟩)
    · by_cases hyk : y = k
      · subst hyk
        rcases hadj with h | h | ⟨h, h'⟩ | ⟨h, _⟩
        · exact Or.inr (Or.inl ⟨by omega, Or.inr ⟨by omega, rfl⟩⟩)
        · omega
        · exact Or.inr (Or.inr ⟨h', Or.inr ⟨by omega, rfl⟩⟩)
        · omega
      · exact Or.inl ⟨by omega, by omega, hadj⟩

theorem isLive_linkIfFound (rs : List Region) (a b x : Nat) :
    isLive (linkIfFound rs a b) x = isLive rs x := by
  unfold linkIfFound
  cases getRegion rs b with
  | none => rfl
  | some n => exact isLive_link _ _ _ _

theorem mem_neighboursOf_linkIf (c : Prop) [Decidable c] (rs : List Region) (a b x y : Nat)
    (ha : isLive rs a = true) (hb : c → isLive rs b = true) :
    y ∈ neighboursOf (if c then linkIfFound rs a b else rs) x ↔
      y ∈ neighboursOf rs x ∨ (c ∧ ((x = a ∧ y = b) ∨ (x = b ∧ y = a))) := by
  by_cases hc : c
  · rw [if_pos hc, linkIfFound_of_live rs a b (hb hc), mem_neighboursOf_link]
    simp only [ha, hb hc, and_true, hc, true_and]
  · rw [if_neg hc]
    simp [hc]

theorem isLive_linkIf (c : Prop) [Decidable c] (rs : List Region) (a b x : Nat) :
    isLive (if c then linkIfFound rs a b else rs) x = isLive rs x := by
  by_cases hc : c
  · rw [if_pos hc, isLive_linkIfFound]
  · rw [if_neg hc]

theorem map_core_linkIf (c : Prop) [Decidable c] (rs : List Region) (a b : Nat) :
    (if c then linkIfFound rs a b else rs).map Region.core = rs.map Region.core := by
  by_cases hc : c
  · rw [if_pos hc, map_core_linkIfFound]
  · rw [if_neg hc]

theorem nodup_linkIf (c : Prop) [Decidable c] (rs : List Region) (a b : Nat)
    (h : ∀ r ∈ rs, r.m_neighbours.Nodup) :
    ∀ r ∈ (if c then linkIfFound rs a b else rs), r.m_neighbours.Nodup := by
  by_cases hc : c
  · rw [if_pos hc]; exact nodup_linkIfFound _ _ _ h
  · rw [if_neg hc]; exact h

/-- The neighbourhood blocks of one pixel of `initializeRegions`, after the new
region `k` has been entered. -/
theorem initializeIndex_links (W k : Nat) (hW : 0 < W) (rs1 : List Region)
    (hlive1 : ∀ x, isLive rs1 x = true ↔ x < k + 1)
    (hN1 : ∀ x y, y ∈ neighboursOf rs1 x ↔ x < k ∧ y < k ∧ adjacentIndex W x y) (x y : Nat) :
    y ∈ neighboursOf
        (if k % W ≠ 0 then
          linkIfFound (if W ≤ k then linkIfFound rs1 k (k - W) else rs1) k (k - 1)
        else (if W ≤ k then linkIfFound rs1 k (k - W) else rs1)) x ↔
      x < k + 1 ∧ y < k + 1 ∧ adjacentIndex W x y := by
  have hk0 : k % W ≠ 0 → 1 ≤ k := by
    intro h
    rcases Nat.eq_zero_or_pos k with h0 | h0
    · subst h0; simp at h
    · exact h0
  have hl2 : ∀ z, isLive (if W ≤ k then linkIfFound rs1 k (k - W) else rs1) z = isLive rs1 z :=
    fun z => isLive_linkIf _ _ _ _ _
  have hN2 : ∀ x y, y ∈ neighboursOf (if W ≤ k then linkIfFound rs1 k (k - W) else rs1) x ↔
      y ∈ neighboursOf rs1 x ∨ (W ≤ k ∧ ((x = k ∧ y = k - W) ∨ (x = k - W ∧ y = k))) := by
    intro x y
    exact mem_neighboursOf_linkIf _ _ _ _ _ _ ((hlive1 k).2 (by omega))
      (fun h => (hlive1 _).2 (by omega))
  generalize (if W ≤ k then linkIfFound rs1 k (k - W) else rs1) = rs2 at hl2 hN2
  rw [mem_neighboursOf_linkIf (k % W ≠ 0) rs2 k (k - 1) x y
      (by rw [hl2]; exact (hlive1 k).2 (by omega))
      (fun h => by rw [hl2]; exact (hlive1 _).2 (by have := hk0 h; omega)),
    hN2, hN1, ← adjacentIndex_step W k x y hW]
  tauto

theorem initializeIndex_invariant (bands : List Nat) (image : Image) (W H : Nat) (hW : 0 < W)
    (img0 : LabelImage) (hH : img0.nlines = H) (hWd : img0.ncols = W) :
    ∀ k, k ≤ H * W →
      (((List.range k).foldl (initializeIndex bands image W) ([], img0)).1.map Region.core =
        (List.range k).map (fun i =>
          Region.new i (getPixelValues bands image (i / W) (i % W)) (i / W) (i % W))) ∧
      (∀ x y, y ∈ neighboursOf ((List.range k).foldl (initializeIndex bands image W)
          ([], img0)).1 x ↔ x < k ∧ y < k ∧ adjacentIndex W x y) ∧
      (∀ r ∈ ((List.range k).foldl (initializeIndex bands image W) ([], img0)).1,
        r.m_neighbours.Nodup) ∧
      ((List.range k).foldl (initializeIndex bands image W) ([], img0)).2.nlines = H ∧
      ((List.range k).foldl (initializeIndex bands image W) ([], img0)).2.ncols = W ∧
      (∀ l c, ((List.range k).foldl (initializeIndex bands image W) ([], img0)).2.cell l c =
        if c < W ∧ l * W + c < k then l * W + c else img0.cell l c) := by
  intro k
  induction k with
  | zero =>
    intro _
    refine ⟨rfl, ?_, ?_, hH, hWd, ?_⟩
    · intro x y
      simp [neighboursOf, getRegion]
    · intro r hr; cases hr
    · intro l c; simp
  | succ k ih =>
    intro hk
    obtain ⟨h1, h2, h3, h4, h5, h6⟩ := ih (by omega)
    rw [List.range_succ, List.foldl_append, List.foldl_cons, List.foldl_nil]
    generalize (List.range k).foldl (initializeIndex bands image W) ([], img0) = st
      at h1 h2 h3 h4 h5 h6
    have hids : st.1.map (fun r => r.m_id) = List.range k := by
      rw [← ids_of_core, h1, List.map_map]
      conv_rhs => rw [← List.map_id (List.range k)]
      rfl
    have hlive : ∀ x, isLive st.1 x = true ↔ x < k := by
      intro x
      rw [isLive_iff_mem, hids, List.mem_range]
    generalize hnew : Region.new k (getPixelValues bands image (k / W) (k % W))
        (k / W) (k % W) = newk
    have hnewid : newk.m_id = k := by rw [← hnew]; rfl
    have hnewn : newk.m_neighbours = [] := by rw [← hnew]; rfl
    have hnewc : newk.core = newk := by rw [← hnew]; rfl
    have hins : insertRegion st.1 newk = st.1 ++ [newk] := by
      apply insertRegion_append
      intro x hx
      have : x.m_id ∈ st.1.map (fun r => r.m_id) := List.mem_map_of_mem _ hx
      rw [hids, List.mem_range] at this
      rw [hnewid]
      exact this
    have hlive1 : ∀ x, isLive (insertRegion st.1 newk) x = true ↔ x < k + 1 := by
      intro x
      rw [isLive_insertRegion]
      have := hlive x
      simp only [Bool.or_eq_true, decide_eq_true_eq, this, hnewid]
      omega
    have hN1 : ∀ x y, y ∈ neighboursOf (insertRegion st.1 newk) x ↔
        x < k ∧ y < k ∧ adjacentIndex W x y := by
      intro x y
      rw [mem_neighboursOf_insert, h2, hnewid, hnewn]
      constructor
      · rintro (⟨_, h⟩ | ⟨_, h⟩)
        · cases h
        · exact h
      · intro h
        exact Or.inr ⟨by omega, h⟩
    have hcore1 : (insertRegion st.1 newk).map Region.core =
        (List.range k ++ [k]).map (fun i =>
          Region.new i (getPixelValues bands image (i / W) (i % W)) (i / W) (i % W)) := by
      rw [hins, List.map_append, h1, List.map_append, List.map_cons, List.map_nil,
        List.map_cons, List.map_nil, hnewc, hnew]
    have hnd1 : ∀ r ∈ insertRegion st.1 newk, r.m_neighbours.Nodup := by
      intro r hr
      rcases mem_insertRegion _ _ _ hr with h | h
      · subst h; rw [hnewn]; exact List.nodup_nil
      · exact h3 r h
    unfold initializeIndex
    simp only [hnew]
    generalize insertRegion st.1 newk = rs1 at hlive1 hN1 hcore1 hnd1
    refine ⟨?_, ?_, ?_, ?_, ?_, ?_⟩
    · rw [map_core_linkIf, map_core_linkIf, hcore1]
    · intro x y
      exact initializeIndex_links W k hW rs1 hlive1 hN1 x y
    · apply nodup_linkIf
      apply nodup_linkIf
      exact hnd1
    · rw [setElement_nlines]; exact h4
    · rw [setElement_ncols]; exact h5
    · intro l c
      have hkH : k / W < H := by
        apply Nat.div_lt_of_lt_mul
        rw [Nat.mul_comm]; omega
      have hkW : k % W < W := Nat.mod_lt _ hW
      rw [setElement_cell, h6, h4, h5]
      by_cases hlc : l = k / W ∧ c = k % W
      · have := (index_cell_iff W hW l c k).1 hlc
        have hcond : l = k / W ∧ c = k % W ∧ k / W < H ∧ k % W < W :=
          ⟨hlc.1, hlc.2, hkH, hkW⟩
        rw [if_pos hcond, if_pos ⟨this.1, by omega⟩, this.2]
      · have hne : ¬ (c < W ∧ l * W + c = k) := fun h => hlc ((index_cell_iff W hW l c k).2 h)
        have hcond : ¬ (l = k / W ∧ c = k % W ∧ k / W < H ∧ k % W < W) :=
          fun h => hlc ⟨h.1, h.2.1⟩
        rw [if_neg hcond]
        by_cases h7 : c < W ∧ l * W + c < k
        · rw [if_pos h7, if_pos ⟨h7.1, by omega⟩]
        · rw [if_neg h7, if_neg]
          intro h8
          by_cases h9 : l * W + c = k
          · exact hne ⟨h8.1, h9⟩
          · exact h7 ⟨h8.1, by omega⟩

/-! ## Region initialisation: the result in pixel coordinates -/

theorem mul_add_mod_of_lt (W lin col : Nat) (h : col < W) : (lin * W + col) % W = col := by
  rw [Nat.add_comm, Nat.add_mul_mod_self_right, Nat.mod_eq_of_lt h]

theorem mul_add_div_of_lt (W lin col : Nat) (h : col < W) : (lin * W + col) / W = lin := by
  have hW : 0 < W := by omega
  rw [Nat.add_comm, Nat.add_mul_div_right _ _ hW, Nat.div_eq_of_lt h, Nat.zero_add]

theorem index_lt_of_coords (W H lin col : Nat) (hl : lin < H) (hc : col < W) :
    lin * W + col < H * W := by
  have : (lin + 1) * W ≤ H * W := Nat.mul_le_mul_right W hl
  rw [Nat.succ_mul] at this
  omega

theorem adjacentIndex_coords (W H lin col y : Nat) (hl : lin < H) (hc : col < W) :
    (y < H * W ∧ adjacentIndex W (lin * W + col) y) ↔
      ∃ lin' col', lin' < H ∧ col' < W ∧ y = lin' * W + col' ∧
        ((col' = col ∧ (lin' + 1 = lin ∨ lin' = lin + 1)) ∨
          (lin' = lin ∧ (col' + 1 = col ∨ col' = col + 1))) := by
  have hW : 0 < W := by omega
  constructor
  · rintro ⟨hy, hadj⟩
    rcases hadj with h | h | ⟨h, h'⟩ | ⟨h, h'⟩
    · refine ⟨lin + 1, col, ?_, hc, ?_, Or.inl ⟨rfl, Or.inr rfl⟩⟩
      · by_contra hcon
        have h1 : H ≤ lin + 1 := by omega
        have h2 : H * W ≤ (lin + 1) * W := Nat.mul_le_mul_right W h1
        rw [Nat.succ_mul] at h2
        omega
      · rw [Nat.succ_mul]; omega
    · have hl1 : 1 ≤ lin := by
        rcases Nat.eq_zero_or_pos lin with h0 | h0
        · subst h0; omega
        · exact h0
      refine ⟨lin - 1, col, by omega, hc, ?_, Or.inl ⟨rfl, Or.inl (by omega)⟩⟩
      have : lin * W = (lin - 1) * W + W := by
        conv_lhs => rw [show lin = (lin - 1) + 1 by omega]
        rw [Nat.succ_mul]
      omega
    · have hc1 : col + 1 < W := by
        by_contra hcon
        have hcw : col + 1 = W := by omega
        apply h'
        rw [h, Nat.add_assoc, hcw]
        have : lin * W + W = (lin + 1) * W := by rw [Nat.succ_mul]
        rw [this, Nat.mul_mod_left]
      exact ⟨lin, col + 1, hl, hc1, by omega, Or.inr ⟨rfl, Or.inr rfl⟩⟩
    · rw [mul_add_mod_of_lt W lin col hc] at h'
      exact ⟨lin, col - 1, hl, by omega, by omega, Or.inr ⟨rfl, Or.inl (by omega)⟩⟩
  · rintro ⟨lin', col', hl', hc', rfl, h⟩
    refine ⟨index_lt_of_coords W H lin' col' hl' hc', ?_⟩
    rcases h with ⟨h1, h2 | h2⟩ | ⟨h1, h2 | h2⟩
    · subst h1
      right; left
      rw [← h2, Nat.succ_mul]; omega
    · subst h1
      left
      rw [h2, Nat.succ_mul]; omega
    · subst h1
      right; right; right
      refine ⟨by omega, ?_⟩
      rw [mul_add_mod_of_lt W lin' col hc]
      omega
    · subst h1
      right; right; left
      refine ⟨by omega, ?_⟩
      rw [mul_add_mod_of_lt W lin' col' hc']
      omega

theorem getRegion_map_range (f : Nat → Region) (hf : ∀ j, (f j).m_id = j) (n i : Nat)
    (hi : i < n) : getRegion ((List.range n).map f) i = some (f i) := by
  induction n with
  | zero => omega
  | succ n ih =>
    rw [List.range_succ, List.map_append]
    unfold getRegion
    rw [List.find?_append]
    by_cases h : i < n
    · have := ih h
      unfold getRegion at this
      rw [this]; rfl
    · have hin : i = n := by omega
      subst hin
      have hnone : List.find? (fun r => r.m_id == i) (List.map f (List.range i)) = none := by
        rw [List.find?_eq_none]
        intro r hr
        obtain ⟨j, hj, rfl⟩ := List.mem_map.1 hr
        have := List.mem_range.1 hj
        simp only [hf, beq_iff_eq]
        omega
      rw [hnone]
      simp [hf]

theorem foldl_const_id {α σ : Type} (l : List α) (st : σ) :
    l.foldl (fun st _ => st) st = st := by
  induction l with
  | nil => rfl
  | cons a t ih => exact ih

theorem initializeRegions_zero_cols (s : MultiSeg) (image : Image)
    (hW : s.m_labelledImage.ncols = 0) :
    (initializeRegions s image).m_regions = s.m_regions ∧
      (initializeRegions s image).m_labelledImage = s.m_labelledImage := by
  unfold initializeRegions
  simp only [hW, List.range_zero, List.foldl_nil]
  rw [foldl_const_id]
  exact ⟨rfl, rfl⟩

/-- The region table and the label grid that `initializeRegions` builds from an empty
table, by row-major index. -/
theorem initializeRegions_result (s : MultiSeg) (image : Image) (hempty : s.m_regions = []) :
    ((initializeRegions s image).m_regions.map Region.core =
      (List.range (s.m_labelledImage.nlines * s.m_labelledImage.ncols)).map (fun i =>
        Region.new i
          (getPixelValues s.m_bands image (i / s.m_labelledImage.ncols)
            (i % s.m_labelledImage.ncols))
          (i / s.m_labelledImage.ncols) (i % s.m_labelledImage.ncols))) ∧
    (∀ x y, y ∈ neighboursOf (initializeRegions s image).m_regions x ↔
      x < s.m_labelledImage.nlines * s.m_labelledImage.ncols ∧
      y < s.m_labelledImage.nlines * s.m_labelledImage.ncols ∧
      adjacentIndex s.m_labelledImage.ncols x y) ∧
    (∀ r ∈ (initializeRegions s image).m_regions, r.m_neighbours.Nodup) ∧
    (initializeRegions s image).m_labelledImage.nlines = s.m_labelledImage.nlines ∧
    (initializeRegions s image).m_labelledImage.ncols = s.m_labelledImage.ncols ∧
    (∀ l c, (initializeRegions s image).m_labelledImage.cell l c =
      if c < s.m_labelledImage.ncols ∧
          l * s.m_labelledImage.ncols + c < s.m_labelledImage.nlines * s.m_labelledImage.ncols
      then l * s.m_labelledImage.ncols + c else s.m_labelledImage.cell l c) := by
  rcases Nat.eq_zero_or_pos s.m_labelledImage.ncols with hW | hW
  · obtain ⟨h1, h2⟩ := initializeRegions_zero_cols s image hW
    rw [h1, h2, hempty, hW]
    refine ⟨by simp, ?_, by simp, rfl, rfl, by simp⟩
    intro x y
    simp [neighboursOf, getRegion]
  · obtain ⟨h1, h2⟩ := initializeRegions_eq_index s image hW
    rw [h1, h2, hempty]
    exact initializeIndex_invariant s.m_bands image s.m_labelledImage.ncols
      s.m_labelledImage.nlines hW s.m_labelledImage rfl rfl _ (le_refl _)

theorem initializeRegions_ids (s : MultiSeg) (image : Image) (hempty : s.m_regions = []) :
    (initializeRegions s image).m_regions.map (fun r => r.m_id) =
      List.range (s.m_labelledImage.nlines * s.m_labelledImage.ncols) := by
  rw [← ids_of_core, (initializeRegions_result s image hempty).1, List.map_map]
  conv_rhs => rw [← List.map_id (List.range _)]
  rfl

theorem initializeRegions_sorted (s : MultiSeg) (image : Image) (hempty : s.m_regions = []) :
    TableSorted (initializeRegions s image).m_regions := by
  unfold TableSorted
  rw [initializeRegions_ids s image hempty]
  exact List.pairwise_lt_range _

/-- C5: from an empty table and for every grid, `initializeRegions` creates exactly one
region per pixel `(lin, col)`, with id `lin * nCols + col`, size 1, the pixel as
bounding box and the pixel's band values as mean, writes the id into the label cell,
and the neighbour list of the region holds, without duplicates, exactly the ids of
the in-grid pixels above, below, left and right of it. -/
theorem initializeRegions_spec (s : MultiSeg) (image : Image) (hempty : s.m_regions = []) :
    (initializeRegions s image).m_regions.map (fun r => r.m_id) =
      List.range (s.m_labelledImage.nlines * s.m_labelledImage.ncols) ∧
    ∀ lin col, lin < s.m_labelledImage.nlines → col < s.m_labelledImage.ncols →
      ∃ r, getRegion (initializeRegions s image).m_regions
          (lin * s.m_labelledImage.ncols + col) = some r ∧
        r.m_id = GenerateId lin col s.m_labelledImage.ncols ∧
        r.m_size = 1 ∧
        (r.m_yStart = lin ∧ r.m_yBound = lin + 1 ∧ r.m_xStart = col ∧ r.m_xBound = col + 1) ∧
        r.m_mean = s.m_bands.map (fun b => image lin col b) ∧
        (initializeRegions s image).m_labelledImage.cell lin col =
          lin * s.m_labelledImage.ncols + col ∧
        r.m_neighbours.Nodup ∧
        ∀ y, y ∈ r.m_neighbours ↔
          ∃ lin' col', lin' < s.m_labelledImage.nlines ∧ col' < s.m_labelledImage.ncols ∧
            y = lin' * s.m_labelledImage.ncols + col' ∧
            ((col' = col ∧ (lin' + 1 = lin ∨ lin' = lin + 1)) ∨
              (lin' = lin ∧ (col' + 1 = col ∨ col' = col + 1))) := by
  refine ⟨initializeRegions_ids s image hempty, ?_⟩
  intro lin col hl hc
  obtain ⟨h1, h2, h3, _, _, h6⟩ := initializeRegions_result s image hempty
  have hi := index_lt_of_coords s.m_labelledImage.ncols s.m_labelledImage.nlines lin col hl hc
  have hget := getRegion_map_core (initializeRegions s image).m_regions
    (lin * s.m_labelledImage.ncols + col)
  rw [h1, getRegion_map_range _ (fun _ => rfl) _ _ hi,
    mul_add_div_of_lt _ lin col hc, mul_add_mod_of_lt _ lin col hc] at hget
  cases hr : getRegion (initializeRegions s image).m_regions
      (lin * s.m_labelledImage.ncols + col) with
  | none => rw [hr] at hget; cases hget
  | some r =>
    rw [hr] at hget
    have hcore : r.core = Region.new (lin * s.m_labelledImage.ncols + col)
        (getPixelValues s.m_bands image lin col) lin col :=
      (Option.some.inj hget).symm
    refine ⟨r, rfl, ?_, ?_, ⟨?_, ?_, ?_, ?_⟩, ?_, ?_, ?_, ?_⟩
    · exact congrArg Region.m_id hcore
    · exact congrArg Region.m_size hcore
    · exact congrArg Region.m_yStart hcore
    · exact congrArg Region.m_yBound hcore
    · exact congrArg Region.m_xStart hcore
    · exact congrArg Region.m_xBound hcore
    · exact congrArg Region.m_mean hcore
    · rw [h6, if_pos ⟨hc, hi⟩]
    · exact h3 r (getRegion_some hr).2
    · intro y
      have hN : y ∈ r.m_neighbours ↔
          y ∈ neighboursOf (initializeRegions s image).m_regions
            (lin * s.m_labelledImage.ncols + col) := by
        unfold neighboursOf
        rw [hr]
      rw [hN, h2, ← adjacentIndex_coords _ _ lin col y hl hc]
      constructor
      · exact fun h => ⟨h.2.1, h.2.2⟩
      · exact fun h => ⟨hi, h.1, h.2⟩

/-- C5 on the 1 x 2 sample grid. -/
theorem initializeRegions_spec_witness :
    (sampleSeg 1 2).m_regions = [] ∧
    (initializeRegions (sampleSeg 1 2) sampleImage).m_regions.map (fun r => r.m_id) =
      List.range ((sampleSeg 1 2).m_labelledImage.nlines * (sampleSeg 1 2).m_labelledImage.ncols) :=
  ⟨rfl, (initializeRegions_spec (sampleSeg 1 2) sampleImage rfl).1⟩

/-! ## removeRegion -/

theorem map_core_linkLoop (n : Nat) (L : List Nat) (rs : List Region) :
    (L.foldl (fun rs nn => if n ≠ nn then linkRegions rs n nn else rs) rs).map Region.core =
      rs.map Region.core := by
  induction L generalizing rs with
  | nil => rfl
  | cons nn L ih =>
    rw [List.foldl_cons, ih]
    by_cases h : n ≠ nn
    · rw [if_pos h, map_core_linkRegions]
    · rw [if_neg h]

/-- What the linking loop of `removeRegion` keeps true: liveness, symmetry away from
the removed region `a`, the set of regions that list `a`, and the absence of
self-neighbours. -/
theorem linkLoop_invariant (a n : Nat) (hn : n ≠ a) (L : List Nat) (rs : List Region)
    (hLa : a ∉ L) (hLlive : ∀ x ∈ L, isLive rs x = true) (hnlive : isLive rs n = true)
    (hsym : ∀ x y, x ≠ a → y ≠ a → y ∈ neighboursOf rs x → x ∈ neighboursOf rs y) :
    (∀ x, isLive (L.foldl (fun rs nn => if n ≠ nn then linkRegions rs n nn else rs) rs) x =
      isLive rs x) ∧
    (∀ x y, x ≠ a → y ≠ a →
      y ∈ neighboursOf (L.foldl (fun rs nn => if n ≠ nn then linkRegions rs n nn else rs) rs) x →
      x ∈ neighboursOf (L.foldl (fun rs nn => if n ≠ nn then linkRegions rs n nn else rs) rs) y) ∧
    (∀ x, a ∈ neighboursOf (L.foldl (fun rs nn => if n ≠ nn then linkRegions rs n nn else rs) rs) x →
      a ∈ neighboursOf rs x) ∧
    ((∀ x, x ∉ neighboursOf rs x) →
      ∀ x, x ∉ neighboursOf (L.foldl (fun rs nn => if n ≠ nn then linkRegions rs n nn else rs) rs) x)
    := by
  induction L generalizing rs with
  | nil => exact ⟨fun _ => rfl, hsym, fun _ h => h, fun h => h⟩
  | cons nn L ih =>
    rw [List.foldl_cons]
    have hnna : nn ≠ a := fun h => hLa (h ▸ List.mem_cons_self _ _)
    have hLa' : a ∉ L := fun h => hLa (List.mem_cons_of_mem _ h)
    by_cases h : n ≠ nn
    · rw [if_pos h]
      have hnnlive : isLive rs nn = true := hLlive nn (List.mem_cons_self _ _)
      have hlive1 : ∀ x, isLive (linkRegions rs n nn) x = isLive rs x := isLive_link rs n nn
      have hsym1 : ∀ x y, x ≠ a → y ≠ a → y ∈ neighboursOf (linkRegions rs n nn) x →
          x ∈ neighboursOf (linkRegions rs n nn) y := by
        intro x y hx hy hxy
        rw [mem_neighboursOf_link] at hxy ⊢
        rcases hxy with h1 | ⟨h1, h2, _⟩ | ⟨h1, h2, _⟩
        · exact Or.inl (hsym x y hx hy h1)
        · exact Or.inr (Or.inr ⟨h2, h1, hnnlive⟩)
        · exact Or.inr (Or.inl ⟨h2, h1, hnlive⟩)
      obtain ⟨i1, i2, i3, i4⟩ := ih (linkRegions rs n nn) hLa'
        (fun x hx => by rw [hlive1]; exact hLlive x (List.mem_cons_of_mem _ hx))
        (by rw [hlive1]; exact hnlive) hsym1
      refine ⟨fun x => by rw [i1, hlive1], i2, ?_, ?_⟩
      · intro x hx
        have := i3 x hx
        rw [mem_neighboursOf_link] at this
        rcases this with h1 | ⟨_, h2, _⟩ | ⟨_, h2, _⟩
        · exact h1
        · exact absurd h2.symm hnna
        · exact absurd h2.symm hn
      · intro hno
        apply i4
        intro x hx
        rw [mem_neighboursOf_link] at hx
        rcases hx with h1 | ⟨h1, h2, _⟩ | ⟨h1, h2, _⟩
        · exact hno x h1
        · exact h (h1.symm.trans h2)
        · exact h (h2.symm.trans h1)
    · rw [if_neg h]
      exact ih rs hLa' (fun x hx => hLlive x (List.mem_cons_of_mem _ hx)) hnlive hsym

theorem removeLoop_invariant (a : Nat) (link : Bool) (L : List Nat) (hLa : a ∉ L)
    (Q : List Nat) (rs : List Region) (hQa : a ∉ Q) (hQlive : ∀ x ∈ Q, isLive rs x = true)
    (hLlive : ∀ x ∈ L, isLive rs x = true)
    (hsym : ∀ x y, x ≠ a → y ≠ a → y ∈ neighboursOf rs x → x ∈ neighboursOf rs y) :
    (∀ x, isLive (Q.foldl
        (fun rs neighbor =>
          let rs := updateRegion rs neighbor (fun n => n.removeNeighbour a)
          let isEmpty := match getRegion rs neighbor with
            | some n => n.m_neighbours.isEmpty
            | none => false
          if link || isEmpty then
            L.foldl (fun rs nn => if neighbor ≠ nn then linkRegions rs neighbor nn else rs) rs
          else rs) rs) x = isLive rs x) ∧
    (∀ x y, x ≠ a → y ≠ a →
      y ∈ neighboursOf (Q.foldl
        (fun rs neighbor =>
          let rs := updateRegion rs neighbor (fun n => n.removeNeighbour a)
          let isEmpty := match getRegion rs neighbor with
            | some n => n.m_neighbours.isEmpty
            | none => false
          if link || isEmpty then
            L.foldl (fun rs nn => if neighbor ≠ nn then linkRegions rs neighbor nn else rs) rs
          else rs) rs) x →
      x ∈ neighboursOf (Q.foldl
        (fun rs neighbor =>
          let rs := updateRegion rs neighbor (fun n => n.removeNeighbour a)
          let isEmpty := match getRegion rs neighbor with
            | some n => n.m_neighbours.isEmpty
            | none => false
          if link || isEmpty then
            L.foldl (fun rs nn => if neighbor ≠ nn then linkRegions rs neighbor nn else rs) rs
          else rs) rs) y) ∧
    (∀ x, a ∈ neighboursOf (Q.foldl
        (fun rs neighbor =>
          let rs := updateRegion rs neighbor (fun n => n.removeNeighbour a)
          let isEmpty := match getRegion rs neighbor with
            | some n => n.m_neighbours.isEmpty
            | none => false
          if link || isEmpty then
            L.foldl (fun rs nn => if neighbor ≠ nn then linkRegions rs neighbor nn else rs) rs
          else rs) rs) x → a ∈ neighboursOf rs x ∧ x ∉ Q) ∧
    ((∀ x, x ∉ neighboursOf rs x) →
      ∀ x, x ∉ neighboursOf (Q.foldl
        (fun rs neighbor =>
          let rs := updateRegion rs neighbor (fun n => n.removeNeighbour a)
          let isEmpty := match getRegion rs neighbor with
            | some n => n.m_neighbours.isEmpty
            | none => false
          if link || isEmpty then
            L.foldl (fun rs nn => if neighbor ≠ nn then linkRegions rs neighbor nn else rs) rs
          else rs) rs) x) ∧
    (Q.foldl
        (fun rs neighbor =>
          let rs := updateRegion rs neighbor (fun n => n.removeNeighbour a)
          let isEmpty := match getRegion rs neighbor with
            | some n => n.m_neighbours.isEmpty
            | none => false
          if link || isEmpty then
            L.foldl (fun rs nn => if neighbor ≠ nn then linkRegions rs neighbor nn else rs) rs
          else rs) rs).map Region.core = rs.map Region.core := by
  induction Q generalizing rs with
  | nil => exact ⟨fun _ => rfl, hsym, fun _ h => ⟨h, List.not_mem_nil _⟩, fun h => h, rfl⟩
  | cons n Q ih =>
    rw [List.foldl_cons]
    have hna : n ≠ a := fun h => hQa (h ▸ List.mem_cons_self _ _)
    have hQa' : a ∉ Q := fun h => hQa (List.mem_cons_of_mem _ h)
    have hnlive : isLive rs n = true := hQlive n (List.mem_cons_self _ _)
    -- the neighbour forgets the removed region
    have hlive1 : ∀ x, isLive (updateRegion rs n (fun r => r.removeNeighbour a)) x = isLive rs x :=
      isLive_updateRegion rs n _ (fun r => removeNeighbour_id r a)
    have hN1 : ∀ x y, y ∈ neighboursOf (updateRegion rs n (fun r => r.removeNeighbour a)) x ↔
        y ∈ neighboursOf rs x ∧ ¬ (x = n ∧ y = a) := mem_neighboursOf_remove rs n a
    have hcore1 : (updateRegion rs n (fun r => r.removeNeighbour a)).map Region.core =
        rs.map Region.core := map_core_updateRegion _ _ _ (fun r => removeNeighbour_core r a)
    generalize updateRegion rs n (fun r => r.removeNeighbour a) = rs1 at hlive1 hN1 hcore1
    have hsym1 : ∀ x y, x ≠ a → y ≠ a → y ∈ neighboursOf rs1 x → x ∈ neighboursOf rs1 y := by
      intro x y hx hy hxy
      rw [hN1] at hxy ⊢
      exact ⟨hsym x y hx hy hxy.1, fun h => hx h.2⟩
    simp only
    generalize (match getRegion rs1 n with
      | some n => n.m_neighbours.isEmpty
      | none => false) = isEmpty
    -- the optional linking loop
    have hstep : ∃ rs2 : List Region,
        (if (link || isEmpty) = true then
          L.foldl (fun rs nn => if n ≠ nn then linkRegions rs n nn else rs) rs1
        else rs1) = rs2 ∧
        (∀ x, isLive rs2 x = isLive rs1 x) ∧
        (∀ x y, x ≠ a → y ≠ a → y ∈ neighboursOf rs2 x → x ∈ neighboursOf rs2 y) ∧
        (∀ x, a ∈ neighboursOf rs2 x → a ∈ neighboursOf rs1 x) ∧
        ((∀ x, x ∉ neighboursOf rs1 x) → ∀ x, x ∉ neighboursOf rs2 x) ∧
        rs2.map Region.core = rs1.map Region.core := by
      by_cases hc : (link || isEmpty) = true
      · rw [if_pos hc]
        obtain ⟨j1, j2, j3, j4⟩ := linkLoop_invariant a n hna L rs1 hLa
          (fun x hx => by rw [hlive1]; exact hLlive x hx) (by rw [hlive1]; exact hnlive) hsym1
        exact ⟨_, rfl, j1, j2, j3, j4, map_core_linkLoop n L rs1⟩
      · rw [if_neg hc]
        exact ⟨_, rfl, fun _ => rfl, hsym1, fun _ h => h, fun h => h, rfl⟩
    obtain ⟨rs2, hrs2, k1, k2, k3, k4, k5⟩ := hstep
    rw [hrs2]
    obtain ⟨i1, i2, i3, i4, i5⟩ := ih rs2 hQa'
      (fun x hx => by rw [k1, hlive1]; exact hQlive x (List.mem_cons_of_mem _ hx))
      (fun x hx => by rw [k1, hlive1]; exact hLlive x hx) k2
    refine ⟨fun x => by rw [i1, k1, hlive1], i2, ?_, ?_, ?_⟩
    · intro x hx
      obtain ⟨h1, h2⟩ := i3 x hx
      have h3 := (hN1 x a).1 (k3 x h1)
      refine ⟨h3.1, ?_⟩
      intro hmem
      rcases List.mem_cons.1 hmem with h4 | h4
      · exact h3.2 ⟨h4, rfl⟩
      · exact h2 h4
    · intro hno
      apply i4
      apply k4
      intro x hx
      exact hno x ((hN1 x x).1 hx).1
    · rw [i5, k5, hcore1]

theorem map_core_eraseRegion (rs : List Region) (a : Nat) :
    (eraseRegion rs a).map Region.core = eraseRegion (rs.map Region.core) a := by
  unfold eraseRegion
  rw [List.filter_map]
  rfl

theorem removeRegion_wf (rs : List Region) (a : Nat) (link : Bool) (hs : TableSorted rs)
    (hsym : ∀ x y, y ∈ neighboursOf rs x → x ∈ neighboursOf rs y)
    (ha : a ∉ neighboursOf rs a) :
    TableSorted (removeRegion rs a link) ∧
    (∀ x y, y ∈ neighboursOf (removeRegion rs a link) x →
      x ∈ neighboursOf (removeRegion rs a link) y) ∧
    ((∀ x, x ∉ neighboursOf rs x) → ∀ x, x ∉ neighboursOf (removeRegion rs a link) x) ∧
    (removeRegion rs a link).map Region.core = (eraseRegion rs a).map Region.core := by
  unfold removeRegion
  cases hr : getRegion rs a with
  | none =>
    have hnot : ∀ r ∈ rs, r.m_id ≠ a := by
      intro r hr' h
      have := getRegion_eq_none_iff.1 hr
      exact this (h ▸ List.mem_map_of_mem _ hr')
    simp only
    rw [eraseRegion_of_not_live rs a hnot]
    exact ⟨hs, hsym, fun h => h, rfl⟩
  | some r =>
    have hL : neighboursOf rs a = r.m_neighbours := by simp [neighboursOf, hr]
    have hLa : a ∉ r.m_neighbours := hL ▸ ha
    have hLlive : ∀ x ∈ r.m_neighbours, isLive rs x = true := by
      intro x hx
      exact isLive_of_mem_neighboursOf (hsym a x (hL ▸ hx))
    obtain ⟨i1, i2, i3, i4, i5⟩ := removeLoop_invariant a link r.m_neighbours hLa r.m_neighbours
      rs hLa hLlive hLlive (fun x y _ _ h => hsym x y h)
    simp only
    generalize (r.m_neighbours.foldl
        (fun rs neighbor =>
          let rs := updateRegion rs neighbor (fun n => n.removeNeighbour a)
          let isEmpty := match getRegion rs neighbor with
            | some n => n.m_neighbours.isEmpty
            | none => false
          if link || isEmpty then
            r.m_neighbours.foldl
              (fun rs nn => if neighbor ≠ nn then linkRegions rs neighbor nn else rs) rs
          else rs) rs) = rs' at i1 i2 i3 i4 i5
    have hnobody : ∀ x, a ∉ neighboursOf rs' x := by
      intro x hx
      obtain ⟨h1, h2⟩ := i3 x hx
      exact h2 (hL ▸ hsym x a h1)
    refine ⟨?_, ?_, ?_, ?_⟩
    · exact tableSorted_eraseRegion (tableSorted_of_ids_eq (ids_eq_of_core_eq i5) hs) a
    · intro x y hxy
      rw [mem_neighboursOf_erase] at hxy ⊢
      have hya : y ≠ a := fun h => hnobody x (h ▸ hxy.1)
      exact ⟨i2 x y hxy.2 hya hxy.1, hya⟩
    · intro hno x hx
      rw [mem_neighboursOf_erase] at hx
      exact i4 hno x hx.1
    · rw [map_core_eraseRegion, map_core_eraseRegion, i5]

/-! ## splitRegion: regions and labels -/

theorem mem_insertKey (l : List Nat) (k x : Nat) : x ∈ insertKey l k ↔ x = k ∨ x ∈ l := by
  induction l with
  | nil => simp [insertKey]
  | cons y ys ih =>
    unfold insertKey
    by_cases h1 : k < y
    · rw [if_pos h1]; simp
    · rw [if_neg h1]
      by_cases h2 : k = y
      · rw [if_pos h2]
        subst h2
        simp
      · rw [if_neg h2, List.mem_cons, ih, List.mem_cons]
        tauto

theorem map_core_linkWithCell (rs : List Region) (img : LabelImage) (id col lin : Nat) :
    (linkWithCell rs img id col lin).map Region.core = rs.map Region.core := by
  unfold linkWithCell
  cases img.getElement col lin with
  | none => rfl
  | some v =>
    simp only
    split
    · cases getRegion rs v with
      | none => rfl
      | some n => exact map_core_linkRegions _ _ _
    · rfl

theorem map_core_linkWithCellIf (c : Prop) [Decidable c] (rs : List Region) (img : LabelImage)
    (id col lin : Nat) :
    (if c then linkWithCell rs img id col lin else rs).map Region.core = rs.map Region.core := by
  by_cases hc : c
  · rw [if_pos hc, map_core_linkWithCell]
  · rw [if_neg hc]

theorem newRegionsFrom_core (bands : List Nat) (image : Image) (b : Nat)
    (S : List (Nat × Nat)) :
    (newRegionsFrom bands image b S).map Region.core = newRegionsFrom bands image b S := by
  induction S generalizing b with
  | nil => rfl
  | cons p t ih =>
    simp only [newRegionsFrom, List.map_cons, ih]
    rfl

theorem splitPixel_not_invalidated (bands : List Nat) (image : Image) (st : Split)
    (p : Nat × Nat) (h : isInvalidated st.labelledImage p = false) :
    splitPixel bands image st p.1 p.2 = st := by
  unfold splitPixel
  rw [getElement_eq]
  by_cases hin : p.1 < st.labelledImage.nlines ∧ p.2 < st.labelledImage.ncols
  · rw [if_pos hin]
    have : st.labelledImage.cell p.1 p.2 ≠ npos := by
      intro h2
      simp [isInvalidated, hin, h2] at h
    simp only [this, ne_eq, not_false_eq_true, if_true]
  · rw [if_neg hin]

theorem splitPixel_invalidated (bands : List Nat) (image : Image) (st : Split)
    (p : Nat × Nat) (h : isInvalidated st.labelledImage p = true)
    (hle : ∀ r ∈ st.regions, r.m_id ≤ st.lastId) :
    (splitPixel bands image st p.1 p.2).lastId = st.lastId + 1 ∧
    (splitPixel bands image st p.1 p.2).regions.map Region.core =
      st.regions.map Region.core ++
        [Region.new (st.lastId + 1) (getPixelValues bands image p.1 p.2) p.1 p.2] ∧
    (splitPixel bands image st p.1 p.2).labelledImage =
      st.labelledImage.setElement p.2 p.1 (st.lastId + 1) ∧
    (splitPixel bands image st p.1 p.2).newRegions = insertKey st.newRegions (st.lastId + 1) := by
  have hin : p.1 < st.labelledImage.nlines ∧ p.2 < st.labelledImage.ncols ∧
      st.labelledImage.cell p.1 p.2 = npos := by
    simpa [isInvalidated] using h
  have hins : insertRegion st.regions
      (Region.new (st.lastId + 1) (getPixelValues bands image p.1 p.2) p.1 p.2) =
      st.regions ++ [Region.new (st.lastId + 1) (getPixelValues bands image p.1 p.2) p.1 p.2] := by
    apply insertRegion_append
    intro x hx
    have := hle x hx
    show x.m_id < st.lastId + 1
    omega
  unfold splitPixel
  rw [getElement_eq, if_pos ⟨hin.1, hin.2.1⟩]
  simp only [hin.2.2, ne_eq, not_true_eq_false, if_false]
  refine ⟨trivial, ?_, trivial, trivial⟩
  rw [map_core_linkWithCellIf, map_core_linkWithCellIf, map_core_linkWithCellIf,
    map_core_linkWithCellIf, hins, List.map_append]
  rfl

theorem filter_isInvalidated_setElement (img : LabelImage) (p : Nat × Nat) (v : Nat)
    (rest : List (Nat × Nat)) (hp : p ∉ rest) :
    rest.filter (isInvalidated (img.setElement p.2 p.1 v)) = rest.filter (isInvalidated img) := by
  apply List.filter_congr
  intro q hq
  have hne : q ≠ p := fun h => hp (h ▸ hq)
  unfold isInvalidated
  rw [setElement_nlines, setElement_ncols, setElement_cell]
  have : ¬ (q.1 = p.1 ∧ q.2 = p.2 ∧ p.1 < img.nlines ∧ p.2 < img.ncols) := by
    intro h
    exact hne (Prod.ext h.1 h.2.1)
  rw [if_neg this]

theorem mem_of_map_core_eq_append {rs rs0 : List Region} {extra : List Region}
    (h : rs.map Region.core = rs0.map Region.core ++ extra) {r : Region} (hr : r ∈ rs) :
    (∃ q ∈ rs0, q.m_id = r.m_id) ∨ (∃ q ∈ extra, q.m_id = r.m_id) := by
  have h1 : r.core ∈ rs.map Region.core := List.mem_map_of_mem _ hr
  rw [h, List.mem_append] at h1
  rcases h1 with h1 | h1
  · obtain ⟨q, hq, hqe⟩ := List.mem_map.1 h1
    have : q.core.m_id = r.core.m_id := congrArg Region.m_id hqe
    exact Or.inl ⟨q, hq, this⟩
  · exact Or.inr ⟨r.core, h1, rfl⟩

theorem splitLoop_result (bands : List Nat) (image : Image) :
    ∀ (cells : List (Nat × Nat)) (st : Split), cells.Nodup →
      (∀ r ∈ st.regions, r.m_id ≤ st.lastId) →
      (cells.foldl (fun st p => splitPixel bands image st p.1 p.2) st).lastId =
        st.lastId + (cells.filter (isInvalidated st.labelledImage)).length ∧
      (cells.foldl (fun st p => splitPixel bands image st p.1 p.2) st).regions.map Region.core =
        st.regions.map Region.core ++
          newRegionsFrom bands image st.lastId (cells.filter (isInvalidated st.labelledImage)) ∧
      (cells.foldl (fun st p => splitPixel bands image st p.1 p.2) st).labelledImage.nlines =
        st.labelledImage.nlines ∧
      (cells.foldl (fun st p => splitPixel bands image st p.1 p.2) st).labelledImage.ncols =
        st.labelledImage.ncols ∧
      (∀ j (hj : j < (cells.filter (isInvalidated st.labelledImage)).length),
        (cells.foldl (fun st p => splitPixel bands image st p.1 p.2) st).labelledImage.cell
          ((cells.filter (isInvalidated st.labelledImage))[j]).1
          ((cells.filter (isInvalidated st.labelledImage))[j]).2 = st.lastId + 1 + j) ∧
      (∀ l c, (l, c) ∉ cells.filter (isInvalidated st.labelledImage) →
        (cells.foldl (fun st p => splitPixel bands image st p.1 p.2) st).labelledImage.cell l c =
          st.labelledImage.cell l c) ∧
      (∀ x, x ∈ (cells.foldl (fun st p => splitPixel bands image st p.1 p.2) st).newRegions ↔
        x ∈ st.newRegions ∨
          (st.lastId < x ∧
            x ≤ st.lastId + (cells.filter (isInvalidated st.labelledImage)).length)) := by
  intro cells
  induction cells with
  | nil =>
    intro st _ _
    refine ⟨rfl, by simp [newRegionsFrom], rfl, rfl, ?_, fun _ _ _ => rfl, ?_⟩
    · intro j hj; simp at hj
    · intro x; simp
  | cons p rest ih =>
    intro st hnd hle
    have hp : p ∉ rest := (List.nodup_cons.1 hnd).1
    have hnd' : rest.Nodup := (List.nodup_cons.1 hnd).2
    rw [List.foldl_cons]
    cases hinv : isInvalidated st.labelledImage p with
    | false =>
      rw [splitPixel_not_invalidated bands image st p hinv]
      have hS : (p :: rest).filter (isInvalidated st.labelledImage) =
          rest.filter (isInvalidated st.labelledImage) := by
        rw [List.filter_cons, hinv]; rfl
      rw [hS]
      exact ih st hnd' hle
    | true =>
      obtain ⟨s1, s2, s3, s4⟩ := splitPixel_invalidated bands image st p hinv hle
      have hin : p.1 < st.labelledImage.nlines ∧ p.2 < st.labelledImage.ncols ∧
          st.labelledImage.cell p.1 p.2 = npos := by
        simpa [isInvalidated] using hinv
      have hle1 : ∀ r ∈ (splitPixel bands image st p.1 p.2).regions,
          r.m_id ≤ (splitPixel bands image st p.1 p.2).lastId := by
        intro r hr
        rw [s1]
        rcases mem_of_map_core_eq_append s2 hr with ⟨q, hq, hqe⟩ | ⟨q, hq, hqe⟩
        · have := hle q hq; omega
        · rw [List.mem_singleton] at hq
          subst hq
          have : (Region.new (st.lastId + 1) (getPixelValues bands image p.1 p.2)
            p.1 p.2).m_id = st.lastId + 1 := rfl
          omega
      obtain ⟨i1, i2, i3, i4, i5, i6, i7⟩ := ih (splitPixel bands image st p.1 p.2) hnd' hle1
      have hfil : rest.filter (isInvalidated (splitPixel bands image st p.1 p.2).labelledImage) =
          rest.filter (isInvalidated st.labelledImage) := by
        rw [s3]; exact filter_isInvalidated_setElement _ p _ rest hp
      rw [hfil] at i1 i2 i5 i6 i7
      have hS : (p :: rest).filter (isInvalidated st.labelledImage) =
          p :: rest.filter (isInvalidated st.labelledImage) := by
        rw [List.filter_cons, hinv]; rfl
      have hpS : (p.1, p.2) ∉ rest.filter (isInvalidated st.labelledImage) :=
        fun h => hp (List.mem_filter.1 h).1
      have hcellp : (splitPixel bands image st p.1 p.2).labelledImage.cell p.1 p.2 =
          st.lastId + 1 := by
        rw [s3, setElement_cell, if_pos ⟨rfl, rfl, hin.1, hin.2.1⟩]
      rw [hS]
      refine ⟨?_, ?_, ?_, ?_, ?_, ?_, ?_⟩
      · rw [i1, s1, List.length_cons]; omega
      · rw [i2, s2, s1, List.append_assoc]; rfl
      · rw [i3, s3, setElement_nlines]
      · rw [i4, s3, setElement_ncols]
      · intro j hj
        cases j with
        | zero =>
          show _ = st.lastId + 1 + 0
          rw [List.getElem_cons_zero, i6 p.1 p.2 hpS, hcellp]
        | succ j =>
          rw [List.getElem_cons_succ]
          rw [List.length_cons] at hj
          rw [i5 j (by omega), s1]
          omega
      · intro l c hlc
        have h1 : (l, c) ≠ p := fun h => hlc (h ▸ List.mem_cons_self _ _)
        have h2 : (l, c) ∉ rest.filter (isInvalidated st.labelledImage) :=
          fun h => hlc (List.mem_cons_of_mem _ h)
        rw [i6 l c h2, s3, setElement_cell, if_neg]
        intro h
        exact h1 (Prod.ext h.1 h.2.1)
      · intro x
        rw [i7, s4, mem_insertKey, s1, List.length_cons]
        constructor
        · rintro ((h | h) | h)
          · exact Or.inr ⟨by omega, by omega⟩
          · exact Or.inl h
          · exact Or.inr ⟨by omega, by omega⟩
        · rintro (h | h)
          · exact Or.inl (Or.inr h)
          · by_cases hx : x = st.lastId + 1
            · exact Or.inl (Or.inl hx)
            · exact Or.inr ⟨by omega, by omega⟩

/-! ## Scan order of the cells of a box -/

theorem pairwise_boxCells (r : Region) : (boxCells r).Pairwise cellBefore := by
  unfold boxCells
  rw [List.pairwise_flatMap]
  constructor
  · intro lin _
    rw [List.pairwise_map]
    have := List.pairwise_lt_range' r.m_xStart (r.m_xBound - r.m_xStart)
    exact this.imp (fun h => Or.inr ⟨rfl, h⟩)
  · have := List.pairwise_lt_range' r.m_yStart (r.m_yBound - r.m_yStart)
    refine this.imp ?_
    intro a b hab x hx y hy
    obtain ⟨_, _, rfl⟩ := List.mem_map.1 hx
    obtain ⟨_, _, rfl⟩ := List.mem_map.1 hy
    exact Or.inl hab

theorem cellBefore_irrefl (p : Nat × Nat) : ¬ cellBefore p p := by
  unfold cellBefore; omega

theorem cellBefore_asymm (p q : Nat × Nat) (h1 : cellBefore p q) (h2 : cellBefore q p) :
    False := by
  unfold cellBefore at h1 h2; omega

theorem nodup_of_pairwise_cellBefore (l : List (Nat × Nat)) (h : l.Pairwise cellBefore) :
    l.Nodup := by
  unfold List.Nodup
  refine h.imp ?_
  intro a b hab heq
  subst heq
  exact cellBefore_irrefl _ hab

theorem nodup_boxCells (r : Region) : (boxCells r).Nodup :=
  nodup_of_pairwise_cellBefore _ (pairwise_boxCells r)

theorem gridCells_eq_boxCells (img : LabelImage) :
    gridCells img = boxCells
      { m_id := 0, m_size := 0, m_xStart := 0, m_yStart := 0, m_xBound := img.ncols,
        m_yBound := img.nlines, m_mean := [], m_variance := [], m_cv := [],
        m_neighbours := [] } := by
  unfold gridCells boxCells
  simp only [Nat.sub_zero, List.range_eq_range']

theorem mem_gridCells (img : LabelImage) (l c : Nat) :
    (l, c) ∈ gridCells img ↔ l < img.nlines ∧ c < img.ncols := by
  rw [gridCells_eq_boxCells, mem_boxCells]
  unfold Region.inBox
  simp only
  omega

theorem eq_of_sorted_of_mem_iff (l₁ l₂ : List (Nat × Nat)) (h₁ : l₁.Pairwise cellBefore)
    (h₂ : l₂.Pairwise cellBefore) (h : ∀ p, p ∈ l₁ ↔ p ∈ l₂) : l₁ = l₂ := by
  have hn1 : l₁.Nodup := nodup_of_pairwise_cellBefore _ h₁
  have hn2 : l₂.Nodup := nodup_of_pairwise_cellBefore _ h₂
  have hperm : l₁.Perm l₂ := (List.perm_ext_iff_of_nodup hn1 hn2).2 h
  exact @List.eq_of_perm_of_sorted _ cellBefore
    ⟨fun a b hab hba => (cellBefore_asymm a b hab hba).elim⟩ _ _ hperm h₁ h₂

/-- When every cell that carries the id of `region` lies inside its bounding box, the
cells the box scan finds are all the cells of the raster that carry the id, in
row-major order. -/
theorem regionCells_eq_grid (img : LabelImage) (region : Region)
    (hbox : ∀ lin col, lin < img.nlines → col < img.ncols →
      img.cell lin col = region.m_id → region.inBox lin col) :
    regionCells img region =
      (gridCells img).filter (fun p => img.cell p.1 p.2 == region.m_id) := by
  apply eq_of_sorted_of_mem_iff
  · exact (pairwise_boxCells region).filter _
  · rw [gridCells_eq_boxCells]
    exact (pairwise_boxCells _).filter _
  · rintro ⟨l, c⟩
    unfold regionCells
    rw [List.mem_filter, List.mem_filter, mem_boxCells, mem_gridCells]
    simp only [decide_eq_true_eq, beq_iff_eq]
    constructor
    · rintro ⟨_, h1, h2, h3⟩
      exact ⟨⟨h1, h2⟩, h3⟩
    · rintro ⟨⟨h1, h2⟩, h3⟩
      exact ⟨hbox l c h1 h2 h3, h1, h2, h3⟩

theorem regionCells_length (img : LabelImage) (region : Region)
    (hbox : ∀ lin col, lin < img.nlines → col < img.ncols →
      img.cell lin col = region.m_id → region.inBox lin col) :
    (regionCells img region).length = countLabel img region.m_id := by
  rw [regionCells_eq_grid img region hbox]
  rfl

/-! ## splitRegion: the table and the grid after the call -/

theorem lastRegionId_max {rs : List Region} (hs : TableSorted rs) :
    ∀ r ∈ rs, r.m_id ≤ lastRegionId rs := by
  intro r hr
  rcases List.eq_nil_or_concat rs with h | ⟨L, b, h⟩
  · subst h; cases hr
  · rw [List.concat_eq_append] at h
    subst h
    have hlast : lastRegionId (L ++ [b]) = b.m_id := by
      unfold lastRegionId
      rw [List.getLast?_append]
      rfl
    rw [hlast]
    unfold TableSorted at hs
    rw [List.map_append, List.pairwise_append] at hs
    rcases List.mem_append.1 hr with h1 | h1
    · exact Nat.le_of_lt (hs.2.2 _ (List.mem_map_of_mem _ h1) b.m_id (by simp))
    · rw [List.mem_singleton] at h1
      rw [h1]

theorem map_core_removeRegion (rs : List Region) (a : Nat) (link : Bool) :
    (removeRegion rs a link).map Region.core = (eraseRegion rs a).map Region.core := by
  unfold removeRegion
  cases hr : getRegion rs a with
  | none => 
    have hnot : ∀ r ∈ rs, r.m_id ≠ a := by
      intro r hr' h
      have := getRegion_eq_none_iff.1 hr
      exact this (h ▸ List.mem_map_of_mem _ hr')
    simp only
    rw [eraseRegion_of_not_live rs a hnot]
  | some r =>
    simp only
    rw [map_core_eraseRegion, map_core_eraseRegion]
    congr 1
    generalize r.m_neighbours = L
    have hloop : ∀ (Q : List Nat) (rs : List Region),
        (Q.foldl
          (fun rs neighbor =>
            let rs := updateRegion rs neighbor (fun n => n.removeNeighbour a)
            let isEmpty := match getRegion rs neighbor with
              | some n => n.m_neighbours.isEmpty
              | none => false
            if link || isEmpty then
              L.foldl (fun rs nn => if neighbor ≠ nn then linkRegions rs neighbor nn else rs) rs
            else rs) rs).map Region.core = rs.map Region.core := by
      intro Q
      induction Q with
      | nil => intro rs; rfl
      | cons n Q ih =>
        intro rs
        rw [List.foldl_cons, ih]
        simp only
        split
        · rw [map_core_linkLoop, map_core_updateRegion _ _ _ (fun r => removeNeighbour_core r a)]
        · rw [map_core_updateRegion _ _ _ (fun r => removeNeighbour_core r a)]
    exact hloop L rs

theorem invalidate_filter (img : LabelImage) (region : Region)
    (hnp : ∀ lin col, lin < img.nlines → col < img.ncols → img.cell lin col ≠ npos) :
    (boxCells region).filter (isInvalidated (invalidateRegionPixels img region)) =
      regionCells img region := by
  unfold regionCells
  apply List.filter_congr
  rintro ⟨l, c⟩ hp
  unfold isInvalidated
  rw [invalidateRegionPixels_eq, (relabelCells_dims _ _ _ _).1, (relabelCells_dims _ _ _ _).2,
    relabelCells_cell]
  by_cases hin : l < img.nlines ∧ c < img.ncols
  · by_cases hid : img.cell l c = region.m_id
    · simp [hin, hid, hp]
    · have := hnp l c hin.1 hin.2
      simp [hin, hid, this]
  · have h1 : ¬ (l < img.nlines ∧ c < img.ncols ∧ img.cell l c = region.m_id) :=
      fun h => hin ⟨h.1, h.2.1⟩
    simp only [decide_eq_decide]
    constructor
    · intro h; exact absurd ⟨h.1, h.2.1⟩ hin
    · intro h; exact absurd h h1

theorem invalidate_cell_of_not_mem (img : LabelImage) (region : Region) (l c : Nat)
    (h : (l, c) ∉ regionCells img region) :
    (invalidateRegionPixels img region).cell l c = img.cell l c := by
  rw [invalidateRegionPixels_eq, relabelCells_cell, if_neg]
  intro hc
  apply h
  unfold regionCells
  rw [List.mem_filter]
  exact ⟨hc.1, by simpa using hc.2⟩

theorem newRegionsFrom_ids (bands : List Nat) (image : Image) (b : Nat) (S : List (Nat × Nat)) :
    ∀ r ∈ newRegionsFrom bands image b S, b < r.m_id ∧ r.m_id ≤ b + S.length := by
  induction S generalizing b with
  | nil => intro r hr; cases hr
  | cons p t ih =>
    intro r hr
    simp only [newRegionsFrom, List.mem_cons] at hr
    rcases hr with h | h
    · subst h
      have : (Region.new (b + 1) (getPixelValues bands image p.1 p.2) p.1 p.2).m_id = b + 1 := rfl
      rw [this, List.length_cons]
      omega
    · have := ih (b + 1) r h
      rw [List.length_cons]
      omega

theorem newRegionsFrom_length (bands : List Nat) (image : Image) (b : Nat)
    (S : List (Nat × Nat)) : (newRegionsFrom bands image b S).length = S.length := by
  induction S generalizing b with
  | nil => rfl
  | cons p t ih => simp [newRegionsFrom, ih]

theorem newRegionsFrom_getElem (bands : List Nat) (image : Image) (b : Nat)
    (S : List (Nat × Nat)) (j : Nat) (hj : j < S.length)
    (hj' : j < (newRegionsFrom bands image b S).length) :
    (newRegionsFrom bands image b S)[j] =
      Region.new (b + 1 + j) (getPixelValues bands image S[j].1 S[j].2) S[j].1 S[j].2 := by
  induction S generalizing b j with
  | nil => simp at hj
  | cons p t ih =>
    cases j with
    | zero => simp [newRegionsFrom]
    | succ j =>
      simp only [newRegionsFrom, List.getElem_cons_succ]
      rw [ih (b + 1) j (by simpa using hj)]
      have : b + 1 + 1 + j = b + 1 + (j + 1) := by omega
      rw [this]

theorem newRegionsFrom_sumSizes (bands : List Nat) (image : Image) (b : Nat)
    (S : List (Nat × Nat)) : sumSizes (newRegionsFrom bands image b S) = S.length := by
  induction S generalizing b with
  | nil => rfl
  | cons p t ih =>
    simp only [newRegionsFrom, sumSizes_cons, ih, List.length_cons]
    have : (Region.new (b + 1) (getPixelValues bands image p.1 p.2) p.1 p.2).m_size = 1 := rfl
    omega

theorem eraseRegion_append (A B : List Region) (a : Nat) :
    eraseRegion (A ++ B) a = eraseRegion A a ++ eraseRegion B a := by
  unfold eraseRegion
  rw [List.filter_append]

theorem newRegionsFrom_map_id (bands : List Nat) (image : Image) (b : Nat)
    (S : List (Nat × Nat)) :
    (newRegionsFrom bands image b S).map (fun r => r.m_id) = List.range' (b + 1) S.length := by
  induction S generalizing b with
  | nil => rfl
  | cons p t ih =>
    simp only [newRegionsFrom, List.map_cons, List.length_cons, List.range'_succ, ih]
    rfl

theorem find_newRegionsFrom (bands : List Nat) (image : Image) (b : Nat)
    (S : List (Nat × Nat)) (j : Nat) (hj : j < S.length) :
    List.find? (fun r => r.m_id == b + 1 + j) (newRegionsFrom bands image b S) =
      some (Region.new (b + 1 + j) (getPixelValues bands image S[j].1 S[j].2) S[j].1 S[j].2) := by
  induction S generalizing b j with
  | nil => simp at hj
  | cons p t ih =>
    cases j with
    | zero => simp [newRegionsFrom, List.find?_cons, Region.new]
    | succ j =>
      have hne : ¬ (b + 1 = b + 1 + (j + 1)) := by omega
      have hstep := ih (b + 1) j (by simpa using hj)
      have e : b + 1 + 1 + j = b + 1 + (j + 1) := by omega
      rw [e] at hstep
      simp only [newRegionsFrom, List.find?_cons, List.getElem_cons_succ]
      have : ((Region.new (b + 1) (getPixelValues bands image p.1 p.2) p.1 p.2).m_id ==
          b + 1 + (j + 1)) = false := by
        show ((b + 1) == b + 1 + (j + 1)) = false
        simp
      rw [this]
      exact hstep

/-- The table, the grid and the working set after `splitRegion`, in terms of the
cells of the region found by the box scan. -/
theorem splitRegion_result (s : MultiSeg) (region : Region) (image : Image)
    (newRegions : List Nat) (hs : TableSorted s.m_regions)
    (hlive : getRegion s.m_regions region.m_id = some region)
    (hnp : ∀ lin col, lin < s.m_labelledImage.nlines → col < s.m_labelledImage.ncols →
      s.m_labelledImage.cell lin col ≠ npos) :
    ((splitRegion s region image newRegions).1.m_regions.map Region.core =
      (eraseRegion s.m_regions region.m_id).map Region.core ++
        newRegionsFrom s.m_bands image (lastRegionId s.m_regions)
          (regionCells s.m_labelledImage region)) ∧
    (splitRegion s region image newRegions).1.m_labelledImage.nlines =
      s.m_labelledImage.nlines ∧
    (splitRegion s region image newRegions).1.m_labelledImage.ncols =
      s.m_labelledImage.ncols ∧
    (∀ j (hj : j < (regionCells s.m_labelledImage region).length),
      (splitRegion s region image newRegions).1.m_labelledImage.cell
        ((regionCells s.m_labelledImage region)[j]).1
        ((regionCells s.m_labelledImage region)[j]).2 = lastRegionId s.m_regions + 1 + j) ∧
    (∀ l c, (l, c) ∉ regionCells s.m_labelledImage region →
      (splitRegion s region image newRegions).1.m_labelledImage.cell l c =
        s.m_labelledImage.cell l c) ∧
    (∀ x, x ∈ (splitRegion s region image newRegions).2 ↔
      x ∈ newRegions ∨ (lastRegionId s.m_regions < x ∧
        x ≤ lastRegionId s.m_regions + (regionCells s.m_labelledImage region).length)) := by
  obtain ⟨i1, i2, i3, i4, i5, i6, i7⟩ := splitLoop_result s.m_bands image (boxCells region)
    { regions := s.m_regions
      labelledImage := invalidateRegionPixels s.m_labelledImage region
      newRegions := newRegions
      lastId := lastRegionId s.m_regions }
    (nodup_boxCells region) (lastRegionId_max hs)
  simp only [invalidate_filter s.m_labelledImage region hnp] at i1 i2 i5 i6 i7
  have hdims := relabelCells_dims (boxCells region) s.m_labelledImage region.m_id npos
  rw [← invalidateRegionPixels_eq] at hdims
  have hrid : region.m_id ≤ lastRegionId s.m_regions :=
    lastRegionId_max hs region (getRegion_some hlive).2
  unfold splitRegion
  simp only
  refine ⟨?_, ?_, ?_, i5, ?_, i7⟩
  · rw [map_core_removeRegion, map_core_eraseRegion, i2, eraseRegion_append,
      ← map_core_eraseRegion]
    congr 1
    apply eraseRegion_of_not_live
    intro r hr
    have := (newRegionsFrom_ids _ _ _ _ r hr).1
    omega
  · rw [i3]; exact hdims.1
  · rw [i4]; exact hdims.2
  · intro l c hlc
    rw [i6 l c hlc]
    exact invalidate_cell_of_not_mem _ _ l c hlc

/-- C10: `splitRegion` on a live region whose id labels exactly `N` cells, all inside
its bounding box (in a grid without invalidated cells), removes the region and
creates exactly `N` regions, one per such cell in row-major order, with the ids
`max + 1, ..., max + N`, size 1, the cell as bounding box and the cell's band values
as mean; those cells carry the new ids, every other cell is unchanged, and every new
id is in the `newRegions` working set. -/
theorem splitRegion_spec (s : MultiSeg) (region : Region) (image : Image)
    (newRegions : List Nat) (hs : TableSorted s.m_regions)
    (hlive : getRegion s.m_regions region.m_id = some region)
    (hnp : ∀ lin col, lin < s.m_labelledImage.nlines → col < s.m_labelledImage.ncols →
      s.m_labelledImage.cell lin col ≠ npos)
    (hbox : ∀ lin col, lin < s.m_labelledImage.nlines → col < s.m_labelledImage.ncols →
      s.m_labelledImage.cell lin col = region.m_id → region.inBox lin col) :
    -- the cells of the region, in row-major order, and their number N
    regionCells s.m_labelledImage region =
      (gridCells s.m_labelledImage).filter
        (fun p => s.m_labelledImage.cell p.1 p.2 == region.m_id) ∧
    (regionCells s.m_labelledImage region).length =
      countLabel s.m_labelledImage region.m_id ∧
    -- max is the largest id of the table
    (∀ r ∈ s.m_regions, r.m_id ≤ lastRegionId s.m_regions) ∧
    -- the region is gone, and exactly N regions are new
    getRegion (splitRegion s region image newRegions).1.m_regions region.m_id = none ∧
    (splitRegion s region image newRegions).1.m_regions.map (fun r => r.m_id) =
      (s.m_regions.map (fun r => r.m_id)).filter (fun k => k != region.m_id) ++
        List.range' (lastRegionId s.m_regions + 1)
          (countLabel s.m_labelledImage region.m_id) ∧
    (∀ x, x ≠ region.m_id → x ≤ lastRegionId s.m_regions →
      (getRegion (splitRegion s region image newRegions).1.m_regions x).map Region.core =
        (getRegion s.m_regions x).map Region.core) ∧
    -- the new region of the j-th cell
    (∀ j (hj : j < (regionCells s.m_labelledImage region).length),
      (∃ r, getRegion (splitRegion s region image newRegions).1.m_regions
            (lastRegionId s.m_regions + 1 + j) = some r ∧
          r.m_id = lastRegionId s.m_regions + 1 + j ∧ r.m_size = 1 ∧
          r.m_yStart = ((regionCells s.m_labelledImage region)[j]).1 ∧
          r.m_yBound = ((regionCells s.m_labelledImage region)[j]).1 + 1 ∧
          r.m_xStart = ((regionCells s.m_labelledImage region)[j]).2 ∧
          r.m_xBound = ((regionCells s.m_labelledImage region)[j]).2 + 1 ∧
          r.m_mean = s.m_bands.map (fun b =>
            image ((regionCells s.m_labelledImage region)[j]).1
              ((regionCells s.m_labelledImage region)[j]).2 b)) ∧
      (splitRegion s region image newRegions).1.m_labelledImage.cell
        ((regionCells s.m_labelledImage region)[j]).1
        ((regionCells s.m_labelledImage region)[j]).2 = lastRegionId s.m_regions + 1 + j ∧
      lastRegionId s.m_regions + 1 + j ∈ (splitRegion s region image newRegions).2) ∧
    -- every other cell is unchanged
    (∀ l c, (l, c) ∉ regionCells s.m_labelledImage region →
      (splitRegion s region image newRegions).1.m_labelledImage.cell l c =
        s.m_labelledImage.cell l c) := by
  obtain ⟨r1, _, _, r4, r5, r6⟩ := splitRegion_result s region image newRegions hs hlive hnp
  have hlen := regionCells_length s.m_labelledImage region hbox
  have hmax := lastRegionId_max hs
  have hrid : region.m_id ≤ lastRegionId s.m_regions := hmax region (getRegion_some hlive).2
  -- lookups in the new table, through the cores
  have hget : ∀ x, (getRegion (splitRegion s region image newRegions).1.m_regions x).map
      Region.core = getRegion ((eraseRegion s.m_regions region.m_id).map Region.core ++
        newRegionsFrom s.m_bands image (lastRegionId s.m_regions)
          (regionCells s.m_labelledImage region)) x := by
    intro x
    rw [← getRegion_map_core, r1]
  have hold : ∀ x, x ≤ lastRegionId s.m_regions →
      getRegion ((eraseRegion s.m_regions region.m_id).map Region.core ++
        newRegionsFrom s.m_bands image (lastRegionId s.m_regions)
          (regionCells s.m_labelledImage region)) x =
      (getRegion (eraseRegion s.m_regions region.m_id) x).map Region.core := by
    intro x hx
    unfold getRegion
    rw [List.find?_append]
    have hnone : List.find? (fun r => r.m_id == x)
        (newRegionsFrom s.m_bands image (lastRegionId s.m_regions)
          (regionCells s.m_labelledImage region)) = none := by
      rw [List.find?_eq_none]
      intro r hr
      have := (newRegionsFrom_ids _ _ _ _ r hr).1
      simp only [beq_iff_eq]
      omega
    rw [hnone, Option.or_none]
    exact getRegion_map_core _ x
  refine ⟨regionCells_eq_grid _ _ hbox, hlen, hmax, ?_, ?_, ?_, ?_, r5⟩
  · have h1 := hget region.m_id
    rw [hold _ hrid, getRegion_eraseRegion, if_pos rfl] at h1
    cases h2 : getRegion (splitRegion s region image newRegions).1.m_regions region.m_id with
    | none => rfl
    | some q => rw [h2] at h1; cases h1
  · rw [@ids_eq_of_core_eq (eraseRegion s.m_regions region.m_id ++
        newRegionsFrom s.m_bands image (lastRegionId s.m_regions)
          (regionCells s.m_labelledImage region)) _
      (by rw [r1, List.map_append, newRegionsFrom_core]),
      List.map_append, ids_eraseRegion, ← hlen]
    rw [newRegionsFrom_map_id]
  · intro x hx hxb
    rw [hget x, hold x hxb, getRegion_eraseRegion, if_neg hx]
  · intro j hj
    refine ⟨?_, r4 j hj, (r6 _).2 (Or.inr ⟨by omega, by omega⟩)⟩
    have h1 := hget (lastRegionId s.m_regions + 1 + j)
    have h2 : getRegion ((eraseRegion s.m_regions region.m_id).map Region.core ++
        newRegionsFrom s.m_bands image (lastRegionId s.m_regions)
          (regionCells s.m_labelledImage region)) (lastRegionId s.m_regions + 1 + j) =
        some (Region.new (lastRegionId s.m_regions + 1 + j)
          (getPixelValues s.m_bands image ((regionCells s.m_labelledImage region)[j]).1
            ((regionCells s.m_labelledImage region)[j]).2)
          ((regionCells s.m_labelledImage region)[j]).1
          ((regionCells s.m_labelledImage region)[j]).2) := by
      unfold getRegion
      rw [List.find?_append]
      have hnone : List.find? (fun r => r.m_id == lastRegionId s.m_regions + 1 + j)
          ((eraseRegion s.m_regions region.m_id).map Region.core) = none := by
        rw [List.find?_eq_none]
        intro r hr
        obtain ⟨q, hq, rfl⟩ := List.mem_map.1 hr
        have hq' : q ∈ s.m_regions := (List.mem_filter.1 hq).1
        have := hmax q hq'
        simp only [beq_iff_eq, core_id]
        omega
      rw [hnone, Option.none_or]
      exact find_newRegionsFrom _ _ _ _ j hj
    rw [h2] at h1
    cases h3 : getRegion (splitRegion s region image newRegions).1.m_regions
        (lastRegionId s.m_regions + 1 + j) with
    | none => rw [h3] at h1; cases h1
    | some r =>
      rw [h3] at h1
      have hcore : r.core = Region.new (lastRegionId s.m_regions + 1 + j)
          (getPixelValues s.m_bands image ((regionCells s.m_labelledImage region)[j]).1
            ((regionCells s.m_labelledImage region)[j]).2)
          ((regionCells s.m_labelledImage region)[j]).1
          ((regionCells s.m_labelledImage region)[j]).2 := by simpa using h1
      exact ⟨r, rfl, congrArg Region.m_id hcore, congrArg Region.m_size hcore,
        congrArg Region.m_yStart hcore, congrArg Region.m_yBound hcore,
        congrArg Region.m_xStart hcore, congrArg Region.m_xBound hcore,
        congrArg Region.m_mean hcore⟩

/-! ## splitRegion: the neighbour relation -/

theorem linkWithCellIf_invariant (c : Prop) [Decidable c] (rs base : List Region)
    (img : LabelImage) (id col lin : Nat) (hid : isLive rs id = true)
    (hsym : ∀ x y, y ∈ neighboursOf rs x → x ∈ neighboursOf rs y)
    (hB : ∀ x y, y ∈ neighboursOf rs x → y ∈ neighboursOf base x ∨ x = id ∨ y = id) :
    (∀ x, isLive (if c then linkWithCell rs img id col lin else rs) x = isLive rs x) ∧
    (∀ x y, y ∈ neighboursOf (if c then linkWithCell rs img id col lin else rs) x →
      x ∈ neighboursOf (if c then linkWithCell rs img id col lin else rs) y) ∧
    (∀ x y, y ∈ neighboursOf (if c then linkWithCell rs img id col lin else rs) x →
      y ∈ neighboursOf base x ∨ x = id ∨ y = id) ∧
    ((c → lin < img.nlines → col < img.ncols → img.cell lin col ≠ npos →
        img.cell lin col ≠ id) →
      (∀ x, x ∉ neighboursOf rs x) →
      ∀ x, x ∉ neighboursOf (if c then linkWithCell rs img id col lin else rs) x) := by
  have hsame : (∀ x, isLive rs x = isLive rs x) ∧
      (∀ x y, y ∈ neighboursOf rs x → x ∈ neighboursOf rs y) ∧
      (∀ x y, y ∈ neighboursOf rs x → y ∈ neighboursOf base x ∨ x = id ∨ y = id) ∧
      ((c → lin < img.nlines → col < img.ncols → img.cell lin col ≠ npos →
          img.cell lin col ≠ id) →
        (∀ x, x ∉ neighboursOf rs x) → ∀ x, x ∉ neighboursOf rs x) :=
    ⟨fun _ => rfl, hsym, hB, fun _ h => h⟩
  by_cases hc : c
  · rw [if_pos hc]
    unfold linkWithCell
    rw [getElement_eq]
    by_cases hin : lin < img.nlines ∧ col < img.ncols
    · rw [if_pos hin]
      simp only
      by_cases hv : img.cell lin col ≠ npos
      · rw [if_pos hv]
        cases hg : getRegion rs (img.cell lin col) with
        | none => exact hsame
        | some n =>
          simp only
          have hnid : n.m_id = img.cell lin col := (getRegion_some hg).1
          have hvlive : isLive rs n.m_id = true := by
            rw [hnid]; exact isLive_of_getRegion hg
          refine ⟨isLive_link rs id n.m_id, ?_, ?_, ?_⟩
          · intro x y hxy
            rw [mem_neighboursOf_link] at hxy ⊢
            rcases hxy with h | ⟨h1, h2, _⟩ | ⟨h1, h2, _⟩
            · exact Or.inl (hsym x y h)
            · exact Or.inr (Or.inr ⟨h2, h1, hvlive⟩)
            · exact Or.inr (Or.inl ⟨h2, h1, hid⟩)
          · intro x y hxy
            rw [mem_neighboursOf_link] at hxy
            rcases hxy with h | ⟨h1, _, _⟩ | ⟨_, h2, _⟩
            · exact hB x y h
            · exact Or.inr (Or.inl h1)
            · exact Or.inr (Or.inr h2)
          · intro hcell hno x hx
            rw [mem_neighboursOf_link] at hx
            have hne : n.m_id ≠ id := by
              rw [hnid]; exact hcell hc hin.1 hin.2 hv
            rcases hx with h | ⟨h1, h2, _⟩ | ⟨h1, h2, _⟩
            · exact hno x h
            · exact hne (h2.symm.trans h1)
            · exact hne (h1.symm.trans h2)
      · rw [if_neg hv]; exact hsame
    · rw [if_neg hin]; exact hsame
  · rw [if_neg hc]; exact hsame

theorem neighboursOf_append_new (rs : List Region) (r : Region) (hr : r.m_neighbours = [])
    (x : Nat) : neighboursOf (rs ++ [r]) x = neighboursOf rs x := by
  unfold neighboursOf getRegion
  rw [List.find?_append]
  cases h : List.find? (fun q => q.m_id == x) rs with
  | some q => rfl
  | none =>
    simp only [Option.none_or, List.find?_cons, List.find?_nil]
    by_cases hx : (r.m_id == x) = true
    · simp [hx, hr]
    · simp [hx]

theorem isLive_append_new (rs : List Region) (r : Region) (x : Nat) :
    isLive (rs ++ [r]) x = (isLive rs x || decide (r.m_id = x)) := by
  unfold isLive getRegion
  rw [List.find?_append]
  cases h : List.find? (fun q => q.m_id == x) rs with
  | some q => simp
  | none =>
    by_cases hx : r.m_id = x <;> simp [List.find?_cons, hx]

/-- One pixel of `splitRegion` that is turned into a region: what it does to the
neighbour relation. -/
theorem splitPixel_adjacency (bands : List Nat) (image : Image) (st : Split)
    (p : Nat × Nat) (h : isInvalidated st.labelledImage p = true)
    (hle : ∀ r ∈ st.regions, r.m_id ≤ st.lastId)
    (hsym : ∀ x y, y ∈ neighboursOf st.regions x → x ∈ neighboursOf st.regions y) :
    (∀ x y, y ∈ neighboursOf (splitPixel bands image st p.1 p.2).regions x →
      x ∈ neighboursOf (splitPixel bands image st p.1 p.2).regions y) ∧
    (∀ x y, y ∈ neighboursOf (splitPixel bands image st p.1 p.2).regions x →
      y ∈ neighboursOf st.regions x ∨ x = st.lastId + 1 ∨ y = st.lastId + 1) ∧
    ((∀ l c, l < st.labelledImage.nlines → c < st.labelledImage.ncols →
        st.labelledImage.cell l c ≤ st.lastId ∨ st.labelledImage.cell l c = npos) →
      (∀ x, x ∉ neighboursOf st.regions x) →
      ∀ x, x ∉ neighboursOf (splitPixel bands image st p.1 p.2).regions x) := by
  have hin : p.1 < st.labelledImage.nlines ∧ p.2 < st.labelledImage.ncols ∧
      st.labelledImage.cell p.1 p.2 = npos := by
    simpa [isInvalidated] using h
  have hins : insertRegion st.regions
      (Region.new (st.lastId + 1) (getPixelValues bands image p.1 p.2) p.1 p.2) =
      st.regions ++ [Region.new (st.lastId + 1) (getPixelValues bands image p.1 p.2) p.1 p.2] := by
    apply insertRegion_append
    intro x hx
    have := hle x hx
    show x.m_id < st.lastId + 1
    omega
  have hnotlive : isLive st.regions (st.lastId + 1) = false := by
    cases hl : isLive st.regions (st.lastId + 1) with
    | false => rfl
    | true =>
      obtain ⟨r, hr, hrid⟩ := List.mem_map.1 (isLive_iff_mem.1 hl)
      have := hle r hr
      omega
  have hN0 : ∀ x, neighboursOf (st.regions ++
      [Region.new (st.lastId + 1) (getPixelValues bands image p.1 p.2) p.1 p.2]) x =
      neighboursOf st.regions x := fun x => neighboursOf_append_new _ _ rfl x
  have hlive0 : isLive (st.regions ++
      [Region.new (st.lastId + 1) (getPixelValues bands image p.1 p.2) p.1 p.2])
      (st.lastId + 1) = true := by
    rw [isLive_append_new]
    have : (Region.new (st.lastId + 1) (getPixelValues bands image p.1 p.2) p.1 p.2).m_id =
        st.lastId + 1 := rfl
    simp [this]
  have hsym0 : ∀ x y, y ∈ neighboursOf (st.regions ++
      [Region.new (st.lastId + 1) (getPixelValues bands image p.1 p.2) p.1 p.2]) x →
      x ∈ neighboursOf (st.regions ++
        [Region.new (st.lastId + 1) (getPixelValues bands image p.1 p.2) p.1 p.2]) y := by
    intro x y hxy
    rw [hN0] at hxy ⊢
    exact hsym x y hxy
  have hB0 : ∀ x y, y ∈ neighboursOf (st.regions ++
      [Region.new (st.lastId + 1) (getPixelValues bands image p.1 p.2) p.1 p.2]) x →
      y ∈ neighboursOf st.regions x ∨ x = st.lastId + 1 ∨ y = st.lastId + 1 := by
    intro x y hxy
    rw [hN0] at hxy
    exact Or.inl hxy
  have hno0 : (∀ x, x ∉ neighboursOf st.regions x) → ∀ x, x ∉ neighboursOf (st.regions ++
      [Region.new (st.lastId + 1) (getPixelValues bands image p.1 p.2) p.1 p.2]) x := by
    intro hno x hx
    rw [hN0] at hx
    exact hno x hx
  -- a neighbouring cell never holds the new id
  have hcellne : (∀ l c, l < st.labelledImage.nlines → c < st.labelledImage.ncols →
        st.labelledImage.cell l c ≤ st.lastId ∨ st.labelledImage.cell l c = npos) →
      ∀ l c, (l, c) ≠ p →
        l < (st.labelledImage.setElement p.2 p.1 (st.lastId + 1)).nlines →
        c < (st.labelledImage.setElement p.2 p.1 (st.lastId + 1)).ncols →
        (st.labelledImage.setElement p.2 p.1 (st.lastId + 1)).cell l c ≠ npos →
        (st.labelledImage.setElement p.2 p.1 (st.lastId + 1)).cell l c ≠ st.lastId + 1 := by
    intro hV l c hne hl hc hnp
    rw [setElement_nlines] at hl
    rw [setElement_ncols] at hc
    have hcond : ¬ (l = p.1 ∧ c = p.2 ∧ p.1 < st.labelledImage.nlines ∧
        p.2 < st.labelledImage.ncols) := fun hh => hne (Prod.ext hh.1 hh.2.1)
    rw [setElement_cell, if_neg hcond] at hnp ⊢
    rcases hV l c hl hc with h1 | h1
    · omega
    · exact absurd h1 hnp
  unfold splitPixel
  rw [getElement_eq, if_pos ⟨hin.1, hin.2.1⟩]
  simp only [hin.2.2, ne_eq, not_true_eq_false, if_false, hins]
  generalize hrs0 : st.regions ++
      [Region.new (st.lastId + 1) (getPixelValues bands image p.1 p.2) p.1 p.2] = rs0
    at hlive0 hsym0 hB0 hno0
  generalize himg : st.labelledImage.setElement p.2 p.1 (st.lastId + 1) = img at hcellne
  obtain ⟨a1, a2, a3, a4⟩ := linkWithCellIf_invariant (¬ p.1 = 0) rs0 st.regions img
    (st.lastId + 1) p.2 (p.1 - 1) hlive0 hsym0 hB0
  generalize (if ¬ p.1 = 0 then linkWithCell rs0 img (st.lastId + 1) p.2 (p.1 - 1) else rs0) = rs1
    at a1 a2 a3 a4
  obtain ⟨b1, b2, b3, b4⟩ := linkWithCellIf_invariant (¬ p.2 = 0) rs1 st.regions img
    (st.lastId + 1) (p.2 - 1) p.1 (by rw [a1]; exact hlive0) a2 a3
  generalize (if ¬ p.2 = 0 then linkWithCell rs1 img (st.lastId + 1) (p.2 - 1) p.1 else rs1) = rs2
    at b1 b2 b3 b4
  obtain ⟨c1, c2, c3, c4⟩ := linkWithCellIf_invariant (p.1 < img.nlines - 1) rs2 st.regions img
    (st.lastId + 1) p.2 (p.1 + 1) (by rw [b1, a1]; exact hlive0) b2 b3
  generalize (if p.1 < img.nlines - 1 then linkWithCell rs2 img (st.lastId + 1) p.2 (p.1 + 1)
    else rs2) = rs3 at c1 c2 c3 c4
  obtain ⟨d1, d2, d3, d4⟩ := linkWithCellIf_invariant (p.2 < img.ncols - 1) rs3 st.regions img
    (st.lastId + 1) (p.2 + 1) p.1 (by rw [c1, b1, a1]; exact hlive0) c2 c3
  refine ⟨d2, d3, ?_⟩
  intro hV hno
  have hcn := hcellne hV
  apply d4 (fun _ hl hc hnp => hcn p.1 (p.2 + 1)
    (fun hh => by have := congrArg Prod.snd hh; simp at this) hl hc hnp)
  apply c4 (fun _ hl hc hnp => hcn (p.1 + 1) p.2
    (fun hh => by have := congrArg Prod.fst hh; simp at this) hl hc hnp)
  apply b4 (fun hc0 hl hc hnp => hcn p.1 (p.2 - 1)
    (fun hh => by have := congrArg Prod.snd hh; simp at this; omega) hl hc hnp)
  apply a4 (fun hc0 hl hc hnp => hcn (p.1 - 1) p.2
    (fun hh => by have := congrArg Prod.fst hh; simp at this; omega) hl hc hnp)
  exact hno0 hno

theorem splitLoop_adjacency (bands : List Nat) (image : Image) :
    ∀ (cells : List (Nat × Nat)) (st : Split),
      (∀ r ∈ st.regions, r.m_id ≤ st.lastId) →
      (∀ x y, y ∈ neighboursOf st.regions x → x ∈ neighboursOf st.regions y) →
      (∀ x y, y ∈ neighboursOf
          (cells.foldl (fun st p => splitPixel bands image st p.1 p.2) st).regions x →
        x ∈ neighboursOf
          (cells.foldl (fun st p => splitPixel bands image st p.1 p.2) st).regions y) ∧
      (∀ x y, y ∈ neighboursOf
          (cells.foldl (fun st p => splitPixel bands image st p.1 p.2) st).regions x →
        y ∈ neighboursOf st.regions x ∨ st.lastId < x ∨ st.lastId < y) ∧
      ((∀ l c, l < st.labelledImage.nlines → c < st.labelledImage.ncols →
          st.labelledImage.cell l c ≤ st.lastId ∨ st.labelledImage.cell l c = npos) →
        (∀ x, x ∉ neighboursOf st.regions x) →
        ∀ x, x ∉ neighboursOf
          (cells.foldl (fun st p => splitPixel bands image st p.1 p.2) st).regions x) := by
  intro cells
  induction cells with
  | nil => intro st _ hsym; exact ⟨hsym, fun x y h => Or.inl h, fun _ h => h⟩
  | cons p rest ih =>
    intro st hle hsym
    rw [List.foldl_cons]
    cases hinv : isInvalidated st.labelledImage p with
    | false =>
      rw [splitPixel_not_invalidated bands image st p hinv]
      exact ih st hle hsym
    | true =>
      obtain ⟨s1, s2, s3, _⟩ := splitPixel_invalidated bands image st p hinv hle
      obtain ⟨t1, t2, t3⟩ := splitPixel_adjacency bands image st p hinv hle hsym
      have hin : p.1 < st.labelledImage.nlines ∧ p.2 < st.labelledImage.ncols ∧
          st.labelledImage.cell p.1 p.2 = npos := by
        simpa [isInvalidated] using hinv
      have hle1 : ∀ r ∈ (splitPixel bands image st p.1 p.2).regions,
          r.m_id ≤ (splitPixel bands image st p.1 p.2).lastId := by
        intro r hr
        rw [s1]
        rcases mem_of_map_core_eq_append s2 hr with ⟨q, hq, hqe⟩ | ⟨q, hq, hqe⟩
        · have := hle q hq; omega
        · rw [List.mem_singleton] at hq
          subst hq
          have : (Region.new (st.lastId + 1) (getPixelValues bands image p.1 p.2)
            p.1 p.2).m_id = st.lastId + 1 := rfl
          omega
      obtain ⟨i1, i2, i3⟩ := ih (splitPixel bands image st p.1 p.2) hle1 t1
      refine ⟨i1, ?_, ?_⟩
      · intro x y hxy
        rcases i2 x y hxy with h | h | h
        · rcases t2 x y h with h' | h' | h'
          · exact Or.inl h'
          · exact Or.inr (Or.inl (by omega))
          · exact Or.inr (Or.inr (by omega))
        · rw [s1] at h; exact Or.inr (Or.inl (by omega))
        · rw [s1] at h; exact Or.inr (Or.inr (by omega))
      · intro hV hno
        apply i3
        · intro l c hl hc
          rw [s3, setElement_nlines] at hl
          rw [s3, setElement_ncols] at hc
          rw [s3, s1, setElement_cell]
          split
          · exact Or.inl (le_refl _)
          · rcases hV l c hl hc with h | h
            · exact Or.inl (by omega)
            · exact Or.inr h
        · exact t3 hV hno

theorem tableSorted_append_new (rs extra : List Region) (b : Nat) (hs : TableSorted rs)
    (hle : ∀ r ∈ rs, r.m_id ≤ b) (n : Nat)
    (hextra : extra.map (fun r => r.m_id) = List.range' (b + 1) n) :
    TableSorted (rs ++ extra) := by
  unfold TableSorted at *
  rw [List.map_append, List.pairwise_append]
  refine ⟨hs, ?_, ?_⟩
  · rw [hextra]; exact List.pairwise_lt_range' _ _
  · intro x hx y hy
    rw [hextra, List.mem_range'_1] at hy
    obtain ⟨r, hr, rfl⟩ := List.mem_map.1 hx
    have := hle r hr
    omega

/-- `splitRegion` keeps the table sorted and the neighbour relation symmetric; with a
grid whose cells hold live ids it creates no self-neighbour. -/
theorem splitRegion_wf (s : MultiSeg) (region : Region) (image : Image)
    (newRegions : List Nat) (hs : TableSorted s.m_regions)
    (hsym : ∀ x y, y ∈ neighboursOf s.m_regions x → x ∈ neighboursOf s.m_regions y)
    (hlive : getRegion s.m_regions region.m_id = some region)
    (hself : region.m_id ∉ region.m_neighbours) :
    TableSorted (splitRegion s region image newRegions).1.m_regions ∧
    (∀ x y, y ∈ neighboursOf (splitRegion s region image newRegions).1.m_regions x →
      x ∈ neighboursOf (splitRegion s region image newRegions).1.m_regions y) ∧
    ((∀ l c, l < s.m_labelledImage.nlines → c < s.m_labelledImage.ncols →
        isLive s.m_regions (s.m_labelledImage.cell l c) = true) →
      (∀ x, x ∉ neighboursOf s.m_regions x) →
      ∀ x, x ∉ neighboursOf (splitRegion s region image newRegions).1.m_regions x) := by
  have hmax := lastRegionId_max hs
  have hrid : region.m_id ≤ lastRegionId s.m_regions := hmax region (getRegion_some hlive).2
  obtain ⟨a1, a2, a3⟩ := splitLoop_adjacency s.m_bands image (boxCells region)
    { regions := s.m_regions
      labelledImage := invalidateRegionPixels s.m_labelledImage region
      newRegions := newRegions
      lastId := lastRegionId s.m_regions } hmax hsym
  obtain ⟨_, b2, _, _, _, _, _⟩ := splitLoop_result s.m_bands image (boxCells region)
    { regions := s.m_regions
      labelledImage := invalidateRegionPixels s.m_labelledImage region
      newRegions := newRegions
      lastId := lastRegionId s.m_regions } (nodup_boxCells region) hmax
  simp only at a1 a2 a3 b2
  have hdims := relabelCells_dims (boxCells region) s.m_labelledImage region.m_id npos
  rw [← invalidateRegionPixels_eq] at hdims
  -- the table after the pixel loops
  generalize hst : (boxCells region).foldl
      (fun st p => splitPixel s.m_bands image st p.1 p.2)
      { regions := s.m_regions
        labelledImage := invalidateRegionPixels s.m_labelledImage region
        newRegions := newRegions
        lastId := lastRegionId s.m_regions } = st at a1 a2 a3 b2
  have hsorted : TableSorted st.regions := by
    have hids : st.regions.map (fun r => r.m_id) =
        (s.m_regions ++ newRegionsFrom s.m_bands image (lastRegionId s.m_regions)
          ((boxCells region).filter
            (isInvalidated (invalidateRegionPixels s.m_labelledImage region)))).map
          (fun r => r.m_id) := by
      apply ids_eq_of_core_eq
      rw [b2, List.map_append, newRegionsFrom_core]
    exact tableSorted_of_ids_eq hids
      (tableSorted_append_new _ _ _ hs hmax _ (newRegionsFrom_map_id _ _ _ _))
  have hselfN : region.m_id ∉ neighboursOf st.regions region.m_id := by
    intro h
    rcases a2 _ _ h with h' | h' | h'
    · have : neighboursOf s.m_regions region.m_id = region.m_neighbours := by
        simp [neighboursOf, hlive]
      rw [this] at h'
      exact hself h'
    · omega
    · omega
  obtain ⟨c1, c2, c3, _⟩ := removeRegion_wf st.regions region.m_id false hsorted a1 hselfN
  have hres : (splitRegion s region image newRegions).1.m_regions =
      removeRegion st.regions region.m_id false := by
    unfold splitRegion
    simp only
    rw [hst]
  rw [hres]
  refine ⟨c1, c2, ?_⟩
  intro hcells hno
  apply c3
  apply a3 _ hno
  intro l c hl hc
  rw [hdims.1] at hl
  rw [hdims.2] at hc
  rw [invalidateRegionPixels_eq, relabelCells_cell]
  split
  · exact Or.inr rfl
  · left
    obtain ⟨r, hr, hrid'⟩ := List.mem_map.1 (isLive_iff_mem.1 (hcells l c hl hc))
    have := hmax r hr
    omega

/-! ## The neighbour relation at the stable points -/

theorem adjacentIndex_symm {W x y : Nat} (h : adjacentIndex W x y) : adjacentIndex W y x := by
  unfold adjacentIndex at *
  omega

theorem initializeRegions_wf (s : MultiSeg) (image : Image) (hempty : s.m_regions = []) :
    TableSorted (initializeRegions s image).m_regions ∧
    SymmetricLive (initializeRegions s image).m_regions ∧
    NoSelfNeighbour (initializeRegions s image).m_regions := by
  have hs := initializeRegions_sorted s image hempty
  obtain ⟨_, h2, _⟩ := initializeRegions_result s image hempty
  refine ⟨hs, (symmetricLive_iff hs).2 ?_, (noSelfNeighbour_iff hs).2 ?_⟩
  · intro x y hxy
    obtain ⟨hx, hy, ha⟩ := (h2 x y).1 hxy
    exact (h2 y x).2 ⟨hy, hx, adjacentIndex_symm ha⟩
  · intro x hx
    obtain ⟨hx1, _, ha⟩ := (h2 x x).1 hx
    have hW : 0 < s.m_labelledImage.ncols := by
      rcases Nat.eq_zero_or_pos s.m_labelledImage.ncols with h | h
      · rw [h] at hx1; omega
      · exact h
    unfold adjacentIndex at ha
    omega

/-- C2: the neighbour relation over the region table is symmetric and refers to live
regions only (if a live region A lists B, then B is live and lists A). On a table kept
as a `std::map` this holds after `initializeRegions`, where moreover no region lists
itself, and it is preserved by the merge step for two distinct live regions, by
`removeRegion` with and without neighbourhood linking for a region that does not list
itself, and by `splitRegion` for a live region that does not list itself. That no
region lists itself is preserved as well, by `splitRegion` when every cell of the
label grid holds the id of a live region. -/
theorem neighbour_relation_symmetric_live :
    (∀ (s : MultiSeg) (image : Image), s.m_regions = [] →
      TableSorted (initializeRegions s image).m_regions ∧
      SymmetricLive (initializeRegions s image).m_regions ∧
      NoSelfNeighbour (initializeRegions s image).m_regions) ∧
    (∀ (s : MultiSeg) (R m : Nat), TableSorted s.m_regions → SymmetricLive s.m_regions →
      R ≠ m → isLive s.m_regions R = true → isLive s.m_regions m = true →
      TableSorted (mergeStep s R m).m_regions ∧
      SymmetricLive (mergeStep s R m).m_regions ∧
      (NoSelfNeighbour s.m_regions → NoSelfNeighbour (mergeStep s R m).m_regions)) ∧
    (∀ (rs : List Region) (a : Nat) (link : Bool), TableSorted rs → SymmetricLive rs →
      a ∉ neighboursOf rs a →
      TableSorted (removeRegion rs a link) ∧
      SymmetricLive (removeRegion rs a link) ∧
      (NoSelfNeighbour rs → NoSelfNeighbour (removeRegion rs a link))) ∧
    (∀ (s : MultiSeg) (region : Region) (image : Image) (newRegions : List Nat),
      TableSorted s.m_regions → SymmetricLive s.m_regions →
      getRegion s.m_regions region.m_id = some region →
      region.m_id ∉ region.m_neighbours →
      TableSorted (splitRegion s region image newRegions).1.m_regions ∧
      SymmetricLive (splitRegion s region image newRegions).1.m_regions ∧
      ((∀ l c, l < s.m_labelledImage.nlines → c < s.m_labelledImage.ncols →
          isLive s.m_regions (s.m_labelledImage.cell l c) = true) →
        NoSelfNeighbour s.m_regions →
        NoSelfNeighbour (splitRegion s region image newRegions).1.m_regions)) := by
  refine ⟨initializeRegions_wf, ?_, ?_, ?_⟩
  · intro s R m hs hsym hRm hR hm
    have hs' := tableSorted_mergeStep s R m hs
    refine ⟨hs', (symmetricLive_iff hs').2
      (mergeStep_symmetric s R m hRm hR hm ((symmetricLive_iff hs).1 hsym)), fun hno => ?_⟩
    exact (noSelfNeighbour_iff hs').2
      (mergeStep_noSelf s R m hRm hm ((noSelfNeighbour_iff hs).1 hno))
  · intro rs a link hs hsym ha
    obtain ⟨h1, h2, h3, _⟩ := removeRegion_wf rs a link hs ((symmetricLive_iff hs).1 hsym) ha
    exact ⟨h1, (symmetricLive_iff h1).2 h2,
      fun hno => (noSelfNeighbour_iff h1).2 (h3 ((noSelfNeighbour_iff hs).1 hno))⟩
  · intro s region image newRegions hs hsym hlive hself
    obtain ⟨h1, h2, h3⟩ := splitRegion_wf s region image newRegions hs
      ((symmetricLive_iff hs).1 hsym) hlive hself
    exact ⟨h1, (symmetricLive_iff h1).2 h2,
      fun hcells hno => (noSelfNeighbour_iff h1).2 (h3 hcells ((noSelfNeighbour_iff hs).1 hno))⟩

/-- C2 on the 1 x 2 grid of two linked pixels: after merging pixel 1 into pixel 0. -/
theorem neighbour_relation_symmetric_live_witness :
    TableSorted twoPixelSeg.m_regions ∧ SymmetricLive twoPixelSeg.m_regions ∧
    isLive twoPixelSeg.m_regions 0 = true ∧ isLive twoPixelSeg.m_regions 1 = true ∧
    SymmetricLive (mergeStep twoPixelSeg 0 1).m_regions :=
  ⟨by decide, by decide, by decide, by decide,
    (neighbour_relation_symmetric_live.2.1 twoPixelSeg 0 1 (by decide) (by decide)
      (by decide) (by decide) (by decide)).2.1⟩

/-! ## The sum of the region sizes -/

theorem sumSizes_core (l : List Region) :
    sumSizes l = ((l.map Region.core).map (fun r => r.m_size)).sum := by
  simp [sumSizes, List.map_map, Function.comp_def, Region.core]

theorem initializeRegions_sumSizes (s : MultiSeg) (image : Image) (hempty : s.m_regions = []) :
    SizeInvariant (initializeRegions s image) := by
  obtain ⟨h1, _, _, h4, h5, _⟩ := initializeRegions_result s image hempty
  unfold SizeInvariant
  rw [sumSizes_core, h1, h4, h5, List.map_map]
  have : ∀ n : Nat, ((List.range n).map (fun _ : Nat => 1)).sum = n := by
    intro n
    simp
  exact this _

theorem mergeStep_dims (s : MultiSeg) (R m : Nat) :
    (mergeStep s R m).m_labelledImage.nlines = s.m_labelledImage.nlines ∧
    (mergeStep s R m).m_labelledImage.ncols = s.m_labelledImage.ncols := by
  unfold mergeStep
  cases getRegion s.m_regions m with
  | none => exact ⟨rfl, rfl⟩
  | some mr =>
    simp only
    rw [updateLabelledImage_eq]
    exact relabelCells_dims _ _ _ _

/-- The merge step on two distinct live regions keeps the table sorted, creates no
self-neighbour and keeps the sum of the sizes equal to the number of cells. -/
theorem mergeStep_sizeInvariant (s : MultiSeg) (R m : Nat)
    (hinv : TableSorted s.m_regions ∧ NoSelfNeighbour s.m_regions ∧ SizeInvariant s)
    (hRm : R ≠ m) (hR : isLive s.m_regions R = true) (hm : isLive s.m_regions m = true) :
    TableSorted (mergeStep s R m).m_regions ∧ NoSelfNeighbour (mergeStep s R m).m_regions ∧
      SizeInvariant (mergeStep s R m) := by
  obtain ⟨hs, hno, hsz⟩ := hinv
  have hs' := tableSorted_mergeStep s R m hs
  refine ⟨hs', (noSelfNeighbour_iff hs').2
    (mergeStep_noSelf s R m hRm hm ((noSelfNeighbour_iff hs).1 hno)), ?_⟩
  unfold SizeInvariant at *
  rw [sumSizes_mergeStep s R m hs hRm hR hm, (mergeStep_dims s R m).1, (mergeStep_dims s R m).2]
  exact hsz

/-- A region and a live neighbour of it are distinct live regions when no region
lists itself. -/
theorem partner_distinct_live {rs : List Region} {cur : Nat} {cr cn : Region}
    (hno : NoSelfNeighbour rs) (hg : getRegion rs cur = some cr)
    (hp : cn.m_id ∈ cr.m_neighbours ∧ getRegion rs cn.m_id = some cn) :
    cr.m_id ≠ cn.m_id ∧ isLive rs cr.m_id = true ∧ isLive rs cn.m_id = true := by
  obtain ⟨hid, hmem⟩ := getRegion_some hg
  refine ⟨?_, ?_, isLive_of_getRegion hp.2⟩
  · intro h
    exact hno cr hmem (h ▸ hp.1)
  · rw [hid]; exact isLive_of_getRegion hg

theorem scan_size_step (sc : Scan) (cur : Nat) (cr cn : Region)
    (hinv : (TableSorted sc.seg.m_regions ∧ NoSelfNeighbour sc.seg.m_regions ∧
        SizeInvariant sc.seg) ∧
      ∀ e ∈ sc.log, SizeInvariant e.before ∧
        SizeInvariant (mergeStep e.before e.survivor e.absorbed))
    (hg : getRegion sc.seg.m_regions cur = some cr)
    (hp : findMergePartner sc.seg cr = some cn) :
    (TableSorted (sc.merge cr cn).seg.m_regions ∧ NoSelfNeighbour (sc.merge cr cn).seg.m_regions ∧
        SizeInvariant (sc.merge cr cn).seg) ∧
      ∀ e ∈ (sc.merge cr cn).log, SizeInvariant e.before ∧
        SizeInvariant (mergeStep e.before e.survivor e.absorbed) := by
  obtain ⟨hwf, hlog⟩ := hinv
  obtain ⟨hne, hR, hm⟩ := partner_distinct_live hwf.2.1 hg (findMergePartner_live hp)
  have hstep := mergeStep_sizeInvariant sc.seg cr.m_id cn.m_id hwf hne hR hm
  refine ⟨hstep, ?_⟩
  intro e he
  simp only [Scan.merge, List.mem_append, List.mem_singleton] at he
  rcases he with he | he
  · exact hlog e he
  · subst he
    exact ⟨hwf.2.2, hstep.2.2⟩

theorem mergeSmallRegionsStep_sizeInvariant (st : MultiSeg × Nat) (cur : Nat)
    (hinv : TableSorted st.1.m_regions ∧ NoSelfNeighbour st.1.m_regions ∧ SizeInvariant st.1) :
    TableSorted (mergeSmallRegionsStep st cur).1.m_regions ∧
      NoSelfNeighbour (mergeSmallRegionsStep st cur).1.m_regions ∧
      SizeInvariant (mergeSmallRegionsStep st cur).1 := by
  unfold mergeSmallRegionsStep
  cases hg : getRegion st.1.m_regions cur with
  | none => exact hinv
  | some cr =>
    simp only
    split
    · exact hinv
    · cases hc : getClosestRegion st.1 cr true with
      | none => exact hinv
      | some cn =>
        obtain ⟨hne, hR, hm⟩ := partner_distinct_live hinv.2.1 hg (getClosestRegion_live hc)
        exact mergeStep_sizeInvariant st.1 cn.m_id cr.m_id hinv (Ne.symm hne) hm hR

theorem mergeSmallRegions_sizeInvariant (s : MultiSeg)
    (hinv : TableSorted s.m_regions ∧ NoSelfNeighbour s.m_regions ∧ SizeInvariant s) :
    TableSorted (mergeSmallRegions s).1.m_regions ∧
      NoSelfNeighbour (mergeSmallRegions s).1.m_regions ∧
      SizeInvariant (mergeSmallRegions s).1 := by
  unfold mergeSmallRegions
  have : ∀ (keys : List Nat) (st : MultiSeg × Nat),
      (TableSorted st.1.m_regions ∧ NoSelfNeighbour st.1.m_regions ∧ SizeInvariant st.1) →
      TableSorted (keys.foldl mergeSmallRegionsStep st).1.m_regions ∧
        NoSelfNeighbour (keys.foldl mergeSmallRegionsStep st).1.m_regions ∧
        SizeInvariant (keys.foldl mergeSmallRegionsStep st).1 := by
    intro keys
    induction keys with
    | nil => intro st h; exact h
    | cons k rest ih =>
      intro st h
      rw [List.foldl_cons]
      exact ih _ (mergeSmallRegionsStep_sizeInvariant st k h)
  exact this _ (s, 0) hinv

theorem splitRegion_sizeInvariant (s : MultiSeg) (region : Region) (image : Image)
    (newRegions : List Nat) (hs : TableSorted s.m_regions)
    (hlive : getRegion s.m_regions region.m_id = some region)
    (hnp : ∀ lin col, lin < s.m_labelledImage.nlines → col < s.m_labelledImage.ncols →
      s.m_labelledImage.cell lin col ≠ npos)
    (hbox : ∀ lin col, lin < s.m_labelledImage.nlines → col < s.m_labelledImage.ncols →
      s.m_labelledImage.cell lin col = region.m_id → region.inBox lin col)
    (hsize : region.m_size = countLabel s.m_labelledImage region.m_id)
    (hinv : SizeInvariant s) :
    SizeInvariant (splitRegion s region image newRegions).1 := by
  obtain ⟨h1, h2, h3, _⟩ := splitRegion_result s region image newRegions hs hlive hnp
  unfold SizeInvariant at *
  rw [h2, h3, ← hinv, sumSizes_core, h1, List.map_append, List.sum_append,
    ← sumSizes_core, ← sumSizes_eraseRegion hs hlive]
  have := newRegionsFrom_sumSizes s.m_bands image (lastRegionId s.m_regions)
    (regionCells s.m_labelledImage region)
  unfold sumSizes at this
  rw [this, regionCells_length _ _ hbox, hsize]

/-- C1: the sum of the sizes of all live regions equals rows x cols of the label
grid at every stable point. It holds right after `initializeRegions`. On a table kept
as a `std::map` in which no region lists itself, `mergeRegions` and
`mergeRegionsRandomly` return and keep it, as does every merge they perform (the
logged events), and `mergeSmallRegions` keeps it. `splitRegion` keeps it for a live
region whose recorded size is the number of cells carrying its id, on a label grid
at a stable point: those cells lie in the region's bounding box and no cell reads
`npos`. -/
theorem sum_of_sizes_is_cell_count :
    (∀ (s : MultiSeg) (image : Image), s.m_regions = [] →
      SizeInvariant (initializeRegions s image)) ∧
    (∀ (s : MultiSeg) (regions : List Nat), TableSorted s.m_regions →
      NoSelfNeighbour s.m_regions → SizeInvariant s →
      ∃ sc, mergeRegions s regions = some sc ∧ SizeInvariant sc.seg ∧
        ∀ e ∈ sc.log, SizeInvariant e.before ∧
          SizeInvariant (mergeStep e.before e.survivor e.absorbed)) ∧
    (∀ (shuffle : List Nat → List Nat) (s : MultiSeg) (regions : List Nat),
      TableSorted s.m_regions → NoSelfNeighbour s.m_regions → SizeInvariant s →
      ∃ sc, mergeRegionsRandomly shuffle s regions = some sc ∧ SizeInvariant sc.seg ∧
        ∀ e ∈ sc.log, SizeInvariant e.before ∧
          SizeInvariant (mergeStep e.before e.survivor e.absorbed)) ∧
    (∀ (s : MultiSeg), TableSorted s.m_regions → NoSelfNeighbour s.m_regions →
      SizeInvariant s → SizeInvariant (mergeSmallRegions s).1) ∧
    (∀ (s : MultiSeg) (region : Region) (image : Image) (newRegions : List Nat),
      TableSorted s.m_regions → getRegion s.m_regions region.m_id = some region →
      (∀ lin col, lin < s.m_labelledImage.nlines → col < s.m_labelledImage.ncols →
        s.m_labelledImage.cell lin col ≠ npos) →
      (∀ lin col, lin < s.m_labelledImage.nlines → col < s.m_labelledImage.ncols →
        s.m_labelledImage.cell lin col = region.m_id → region.inBox lin col) →
      region.m_size = countLabel s.m_labelledImage region.m_id →
      SizeInvariant s → SizeInvariant (splitRegion s region image newRegions).1) := by
  refine ⟨initializeRegions_sumSizes, ?_, ?_, ?_, ?_⟩
  · intro s regions hs hno hsz
    obtain ⟨sc, hsc, _⟩ := mergeRegions_count s regions hs
    have h := mergeRegionsLoop_invariant
      (fun sc => (TableSorted sc.seg.m_regions ∧ NoSelfNeighbour sc.seg.m_regions ∧
          SizeInvariant sc.seg) ∧
        ∀ e ∈ sc.log, SizeInvariant e.before ∧
          SizeInvariant (mergeStep e.before e.survivor e.absorbed))
      scan_size_step _ ⟨s, regions, 0, []⟩ _ sc
      ⟨⟨hs, hno, hsz⟩, fun e he => absurd he (List.not_mem_nil e)⟩ hsc
    exact ⟨sc, hsc, h.1.2.2, h.2⟩
  · intro shuffle s regions hs hno hsz
    obtain ⟨sc, hsc, _⟩ := mergeRegionsRandomly_count shuffle s regions hs
    have h := mergeRegionsRandomlyLoop_invariant
      (fun sc => (TableSorted sc.seg.m_regions ∧ NoSelfNeighbour sc.seg.m_regions ∧
          SizeInvariant sc.seg) ∧
        ∀ e ∈ sc.log, SizeInvariant e.before ∧
          SizeInvariant (mergeStep e.before e.survivor e.absorbed))
      scan_size_step _ ⟨s, regions, 0, []⟩ sc
      ⟨⟨hs, hno, hsz⟩, fun e he => absurd he (List.not_mem_nil e)⟩ hsc
    exact ⟨sc, hsc, h.1.2.2, h.2⟩
  · intro s hs hno hsz
    exact (mergeSmallRegions_sizeInvariant s ⟨hs, hno, hsz⟩).2.2
  · intro s region image newRegions hs hlive hnp hbox hsize hsz
    exact splitRegion_sizeInvariant s region image newRegions hs hlive hnp hbox hsize hsz

/-- C1 on the 1 x 2 grid of two linked pixels: a `mergeRegions` scan over both keys. -/
theorem sum_of_sizes_is_cell_count_witness :
    TableSorted twoPixelSeg.m_regions ∧ NoSelfNeighbour twoPixelSeg.m_regions ∧
    SizeInvariant twoPixelSeg ∧
    ∃ sc, mergeRegions twoPixelSeg [0, 1] = some sc ∧ SizeInvariant sc.seg ∧
      ∀ e ∈ sc.log, SizeInvariant e.before ∧
        SizeInvariant (mergeStep e.before e.survivor e.absorbed) :=
  ⟨by decide, by decide, by decide,
    sum_of_sizes_is_cell_count.2.1 twoPixelSeg [0, 1] (by decide) (by decide) (by decide)⟩

/-- C10 on the 1 x 2 grid of two linked pixels: the left pixel region is split into
the single region 2, and the table then holds the ids 1 and 2. -/
theorem splitRegion_spec_witness :
    TableSorted twoPixelSeg.m_regions ∧
    getRegion twoPixelSeg.m_regions pixelA.m_id = some pixelA ∧
    (∀ lin col, lin < twoPixelSeg.m_labelledImage.nlines →
      col < twoPixelSeg.m_labelledImage.ncols →
      twoPixelSeg.m_labelledImage.cell lin col ≠ npos) ∧
    (∀ lin col, lin < twoPixelSeg.m_labelledImage.nlines →
      col < twoPixelSeg.m_labelledImage.ncols →
      twoPixelSeg.m_labelledImage.cell lin col = pixelA.m_id → pixelA.inBox lin col) ∧
    getRegion (splitRegion twoPixelSeg pixelA sampleImage []).1.m_regions pixelA.m_id = none ∧
    (splitRegion twoPixelSeg pixelA sampleImage []).1.m_regions.map (fun r => r.m_id) =
      (twoPixelSeg.m_regions.map (fun r => r.m_id)).filter (fun k => k != pixelA.m_id) ++
        List.range' (lastRegionId twoPixelSeg.m_regions + 1)
          (countLabel twoPixelSeg.m_labelledImage pixelA.m_id) :=
  have hnp : ∀ lin col, lin < twoPixelSeg.m_labelledImage.nlines →
      col < twoPixelSeg.m_labelledImage.ncols →
      twoPixelSeg.m_labelledImage.cell lin col ≠ npos := by
    intro lin col _ hc h
    have h2 : col < 2 := hc
    have h3 : col = npos := h
    unfold npos at h3
    omega
  have hbox : ∀ lin col, lin < twoPixelSeg.m_labelledImage.nlines →
      col < twoPixelSeg.m_labelledImage.ncols →
      twoPixelSeg.m_labelledImage.cell lin col = pixelA.m_id → pixelA.inBox lin col := by
    intro lin col hl _ h
    have h1 : lin < 1 := hl
    have h3 : col = 0 := h
    have h4 : lin = 0 := by omega
    subst h3 h4
    decide
  ⟨by decide, rfl, hnp, hbox,
    (splitRegion_spec twoPixelSeg pixelA sampleImage [] (by decide) rfl hnp hbox).2.2.2.1,
    (splitRegion_spec twoPixelSeg pixelA sampleImage [] (by decide) rfl hnp hbox).2.2.2.2.1⟩

/-! ## The number of pyramid levels -/

theorem div_pow_succ (m j : Nat) : m / 2 ^ j / 2 = m / 2 ^ (j + 1) := by
  rw [Nat.div_div_eq_div_mul, pow_succ]

theorem div_pow_anti (m : Nat) {j k : Nat} (h : j ≤ k) : m / 2 ^ k ≤ m / 2 ^ j :=
  Nat.div_le_div_left (Nat.pow_le_pow_right (by decide) h) (Nat.pos_pow_of_pos _ (by decide))

theorem computeMaxLevelsLoop_spec (minimumSize m : Nat) (hmin : 1 ≤ minimumSize) :
    ∀ (fuel j : Nat), m / 2 ^ (j + 1) < fuel →
      (∀ k, 1 ≤ k → k ≤ j → minimumSize ≤ m / 2 ^ k) →
      ∃ r, ComputeMaxLevelsLoop minimumSize fuel (m / 2 ^ (j + 1)) j = some r ∧
        (∀ k, 1 ≤ k → k ≤ r → minimumSize ≤ m / 2 ^ k) ∧ m / 2 ^ (r + 1) < minimumSize := by
  intro fuel
  induction fuel with
  | zero => intro j h; exact absurd h (Nat.not_lt_zero _)
  | succ fuel ih =>
    intro j hfuel hpre
    unfold ComputeMaxLevelsLoop
    by_cases hge : m / 2 ^ (j + 1) ≥ minimumSize
    · rw [if_pos hge, div_pow_succ]
      apply ih (j + 1)
      · rw [← div_pow_succ m (j + 1)]
        have h1 : 1 ≤ m / 2 ^ (j + 1) := le_trans hmin hge
        generalize m / 2 ^ (j + 1) = x at hfuel h1
        omega
      · intro k hk1 hk2
        rcases Nat.lt_or_ge k (j + 1) with h | h
        · exact hpre k hk1 (by omega)
        · have : k = j + 1 := by omega
          subst this
          exact hge
    · rw [if_neg hge]
      exact ⟨j, rfl, hpre, Nat.lt_of_not_ge hge⟩

/-- C20: for every `nlines`, `ncols` and every `minimumSize >= 1`, `ComputeMaxLevels`
returns, and its result `r` is the number of `k >= 1` with
`floor(min(nlines, ncols) / 2^k) >= minimumSize`: these `k` are exactly `1, ..., r`,
so halving the smaller dimension up to `r` times stays at or above the minimum size. -/
theorem computeMaxLevels_spec (nlines ncols minimumSize : Nat) (hmin : 1 ≤ minimumSize) :
    ∃ r, ComputeMaxLevels nlines ncols minimumSize = some r ∧
      (∀ k, 1 ≤ k → (k ≤ r ↔ minimumSize ≤ min nlines ncols / 2 ^ k)) ∧
      ((Finset.range (min nlines ncols + 1)).filter
        (fun k => 1 ≤ k ∧ minimumSize ≤ min nlines ncols / 2 ^ k)).card = r := by
  obtain ⟨r, h1, h2, h3⟩ := computeMaxLevelsLoop_spec minimumSize (min nlines ncols) hmin
    (min nlines ncols + 1) 0
    (Nat.lt_succ_of_le (Nat.div_le_self _ _))
    (fun k hk1 hk2 => by omega)
  have hiff : ∀ k, 1 ≤ k → (k ≤ r ↔ minimumSize ≤ min nlines ncols / 2 ^ k) := by
    intro k hk
    refine ⟨h2 k hk, fun hge => ?_⟩
    by_contra hlt
    have h4 := div_pow_anti (min nlines ncols) (show r + 1 ≤ k by omega)
    exact absurd (lt_of_le_of_lt (le_trans hge h4) h3) (lt_irrefl _)
  refine ⟨r, ?_, hiff, ?_⟩
  · unfold ComputeMaxLevels
    simpa using h1
  · have hr : r ≤ min nlines ncols := by
      rcases Nat.eq_zero_or_pos r with h | h
      · omega
      · have h4 := h2 r h (le_refl r)
        have h5 : r < 2 ^ r := Nat.lt_two_pow r
        by_contra hcon
        have h6 : min nlines ncols / 2 ^ r = 0 := Nat.div_eq_of_lt (by omega)
        rw [h6] at h4
        omega
    have hset : (Finset.range (min nlines ncols + 1)).filter
        (fun k => 1 ≤ k ∧ minimumSize ≤ min nlines ncols / 2 ^ k) = Finset.Icc 1 r := by
      ext k
      simp only [Finset.mem_filter, Finset.mem_range, Finset.mem_Icc]
      constructor
      · rintro ⟨_, hk1, hk2⟩
        exact ⟨hk1, (hiff k hk1).2 hk2⟩
      · rintro ⟨hk1, hk2⟩
        exact ⟨by omega, hk1, (hiff k hk1).1 hk2⟩
    rw [hset]
    simp

/-- C20 for a 16 x 20 raster and the default minimum size 2: three levels. -/
theorem computeMaxLevels_spec_witness :
    ∃ r, ComputeMaxLevels 16 20 2 = some r ∧
      (∀ k, 1 ≤ k → (k ≤ r ↔ 2 ≤ min 16 20 / 2 ^ k)) ∧
      ((Finset.range (min 16 20 + 1)).filter
        (fun k => 1 ≤ k ∧ 2 ≤ min 16 20 / 2 ^ k)).card = r :=
  computeMaxLevels_spec 16 20 2 (by decide)

/-! ## The minimum-area cleanup -/

/-- C12 (evaluation at the failing input): with `min_area = 2`, a region of size 2,
which has the minimum size, is absorbed by its neighbour in one pass of
`mergeSmallRegions`: the loop skips a region only when its size is greater than
`m_minArea`. -/
theorem mergeSmallRegions_absorbs_region_of_minimum_size :
    (twoRegionSeg 2 5 2).m_minArea = 2 ∧
    (getRegion (twoRegionSeg 2 5 2).m_regions 0).map (fun r => r.m_size) = some 2 ∧
    (mergeSmallRegions (twoRegionSeg 2 5 2)).2 = 1 ∧
    getRegion (mergeSmallRegions (twoRegionSeg 2 5 2)).1.m_regions 0 = none ∧
    (mergeSmallRegions (twoRegionSeg 2 5 2)).1.m_regions.map (fun r => (r.m_id, r.m_size)) =
      [(1, 7)] := by
  decide!

theorem merge_size (r1 r2 : Region) :
    (EuclideanMerger.merge r1 r2).m_size = r1.m_size + r2.m_size := rfl

/-- The selection of `mergeSmallRegions` at means that are not integers: for the
region `R` of mean 10 with the neighbours of means 10.9 and 10.2, in this order,
`getSquaredEuclideanDistance` gives 0 for both, because each difference is
converted to `int` before `abs`, so the first one is selected and `R` is merged into
it, although the second one is nearer. -/
theorem mergeSmallRegions_tie_after_truncation :
    AbstractMerger.getSquaredEuclideanDistance [10] [109 / 10] = 0 ∧
    AbstractMerger.getSquaredEuclideanDistance [10] [51 / 5] = 0 ∧
    (getClosestRegion tieSeg
      { Region.new 0 [10] 0 1 with m_neighbours := [1, 2] } true).map (fun r => r.m_id)
      = some 1 ∧
    (mergeSmallRegionsStep (tieSeg, 0) 0).1.m_regions.map (fun r => (r.m_id, r.m_size)) =
      [(1, 2), (2, 1)] := by
  decide!

/-! ## Termination and idempotence of processSmallRegions -/

theorem mergeSmallRegionsStep_cases (st : MultiSeg × Nat) (cur : Nat) :
    mergeSmallRegionsStep st cur = st ∨
    ∃ R N, getRegion st.1.m_regions cur = some R ∧
      mergeSmallRegionsStep st cur = (mergeStep st.1 N R.m_id, st.2 + 1) := by
  unfold mergeSmallRegionsStep
  cases hg : getRegion st.1.m_regions cur with
  | none => exact Or.inl rfl
  | some R =>
    simp only
    split
    · exact Or.inl rfl
    · cases hc : getClosestRegion st.1 R true with
      | none => exact Or.inl rfl
      | some N => exact Or.inr ⟨R, N.m_id, rfl, rfl⟩

theorem mergeStep_minArea (s : MultiSeg) (R m : Nat) :
    (mergeStep s R m).m_minArea = s.m_minArea := by
  unfold mergeStep
  cases getRegion s.m_regions m <;> rfl

/-- The invariants of a pass of `mergeSmallRegions`: the table stays sorted, every
merge removes one entry, the minimum area is untouched, and the counter does not
move exactly when the state does not. -/
theorem mergeSmallRegionsFold_spec :
    ∀ (keys : List Nat) (st : MultiSeg × Nat), TableSorted st.1.m_regions →
      TableSorted (keys.foldl mergeSmallRegionsStep st).1.m_regions ∧
      (keys.foldl mergeSmallRegionsStep st).1.m_regions.length +
        (keys.foldl mergeSmallRegionsStep st).2 = st.1.m_regions.length + st.2 ∧
      (keys.foldl mergeSmallRegionsStep st).1.m_minArea = st.1.m_minArea ∧
      st.2 ≤ (keys.foldl mergeSmallRegionsStep st).2 ∧
      ((keys.foldl mergeSmallRegionsStep st).2 = st.2 →
        keys.foldl mergeSmallRegionsStep st = st) := by
  intro keys
  induction keys with
  | nil => intro st hs; exact ⟨hs, rfl, rfl, le_refl _, fun _ => rfl⟩
  | cons k rest ih =>
    intro st hs
    rw [List.foldl_cons]
    rcases mergeSmallRegionsStep_cases st k with h | ⟨R, N, hR, h⟩
    · rw [h]; exact ih st hs
    · have hRlive : isLive st.1.m_regions R.m_id = true := by
        rw [(getRegion_some hR).1]; exact isLive_of_getRegion hR
      have hs1 : TableSorted (mergeSmallRegionsStep st k).1.m_regions := by
        rw [h]; exact tableSorted_mergeStep st.1 N R.m_id hs
      have hlen := length_mergeStep st.1 N R.m_id hs hRlive
      obtain ⟨i1, i2, i3, i4, i5⟩ := ih (mergeSmallRegionsStep st k) hs1
      rw [h] at i2 i3 i4 i5
      simp only at i2 i3 i4 i5
      rw [h]
      refine ⟨by rw [← h]; exact i1, by omega, by rw [i3, mergeStep_minArea], by omega, ?_⟩
      intro heq
      omega

theorem mergeSmallRegions_spec (s : MultiSeg) (hs : TableSorted s.m_regions) :
    TableSorted (mergeSmallRegions s).1.m_regions ∧
    (mergeSmallRegions s).1.m_regions.length + (mergeSmallRegions s).2 = s.m_regions.length ∧
    (mergeSmallRegions s).1.m_minArea = s.m_minArea ∧
    ((mergeSmallRegions s).2 = 0 → mergeSmallRegions s = (s, 0)) := by
  obtain ⟨h1, h2, h3, _, h5⟩ := mergeSmallRegionsFold_spec
    (s.m_regions.map (fun r => r.m_id)) (s, 0) hs
  exact ⟨h1, h2, h3, h5⟩

/-- The loop of `processSmallRegions` returns, with enough fuel, a state on which a
pass of `mergeSmallRegions` merges nothing and changes nothing. -/
theorem processSmallRegionsLoop_spec :
    ∀ (fuel : Nat) (s : MultiSeg) (total : Nat), TableSorted s.m_regions →
      s.m_regions.length < fuel →
      ∃ s' n, processSmallRegionsLoop fuel s total = some (s', n) ∧
        TableSorted s'.m_regions ∧ s'.m_minArea = s.m_minArea ∧
        s'.m_regions.length ≤ s.m_regions.length ∧ mergeSmallRegions s' = (s', 0) := by
  intro fuel
  induction fuel with
  | zero => intro s total _ h; omega
  | succ fuel ih =>
    intro s total hs hfuel
    obtain ⟨h1, h2, h3, h4⟩ := mergeSmallRegions_spec s hs
    unfold processSmallRegionsLoop
    simp only
    by_cases hz : (mergeSmallRegions s).2 = 0
    · rw [if_pos hz]
      have hid := h4 hz
      refine ⟨(mergeSmallRegions s).1, total, rfl, h1, h3, by omega, ?_⟩
      rw [hid]
      exact hid
    · rw [if_neg hz]
      obtain ⟨s', n, i1, i2, i3, i4, i5⟩ := ih (mergeSmallRegions s).1
        (total + (mergeSmallRegions s).2) h1 (by omega)
      exact ⟨s', n, i1, i2, by rw [i3, h3], by omega, i5⟩

/-- C14: on a region table kept as a `std::map`, `processSmallRegions` returns, and a
second call made right afterwards performs zero merges and returns the state it was
given: the region table with its adjacency and the label grid are unchanged. -/
theorem processSmallRegions_idempotent (s : MultiSeg) (hs : TableSorted s.m_regions) :
    ∃ s' n, processSmallRegions s = some (s', n) ∧ processSmallRegions s' = some (s', 0) := by
  unfold processSmallRegions
  by_cases hmin : s.m_minArea > 1
  · rw [if_pos hmin]
    obtain ⟨s', n, h1, _, h3, _, h5⟩ :=
      processSmallRegionsLoop_spec (s.m_regions.length + 1) s 0 hs (Nat.lt_succ_self _)
    refine ⟨s', n, h1, ?_⟩
    rw [if_pos (by rw [h3]; exact hmin)]
    unfold processSmallRegionsLoop
    simp only [h5, if_true]
  · rw [if_neg hmin]
    exact ⟨s, 0, rfl, by rw [if_neg hmin]⟩

/-- C14 on the strip of a region of size 3 and its neighbour of size 50, with
minimum area 10: the first call merges once, the second call not at all. -/
theorem processSmallRegions_idempotent_witness :
    TableSorted (twoRegionSeg 3 50 10).m_regions ∧
    (∃ s' n, processSmallRegions (twoRegionSeg 3 50 10) = some (s', n) ∧
      processSmallRegions s' = some (s', 0)) ∧
    (processSmallRegions (twoRegionSeg 3 50 10)).map
      (fun r => (r.1.m_regions.map (fun q => (q.m_id, q.m_size)), r.2)) =
        some ([(1, 53)], 1) :=
  ⟨by decide, processSmallRegions_idempotent (twoRegionSeg 3 50 10) (by decide), by decide!⟩

/-! ## Region ids given by splitRegion -/

/-- C11 (counterexample): on the 1 x 2 grid of two pixels of value 10,
`initializeRegions` creates the ids 0 and 1, the `mergeRegions` scan merges region 1
into region 0, and `splitRegion` of region 0 then gives the ids 1 and 2 to the new
regions: the id 1 of the region merged away is used again. -/
theorem splitRegion_reuses_merged_id :
    (initializeRegions (sampleSeg 1 2) sampleImage).m_regions.map (fun r => r.m_id) = [0, 1] ∧
    (mergeRegions (initializeRegions (sampleSeg 1 2) sampleImage) [0, 1]).bind
      (fun sc => (getRegion sc.seg.m_regions 0).map
        (fun R =>
          (sc.seg.m_regions.map (fun r => r.m_id),
           (splitRegion sc.seg R sampleImage []).2,
           (splitRegion sc.seg R sampleImage []).1.m_regions.map (fun r => r.m_id)))) =
      some ([0], [1, 2], [1, 2]) := by
  decide!

/-- C11 (amended): the ids that `splitRegion` gives to new regions are greater than
every id in the region table at the time of the split, so they differ from all of
them, and no id occurs twice in the table after the split. -/
theorem splitRegion_ids_fresh (s : MultiSeg) (region : Region) (image : Image)
    (newRegions : List Nat) (hs : TableSorted s.m_regions)
    (hlive : getRegion s.m_regions region.m_id = some region)
    (hnp : ∀ lin col, lin < s.m_labelledImage.nlines → col < s.m_labelledImage.ncols →
      s.m_labelledImage.cell lin col ≠ npos) :
    (∀ x ∈ (splitRegion s region image newRegions).1.m_regions.map (fun r => r.m_id),
      x ∉ s.m_regions.map (fun r => r.m_id) → ∀ r ∈ s.m_regions, r.m_id < x) ∧
    (∀ x ∈ (splitRegion s region image newRegions).2,
      x ∈ newRegions ∨ ∀ r ∈ s.m_regions, r.m_id < x) ∧
    TableSorted (splitRegion s region image newRegions).1.m_regions := by
  obtain ⟨r1, _, _, _, _, r6⟩ := splitRegion_result s region image newRegions hs hlive hnp
  have hmax := lastRegionId_max hs
  have hids : (splitRegion s region image newRegions).1.m_regions.map (fun r => r.m_id) =
      (eraseRegion s.m_regions region.m_id ++
        newRegionsFrom s.m_bands image (lastRegionId s.m_regions)
          (regionCells s.m_labelledImage region)).map (fun r => r.m_id) := by
    apply ids_eq_of_core_eq
    rw [r1, List.map_append, newRegionsFrom_core]
  refine ⟨?_, ?_, ?_⟩
  · intro x hx hnew r hr
    rw [hids, List.map_append, List.mem_append] at hx
    rcases hx with hx | hx
    · rw [ids_eraseRegion] at hx
      exact absurd (List.mem_filter.1 hx).1 hnew
    · rw [newRegionsFrom_map_id, List.mem_range'_1] at hx
      have := hmax r hr
      omega
  · intro x hx
    rcases (r6 x).1 hx with h | h
    · exact Or.inl h
    · refine Or.inr (fun r hr => ?_)
      have := hmax r hr
      omega
  · refine tableSorted_of_ids_eq hids ?_
    apply tableSorted_append_new _ _ (lastRegionId s.m_regions) (tableSorted_eraseRegion hs _)
      (fun r hr => hmax r (List.mem_filter.1 hr).1) _ (newRegionsFrom_map_id _ _ _ _)

/-- C11 (amended) on the 1 x 2 grid of two linked pixels, for the left pixel. -/
theorem splitRegion_ids_fresh_witness :
    TableSorted twoPixelSeg.m_regions ∧
    getRegion twoPixelSeg.m_regions pixelA.m_id = some pixelA ∧
    (∀ x ∈ (splitRegion twoPixelSeg pixelA sampleImage []).1.m_regions.map (fun r => r.m_id),
      x ∉ twoPixelSeg.m_regions.map (fun r => r.m_id) →
      ∀ r ∈ twoPixelSeg.m_regions, r.m_id < x) :=
  ⟨by decide, rfl,
    (splitRegion_ids_fresh twoPixelSeg pixelA sampleImage [] (by decide) rfl
      (by
        intro lin col _ hc h
        have h2 : col < 2 := hc
        have h3 : col = npos := h
        unfold npos at h3
        omega)).1⟩

/-! ## The table of coefficients of variation -/

theorem nextSamples_gt (n : Nat) : n < nextSamples n := by
  unfold nextSamples
  split_ifs <;> omega

theorem samplesAt_lt_succ (i : Nat) : samplesAt i < samplesAt (i + 1) :=
  nextSamples_gt _

theorem samplesAt_strictMono {i j : Nat} (h : i < j) : samplesAt i < samplesAt j := by
  induction j with
  | zero => omega
  | succ j ih =>
    rcases Nat.lt_or_ge i j with h1 | h1
    · exact lt_trans (ih h1) (samplesAt_lt_succ j)
    · have : i = j := by omega
      subst this
      exact samplesAt_lt_succ i

theorem samplesAt_breakpoints : (List.range 39).map samplesAt = breakpoints := by decide

theorem tableFind_insert (t : List ((Nat × Nat) × ℚ)) (k k' : Nat × Nat) (v : ℚ) :
    tableFind (tableInsert t k v) k' = if k = k' then some v else tableFind t k' := by
  unfold tableFind tableInsert
  by_cases h : k = k'
  · subst h
    simp
  · rw [if_neg h, List.find?_cons]
    have h1 : ((k, v).1 == k') = false := by simpa using h
    rw [h1]
    simp only
    congr 1
    induction t with
    | nil => rfl
    | cons e t ih =>
      rw [List.filter_cons]
      by_cases he : e.1 = k
      · have h2 : (e.1 != k) = false := by simp [he]
        have h3 : (e.1 == k') = false := by rw [he]; simpa using h
        rw [h2, List.find?_cons, h3]
        simpa using ih
      · have h2 : (e.1 != k) = true := by simp [he]
        rw [h2]
        simp only [if_true, List.find?_cons]
        cases (e.1 == k')
        · simpa using ih
        · rfl

theorem tableFind_ne_nil {t : List ((Nat × Nat) × ℚ)} {k : Nat × Nat} {v : ℚ}
    (h : tableFind t k = some v) : t.isEmpty = false := by
  cases t with
  | nil => cases h
  | cons e t => rfl

/-- The value loop of `load` for the row of look `ENL`, entered with `nSamples` at its
`j`-th value: it stores the values of the row under the following numbers of samples
and leaves the other entries alone. -/
theorem loadValues_spec (ENL : Nat) :
    ∀ (vs : List ℚ) (j : Nat) (t : CVTable),
      (vs.foldl (loadValue ENL) (t, samplesAt j)).2 = samplesAt (j + vs.length) ∧
      (∀ i v, vs[i]? = some v →
        tableFind (vs.foldl (loadValue ENL) (t, samplesAt j)).1.m_table
          (ENL, samplesAt (j + i)) = some v) ∧
      (∀ e n, e ≠ ENL ∨ n < samplesAt j →
        tableFind (vs.foldl (loadValue ENL) (t, samplesAt j)).1.m_table (e, n) =
          tableFind t.m_table (e, n)) ∧
      (t.m_header = (List.range j).map samplesAt → j + vs.length ≤ 39 →
        (vs.foldl (loadValue ENL) (t, samplesAt j)).1.m_header =
          (List.range (j + vs.length)).map samplesAt) ∧
      (39 ≤ t.m_header.length →
        (vs.foldl (loadValue ENL) (t, samplesAt j)).1.m_header = t.m_header) := by
  intro vs
  induction vs with
  | nil =>
    intro j t
    refine ⟨rfl, ?_, fun _ _ _ => rfl, fun h _ => h, fun _ => rfl⟩
    intro i v h
    simp at h
  | cons a vs ih =>
    intro j t
    rw [List.foldl_cons]
    have hstep : loadValue ENL (t, samplesAt j) a =
        ({ m_header := if t.m_header.length < 39 then t.m_header ++ [samplesAt j]
                       else t.m_header
           m_table := tableInsert t.m_table (ENL, samplesAt j) a }, samplesAt (j + 1)) := rfl
    rw [hstep]
    obtain ⟨i1, i2, i3, i4, i5⟩ := ih (j + 1)
      { m_header := if t.m_header.length < 39 then t.m_header ++ [samplesAt j]
                    else t.m_header
        m_table := tableInsert t.m_table (ENL, samplesAt j) a }
    refine ⟨?_, ?_, ?_, ?_, ?_⟩
    · rw [i1, List.length_cons]
      congr 1
      omega
    · intro i v hi
      cases i with
      | zero =>
        simp only [List.getElem?_cons_zero, Option.some.injEq] at hi
        subst hi
        rw [i3 ENL (samplesAt (j + 0)) (Or.inr (samplesAt_lt_succ j))]
        simp only [tableFind_insert, Nat.add_zero, if_true]
      | succ i =>
        rw [List.getElem?_cons_succ] at hi
        have := i2 i v hi
        rw [show j + (i + 1) = j + 1 + i by omega]
        exact this
    · intro e n hen
      rw [i3 e n (by
        rcases hen with h | h
        · exact Or.inl h
        · exact Or.inr (lt_trans h (samplesAt_lt_succ j)))]
      simp only [tableFind_insert]
      rw [if_neg]
      intro heq
      rcases hen with h | h
      · exact h (congrArg Prod.fst heq).symm
      · have := congrArg Prod.snd heq
        simp only at this
        omega
    · intro hhd hlen
      rw [List.length_cons] at hlen
      have hl : t.m_header.length = j := by rw [hhd]; simp
      have := i4 (by
        simp only
        rw [if_pos (by omega), hhd, List.range_succ, List.map_append]
        rfl) (by omega)
      rw [this, List.length_cons]
      congr 2
      omega
    · intro hlen
      have := i5 (by
        simp only
        rw [if_neg (by omega)]
        exact hlen)
      rw [this]
      simp only
      rw [if_neg (by omega)]

theorem loadRow_eq (t : CVTable) (e0 : Nat) (cvs : List ℚ) :
    loadRow (t, e0) cvs = ((cvs.foldl (loadValue (e0 + 1)) (t, samplesAt 0)).1, e0 + 1) := rfl

/-- The row loop of `load`, entered with `ENL = e0`: the value `i` of the row `k`
is stored under the key `(e0 + k + 1, samplesAt i)`; the entries of the looks up to
`e0` are left alone. -/
theorem loadRowsFold_spec :
    ∀ (rows : List (List ℚ)) (e0 : Nat) (t : CVTable),
      (∀ k row i v, rows[k]? = some row → row[i]? = some v →
        tableFind (rows.foldl loadRow (t, e0)).1.m_table (e0 + k + 1, samplesAt i) = some v) ∧
      (∀ e n, e ≤ e0 →
        tableFind (rows.foldl loadRow (t, e0)).1.m_table (e, n) = tableFind t.m_table (e, n)) ∧
      (39 ≤ t.m_header.length → (rows.foldl loadRow (t, e0)).1.m_header = t.m_header) := by
  intro rows
  induction rows with
  | nil =>
    intro e0 t
    refine ⟨?_, fun _ _ _ => rfl, fun _ => rfl⟩
    intro k row i v h
    simp at h
  | cons r rows ih =>
    intro e0 t
    rw [List.foldl_cons, loadRow_eq]
    obtain ⟨_, v2, v3, _, v5⟩ := loadValues_spec (e0 + 1) r 0 t
    obtain ⟨i1, i2, i3⟩ := ih (e0 + 1) (r.foldl (loadValue (e0 + 1)) (t, samplesAt 0)).1
    refine ⟨?_, ?_, ?_⟩
    · intro k row i v hk hi
      cases k with
      | zero =>
        simp only [List.getElem?_cons_zero, Option.some.injEq] at hk
        subst hk
        rw [i2 _ _ (le_refl _)]
        have := v2 i v hi
        rw [Nat.zero_add] at this
        exact this
      | succ k =>
        rw [List.getElem?_cons_succ] at hk
        have := i1 k row i v hk hi
        rw [show e0 + (k + 1) + 1 = e0 + 1 + k + 1 by omega]
        exact this
    · intro e n he
      rw [i2 e n (by omega), v3 e n (Or.inl (by omega))]
    · intro hlen
      rw [i3 (by rw [v5 hlen]; exact hlen), v5 hlen]

/-- After `load` of a file whose first row has 39 values into a fresh table, the
header is the list of the 39 numbers of samples. -/
theorem loadRows_header (r0 : List ℚ) (rest : List (List ℚ)) (h39 : r0.length = 39) :
    (CVTable.new.loadRows (r0 :: rest)).m_header = breakpoints := by
  unfold CVTable.loadRows
  rw [List.foldl_cons, loadRow_eq]
  obtain ⟨_, _, _, v4, _⟩ := loadValues_spec (0 + 1) r0 0 CVTable.new
  have hh := v4 rfl (by omega)
  rw [Nat.zero_add, h39, samplesAt_breakpoints] at hh
  obtain ⟨_, _, i3⟩ := loadRowsFold_spec rest (0 + 1)
    (r0.foldl (loadValue (0 + 1)) (CVTable.new, samplesAt 0)).1
  rw [i3 (by rw [hh]; decide), hh]

theorem loadRows_find (rows : List (List ℚ)) (k : Nat) (row : List ℚ) (i : Nat) (v : ℚ)
    (hk : rows[k]? = some row) (hi : row[i]? = some v) :
    tableFind (CVTable.new.loadRows rows).m_table (k + 1, samplesAt i) = some v := by
  obtain ⟨h1, _, _⟩ := loadRowsFold_spec rows 0 CVTable.new
  have := h1 k row i v hk hi
  rw [Nat.zero_add] at this
  exact this

theorem toInt_of_lt (n : Nat) (h : n < 2 ^ 31) : toInt n = (n : Int) := by
  unfold toInt
  have h1 : n % 2 ^ 32 = n := Nat.mod_eq_of_lt (lt_trans h (by norm_num))
  rw [h1, if_pos h]

theorem toInt_of_neg (d : Nat) (hd : 0 < d) (h : d ≤ 2 ^ 31) :
    toInt (2 ^ 64 - d) = -(d : Int) := by
  unfold toInt
  have h1 : (2 ^ 64 - d) % 2 ^ 32 = 2 ^ 32 - d := by
    norm_num at h ⊢
    omega
  rw [h1, if_neg (by norm_num at h ⊢; omega)]
  norm_num at h ⊢
  omega

theorem subSizeT_of_le (a h : Nat) (ha : a < 2 ^ 31) (hle : h ≤ a) : subSizeT a h = a - h := by
  unfold subSizeT
  norm_num at ha ⊢
  omega

theorem subSizeT_of_lt (a h : Nat) (hh : h < 2 ^ 31) (hlt : a < h) :
    subSizeT a h = 2 ^ 64 - (h - a) := by
  unfold subSizeT
  norm_num at hh ⊢
  omega

theorem toSizeT_of_nat (n : Nat) (h : n < 2 ^ 64) : toSizeT (n : Int) = n := by
  unfold toSizeT
  norm_num at h ⊢
  omega

/-- The conversions around the difference in `getCV` give the distance of the two
numbers when both are below `2^31`. -/
theorem diffLower_eq (a h : Nat) (ha : a < 2 ^ 31) (hh : h < 2 ^ 31) :
    toSizeT |toInt (subSizeT a h)| = ((a : Int) - (h : Int)).natAbs := by
  rcases Nat.lt_or_ge a h with hlt | hge
  · rw [subSizeT_of_lt a h hh hlt, toInt_of_neg (h - a) (by omega) (by omega), abs_neg,
      Nat.abs_cast, toSizeT_of_nat _ (lt_of_le_of_lt (Nat.sub_le _ _) (lt_trans hh (by norm_num)))]
    omega
  · rw [subSizeT_of_le a h ha hge, toInt_of_lt _ (lt_of_le_of_lt (Nat.sub_le _ _) ha),
      Nat.abs_cast, toSizeT_of_nat _ (lt_of_le_of_lt (Nat.sub_le _ _) (lt_trans ha (by norm_num)))]
    omega

theorem clampLooks_eq (looks : Nat) (hl : looks < 2 ^ 31) :
    toSizeT (min (toInt looks) 250) = min looks 250 := by
  rw [toInt_of_lt looks hl]
  have h1 : min (looks : Int) 250 = ((min looks 250 : Nat) : Int) := by
    rw [Nat.cast_min]; rfl
  rw [h1, toSizeT_of_nat _ (lt_of_le_of_lt (min_le_right _ _) (by norm_num))]

/-- A rounding loop with strict comparison returns its start value when no listed
number is nearer than it, and otherwise the first listed number of minimum
distance. -/
theorem nearestFold_first_min (d : Nat → Nat) :
    ∀ (l : List Nat) (acc : Nat × Nat),
      ((∀ h ∈ l, acc.1 ≤ d h) ∧
        l.foldl (fun (acc : Nat × Nat) h => if d h < acc.1 then (d h, h) else acc) acc = acc) ∨
      ∃ pre b post, l = pre ++ b :: post ∧
        l.foldl (fun (acc : Nat × Nat) h => if d h < acc.1 then (d h, h) else acc) acc =
          (d b, b) ∧
        d b < acc.1 ∧ (∀ h ∈ pre, d b < d h) ∧ (∀ h ∈ post, d b ≤ d h) := by
  intro l
  induction l with
  | nil => intro acc; exact Or.inl ⟨fun h hh => absurd hh (List.not_mem_nil h), rfl⟩
  | cons n l ih =>
    intro acc
    rw [List.foldl_cons]
    by_cases hd : d n < acc.1
    · rw [if_pos hd]
      rcases ih (d n, n) with ⟨h1, h2⟩ | ⟨pre, b, post, h1, h2, h3, h4, h5⟩
      · exact Or.inr ⟨[], n, l, rfl, h2, hd, fun h hh => absurd hh (List.not_mem_nil h), h1⟩
      · refine Or.inr ⟨n :: pre, b, post, by rw [h1]; rfl, h2, lt_trans h3 hd, ?_, h5⟩
        intro h hh
        rcases List.mem_cons.1 hh with e | e
        · subst e; exact h3
        · exact h4 h e
    · rw [if_neg hd]
      rcases ih acc with ⟨h1, h2⟩ | ⟨pre, b, post, h1, h2, h3, h4, h5⟩
      · refine Or.inl ⟨?_, h2⟩
        intro h hh
        rcases List.mem_cons.1 hh with e | e
        · subst e; exact not_lt.1 hd
        · exact h1 h e
      · refine Or.inr ⟨n :: pre, b, post, by rw [h1]; rfl, h2, h3, ?_, h5⟩
        intro h hh
        rcases List.mem_cons.1 hh with e | e
        · subst e; exact lt_of_lt_of_le h3 (not_lt.1 hd)
        · exact h4 h e

theorem roundSamples_eq (header : List Nat) (nSamples : Nat) (hs : nSamples < 2 ^ 31)
    (hh : ∀ h ∈ header, h < 2 ^ 31) (start : Nat × Nat) :
    roundSamples header nSamples start =
      header.foldl (fun (acc : Nat × Nat) (h : Nat) =>
        if ((nSamples : Int) - (h : Int)).natAbs < acc.1
        then (((nSamples : Int) - (h : Int)).natAbs, h) else acc) start := by
  unfold roundSamples
  induction header generalizing start with
  | nil => rfl
  | cons h t ih =>
    rw [List.foldl_cons, List.foldl_cons]
    simp only
    rw [diffLower_eq nSamples h hs (hh h (List.mem_cons_self _ _))]
    exact ih (fun x hx => hh x (List.mem_cons_of_mem _ hx)) _

theorem breakpoints_le : ∀ h ∈ breakpoints, h ≤ 9000 := by decide

theorem breakpoints_sorted : breakpoints.Pairwise (fun a b => a < b) := by decide

theorem breakpoints_samplesAt (i b : Nat) (h : breakpoints[i]? = some b) :
    i < 39 ∧ samplesAt i = b := by
  have hi : i < 39 := by
    obtain ⟨hi, _⟩ := List.getElem?_eq_some.1 h
    exact hi
  refine ⟨hi, ?_⟩
  rw [← samplesAt_breakpoints, List.getElem?_map, List.getElem?_range hi] at h
  exact Option.some.inj h

/-- The rounding loop of `getCV` over the 39 numbers of samples selects the nearest
one, the smaller one when two are equally near. -/
theorem roundSamples_breakpoints (nSamples : Nat) (hs : nSamples < 2 ^ 31) (start : Nat) :
    ∃ (i b : Nat), breakpoints[i]? = some b ∧
      (roundSamples breakpoints nSamples (npos, start)).2 = b ∧
      ∀ h ∈ breakpoints,
        ((nSamples : Int) - (b : Int)).natAbs ≤ ((nSamples : Int) - (h : Int)).natAbs ∧
        (((nSamples : Int) - (h : Int)).natAbs = ((nSamples : Int) - (b : Int)).natAbs →
          b ≤ h) := by
  have hlt : ∀ h ∈ breakpoints, h < 2 ^ 31 := fun h hh =>
    lt_of_le_of_lt (breakpoints_le h hh) (by norm_num)
  rw [roundSamples_eq breakpoints nSamples hs hlt]
  rcases nearestFold_first_min (fun (h : Nat) => ((nSamples : Int) - (h : Int)).natAbs) breakpoints
      (npos, start) with ⟨h1, _⟩ | ⟨pre, b, post, h1, h2, _, h4, h5⟩
  · exfalso
    have h10 := h1 10 (by decide)
    have : npos = 2 ^ 64 - 1 := rfl
    simp only at h10
    rw [this] at h10
    norm_num at hs h10
    omega
  · have hb : b ∈ breakpoints := by rw [h1]; simp
    obtain ⟨i, hi, hib⟩ := List.getElem_of_mem hb
    refine ⟨i, b, by rw [List.getElem?_eq_getElem hi, hib], by rw [h2], ?_⟩
    intro h hh
    have hsorted := breakpoints_sorted
    rw [h1] at hh hsorted
    rcases List.mem_append.1 hh with hp | hp
    · have := h4 h hp
      simp only at this
      exact ⟨le_of_lt this, fun heq => by omega⟩
    · rcases List.mem_cons.1 hp with e | e
      · subst e; exact ⟨le_refl _, fun _ => le_refl _⟩
      · have := h5 h e
        simp only at this
        refine ⟨this, fun _ => ?_⟩
        have hpw := (List.pairwise_append.1 hsorted).2.1
        exact le_of_lt ((List.pairwise_cons.1 hpw).1 h e)

/-- The result of `getCV` on a table loaded from at least 250 rows of 39 values. -/
theorem getCV_loaded (rows : List (List ℚ)) (hrows : 250 ≤ rows.length)
    (h39 : ∀ row ∈ rows, row.length = 39) (looks samples : Nat)
    (hl1 : 1 ≤ looks) (hl : looks < 2 ^ 31) (hs : samples < 2 ^ 31) :
    ∃ (i b : Nat) (row : List ℚ) (v : ℚ),
      breakpoints[i]? = some b ∧ rows[min looks 250 - 1]? = some row ∧ row[i]? = some v ∧
      (∀ h ∈ breakpoints,
        ((samples : Int) - (b : Int)).natAbs ≤ ((samples : Int) - (h : Int)).natAbs ∧
        (((samples : Int) - (h : Int)).natAbs = ((samples : Int) - (b : Int)).natAbs →
          b ≤ h)) ∧
      (CVTable.new.loadRows rows).getCV looks samples = (some v, min looks 250, b) := by
  obtain ⟨i, b, hib, hround, hnear⟩ :=
    roundSamples_breakpoints samples hs (toSizeT (min (toInt samples) 9000))
  obtain ⟨hi, hsb⟩ := breakpoints_samplesAt i b hib
  have hk : min looks 250 - 1 < rows.length := by omega
  have hrow : rows[min looks 250 - 1]? = some rows[min looks 250 - 1] :=
    List.getElem?_eq_getElem hk
  have hlen : (rows[min looks 250 - 1]).length = 39 := h39 _ (List.getElem_mem _)
  have hilt : i < (rows[min looks 250 - 1]).length := by rw [hlen]; exact hi
  have hv := List.getElem?_eq_getElem hilt
  have hfind := loadRows_find rows _ _ i _ hrow hv
  have hk1 : min looks 250 - 1 + 1 = min looks 250 :=
    Nat.sub_add_cancel (le_min hl1 (by norm_num))
  rw [hsb, hk1] at hfind
  have hheader : (CVTable.new.loadRows rows).m_header = breakpoints := by
    cases rows with
    | nil => simp at hrows
    | cons r0 rest => exact loadRows_header r0 rest (h39 r0 (List.mem_cons_self _ _))
  refine ⟨i, b, _, _, hib, hrow, hv, hnear, ?_⟩
  unfold CVTable.getCV
  rw [tableFind_ne_nil hfind]
  simp only [Bool.false_eq_true, if_false]
  rw [hheader, hround, clampLooks_eq looks hl, hfind]

theorem natAbs_sub_self_le (b b' : Nat)
    (h : ((b : Int) - (b' : Int)).natAbs ≤ ((b : Int) - (b : Int)).natAbs) : b' = b := by
  omega

theorem breakpoints_index_unique (i j b : Nat) (hi : breakpoints[i]? = some b)
    (hj : breakpoints[j]? = some b) : i = j := by
  have h1 := (breakpoints_samplesAt i b hi).2
  have h2 := (breakpoints_samplesAt j b hj).2
  rcases Nat.lt_trichotomy i j with h | h | h
  · have := samplesAt_strictMono h; omega
  · exact h
  · have := samplesAt_strictMono h; omega

theorem sampleRows_length : ∀ row ∈ sampleRows, row.length = 39 := by
  intro row h
  simp only [sampleRows, List.mem_map] at h
  obtain ⟨r, _, rfl⟩ := h
  simp

/-- C15: on a table loaded from a file of at least 250 rows of 39 values, the header
holds the 39 numbers of samples 10, ..., 9000, and for `looks >= 1` and `samples`
below `2^31`, `getCV` finds its key and returns the value of row `min(looks, 250)`
at the number of samples nearest to `samples`, the smaller one when two are equally
near; it leaves the clamped looks and the selected number of samples in its
arguments, and a second call with these returns the same; `getCV(8, 500)` returns
the value of row 8 at 500 samples. -/
theorem getCV_spec (rows : List (List ℚ)) (hrows : 250 ≤ rows.length)
    (h39 : ∀ row ∈ rows, row.length = 39) (looks samples : Nat)
    (hl1 : 1 ≤ looks) (hl : looks < 2 ^ 31) (hs : samples < 2 ^ 31) :
    (CVTable.new.loadRows rows).m_header = breakpoints ∧
    (∃ (i b : Nat) (row : List ℚ) (v : ℚ),
      breakpoints[i]? = some b ∧ rows[min looks 250 - 1]? = some row ∧ row[i]? = some v ∧
      (∀ h ∈ breakpoints,
        ((samples : Int) - (b : Int)).natAbs ≤ ((samples : Int) - (h : Int)).natAbs ∧
        (((samples : Int) - (h : Int)).natAbs = ((samples : Int) - (b : Int)).natAbs →
          b ≤ h)) ∧
      (CVTable.new.loadRows rows).getCV looks samples = (some v, min looks 250, b) ∧
      (CVTable.new.loadRows rows).getCV (min looks 250) b = (some v, min looks 250, b)) ∧
    (∃ (row : List ℚ) (v : ℚ), rows[7]? = some row ∧ row[17]? = some v ∧
      breakpoints[17]? = some 500 ∧
      (CVTable.new.loadRows rows).getCV 8 500 = (some v, 8, 500)) := by
  refine ⟨?_, ?_, ?_⟩
  · cases rows with
    | nil => simp at hrows
    | cons r0 rest => exact loadRows_header r0 rest (h39 r0 (List.mem_cons_self _ _))
  · obtain ⟨i, b, row, v, h1, h2, h3, h4, h5⟩ :=
      getCV_loaded rows hrows h39 looks samples hl1 hl hs
    have hb : b ∈ breakpoints := List.getElem?_mem h1
    have hb9 := breakpoints_le b hb
    obtain ⟨i', b', row', v', g1, g2, g3, g4, g5⟩ :=
      getCV_loaded rows hrows h39 (min looks 250) b (by omega)
        (lt_of_le_of_lt (min_le_right _ _) (by norm_num))
        (lt_of_le_of_lt hb9 (by norm_num))
    have hbb : b' = b := natAbs_sub_self_le b b' (g4 b hb).1
    subst hbb
    have hii : i' = i := breakpoints_index_unique i' i b' g1 h1
    subst hii
    have hmin : min (min looks 250) 250 = min looks 250 := by omega
    rw [hmin] at g2 g5
    rw [h2] at g2
    have hrr : row = row' := Option.some.inj g2
    subst hrr
    rw [h3] at g3
    have hvv : v = v' := Option.some.inj g3
    subst hvv
    exact ⟨i', b', row, v, h1, h2, h3, h4, h5, g5⟩
  · obtain ⟨i, b, row, v, h1, h2, h3, h4, h5⟩ :=
      getCV_loaded rows hrows h39 8 500 (by norm_num) (by norm_num) (by norm_num)
    have h500 : (500 : Nat) ∈ breakpoints := by decide
    have hb : b = 500 := by
      have := (h4 500 h500).1
      omega
    subst hb
    have hi : i = 17 := breakpoints_index_unique i 17 500 h1 (by decide)
    subst hi
    exact ⟨row, v, h2, h3, by decide, h5⟩

/-- C15 on the sample file of 250 rows, for 300 looks and 125 samples. -/
theorem getCV_spec_witness :
    (CVTable.new.loadRows sampleRows).m_header = breakpoints ∧
    ∃ (row : List ℚ) (v : ℚ), sampleRows[7]? = some row ∧ row[17]? = some v ∧
      breakpoints[17]? = some 500 ∧
      (CVTable.new.loadRows sampleRows).getCV 8 500 = (some v, 8, 500) :=
  ⟨(getCV_spec sampleRows (by simp [sampleRows]) sampleRows_length 300 125 (by decide)
      (by decide) (by decide)).1,
    (getCV_spec sampleRows (by simp [sampleRows]) sampleRows_length 300 125 (by decide)
      (by decide) (by decide)).2.2⟩

theorem loadFile_ok (t : CVTable) (files : String → Option (List (List ℚ))) (path : String)
    (h : (files path).isSome = true) : ∃ t', t.loadFile files path = Except.ok t' := by
  obtain ⟨rows, hrows⟩ := Option.isSome_iff_exists.1 h
  exact ⟨t.loadRows rows, by unfold CVTable.loadFile; rw [hrows]⟩

theorem verifyCV_iff (cv : ℚ) :
    verifyCV cv = true ↔ cv ∈ [(0.99999 : ℚ), 0.999, 0.995, 0.99, 0.95, 0.90, 0.85, 0.80] := by
  unfold verifyCV
  simp only [Bool.or_eq_true, decide_eq_true_eq, List.mem_cons, List.mem_singleton,
    List.not_mem_nil, or_false]
  tauto

/-- C16: when the seven table files can be opened, `load(c)` throws exactly when `c`
is not one of the supported confidence levels; for 0.99999 it returns without
reading a file, and on the table left empty `getCV` returns the largest `double`
and leaves its arguments as they are. -/
theorem load_spec (files : String → Option (List (List ℚ)))
    (hfiles : ∀ path ∈ ["./tables/tab_01.csv", "./tables/tab_05.csv", "./tables/tab_1.csv",
      "./tables/tab_5.csv", "./tables/tab_10.csv", "./tables/tab_15.csv",
      "./tables/tab_20.csv"], (files path).isSome = true) (t : CVTable) (c : ℚ) :
    ((∃ e, t.load files c = Except.error e) ↔
      c ∉ [(0.99999 : ℚ), 0.999, 0.995, 0.99, 0.95, 0.90, 0.85, 0.80]) ∧
    (∀ anyFiles : String → Option (List (List ℚ)),
      CVTable.new.load anyFiles 0.99999 = Except.ok CVTable.new) ∧
    ∀ looks samples, CVTable.new.getCV looks samples = (some dblMax, looks, samples) := by
  refine ⟨?_, fun anyFiles => ?_, fun looks samples => rfl⟩
  · constructor
    · rintro ⟨e, he⟩ hmem
      have hv := (verifyCV_iff c).2 hmem
      have hok : ∃ t', t.load files c = Except.ok t' := by
        unfold CVTable.load
        rw [if_neg (by rw [hv]; decide)]
        split_ifs
        · exact ⟨t, rfl⟩
        · exact loadFile_ok t files _ (hfiles _ (by decide))
        · exact loadFile_ok t files _ (hfiles _ (by decide))
        · exact loadFile_ok t files _ (hfiles _ (by decide))
        · exact loadFile_ok t files _ (hfiles _ (by decide))
        · exact loadFile_ok t files _ (hfiles _ (by decide))
        · exact loadFile_ok t files _ (hfiles _ (by decide))
        · exact loadFile_ok t files _ (hfiles _ (by decide))
        · exact ⟨t, rfl⟩
      obtain ⟨t', ht'⟩ := hok
      rw [ht'] at he
      cases he
    · intro hmem
      have hv : verifyCV c = false := by
        cases h : verifyCV c with
        | false => rfl
        | true => exact absurd ((verifyCV_iff c).1 h) hmem
      unfold CVTable.load
      rw [if_pos hv]
      exact ⟨_, rfl⟩
  · have hv : verifyCV (0.99999 : ℚ) = true := (verifyCV_iff _).2 (by simp)
    unfold CVTable.load
    rw [if_neg (by rw [hv]; decide), if_pos (by norm_num)]

/-- C16 for a file system that holds the sample file under every path, and the
unsupported level 0.5. -/
theorem load_spec_witness :
    (∀ path ∈ ["./tables/tab_01.csv", "./tables/tab_05.csv", "./tables/tab_1.csv",
      "./tables/tab_5.csv", "./tables/tab_10.csv", "./tables/tab_15.csv",
      "./tables/tab_20.csv"], ((fun _ => some sampleRows) path).isSome = true) ∧
    ((∃ e, CVTable.new.load (fun _ => some sampleRows) 0.5 = Except.error e) ↔
      (0.5 : ℚ) ∉ [(0.99999 : ℚ), 0.999, 0.995, 0.99, 0.95, 0.90, 0.85, 0.80]) :=
  ⟨fun _ _ => rfl, (load_spec (fun _ => some sampleRows) (fun _ _ => rfl) CVTable.new 0.5).1⟩

/-! ## Building a pyramid level -/

theorem raster_setElement_cell (r : Raster) (col lin : Nat) (value : ℚ) (band : Nat)
    (hc : col < r.ncols) (hl : lin < r.nlines) (l c b : Nat) :
    (r.setElement col lin value band).cell l c b =
      if l = lin ∧ c = col ∧ b = band then value else r.cell l c b := by
  unfold Raster.setElement
  rw [if_pos ⟨hc, hl⟩]

theorem raster_setElement_dims (r : Raster) (col lin : Nat) (value : ℚ) (band : Nat) :
    (r.setElement col lin value band).nlines = r.nlines ∧
    (r.setElement col lin value band).ncols = r.ncols ∧
    (r.setElement col lin value band).nbands = r.nbands := by
  unfold Raster.setElement
  split <;> exact ⟨rfl, rfl, rfl⟩

/-- The band loop of `build` at the pixel `(lin, col)`. -/
theorem bandLoop_cells (val : Nat → ℚ) (lin col : Nat) :
    ∀ (n : Nat) (img : Raster), lin < img.nlines → col < img.ncols →
      ((List.range n).foldl (fun img b => img.setElement col lin (val b) b) img).nlines =
        img.nlines ∧
      ((List.range n).foldl (fun img b => img.setElement col lin (val b) b) img).ncols =
        img.ncols ∧
      ((List.range n).foldl (fun img b => img.setElement col lin (val b) b) img).nbands =
        img.nbands ∧
      ∀ l c b, ((List.range n).foldl (fun img b => img.setElement col lin (val b) b) img).cell
          l c b = if l = lin ∧ c = col ∧ b < n then val b else img.cell l c b := by
  intro n
  induction n with
  | zero =>
    intro img _ _
    refine ⟨rfl, rfl, rfl, fun l c b => ?_⟩
    simp
  | succ n ih =>
    intro img hl hc
    obtain ⟨h1, h2, h3, h4⟩ := ih img hl hc
    rw [List.range_succ, List.foldl_append, List.foldl_cons, List.foldl_nil]
    obtain ⟨d1, d2, d3⟩ := raster_setElement_dims
      ((List.range n).foldl (fun img b => img.setElement col lin (val b) b) img) col lin (val n) n
    refine ⟨d1.trans h1, d2.trans h2, d3.trans h3, fun l c b => ?_⟩
    rw [raster_setElement_cell _ _ _ _ _ (by rw [h2]; exact hc) (by rw [h1]; exact hl), h4]
    by_cases hb : b = n
    · subst hb
      by_cases hlc : l = lin ∧ c = col
      · simp [hlc]
      · have : ¬ (l = lin ∧ c = col ∧ b < b + 1) := fun h => hlc ⟨h.1, h.2.1⟩
        have h' : ¬ (l = lin ∧ c = col ∧ b = b) := fun h => hlc ⟨h.1, h.2.1⟩
        have h'' : ¬ (l = lin ∧ c = col ∧ b < b) := fun h => hlc ⟨h.1, h.2.1⟩
        rw [if_neg this, if_neg h', if_neg h'']
    · have h' : ¬ (l = lin ∧ c = col ∧ b = n) := fun h => hb h.2.2
      rw [if_neg h']
      by_cases hlt : b < n
      · have e1 : (l = lin ∧ c = col ∧ b < n) ↔ (l = lin ∧ c = col ∧ b < n + 1) := by
          constructor
          · rintro ⟨a, b', _⟩; exact ⟨a, b', by omega⟩
          · rintro ⟨a, b', _⟩; exact ⟨a, b', hlt⟩
        simp only [e1]
      · have e1 : ¬ (l = lin ∧ c = col ∧ b < n) := fun h => hlt h.2.2
        have e2 : ¬ (l = lin ∧ c = col ∧ b < n + 1) := fun h => by omega
        rw [if_neg e1, if_neg e2]

/-- The column loop of `build` in the line `lin`. -/
theorem colLoop_cells (val : Nat → Nat → ℚ) (lin nb : Nat) :
    ∀ (m : Nat) (img : Raster), lin < img.nlines → m ≤ img.ncols →
      ((List.range m).foldl (fun img col =>
        (List.range nb).foldl (fun img b => img.setElement col lin (val col b) b) img)
          img).nlines = img.nlines ∧
      ((List.range m).foldl (fun img col =>
        (List.range nb).foldl (fun img b => img.setElement col lin (val col b) b) img)
          img).ncols = img.ncols ∧
      ((List.range m).foldl (fun img col =>
        (List.range nb).foldl (fun img b => img.setElement col lin (val col b) b) img)
          img).nbands = img.nbands ∧
      ∀ l c b, ((List.range m).foldl (fun img col =>
        (List.range nb).foldl (fun img b => img.setElement col lin (val col b) b) img)
          img).cell l c b = if l = lin ∧ c < m ∧ b < nb then val c b else img.cell l c b := by
  intro m
  induction m with
  | zero =>
    intro img _ _
    refine ⟨rfl, rfl, rfl, fun l c b => ?_⟩
    simp
  | succ m ih =>
    intro img hl hm
    obtain ⟨h1, h2, h3, h4⟩ := ih img hl (by omega)
    rw [List.range_succ, List.foldl_append, List.foldl_cons, List.foldl_nil]
    obtain ⟨d1, d2, d3, d4⟩ := bandLoop_cells (val m) lin m nb
      ((List.range m).foldl (fun img col =>
        (List.range nb).foldl (fun img b => img.setElement col lin (val col b) b) img) img)
      (by rw [h1]; exact hl) (by rw [h2]; omega)
    refine ⟨d1.trans h1, d2.trans h2, d3.trans h3, fun l c b => ?_⟩
    rw [d4, h4]
    by_cases hc : c = m
    · subst hc
      by_cases hlb : l = lin ∧ b < nb
      · have e1 : l = lin ∧ c = c ∧ b < nb := ⟨hlb.1, rfl, hlb.2⟩
        have e2 : l = lin ∧ c < c + 1 ∧ b < nb := ⟨hlb.1, by omega, hlb.2⟩
        rw [if_pos e1, if_pos e2]
      · have e1 : ¬ (l = lin ∧ c = c ∧ b < nb) := fun h => hlb ⟨h.1, h.2.2⟩
        have e2 : ¬ (l = lin ∧ c < c + 1 ∧ b < nb) := fun h => hlb ⟨h.1, h.2.2⟩
        have e3 : ¬ (l = lin ∧ c < c ∧ b < nb) := fun h => hlb ⟨h.1, h.2.2⟩
        rw [if_neg e1, if_neg e2, if_neg e3]
    · have e1 : ¬ (l = lin ∧ c = m ∧ b < nb) := fun h => hc h.2.1
      rw [if_neg e1]
      by_cases hlt : l = lin ∧ c < m ∧ b < nb
      · rw [if_pos hlt, if_pos ⟨hlt.1, by omega, hlt.2.2⟩]
      · have e2 : ¬ (l = lin ∧ c < m + 1 ∧ b < nb) := fun h => hlt ⟨h.1, by omega, h.2.2⟩
        rw [if_neg hlt, if_neg e2]

/-- The line loop of `build`. -/
theorem lineLoop_cells (val : Nat → Nat → Nat → ℚ) (W nb : Nat) :
    ∀ (k : Nat) (img : Raster), k ≤ img.nlines → W ≤ img.ncols →
      ((List.range k).foldl (fun img lin =>
        (List.range W).foldl (fun img col =>
          (List.range nb).foldl (fun img b => img.setElement col lin (val lin col b) b) img)
            img) img).nlines = img.nlines ∧
      ((List.range k).foldl (fun img lin =>
        (List.range W).foldl (fun img col =>
          (List.range nb).foldl (fun img b => img.setElement col lin (val lin col b) b) img)
            img) img).ncols = img.ncols ∧
      ((List.range k).foldl (fun img lin =>
        (List.range W).foldl (fun img col =>
          (List.range nb).foldl (fun img b => img.setElement col lin (val lin col b) b) img)
            img) img).nbands = img.nbands ∧
      ∀ l c b, ((List.range k).foldl (fun img lin =>
        (List.range W).foldl (fun img col =>
          (List.range nb).foldl (fun img b => img.setElement col lin (val lin col b) b) img)
            img) img).cell l c b =
        if l < k ∧ c < W ∧ b < nb then val l c b else img.cell l c b := by
  intro k
  induction k with
  | zero =>
    intro img _ _
    refine ⟨rfl, rfl, rfl, fun l c b => ?_⟩
    simp
  | succ k ih =>
    intro img hk hW
    obtain ⟨h1, h2, h3, h4⟩ := ih img (by omega) hW
    rw [List.range_succ, List.foldl_append, List.foldl_cons, List.foldl_nil]
    obtain ⟨d1, d2, d3, d4⟩ := colLoop_cells (val k) k nb W
      ((List.range k).foldl (fun img lin =>
        (List.range W).foldl (fun img col =>
          (List.range nb).foldl (fun img b => img.setElement col lin (val lin col b) b) img)
            img) img)
      (by rw [h1]; omega) (by rw [h2]; exact hW)
    refine ⟨d1.trans h1, d2.trans h2, d3.trans h3, fun l c b => ?_⟩
    rw [d4, h4]
    by_cases hl : l = k
    · subst hl
      by_cases hcb : c < W ∧ b < nb
      · rw [if_pos ⟨rfl, hcb⟩, if_pos ⟨by omega, hcb⟩]
      · have e1 : ¬ (l = l ∧ c < W ∧ b < nb) := fun h => hcb h.2
        have e2 : ¬ (l < l + 1 ∧ c < W ∧ b < nb) := fun h => hcb h.2
        have e3 : ¬ (l < l ∧ c < W ∧ b < nb) := fun h => hcb h.2
        rw [if_neg e1, if_neg e2, if_neg e3]
    · have e1 : ¬ (l = k ∧ c < W ∧ b < nb) := fun h => hl h.1
      rw [if_neg e1]
      by_cases hlt : l < k ∧ c < W ∧ b < nb
      · rw [if_pos hlt, if_pos ⟨by omega, hlt.2⟩]
      · have e2 : ¬ (l < k + 1 ∧ c < W ∧ b < nb) := fun h => hlt ⟨by omega, h.2⟩
        rw [if_neg hlt, if_neg e2]

theorem readSources_eq (previousLevel : Raster) (lin col b : Nat) :
    readSources previousLevel lin col b =
      ((sourceValues previousLevel lin col b).sum, (sourceValues previousLevel lin col b).length) := by
  unfold readSources sourceValues addSource
  simp only [List.filterMap_cons, List.filterMap_nil, Nat.mul_comm 2 lin, Nat.mul_comm 2 col]
  cases previousLevel.getElement (col * 2) (lin * 2) b <;>
  cases previousLevel.getElement (col * 2 + 1) (lin * 2) b <;>
  cases previousLevel.getElement (col * 2) (lin * 2 + 1) b <;>
  cases previousLevel.getElement (col * 2 + 1) (lin * 2 + 1) b <;>
  simp <;> ring

/-- C17: `Pyramid::build` keeps the dimensions of the new level and sets every pixel
`(lin, col, band)` of it to the sum of the values of those of its four source
pixels that exist divided by their number, the arithmetic mean; when the new level
has at most `ceil(h/2)` lines and `ceil(w/2)` columns for a previous level of
`h x w` pixels, the source pixel `(2lin, 2col)` exists for every new pixel, so the
divisor `nPixels` is not zero. -/
theorem build_spec (previousLevel newLevel : Raster) :
    ((Pyramid.build previousLevel newLevel).nlines = newLevel.nlines ∧
      (Pyramid.build previousLevel newLevel).ncols = newLevel.ncols ∧
      (Pyramid.build previousLevel newLevel).nbands = newLevel.nbands) ∧
    (∀ lin col b, lin < newLevel.nlines → col < newLevel.ncols → b < newLevel.nbands →
      (Pyramid.build previousLevel newLevel).cell lin col b =
        (sourceValues previousLevel lin col b).sum /
          ((sourceValues previousLevel lin col b).length : ℚ)) ∧
    (newLevel.nlines ≤ (previousLevel.nlines + 1) / 2 →
      newLevel.ncols ≤ (previousLevel.ncols + 1) / 2 →
      ∀ lin col b, lin < newLevel.nlines → col < newLevel.ncols →
        previousLevel.getElement (col * 2) (lin * 2) b =
          some (previousLevel.cell (lin * 2) (col * 2) b) ∧
        (readSources previousLevel lin col b).2 ≠ 0 ∧
        (sourceValues previousLevel lin col b).length ≠ 0) := by
  obtain ⟨h1, h2, h3, h4⟩ := lineLoop_cells
    (fun lin col b => (readSources previousLevel lin col b).1 /
      ((readSources previousLevel lin col b).2 : ℚ))
    newLevel.ncols newLevel.nbands newLevel.nlines newLevel (le_refl _) (le_refl _)
  refine ⟨⟨h1, h2, h3⟩, ?_, ?_⟩
  · intro lin col b hl hc hb
    have := h4 lin col b
    rw [if_pos ⟨hl, hc, hb⟩, readSources_eq] at this
    exact this
  · intro hH hW lin col b hl hc
    have hget : previousLevel.getElement (col * 2) (lin * 2) b =
        some (previousLevel.cell (lin * 2) (col * 2) b) := by
      unfold Raster.getElement
      rw [if_pos ⟨by omega, by omega⟩]
    have hlen : (sourceValues previousLevel lin col b).length ≠ 0 := by
      unfold sourceValues
      simp only [List.filterMap_cons, Nat.mul_comm 2 lin, Nat.mul_comm 2 col, hget]
      simp
    refine ⟨hget, ?_, hlen⟩
    rw [readSources_eq]
    exact hlen

/-- C17 on the 3 x 3 sample raster and its 2 x 2 next level: the pixel `(0, 1)` has
the two source pixels `(0, 2)` and `(1, 2)`. -/
theorem build_spec_witness :
    sampleLevel.nlines ≤ (sampleRaster.nlines + 1) / 2 ∧
    sampleLevel.ncols ≤ (sampleRaster.ncols + 1) / 2 ∧
    (sampleRaster.getElement (1 * 2) (0 * 2) 0 = some (sampleRaster.cell (0 * 2) (1 * 2) 0) ∧
      (readSources sampleRaster 0 1 0).2 ≠ 0 ∧
      (sourceValues sampleRaster 0 1 0).length ≠ 0) ∧
    (Pyramid.build sampleRaster sampleLevel).cell 0 1 0 = 7 / 2 :=
  ⟨by decide, by decide,
    (build_spec sampleRaster sampleLevel).2.2 (by decide) (by decide) 0 1 0 (by decide)
      (by decide),
    by decide!⟩

/-! ## Growth on the 4 x 4 grid of two halves -/

/-- With the deterministic scan order, `executeRegionGrowing` does not depend on the
shuffles. -/
theorem executeRegionGrowingLoop_deterministic (shuffle shuffle' : Nat → List Nat → List Nat)
    (maxIterations : Nat) :
    ∀ (fuel : Nat) (g : Growth),
      executeRegionGrowingLoop false shuffle maxIterations fuel g =
        executeRegionGrowingLoop false shuffle' maxIterations fuel g := by
  intro fuel
  induction fuel with
  | zero => intro g; rfl
  | succ fuel ih =>
    intro g
    unfold executeRegionGrowingLoop
    simp only [if_true]
    cases mergeRegions g.seg g.regions with
    | none => rfl
    | some sc =>
      simp only
      split_ifs <;> first | rfl | exact ih _

theorem executeRegionGrowing_deterministic (s : MultiSeg) (regions : List Nat)
    (shuffle shuffle' : Nat → List Nat → List Nat) (maxIterations : Nat) :
    executeRegionGrowing s regions false shuffle maxIterations =
      executeRegionGrowing s regions false shuffle' maxIterations := by
  unfold executeRegionGrowing
  simp only
  rw [executeRegionGrowingLoop_deterministic shuffle shuffle']

/-- C19: on the 4 x 4 single-band grid whose columns 0-1 hold 10 and whose columns 2-3
hold 200, `initializeRegions` followed by `executeRegionGrowing` over all regions,
with the Euclidean strategy, similarity 5, mutual best fitting and the deterministic
scan order, returns with exactly two regions, 8 and 10, each of size 8, of means 10
and 200; region 8 labels exactly the cells of value 10 and region 10 exactly the
cells of value 200. -/
theorem growth_of_two_halves (shuffle : Nat → List Nat → List Nat) :
    (∀ lin col, sampleImage lin col 0 = if col < 2 then 10 else 200) ∧
    (sampleSeg 4 4).m_enableMutualBestFitting = true ∧
    (sampleSeg 4 4).m_currentSimilarity = 5 ∧
    ∃ g, executeRegionGrowing (initializeRegions (sampleSeg 4 4) sampleImage)
        ((initializeRegions (sampleSeg 4 4) sampleImage).m_regions.map (fun r => r.m_id))
        false shuffle 100 = some g ∧
      g.seg.m_regions.map (fun r => (r.m_id, r.m_size, r.m_mean)) =
        [(8, 8, [10]), (10, 8, [200])] ∧
      ∀ lin, lin < 4 → ∀ col, col < 4 →
        g.seg.m_labelledImage.cell lin col = if sampleImage lin col 0 = 10 then 8 else 10 := by
  refine ⟨fun lin col => rfl, rfl, rfl, ?_⟩
  rw [executeRegionGrowing_deterministic _ _ shuffle (fun _ l => l)]
  have h1 : (executeRegionGrowing (initializeRegions (sampleSeg 4 4) sampleImage)
        ((initializeRegions (sampleSeg 4 4) sampleImage).m_regions.map (fun r => r.m_id))
        false (fun _ l => l) 100).map
      (fun g => (g.seg.m_regions.map (fun r => (r.m_id, r.m_size, r.m_mean)),
        decide (∀ lin, lin < 4 → ∀ col, col < 4 →
          g.seg.m_labelledImage.cell lin col =
            if sampleImage lin col 0 = 10 then 8 else 10))) =
      some ([(8, 8, [10]), (10, 8, [200])], true) := by
    decide!
  cases hg : executeRegionGrowing (initializeRegions (sampleSeg 4 4) sampleImage)
        ((initializeRegions (sampleSeg 4 4) sampleImage).m_regions.map (fun r => r.m_id))
        false (fun _ l => l) 100 with
  | none => rw [hg] at h1; cases h1
  | some g =>
    rw [hg] at h1
    simp only [Option.map_some', Option.some.injEq, Prod.mk.injEq, decide_eq_true_eq] at h1
    exact ⟨g, rfl, h1.1, h1.2⟩

/-! ## Region statistics -/

theorem zipWith_add_map (bands : List Nat) (g h : Nat → ℚ) :
    List.zipWith (fun m pixelValue => m + pixelValue) (bands.map g) (bands.map h) =
      bands.map (fun b => g b + h b) := by
  induction bands with
  | nil => rfl
  | cons b t ih => simp only [List.map_cons, List.zipWith_cons_cons, ih]

theorem statisticsPixel_eq (bands : List Nat) (image : Image) (img : LabelImage)
    (nSamples : Nat) (r : Region) (st : List ℚ × Nat × List (List ℚ)) (p : Nat × Nat) :
    statisticsPixel bands image img nSamples r st p =
      if p.1 < img.nlines ∧ p.2 < img.ncols ∧ img.cell p.1 p.2 = r.m_id then
        (List.zipWith (fun m pixelValue => m + pixelValue) st.1
            (getPixelValues bands image p.1 p.2),
          st.2.1 + 1,
          if st.2.2.length ≤ nSamples then st.2.2 ++ [getPixelValues bands image p.1 p.2]
          else st.2.2)
      else st := by
  unfold statisticsPixel
  rw [getElement_eq]
  by_cases hin : p.1 < img.nlines ∧ p.2 < img.ncols
  · rw [if_pos hin]
    dsimp only
    by_cases hid : img.cell p.1 p.2 = r.m_id
    · have h1 : ¬ (img.cell p.1 p.2 ≠ r.m_id) := fun h => h hid
      have h2 : p.1 < img.nlines ∧ p.2 < img.ncols ∧ img.cell p.1 p.2 = r.m_id :=
        ⟨hin.1, hin.2, hid⟩
      rw [if_neg h1, if_pos h2]
    · have h1 : img.cell p.1 p.2 ≠ r.m_id := hid
      have h2 : ¬ (p.1 < img.nlines ∧ p.2 < img.ncols ∧ img.cell p.1 p.2 = r.m_id) :=
        fun h => hid h.2.2
      rw [if_pos h1, if_neg h2]
  · rw [if_neg hin]
    dsimp only
    have h2 : ¬ (p.1 < img.nlines ∧ p.2 < img.ncols ∧ img.cell p.1 p.2 = r.m_id) :=
      fun h => hin ⟨h.1, h.2.1⟩
    rw [if_neg h2]

/-- The pixel loops of `updateRegionStatistics` count the cells of the box that carry
the id and add up their band values. -/
theorem statisticsFold_spec (bands : List Nat) (image : Image) (img : LabelImage)
    (nSamples : Nat) (r : Region) :
    ∀ (cells : List (Nat × Nat)) (st : List ℚ × Nat × List (List ℚ)) (g : Nat → ℚ),
      st.1 = bands.map g →
      (cells.foldl (statisticsPixel bands image img nSamples r) st).2.1 =
        st.2.1 + (cells.filter (fun p =>
          decide (p.1 < img.nlines ∧ p.2 < img.ncols ∧ img.cell p.1 p.2 = r.m_id))).length ∧
      (cells.foldl (statisticsPixel bands image img nSamples r) st).1 =
        bands.map (fun b => g b + ((cells.filter (fun p =>
          decide (p.1 < img.nlines ∧ p.2 < img.ncols ∧ img.cell p.1 p.2 = r.m_id))).map
            (fun p => image p.1 p.2 b)).sum) := by
  intro cells
  induction cells with
  | nil =>
    intro st g hg
    simp [hg]
  | cons p rest ih =>
    intro st g hg
    rw [List.foldl_cons, statisticsPixel_eq]
    by_cases hp : p.1 < img.nlines ∧ p.2 < img.ncols ∧ img.cell p.1 p.2 = r.m_id
    · rw [if_pos hp]
      have hstep : List.zipWith (fun m pixelValue => m + pixelValue) st.1
          (getPixelValues bands image p.1 p.2) =
          bands.map (fun b => g b + image p.1 p.2 b) := by
        rw [hg]
        exact zipWith_add_map bands g (fun b => image p.1 p.2 b)
      obtain ⟨i1, i2⟩ := ih (List.zipWith (fun m pixelValue => m + pixelValue) st.1
            (getPixelValues bands image p.1 p.2),
          st.2.1 + 1,
          if st.2.2.length ≤ nSamples then st.2.2 ++ [getPixelValues bands image p.1 p.2]
          else st.2.2) (fun b => g b + image p.1 p.2 b) hstep
      have hf : (decide (p.1 < img.nlines ∧ p.2 < img.ncols ∧ img.cell p.1 p.2 = r.m_id)) =
          true := decide_eq_true hp
      rw [List.filter_cons, hf]
      simp only [if_true, List.length_cons, List.map_cons, List.sum_cons]
      refine ⟨by rw [i1]; dsimp only; omega, ?_⟩
      rw [i2]
      apply List.map_congr_left
      intro b _
      ring
    · rw [if_neg hp]
      have hf : (decide (p.1 < img.nlines ∧ p.2 < img.ncols ∧ img.cell p.1 p.2 = r.m_id)) =
          false := decide_eq_false hp
      rw [List.filter_cons, hf]
      exact ih st g hg

theorem regionStatistics_spec (bands : List Nat) (image : Image) (img : LabelImage)
    (nSamples : Nat) (r : Region) :
    (regionStatistics bands image img nSamples r).2.1 = (regionCells img r).length ∧
    (regionStatistics bands image img nSamples r).1 =
      bands.map (fun b => ((regionCells img r).map (fun p => image p.1 p.2 b)).sum) := by
  obtain ⟨h1, h2⟩ := statisticsFold_spec bands image img nSamples r (boxCells r)
    (List.replicate bands.length 0, 0, []) (fun _ => 0)
    (by simp only; rw [List.map_const'])
  unfold regionStatistics regionCells
  refine ⟨by rw [h1]; simp, ?_⟩
  rw [h2]
  apply List.map_congr_left
  intro b _
  simp

theorem regionStatistics_core (bands : List Nat) (image : Image) (img : LabelImage)
    (nSamples : Nat) (r : Region) :
    regionStatistics bands image img nSamples r.core =
      regionStatistics bands image img nSamples r := rfl

theorem storeStatistics_core (sqrt : ℚ → ℚ) (stats : List ℚ × Nat × List (List ℚ))
    (r : Region) : (storeStatistics sqrt stats r).core = storeStatistics sqrt stats r.core := rfl

theorem storeStatistics_fields (sqrt : ℚ → ℚ) (stats : List ℚ × Nat × List (List ℚ))
    (r : Region) :
    (storeStatistics sqrt stats r).m_id = r.m_id ∧
    (storeStatistics sqrt stats r).m_neighbours = r.m_neighbours ∧
    (storeStatistics sqrt stats r).m_size = stats.2.1 ∧
    (storeStatistics sqrt stats r).m_mean = stats.1.map (fun m => m / (stats.2.1 : ℚ)) ∧
    (storeStatistics sqrt stats r).m_xStart = r.m_xStart ∧
    (storeStatistics sqrt stats r).m_xBound = r.m_xBound ∧
    (storeStatistics sqrt stats r).m_yStart = r.m_yStart ∧
    (storeStatistics sqrt stats r).m_yBound = r.m_yBound :=
  ⟨rfl, rfl, rfl, rfl, rfl, rfl, rfl, rfl⟩

theorem neighboursOf_updateRegion_same (rs : List Region) (a : Nat) (f : Region → Region)
    (hid : ∀ r, (f r).m_id = r.m_id) (hnb : ∀ r, (f r).m_neighbours = r.m_neighbours)
    (x : Nat) : neighboursOf (updateRegion rs a f) x = neighboursOf rs x := by
  unfold neighboursOf
  rw [getRegion_updateRegion rs a f hid x]
  by_cases hx : x = a
  · rw [if_pos hx]
    cases getRegion rs x with
    | none => rfl
    | some r => exact hnb r
  · rw [if_neg hx]

/-- The state of the table after `updateRegionStatistics` has visited the keys `P`:
a visited region without pixels is gone, a visited region with pixels has its new
statistics, the others are as before (neighbour lists left out). -/
theorem updateRegionStatisticsStep_invariant (sqrt : ℚ → ℚ) (nSamples : Nat)
    (bands : List Nat) (image : Image) (img : LabelImage) (rs0 rs : List Region)
    (P : List Nat) (k : Nat) (hk : k ∉ P)
    (hinv : TableSorted rs ∧ (∀ x y, y ∈ neighboursOf rs x → x ∈ neighboursOf rs y) ∧
      (∀ x, x ∉ neighboursOf rs x) ∧
      ∀ x, (getRegion rs x).map Region.core =
        (getRegion rs0 x).bind (fun r =>
          if x ∈ P then
            (if (regionStatistics bands image img nSamples r).2.1 = 0 then none
             else some (storeStatistics sqrt (regionStatistics bands image img nSamples r) r).core)
          else some r.core)) :
    TableSorted (updateRegionStatisticsStep sqrt nSamples bands image img rs k) ∧
    (∀ x y, y ∈ neighboursOf (updateRegionStatisticsStep sqrt nSamples bands image img rs k) x →
      x ∈ neighboursOf (updateRegionStatisticsStep sqrt nSamples bands image img rs k) y) ∧
    (∀ x, x ∉ neighboursOf (updateRegionStatisticsStep sqrt nSamples bands image img rs k) x) ∧
    ∀ x, (getRegion (updateRegionStatisticsStep sqrt nSamples bands image img rs k) x).map
        Region.core =
      (getRegion rs0 x).bind (fun r =>
        if x ∈ k :: P then
          (if (regionStatistics bands image img nSamples r).2.1 = 0 then none
           else some (storeStatistics sqrt (regionStatistics bands image img nSamples r) r).core)
        else some r.core) := by
  obtain ⟨hs, hsym, hno, hget⟩ := hinv
  have hother : ∀ x, x ≠ k → (x ∈ k :: P ↔ x ∈ P) := by
    intro x hx
    simp [hx]
  unfold updateRegionStatisticsStep
  cases hcur : getRegion rs k with
  | none =>
    refine ⟨hs, hsym, hno, fun x => ?_⟩
    rw [hget x]
    by_cases hx : x = k
    · subst hx
      have h0 := hget x
      rw [hcur] at h0
      cases hr0 : getRegion rs0 x with
      | none => rfl
      | some r0 =>
        rw [hr0] at h0
        simp only [Option.map_none', Option.some_bind, if_neg hk] at h0
        cases h0
    · cases hr0 : getRegion rs0 x with
      | none => rfl
      | some r0 =>
        simp only [Option.some_bind]
        by_cases hxP : x ∈ P
        · rw [if_pos hxP, if_pos ((hother x hx).2 hxP)]
        · rw [if_neg hxP, if_neg (fun h => hxP ((hother x hx).1 h))]
  | some cur =>
    have h0 := hget k
    rw [hcur] at h0
    cases hr0 : getRegion rs0 k with
    | none => rw [hr0] at h0; cases h0
    | some r0 =>
      rw [hr0] at h0
      simp only [Option.map_some', Option.some_bind, if_neg hk, Option.some.injEq] at h0
      have hstats : regionStatistics bands image img nSamples cur =
          regionStatistics bands image img nSamples r0 := by
        rw [← regionStatistics_core bands image img nSamples cur, h0, regionStatistics_core]
      dsimp only
      by_cases hz : (regionStatistics bands image img nSamples cur).2.1 = 0
      · rw [if_pos hz]
        obtain ⟨w1, w2, w3, w4⟩ := removeRegion_wf rs k true hs hsym (hno k)
        refine ⟨w1, w2, w3 hno, fun x => ?_⟩
        rw [getRegion_core_eq w4 x, getRegion_eraseRegion]
        by_cases hx : x = k
        · subst hx
          rw [if_pos rfl, hr0]
          simp only [Option.map_none', Option.some_bind, List.mem_cons, true_or, if_true]
          rw [if_pos (by rw [← hstats]; exact hz)]
        · rw [if_neg hx, hget x]
          cases hrx : getRegion rs0 x with
          | none => rfl
          | some rx =>
            simp only [Option.some_bind]
            by_cases hxP : x ∈ P
            · rw [if_pos hxP, if_pos ((hother x hx).2 hxP)]
            · rw [if_neg hxP, if_neg (fun h => hxP ((hother x hx).1 h))]
      · rw [if_neg hz]
        have hid : ∀ r, (storeStatistics sqrt
            (regionStatistics bands image img nSamples cur) r).m_id = r.m_id := fun _ => rfl
        have hnb : ∀ r, (storeStatistics sqrt
            (regionStatistics bands image img nSamples cur) r).m_neighbours = r.m_neighbours :=
          fun _ => rfl
        refine ⟨tableSorted_of_ids_eq (ids_updateRegion rs k _ hid) hs, ?_, ?_, fun x => ?_⟩
        · intro x y hxy
          rw [neighboursOf_updateRegion_same rs k _ hid hnb] at hxy ⊢
          exact hsym x y hxy
        · intro x
          rw [neighboursOf_updateRegion_same rs k _ hid hnb]
          exact hno x
        · rw [getRegion_updateRegion rs k _ hid x]
          by_cases hx : x = k
          · subst hx
            rw [if_pos rfl, hcur, hr0]
            simp only [Option.map_some', Option.some_bind, List.mem_cons, true_or, if_true]
            rw [if_neg (by rw [← hstats]; exact hz), storeStatistics_core, h0, hstats,
              storeStatistics_core]
          · rw [if_neg hx, hget x]
            cases hrx : getRegion rs0 x with
            | none => rfl
            | some rx =>
              simp only [Option.some_bind]
              by_cases hxP : x ∈ P
              · rw [if_pos hxP, if_pos ((hother x hx).2 hxP)]
              · rw [if_neg hxP, if_neg (fun h => hxP ((hother x hx).1 h))]

theorem updateRegionStatisticsFold_invariant (sqrt : ℚ → ℚ) (nSamples : Nat)
    (bands : List Nat) (image : Image) (img : LabelImage) (rs0 : List Region) :
    ∀ (keys : List Nat) (P : List Nat) (rs : List Region), keys.Nodup →
      (∀ k ∈ keys, k ∉ P) →
      (TableSorted rs ∧ (∀ x y, y ∈ neighboursOf rs x → x ∈ neighboursOf rs y) ∧
        (∀ x, x ∉ neighboursOf rs x) ∧
        ∀ x, (getRegion rs x).map Region.core =
          (getRegion rs0 x).bind (fun r =>
            if x ∈ P then
              (if (regionStatistics bands image img nSamples r).2.1 = 0 then none
               else some
                (storeStatistics sqrt (regionStatistics bands image img nSamples r) r).core)
            else some r.core)) →
      TableSorted (keys.foldl (updateRegionStatisticsStep sqrt nSamples bands image img) rs) ∧
      (∀ x y, y ∈ neighboursOf
          (keys.foldl (updateRegionStatisticsStep sqrt nSamples bands image img) rs) x →
        x ∈ neighboursOf
          (keys.foldl (updateRegionStatisticsStep sqrt nSamples bands image img) rs) y) ∧
      (∀ x, x ∉ neighboursOf
        (keys.foldl (updateRegionStatisticsStep sqrt nSamples bands image img) rs) x) ∧
      ∀ x, (getRegion
          (keys.foldl (updateRegionStatisticsStep sqrt nSamples bands image img) rs) x).map
            Region.core =
        (getRegion rs0 x).bind (fun r =>
          if x ∈ keys.reverse ++ P then
            (if (regionStatistics bands image img nSamples r).2.1 = 0 then none
             else some
              (storeStatistics sqrt (regionStatistics bands image img nSamples r) r).core)
          else some r.core) := by
  intro keys
  induction keys with
  | nil => intro P rs _ _ h; simpa using h
  | cons k rest ih =>
    intro P rs hnd hP hinv
    rw [List.foldl_cons, List.reverse_cons, List.append_assoc, List.singleton_append]
    obtain ⟨hk, hrest⟩ := List.nodup_cons.1 hnd
    apply ih (k :: P) _ hrest
    · intro x hx hmem
      rcases List.mem_cons.1 hmem with h | h
      · subst h; exact hk hx
      · exact hP x (List.mem_cons_of_mem _ hx) h
    · exact updateRegionStatisticsStep_invariant sqrt nSamples bands image img rs0 rs P k
        (hP k (List.mem_cons_self _ _)) hinv

theorem nodup_of_tableSorted {rs : List Region} (hs : TableSorted rs) :
    (rs.map (fun r => r.m_id)).Nodup :=
  List.Pairwise.imp (fun h => Nat.ne_of_lt h) hs

theorem regionCells_of_core_eq (img : LabelImage) {r q : Region} (h : r.core = q.core) :
    regionCells img r = regionCells img q := by
  have h1 : regionCells img r = regionCells img r.core := rfl
  have h2 : regionCells img q = regionCells img q.core := rfl
  rw [h1, h2, h]

/-- C18: after `updateRegionStatistics(image)` on a sorted table with a symmetric
neighbour relation over live regions and without self-neighbours, every region still
in the table was in it before, with the same bounding box, and has a size of at
least 1 that is the number of cells inside its bounding box that carry its id, and
each band mean is the sum of the image values at exactly those cells divided by the
size; a region of the table is gone exactly when no cell in its bounding box carries
its id; the neighbour relation is still symmetric over live regions, so no remaining
region lists a removed one; the label grid is untouched. -/
theorem updateRegionStatistics_spec (sqrt : ℚ → ℚ) (nSamples : Nat) (s : MultiSeg)
    (image : Image) (hs : TableSorted s.m_regions) (hsym : SymmetricLive s.m_regions)
    (hno : NoSelfNeighbour s.m_regions) :
    (updateRegionStatistics sqrt nSamples s image).m_labelledImage = s.m_labelledImage ∧
    (∀ r ∈ (updateRegionStatistics sqrt nSamples s image).m_regions,
      (∃ r0 ∈ s.m_regions, r0.m_id = r.m_id ∧ r0.m_xStart = r.m_xStart ∧
        r0.m_xBound = r.m_xBound ∧ r0.m_yStart = r.m_yStart ∧ r0.m_yBound = r.m_yBound) ∧
      1 ≤ r.m_size ∧
      r.m_size = (regionCells s.m_labelledImage r).length ∧
      r.m_mean = s.m_bands.map (fun b =>
        ((regionCells s.m_labelledImage r).map (fun p => image p.1 p.2 b)).sum /
          (r.m_size : ℚ))) ∧
    (∀ r0 ∈ s.m_regions,
      getRegion (updateRegionStatistics sqrt nSamples s image).m_regions r0.m_id = none ↔
        (regionCells s.m_labelledImage r0).length = 0) ∧
    TableSorted (updateRegionStatistics sqrt nSamples s image).m_regions ∧
    SymmetricLive (updateRegionStatistics sqrt nSamples s image).m_regions ∧
    NoSelfNeighbour (updateRegionStatistics sqrt nSamples s image).m_regions := by
  obtain ⟨f1, f2, f3, f4⟩ := updateRegionStatisticsFold_invariant sqrt nSamples s.m_bands image
    s.m_labelledImage s.m_regions (s.m_regions.map (fun r => r.m_id)) [] s.m_regions
    (nodup_of_tableSorted hs) (fun k _ h => absurd h (List.not_mem_nil k))
    ⟨hs, (symmetricLive_iff hs).1 hsym, (noSelfNeighbour_iff hs).1 hno, fun x => by
      cases getRegion s.m_regions x <;> simp⟩
  have hres : (updateRegionStatistics sqrt nSamples s image).m_regions =
      (s.m_regions.map (fun r => r.m_id)).foldl
        (updateRegionStatisticsStep sqrt nSamples s.m_bands image s.m_labelledImage)
        s.m_regions := rfl
  rw [hres]
  -- the lookup of a region of the old table in the new one
  have hold : ∀ r0 ∈ s.m_regions,
      (getRegion ((s.m_regions.map (fun r => r.m_id)).foldl
        (updateRegionStatisticsStep sqrt nSamples s.m_bands image s.m_labelledImage)
        s.m_regions) r0.m_id).map Region.core =
      if (regionCells s.m_labelledImage r0).length = 0 then none
      else some (storeStatistics sqrt
        (regionStatistics s.m_bands image s.m_labelledImage nSamples r0) r0).core := by
    intro r0 hr0
    have hget : getRegion s.m_regions r0.m_id = some r0 :=
      (getRegion_eq_some_iff hs).2 ⟨hr0, rfl⟩
    have hmem : r0.m_id ∈ (s.m_regions.map (fun r => r.m_id)).reverse ++ [] := by
      rw [List.append_nil, List.mem_reverse]
      exact List.mem_map.2 ⟨r0, hr0, rfl⟩
    rw [f4 r0.m_id, hget]
    simp only [Option.some_bind]
    rw [if_pos hmem, (regionStatistics_spec s.m_bands image s.m_labelledImage nSamples r0).1]
  refine ⟨rfl, ?_, ?_, f1, (symmetricLive_iff f1).2 f2, (noSelfNeighbour_iff f1).2 f3⟩
  · intro r hr
    have hget : getRegion ((s.m_regions.map (fun r => r.m_id)).foldl
        (updateRegionStatisticsStep sqrt nSamples s.m_bands image s.m_labelledImage)
        s.m_regions) r.m_id = some r := (getRegion_eq_some_iff f1).2 ⟨hr, rfl⟩
    have h4 := f4 r.m_id
    rw [hget] at h4
    cases hr0 : getRegion s.m_regions r.m_id with
    | none => rw [hr0] at h4; cases h4
    | some r0 =>
      obtain ⟨hid0, hmem0⟩ := getRegion_some hr0
      have h5 := hold r0 hmem0
      rw [hid0, hget] at h5
      by_cases hz : (regionCells s.m_labelledImage r0).length = 0
      · rw [if_pos hz] at h5; cases h5
      · rw [if_neg hz] at h5
        have hc : r.core = (storeStatistics sqrt
            (regionStatistics s.m_bands image s.m_labelledImage nSamples r0) r0).core :=
          Option.some.inj h5
        obtain ⟨s1, s2⟩ := regionStatistics_spec s.m_bands image s.m_labelledImage nSamples r0
        have hcells : regionCells s.m_labelledImage r = regionCells s.m_labelledImage r0 := by
          rw [regionCells_of_core_eq s.m_labelledImage hc]
          rfl
        have hsize : r.m_size = (regionCells s.m_labelledImage r0).length := by
          have := congrArg Region.m_size hc
          exact this.trans s1
        have hmean : r.m_mean = (regionStatistics s.m_bands image s.m_labelledImage
            nSamples r0).1.map (fun m => m /
              ((regionStatistics s.m_bands image s.m_labelledImage nSamples r0).2.1 : ℚ)) := by
          have := congrArg Region.m_mean hc
          exact this
        refine ⟨⟨r0, hmem0, hid0, ?_, ?_, ?_, ?_⟩, ?_, ?_, ?_⟩
        · exact (congrArg Region.m_xStart hc).symm
        · exact (congrArg Region.m_xBound hc).symm
        · exact (congrArg Region.m_yStart hc).symm
        · exact (congrArg Region.m_yBound hc).symm
        · rw [hsize]; omega
        · rw [hcells]; exact hsize
        · rw [hmean, s1, s2, hcells, hsize, List.map_map]
          rfl
  · intro r0 hr0
    have h5 := hold r0 hr0
    constructor
    · intro hnone
      rw [hnone] at h5
      by_contra hz
      rw [if_neg hz] at h5
      cases h5
    · intro hz
      rw [if_pos hz] at h5
      cases hg : getRegion ((s.m_regions.map (fun r => r.m_id)).foldl
        (updateRegionStatisticsStep sqrt nSamples s.m_bands image s.m_labelledImage)
        s.m_regions) r0.m_id with
      | none => rfl
      | some q => rw [hg] at h5; cases h5

/-- C18 on two linked pixel regions over a label grid whose cells both carry the id
0: region 1 is removed and region 0, of size 1, no longer lists it. -/
theorem updateRegionStatistics_spec_witness :
    TableSorted staleSeg.m_regions ∧ SymmetricLive staleSeg.m_regions ∧
    NoSelfNeighbour staleSeg.m_regions ∧
    SymmetricLive (updateRegionStatistics (fun x => x) npos staleSeg sampleImage).m_regions ∧
    (updateRegionStatistics (fun x => x) npos staleSeg sampleImage).m_regions.map
      (fun r => (r.m_id, r.m_size, r.m_mean, r.m_neighbours)) = [(0, 1, [10], [])] :=
  ⟨by decide, by decide, by decide,
    (updateRegionStatistics_spec (fun x => x) npos staleSeg sampleImage (by decide) (by decide)
      (by decide)).2.2.2.2.1,
    by decide!⟩

/-! ## Border adjustment -/

theorem mem_insertPixel (pixels : List (Nat × Nat)) (p q : Nat × Nat) :
    q ∈ insertPixel pixels p ↔ q ∈ pixels ∨ q = p := by
  unfold insertPixel
  by_cases h : p ∈ pixels
  · rw [if_pos h]
    constructor
    · exact Or.inl
    · rintro (h1 | h1)
      · exact h1
      · rw [h1]; exact h
  · rw [if_neg h]
    simp

/-- The outcome of `computeBorderDestiny`: the first region wins exactly when it is
strictly the better fit for its own pixel and at least as good a fit for the other
pixel as the second region is. -/
theorem computeBorderDestiny_eq (d : List ℚ → Region → Nat → ℚ) (bands : List Nat)
    (image : Image) (linA colA : Nat) (rA : Region) (linB colB : Nat) (rB : Region) :
    computeBorderDestiny d bands image linA colA rA linB colB rB =
      if AbstractMerger.getDissimilarity d (getPixelValues bands image linA colA) rA <
            AbstractMerger.getDissimilarity d (getPixelValues bands image linA colA) rB ∧
          AbstractMerger.getDissimilarity d (getPixelValues bands image linB colB) rA ≤
            AbstractMerger.getDissimilarity d (getPixelValues bands image linB colB) rB
      then rA.m_id
      else if AbstractMerger.getDissimilarity d (getPixelValues bands image linA colA) rB <
            AbstractMerger.getDissimilarity d (getPixelValues bands image linA colA) rA ∧
          AbstractMerger.getDissimilarity d (getPixelValues bands image linB colB) rB ≤
            AbstractMerger.getDissimilarity d (getPixelValues bands image linB colB) rA
      then rB.m_id
      else npos := rfl

/-- What the body of the pixel loops of a border pass does: nothing, or one
comparison of the pixel, which is not yet adjusted, with a neighbour pixel that is
not yet adjusted either; both pixels enter the set unless the neighbouring region
wins, in which case the set is left as it is. -/
theorem adjustPixel_cases (d : List ℚ → Region → Nat → ℚ) (bands : List Nat) (image : Image)
    (region : Nat) (st : BorderPass) (p : Nat × Nat) :
    adjustPixel d bands image region st p = st ∨
    ∃ e : Comparison,
      (adjustPixel d bands image region st p).comparisons = st.comparisons ++ [e] ∧
      e.pixel = p ∧ p ∉ st.alreadyAdjustedPixels ∧
      e.neighbourPixel ∉ st.alreadyAdjustedPixels ∧
      (((e.destiny = npos ∨ e.destiny ≠ e.neighbourRegion) ∧
          (adjustPixel d bands image region st p).alreadyAdjustedPixels =
            insertPixel (insertPixel st.alreadyAdjustedPixels p) e.neighbourPixel) ∨
        (e.destiny ≠ npos ∧ e.destiny = e.neighbourRegion ∧
          (adjustPixel d bands image region st p).alreadyAdjustedPixels =
            st.alreadyAdjustedPixels ∧
          (adjustPixel d bands image region st p).labelledImage = st.labelledImage)) := by
  unfold adjustPixel
  by_cases hp : p ∈ st.alreadyAdjustedPixels
  · rw [if_pos hp]; exact Or.inl rfl
  · rw [if_neg hp]
    cases hget : st.labelledImage.getElement p.2 p.1 with
    | none => exact Or.inl rfl
    | some idValue =>
      dsimp only
      by_cases hid : idValue ≠ region
      · rw [if_pos hid]; exact Or.inl rfl
      · rw [if_neg hid]
        cases hb : isBorderPixel st.labelledImage p.1 p.2 region
            (st.labelledImage.nlines - 1) (st.labelledImage.ncols - 1) with
        | none => exact Or.inl rfl
        | some nb =>
          obtain ⟨nl, nc, nid, t⟩ := nb
          dsimp only
          by_cases hq : (nl, nc) ∈ st.alreadyAdjustedPixels
          · rw [if_pos hq]; exact Or.inl rfl
          · rw [if_neg hq]
            cases hr : getRegion st.regions region with
            | none => exact Or.inl rfl
            | some r =>
              cases hn : getRegion st.regions nid with
              | none => exact Or.inl rfl
              | some nr =>
                dsimp only
                right
                refine ⟨⟨p, (nl, nc), r.m_id, nr.m_id,
                  computeBorderDestiny d bands image p.1 p.2 r nl nc nr⟩, ?_⟩
                by_cases h1 : computeBorderDestiny d bands image p.1 p.2 r nl nc nr = npos
                · rw [if_pos h1]
                  exact ⟨rfl, rfl, hp, hq, Or.inl ⟨Or.inl h1, rfl⟩⟩
                · rw [if_neg h1]
                  by_cases h2 : computeBorderDestiny d bands image p.1 p.2 r nl nc nr = nr.m_id
                  · rw [if_pos h2]
                    exact ⟨rfl, rfl, hp, hq, Or.inr ⟨h1, h2, rfl, rfl⟩⟩
                  · rw [if_neg h2]
                    exact ⟨rfl, rfl, hp, hq, Or.inl ⟨Or.inr h2, rfl⟩⟩

/-- The invariant of a border pass: the pixels of every settled comparison are in
the set of adjusted pixels, and no pixel of a settled comparison takes part in a
later comparison. -/
theorem adjustPixel_invariant (d : List ℚ → Region → Nat → ℚ) (bands : List Nat)
    (image : Image) (region : Nat) (st : BorderPass) (p : Nat × Nat)
    (hinv : (∀ e ∈ st.comparisons, e.settled →
        e.pixel ∈ st.alreadyAdjustedPixels ∧ e.neighbourPixel ∈ st.alreadyAdjustedPixels) ∧
      st.comparisons.Pairwise (fun e e' => e.settled → e'.disjointFrom e)) :
    (∀ e ∈ (adjustPixel d bands image region st p).comparisons, e.settled →
        e.pixel ∈ (adjustPixel d bands image region st p).alreadyAdjustedPixels ∧
        e.neighbourPixel ∈ (adjustPixel d bands image region st p).alreadyAdjustedPixels) ∧
      (adjustPixel d bands image region st p).comparisons.Pairwise
        (fun e e' => e.settled → e'.disjointFrom e) := by
  obtain ⟨h1, h2⟩ := hinv
  rcases adjustPixel_cases d bands image region st p with h | ⟨e, hc, hep, hp, hq, hcase⟩
  · rw [h]; exact ⟨h1, h2⟩
  · rw [hc]
    have hpair : (st.comparisons ++ [e]).Pairwise (fun e e' => e.settled → e'.disjointFrom e) := by
      rw [List.pairwise_append]
      refine ⟨h2, List.pairwise_singleton _ _, ?_⟩
      intro a ha b hb hsa
      rw [List.mem_singleton] at hb
      subst hb
      obtain ⟨ha1, ha2⟩ := h1 a ha hsa
      refine ⟨?_, ?_, ?_, ?_⟩
      · intro h; rw [← h, hep] at ha1; exact hp ha1
      · intro h; rw [← h, hep] at ha2; exact hp ha2
      · intro h; rw [← h] at ha1; exact hq ha1
      · intro h; rw [← h] at ha2; exact hq ha2
    refine ⟨?_, hpair⟩
    intro a ha hsa
    rcases List.mem_append.1 ha with ha | ha
    · obtain ⟨ha1, ha2⟩ := h1 a ha hsa
      rcases hcase with ⟨_, hadj⟩ | ⟨_, _, hadj, _⟩
      · rw [hadj]
        exact ⟨(mem_insertPixel _ _ _).2 (Or.inl ((mem_insertPixel _ _ _).2 (Or.inl ha1))),
          (mem_insertPixel _ _ _).2 (Or.inl ((mem_insertPixel _ _ _).2 (Or.inl ha2)))⟩
      · rw [hadj]; exact ⟨ha1, ha2⟩
    · rw [List.mem_singleton] at ha
      subst ha
      rcases hcase with ⟨_, hadj⟩ | ⟨hn1, hn2, _, _⟩
      · rw [hadj]
        exact ⟨(mem_insertPixel _ _ _).2 (Or.inl ((mem_insertPixel _ _ _).2 (Or.inr hep))),
          (mem_insertPixel _ _ _).2 (Or.inr rfl)⟩
      · rcases hsa with h | h
        · exact absurd h hn1
        · exact absurd hn2 h

theorem adjustRegion_invariant (d : List ℚ → Region → Nat → ℚ) (bands : List Nat)
    (image : Image) (st : BorderPass) (region : Nat)
    (hinv : (∀ e ∈ st.comparisons, e.settled →
        e.pixel ∈ st.alreadyAdjustedPixels ∧ e.neighbourPixel ∈ st.alreadyAdjustedPixels) ∧
      st.comparisons.Pairwise (fun e e' => e.settled → e'.disjointFrom e)) :
    (∀ e ∈ (adjustRegion d bands image st region).comparisons, e.settled →
        e.pixel ∈ (adjustRegion d bands image st region).alreadyAdjustedPixels ∧
        e.neighbourPixel ∈ (adjustRegion d bands image st region).alreadyAdjustedPixels) ∧
      (adjustRegion d bands image st region).comparisons.Pairwise
        (fun e e' => e.settled → e'.disjointFrom e) := by
  unfold adjustRegion
  cases getRegion st.regions region with
  | none => exact hinv
  | some r =>
    dsimp only
    generalize boxCells r = cells
    induction cells generalizing st with
    | nil => exact hinv
    | cons p rest ih =>
      rw [List.foldl_cons]
      exact ih _ (adjustPixel_invariant d bands image region st p hinv)

/-- C22 (counterexample): on the 1 x 4 grid with the values 0, 12, 12, 12 and the
regions 0 (columns 0-1, mean 6) and 1 (columns 2-3, mean 12), the pass compares the
border pixel `(0, 1)` of region 0 with its neighbour pixel `(0, 2)`; the
neighbouring region 1 wins, no pixel is marked, and the same two pixels are compared
again when region 1 is visited, in the same pass. -/
theorem neighbour_win_leaves_pixels_unsettled :
    (adjustRegion EuclideanMerger.getDissimilarityBand borderSeg.m_bands borderImage
      ⟨borderSeg.m_regions, borderSeg.m_labelledImage, [], []⟩ 0).comparisons =
        [⟨(0, 1), (0, 2), 0, 1, 1⟩] ∧
    (adjustRegion EuclideanMerger.getDissimilarityBand borderSeg.m_bands borderImage
      ⟨borderSeg.m_regions, borderSeg.m_labelledImage, [], []⟩ 0).alreadyAdjustedPixels = [] ∧
    (adjustRegionBorders EuclideanMerger.getDissimilarityBand borderSeg borderImage).comparisons =
      [⟨(0, 1), (0, 2), 0, 1, 1⟩, ⟨(0, 2), (0, 1), 1, 0, 1⟩] := by
  decide!

/-- C22 (amended): in one border-adjustment pass, the two pixels of a comparison are
in the already-adjusted set at the end when the region being visited won or there
was no winner, and no pixel of such a comparison takes part in a later comparison of
the pass; a comparison is only made between two pixels that are not in the set; when
the neighbouring region wins, the set and the label grid are left as they are. -/
theorem settled_pixels_not_compared_again (d : List ℚ → Region → Nat → ℚ) (s : MultiSeg)
    (image : Image) :
    (∀ e ∈ (adjustRegionBorders d s image).comparisons, e.settled →
      e.pixel ∈ (adjustRegionBorders d s image).alreadyAdjustedPixels ∧
      e.neighbourPixel ∈ (adjustRegionBorders d s image).alreadyAdjustedPixels) ∧
    (adjustRegionBorders d s image).comparisons.Pairwise
      (fun e e' => e.settled → e'.disjointFrom e) ∧
    (∀ (region : Nat) (st : BorderPass) (p : Nat × Nat),
      adjustPixel d s.m_bands image region st p = st ∨
      ∃ e : Comparison,
        (adjustPixel d s.m_bands image region st p).comparisons = st.comparisons ++ [e] ∧
        e.pixel = p ∧ p ∉ st.alreadyAdjustedPixels ∧
        e.neighbourPixel ∉ st.alreadyAdjustedPixels ∧
        (((e.destiny = npos ∨ e.destiny ≠ e.neighbourRegion) ∧
            (adjustPixel d s.m_bands image region st p).alreadyAdjustedPixels =
              insertPixel (insertPixel st.alreadyAdjustedPixels p) e.neighbourPixel) ∨
          (e.destiny ≠ npos ∧ e.destiny = e.neighbourRegion ∧
            (adjustPixel d s.m_bands image region st p).alreadyAdjustedPixels =
              st.alreadyAdjustedPixels ∧
            (adjustPixel d s.m_bands image region st p).labelledImage =
              st.labelledImage))) := by
  have hfold : ∀ (keys : List Nat) (st : BorderPass),
      ((∀ e ∈ st.comparisons, e.settled →
          e.pixel ∈ st.alreadyAdjustedPixels ∧ e.neighbourPixel ∈ st.alreadyAdjustedPixels) ∧
        st.comparisons.Pairwise (fun e e' => e.settled → e'.disjointFrom e)) →
      (∀ e ∈ (keys.foldl (adjustRegion d s.m_bands image) st).comparisons, e.settled →
          e.pixel ∈ (keys.foldl (adjustRegion d s.m_bands image) st).alreadyAdjustedPixels ∧
          e.neighbourPixel ∈
            (keys.foldl (adjustRegion d s.m_bands image) st).alreadyAdjustedPixels) ∧
        (keys.foldl (adjustRegion d s.m_bands image) st).comparisons.Pairwise
          (fun e e' => e.settled → e'.disjointFrom e) := by
    intro keys
    induction keys with
    | nil => intro st h; exact h
    | cons k rest ih =>
      intro st h
      rw [List.foldl_cons]
      exact ih _ (adjustRegion_invariant d s.m_bands image st k h)
  have h := hfold (s.m_regions.map (fun r => r.m_id))
    { regions := s.m_regions
      labelledImage := s.m_labelledImage
      alreadyAdjustedPixels := []
      comparisons := [] }
    ⟨fun e he => absurd he (List.not_mem_nil e), List.Pairwise.nil⟩
  exact ⟨h.1, h.2, fun region st p => adjustPixel_cases d s.m_bands image region st p⟩

theorem otherRegionAt_some {img : LabelImage} {regionId lin col : Nat} {type : BorderPixelType}
    {r : Nat × Nat × Nat × BorderPixelType} (h : otherRegionAt img regionId lin col type = some r) :
    img.getElement r.2.1 r.1 = some r.2.2.1 ∧ r.2.2.1 ≠ regionId := by
  unfold otherRegionAt at h
  cases hg : img.getElement col lin with
  | none => rw [hg] at h; cases h
  | some nid =>
    rw [hg] at h
    dsimp only at h
    by_cases hn : nid ≠ regionId
    · rw [if_pos hn] at h
      cases h
      exact ⟨hg, hn⟩
    · rw [if_neg hn] at h; cases h

/-- The pixel `isBorderPixel` reports is inside the raster and holds another id. -/
theorem isBorderPixel_some {img : LabelImage} {lin col regionId lastLin lastCol : Nat}
    {r : Nat × Nat × Nat × BorderPixelType}
    (h : isBorderPixel img lin col regionId lastLin lastCol = some r) :
    img.getElement r.2.1 r.1 = some r.2.2.1 ∧ r.2.2.1 ≠ regionId := by
  unfold isBorderPixel at h
  dsimp only at h
  split at h
  · next r1 h1 =>
    cases h
    by_cases hc : col ≠ 0
    · rw [if_pos hc] at h1; exact otherRegionAt_some h1
    · rw [if_neg hc] at h1; cases h1
  · split at h
    · next r2 h2 =>
      cases h
      by_cases hc : col < lastCol
      · rw [if_pos hc] at h2; exact otherRegionAt_some h2
      · rw [if_neg hc] at h2; cases h2
    · split at h
      · next r3 h3 =>
        cases h
        by_cases hc : lin ≠ 0
        · rw [if_pos hc] at h3; exact otherRegionAt_some h3
        · rw [if_neg hc] at h3; cases h3
      · by_cases hc : lin < lastLin
        · rw [if_pos hc] at h; exact otherRegionAt_some h
        · rw [if_neg hc] at h; cases h

/-- When the comparison made at a pixel is won by the region being visited, the
neighbour pixel is relabelled to it. -/
theorem adjustPixel_win (d : List ℚ → Region → Nat → ℚ) (bands : List Nat) (image : Image)
    (region : Nat) (st : BorderPass) (p : Nat × Nat) (nl nc nid : Nat) (t : BorderPixelType)
    (r nr : Region) (hp : p ∉ st.alreadyAdjustedPixels)
    (hget : st.labelledImage.getElement p.2 p.1 = some region)
    (hb : isBorderPixel st.labelledImage p.1 p.2 region (st.labelledImage.nlines - 1)
      (st.labelledImage.ncols - 1) = some (nl, nc, nid, t))
    (hq : (nl, nc) ∉ st.alreadyAdjustedPixels)
    (hr : getRegion st.regions region = some r) (hn : getRegion st.regions nid = some nr)
    (hwin : computeBorderDestiny d bands image p.1 p.2 r nl nc nr = r.m_id)
    (hnp : r.m_id ≠ npos) (hne : r.m_id ≠ nr.m_id) :
    (adjustPixel d bands image region st p).labelledImage =
      st.labelledImage.setElement nc nl r.m_id ∧
    (adjustPixel d bands image region st p).labelledImage.cell nl nc = r.m_id := by
  have himg : (adjustPixel d bands image region st p).labelledImage =
      st.labelledImage.setElement nc nl r.m_id := by
    unfold adjustPixel
    rw [if_neg hp, hget]
    dsimp only
    rw [if_neg (fun h => h rfl), hb]
    dsimp only
    rw [if_neg hq, hr, hn]
    dsimp only
    rw [hwin, if_neg hnp, if_neg hne]
  refine ⟨himg, ?_⟩
  have hin := (isBorderPixel_some hb).1
  rw [getElement_eq] at hin
  dsimp only at hin
  have hgrid : nl < st.labelledImage.nlines ∧ nc < st.labelledImage.ncols := by
    by_contra hcon
    rw [if_neg hcon] at hin
    cases hin
  rw [himg, setElement_cell, if_pos ⟨rfl, rfl, hgrid.1, hgrid.2⟩]

/-- C21 (counterexample): for the pixel `a = (0, 0)` of value 10 of region A (mean 10)
and its neighbour pixel `b = (0, 1)` of value 9 of region B (mean 11),
`computeBorderDestiny` gives A, and the pass relabels `b` to A, although B is not at
least as good a fit for `b` as A: `d(b, B) = 2 > 1 = d(b, A)`. -/
theorem destiny_awarded_against_own_region :
    computeBorderDestiny EuclideanMerger.getDissimilarityBand [0] destinyImage 0 0 destinyA
      0 1 destinyB = destinyA.m_id ∧
    AbstractMerger.getDissimilarity EuclideanMerger.getDissimilarityBand
      (getPixelValues [0] destinyImage 0 0) destinyA = 0 ∧
    AbstractMerger.getDissimilarity EuclideanMerger.getDissimilarityBand
      (getPixelValues [0] destinyImage 0 0) destinyB = 1 ∧
    AbstractMerger.getDissimilarity EuclideanMerger.getDissimilarityBand
      (getPixelValues [0] destinyImage 0 1) destinyB = 2 ∧
    AbstractMerger.getDissimilarity EuclideanMerger.getDissimilarityBand
      (getPixelValues [0] destinyImage 0 1) destinyA = 1 ∧
    ¬ (AbstractMerger.getDissimilarity EuclideanMerger.getDissimilarityBand
        (getPixelValues [0] destinyImage 0 1) destinyB ≤
      AbstractMerger.getDissimilarity EuclideanMerger.getDissimilarityBand
        (getPixelValues [0] destinyImage 0 1) destinyA) ∧
    destinySeg.m_labelledImage.cell 0 1 = destinyB.m_id ∧
    (adjustRegionBorders EuclideanMerger.getDissimilarityBand destinySeg
      destinyImage).labelledImage.cell 0 1 = destinyA.m_id := by
  decide!

/-- C21 (amended): for a boundary pixel `a` of region A and its neighbour pixel `b` of
region B, `computeBorderDestiny` gives A exactly when A is strictly the better fit
for its own pixel, `d(a, A) < d(a, B)`, and A is at least as good a fit for `b` as B
is, `d(b, A) <= d(b, B)`; the pass then relabels `b` to A. -/
theorem border_destiny_rule (d : List ℚ → Region → Nat → ℚ) (bands : List Nat)
    (image : Image) (linA colA : Nat) (rA : Region) (linB colB : Nat) (rB : Region)
    (hne : rA.m_id ≠ rB.m_id) (hnp : rA.m_id ≠ npos) :
    (computeBorderDestiny d bands image linA colA rA linB colB rB = rA.m_id ↔
      AbstractMerger.getDissimilarity d (getPixelValues bands image linA colA) rA <
          AbstractMerger.getDissimilarity d (getPixelValues bands image linA colA) rB ∧
        AbstractMerger.getDissimilarity d (getPixelValues bands image linB colB) rA ≤
          AbstractMerger.getDissimilarity d (getPixelValues bands image linB colB) rB) ∧
    (∀ (st : BorderPass) (t : BorderPixelType), (linA, colA) ∉ st.alreadyAdjustedPixels →
      st.labelledImage.getElement colA linA = some rA.m_id →
      isBorderPixel st.labelledImage linA colA rA.m_id (st.labelledImage.nlines - 1)
        (st.labelledImage.ncols - 1) = some (linB, colB, rB.m_id, t) →
      (linB, colB) ∉ st.alreadyAdjustedPixels →
      getRegion st.regions rA.m_id = some rA → getRegion st.regions rB.m_id = some rB →
      computeBorderDestiny d bands image linA colA rA linB colB rB = rA.m_id →
      (adjustPixel d bands image rA.m_id st (linA, colA)).labelledImage.cell linB colB =
        rA.m_id) := by
  constructor
  · rw [computeBorderDestiny_eq]
    constructor
    · intro h
      by_contra hcon
      rw [if_neg hcon] at h
      split_ifs at h
      · exact hne h.symm
      · exact hnp h.symm
    · intro h
      rw [if_pos h]
  · intro st t hp hget hb hq hr hn hwin
    exact (adjustPixel_win d bands image rA.m_id st (linA, colA) linB colB rB.m_id t rA rB
      hp hget hb hq hr hn hwin hnp hne).2

/-- C21 (amended) for the pixels `(0, 1)` and `(0, 2)` of the 1 x 4 grid with the
values 0, 12, 12, 12, seen from region 1. -/
theorem border_destiny_rule_witness :
    computeBorderDestiny EuclideanMerger.getDissimilarityBand [0] borderImage 0 2
        { Region.new 1 [12] 0 2 with m_size := 2, m_xBound := 4, m_neighbours := [0] } 0 1
        { Region.new 0 [6] 0 0 with m_size := 2, m_xBound := 2, m_neighbours := [1] } = 1 ↔
      AbstractMerger.getDissimilarity EuclideanMerger.getDissimilarityBand
          (getPixelValues [0] borderImage 0 2)
          { Region.new 1 [12] 0 2 with m_size := 2, m_xBound := 4, m_neighbours := [0] } <
        AbstractMerger.getDissimilarity EuclideanMerger.getDissimilarityBand
          (getPixelValues [0] borderImage 0 2)
          { Region.new 0 [6] 0 0 with m_size := 2, m_xBound := 2, m_neighbours := [1] } ∧
      AbstractMerger.getDissimilarity EuclideanMerger.getDissimilarityBand
          (getPixelValues [0] borderImage 0 1)
          { Region.new 1 [12] 0 2 with m_size := 2, m_xBound := 4, m_neighbours := [0] } ≤
        AbstractMerger.getDissimilarity EuclideanMerger.getDissimilarityBand
          (getPixelValues [0] borderImage 0 1)
          { Region.new 0 [6] 0 0 with m_size := 2, m_xBound := 2, m_neighbours := [1] } :=
  (border_destiny_rule EuclideanMerger.getDissimilarityBand [0] borderImage 0 2
    { Region.new 1 [12] 0 2 with m_size := 2, m_xBound := 4, m_neighbours := [0] } 0 1
    { Region.new 0 [6] 0 0 with m_size := 2, m_xBound := 2, m_neighbours := [1] }
    (by decide) (by decide)).1

/-- C22 (amended) on the 1 x 4 grid with the values 0, 12, 12, 12. -/
theorem settled_pixels_not_compared_again_witness :
    (adjustRegionBorders EuclideanMerger.getDissimilarityBand borderSeg
      borderImage).comparisons.Pairwise (fun e e' => e.settled → e'.disjointFrom e) :=
  (settled_pixels_not_compared_again EuclideanMerger.getDissimilarityBand borderSeg
    borderImage).2.1

/-! ## Moving to a finer level -/

/-- C27: `Region::updateBounds(2, maxLin, maxCol)` maps the box `[x0, x1) x [y0, y1)`
to the box with low bounds `2*x0 - 1` and `2*y0 - 1` (0 for an old low bound 0) and
high bounds `min(2*x1, maxCol)` and `min(2*y1, maxLin)`; for every cell `(r, c)` of
the old box, each fine cell `(2r+i, 2c+j)`, `i, j < 2`, that lies inside the
`maxLin x maxCol` grid lies inside the new box. -/
theorem updateBounds_spec (r : Region) (maxLin maxCol : Nat) :
    (r.updateBoundsScaled 2 maxLin maxCol).m_xStart =
      (if r.m_xStart = 0 then 0 else 2 * r.m_xStart - 1) ∧
    (r.updateBoundsScaled 2 maxLin maxCol).m_yStart =
      (if r.m_yStart = 0 then 0 else 2 * r.m_yStart - 1) ∧
    (r.updateBoundsScaled 2 maxLin maxCol).m_xBound = min (2 * r.m_xBound) maxCol ∧
    (r.updateBoundsScaled 2 maxLin maxCol).m_yBound = min (2 * r.m_yBound) maxLin ∧
    (∀ lin col i j, r.inBox lin col → i < 2 → j < 2 →
      2 * lin + i < maxLin → 2 * col + j < maxCol →
      (r.updateBoundsScaled 2 maxLin maxCol).inBox (2 * lin + i) (2 * col + j)) := by
  have hx : (r.updateBoundsScaled 2 maxLin maxCol).m_xStart =
      (if r.m_xStart = 0 then 0 else 2 * r.m_xStart - 1) := by
    show (if r.m_xStart ≠ 0 then r.m_xStart * 2 - 1 else r.m_xStart) = _
    by_cases h : r.m_xStart = 0
    · simp [h]
    · simp only [ne_eq, h, not_false_eq_true, if_true, if_false, Nat.mul_comm]
  have hy : (r.updateBoundsScaled 2 maxLin maxCol).m_yStart =
      (if r.m_yStart = 0 then 0 else 2 * r.m_yStart - 1) := by
    show (if r.m_yStart ≠ 0 then r.m_yStart * 2 - 1 else r.m_yStart) = _
    by_cases h : r.m_yStart = 0
    · simp [h]
    · simp only [ne_eq, h, not_false_eq_true, if_true, if_false, Nat.mul_comm]
  have hxb : (r.updateBoundsScaled 2 maxLin maxCol).m_xBound = min (2 * r.m_xBound) maxCol := by
    show min (r.m_xBound * 2) maxCol = _
    rw [Nat.mul_comm]
  have hyb : (r.updateBoundsScaled 2 maxLin maxCol).m_yBound = min (2 * r.m_yBound) maxLin := by
    show min (r.m_yBound * 2) maxLin = _
    rw [Nat.mul_comm]
  refine ⟨hx, hy, hxb, hyb, ?_⟩
  intro lin col i j hbox hi hj hl hc
  unfold Region.inBox at hbox ⊢
  rw [hx, hy, hxb, hyb]
  obtain ⟨b1, b2, b3, b4⟩ := hbox
  refine ⟨?_, ?_, ?_, ?_⟩
  · split_ifs <;> omega
  · exact lt_min (by omega) hl
  · split_ifs <;> omega
  · exact lt_min (by omega) hc

/-- C27 for the second pixel of the 1 x 2 grid, moved to a 2 x 4 grid. -/
theorem updateBounds_spec_witness :
    pixelB.inBox 0 1 ∧ (pixelB.updateBoundsScaled 2 2 4).inBox (2 * 0 + 1) (2 * 1 + 1) :=
  ⟨by decide, (updateBounds_spec pixelB 2 4).2.2.2.2 0 1 1 1 (by decide) (by decide)
    (by decide) (by decide) (by decide)⟩

/-- C25: with `lag = ((2^L - 1) / 2^L) * 0.5` for each of the three lag terms,
`updateThresholds(L)` sets the current similarity to
`(similarity / 4^L) * (1 + 2 * (3 * lag))` and the current coefficient of variation to
`(cv / 4^L) * (1 + 2 * (3 * lag))`, as exact rationals, and stores them as the
parameters `euclidean_distance_threshold` and `cv_threshold` of the strategy; at
`L = 0` both are the base values. -/
theorem updateThresholds_spec (st : LevelState) (L : Nat) :
    (updateThresholds st L).m_currentSimilarity =
      (st.m_similarity / (4 : ℚ) ^ L) *
        (1 + 2 * (3 * ((((2 : ℚ) ^ L - 1) / (2 : ℚ) ^ L) * (1 / 2)))) ∧
    (updateThresholds st L).m_currentCV =
      (st.m_cv / (4 : ℚ) ^ L) *
        (1 + 2 * (3 * ((((2 : ℚ) ^ L - 1) / (2 : ℚ) ^ L) * (1 / 2)))) ∧
    (updateThresholds st L).m_merger.m_params.euclidean_distance_threshold =
      (updateThresholds st L).m_currentSimilarity ∧
    (updateThresholds st L).m_merger.m_params.cv_threshold =
      (updateThresholds st L).m_currentCV ∧
    (updateThresholds st L).m_currentLevel = L ∧
    (updateThresholds st 0).m_currentSimilarity = st.m_similarity ∧
    (updateThresholds st 0).m_currentCV = st.m_cv := by
  refine ⟨?_, ?_, rfl, rfl, rfl, ?_, ?_⟩
  · show (st.m_similarity / (4 : ℚ) ^ L) * (1 + (2 *
      ((((2 : ℚ) ^ L - 1) / ((2 : ℚ) ^ L)) * (1 / 2) +
        (((2 : ℚ) ^ L - 1) / ((2 : ℚ) ^ L)) * (1 / 2) +
        (((2 : ℚ) ^ L - 1) / ((2 : ℚ) ^ L)) * (1 / 2)))) = _
    ring
  · show (st.m_cv / (4 : ℚ) ^ L) * (1 + (2 *
      ((((2 : ℚ) ^ L - 1) / ((2 : ℚ) ^ L)) * (1 / 2) +
        (((2 : ℚ) ^ L - 1) / ((2 : ℚ) ^ L)) * (1 / 2) +
        (((2 : ℚ) ^ L - 1) / ((2 : ℚ) ^ L)) * (1 / 2)))) = _
    ring
  · show (st.m_similarity / (4 : ℚ) ^ 0) * (1 + (2 *
      ((((2 : ℚ) ^ 0 - 1) / ((2 : ℚ) ^ 0)) * (1 / 2) +
        (((2 : ℚ) ^ 0 - 1) / ((2 : ℚ) ^ 0)) * (1 / 2) +
        (((2 : ℚ) ^ 0 - 1) / ((2 : ℚ) ^ 0)) * (1 / 2)))) = _
    norm_num
  · show (st.m_cv / (4 : ℚ) ^ 0) * (1 + (2 *
      ((((2 : ℚ) ^ 0 - 1) / ((2 : ℚ) ^ 0)) * (1 / 2) +
        (((2 : ℚ) ^ 0 - 1) / ((2 : ℚ) ^ 0)) * (1 / 2) +
        (((2 : ℚ) ^ 0 - 1) / ((2 : ℚ) ^ 0)) * (1 / 2)))) = _
    norm_num

/-- C26 (evaluation at the failing input): for the base `ENL = 0.5` at level 0 the
quotient `(ENL * 4^0) / (1 + 2 * 0)` is 0.5, and `updateThresholds(0)` sets the
effective number of looks to 0, outside the range `(0, 250]`: the quotient goes
through `static_cast<std::size_t>` before `std::min`. For `ENL = 3.5` at level 1 the
quotient is 5.6 and the stored value is 5. -/
theorem updateThresholds_truncates_ENL :
    (updateThresholds (sampleLevelState (1 / 2) 1) 0).m_currentENL = 0 ∧
    ((1 / 2 : ℚ) * (4 : ℚ) ^ 0) /
      (1 + 2 * (3 * ((((2 : ℚ) ^ 0 - 1) / (2 : ℚ) ^ 0) * (1 / 2)))) = 1 / 2 ∧
    (updateThresholds (sampleLevelState (7 / 2) 1) 1).m_currentENL = 5 ∧
    ((7 / 2 : ℚ) * (4 : ℚ) ^ 1) /
      (1 + 2 * (3 * ((((2 : ℚ) ^ 1 - 1) / (2 : ℚ) ^ 1) * (1 / 2)))) = 28 / 5 := by
  decide!

/-! ## Growth restricted to pixel seeds -/

theorem getClosestRegion_mem_closestRegions {s : MultiSeg} {region c : Region}
    (h : getClosestRegion s region false = some c) : c ∈ getClosestRegions s region := by
  unfold getClosestRegion at h
  simp only [Bool.false_eq_true, if_false] at h
  generalize getClosestRegions s region = l at h
  match l, h with
  | [], h => cases h
  | [only], h =>
    simp only [Option.some.injEq] at h
    exact h ▸ List.mem_cons_self _ _
  | a :: b :: t, h =>
    rcases closestFold_mem region.m_mean (a :: b :: t) _ c h with h1 | h1
    · exact h1
    · cases h1

/-- With consider-region-vs-region disabled, a region and the partner selected for
it are not both larger than one pixel. -/
theorem findMergePartner_seed {s : MultiSeg} {cur c : Region}
    (hc : s.m_considerRegionVsRegion = false) (h : findMergePartner s cur = some c) :
    ¬ (cur.m_size > 1 ∧ c.m_size > 1) := by
  have hmem := getClosestRegion_mem_closestRegions (findMergePartner_closest h)
  unfold getClosestRegions at hmem
  have hf := (List.mem_filter.1 hmem).2
  intro hboth
  rw [hc] at hf
  simp [hboth.1, hboth.2] at hf

theorem mergeStep_considerRegionVsRegion (s : MultiSeg) (R m : Nat) :
    (mergeStep s R m).m_considerRegionVsRegion = s.m_considerRegionVsRegion := by
  unfold mergeStep
  cases getRegion s.m_regions m <;> rfl

/-- A merge step on two live regions keeps every size at 1 or more. -/
theorem mergeStep_sizes_pos (s : MultiSeg) (R m : Nat) (rr mr : Region)
    (hs : TableSorted s.m_regions) (hR : getRegion s.m_regions R = some rr)
    (hm : getRegion s.m_regions m = some mr) (hpos : ∀ r ∈ s.m_regions, 1 ≤ r.m_size) :
    ∀ r ∈ (mergeStep s R m).m_regions, 1 ≤ r.m_size := by
  intro r hr
  have hs' := tableSorted_mergeStep s R m hs
  have hget : getRegion (mergeStep s R m).m_regions r.m_id = some r :=
    (getRegion_eq_some_iff hs').2 ⟨hr, rfl⟩
  have hne : r.m_id ≠ m := by
    intro h
    have hl := isLive_mergeStep s R m (isLive_of_getRegion hm) r.m_id
    rw [isLive_of_getRegion hget] at hl
    simp [h] at hl
  have hcore := getRegion_core_mergeStep s R m rr mr hR hm r.m_id hne
  rw [hget] at hcore
  by_cases hx : r.m_id = R
  · rw [if_pos hx] at hcore
    have hc : r.core = (EuclideanMerger.merge rr mr).core := Option.some.inj hcore
    have hsz : r.core.m_size = (EuclideanMerger.merge rr mr).core.m_size :=
      congrArg Region.m_size hc
    have hsz2 : r.m_size = rr.m_size + mr.m_size := hsz
    have := hpos rr (getRegion_some hR).2
    omega
  · rw [if_neg hx] at hcore
    cases hq : getRegion s.m_regions r.m_id with
    | none => rw [hq] at hcore; cases hcore
    | some q =>
      rw [hq] at hcore
      have hc : r.core = q.core := Option.some.inj hcore
      have hsz : r.core.m_size = q.core.m_size := congrArg Region.m_size hc
      have hsz2 : r.m_size = q.m_size := hsz
      have := hpos q (getRegion_some hq).2
      omega

theorem scan_seed_step (sc : Scan) (cur : Nat) (cr cn : Region)
    (hinv : sc.seg.m_considerRegionVsRegion = false ∧ TableSorted sc.seg.m_regions ∧
      (∀ r ∈ sc.seg.m_regions, 1 ≤ r.m_size) ∧
      ∀ e ∈ sc.log, ∃ A B, getRegion e.before.m_regions e.survivor = some A ∧
        getRegion e.before.m_regions e.absorbed = some B ∧ (A.m_size = 1 ∨ B.m_size = 1))
    (hg : getRegion sc.seg.m_regions cur = some cr)
    (hp : findMergePartner sc.seg cr = some cn) :
    (sc.merge cr cn).seg.m_considerRegionVsRegion = false ∧
      TableSorted (sc.merge cr cn).seg.m_regions ∧
      (∀ r ∈ (sc.merge cr cn).seg.m_regions, 1 ≤ r.m_size) ∧
      ∀ e ∈ (sc.merge cr cn).log, ∃ A B, getRegion e.before.m_regions e.survivor = some A ∧
        getRegion e.before.m_regions e.absorbed = some B ∧ (A.m_size = 1 ∨ B.m_size = 1) := by
  obtain ⟨hc, hs, hpos, hlog⟩ := hinv
  have hcur : getRegion sc.seg.m_regions cr.m_id = some cr := by
    rw [(getRegion_some hg).1]; exact hg
  have hcn := (findMergePartner_live hp).2
  refine ⟨?_, tableSorted_mergeStep _ _ _ hs,
    mergeStep_sizes_pos sc.seg cr.m_id cn.m_id cr cn hs hcur hcn hpos, ?_⟩
  · simp only [Scan.merge, mergeStep_considerRegionVsRegion, hc]
  · intro e he
    simp only [Scan.merge, List.mem_append, List.mem_singleton] at he
    rcases he with he | he
    · exact hlog e he
    · subst he
      have hseed := findMergePartner_seed hc hp
      have h1 := hpos cr (getRegion_some hg).2
      have h2 := hpos cn (getRegion_some hcn).2
      exact ⟨cr, cn, hcur, hcn, by omega⟩

/-- C28: while consider-region-vs-region is disabled, on a sorted table of regions of
size 1 or more, every merge performed by `mergeRegions` or `mergeRegionsRandomly`
joins, in the state right before the merge, two regions of which at least one has
size 1. -/
theorem seeds_only_growth (s : MultiSeg) (hc : s.m_considerRegionVsRegion = false)
    (hs : TableSorted s.m_regions) (hpos : ∀ r ∈ s.m_regions, 1 ≤ r.m_size)
    (regions : List Nat) :
    (∃ sc, mergeRegions s regions = some sc ∧ logChain s sc.log sc.seg ∧
      ∀ e ∈ sc.log, ∃ A B, getRegion e.before.m_regions e.survivor = some A ∧
        getRegion e.before.m_regions e.absorbed = some B ∧ (A.m_size = 1 ∨ B.m_size = 1)) ∧
    (∀ shuffle : List Nat → List Nat, ∃ sc, mergeRegionsRandomly shuffle s regions = some sc ∧
      logChain s sc.log sc.seg ∧
      ∀ e ∈ sc.log, ∃ A B, getRegion e.before.m_regions e.survivor = some A ∧
        getRegion e.before.m_regions e.absorbed = some B ∧ (A.m_size = 1 ∨ B.m_size = 1)) := by
  have hstep : ∀ (sc : Scan) (cur : Nat) (cr cn : Region),
      ((sc.seg.m_considerRegionVsRegion = false ∧ TableSorted sc.seg.m_regions ∧
        (∀ r ∈ sc.seg.m_regions, 1 ≤ r.m_size) ∧
        ∀ e ∈ sc.log, ∃ A B, getRegion e.before.m_regions e.survivor = some A ∧
          getRegion e.before.m_regions e.absorbed = some B ∧ (A.m_size = 1 ∨ B.m_size = 1)) ∧
        logChain s sc.log sc.seg) →
      getRegion sc.seg.m_regions cur = some cr → findMergePartner sc.seg cr = some cn →
      ((sc.merge cr cn).seg.m_considerRegionVsRegion = false ∧
        TableSorted (sc.merge cr cn).seg.m_regions ∧
        (∀ r ∈ (sc.merge cr cn).seg.m_regions, 1 ≤ r.m_size) ∧
        ∀ e ∈ (sc.merge cr cn).log, ∃ A B, getRegion e.before.m_regions e.survivor = some A ∧
          getRegion e.before.m_regions e.absorbed = some B ∧ (A.m_size = 1 ∨ B.m_size = 1)) ∧
        logChain s (sc.merge cr cn).log (sc.merge cr cn).seg := by
    intro sc cur cr cn hinv hg hp
    exact ⟨scan_seed_step sc cur cr cn hinv.1 hg hp,
      logChain_append s sc.seg sc.log cr.m_id cn.m_id hinv.2⟩
  refine ⟨?_, ?_⟩
  · obtain ⟨sc, h, _⟩ := mergeRegions_count s regions hs
    have := mergeRegionsLoop_invariant _ hstep _ ⟨s, regions, 0, []⟩ _ _
      ⟨⟨hc, hs, hpos, fun e he => absurd he (List.not_mem_nil e)⟩, rfl⟩ h
    exact ⟨sc, h, this.2, this.1.2.2.2⟩
  · intro shuffle
    obtain ⟨sc, h, _⟩ := mergeRegionsRandomly_count shuffle s regions hs
    have := mergeRegionsRandomlyLoop_invariant _ hstep _ ⟨s, regions, 0, []⟩ _
      ⟨⟨hc, hs, hpos, fun e he => absurd he (List.not_mem_nil e)⟩, rfl⟩ h
    exact ⟨sc, h, this.2, this.1.2.2.2⟩

/-- C28 on the 1 x 2 grid of two pixels of value 10 with consider-region-vs-region
disabled. -/
theorem seeds_only_growth_witness :
    ({ twoPixelSeg with m_considerRegionVsRegion := false } : MultiSeg).m_considerRegionVsRegion
      = false ∧
    TableSorted ({ twoPixelSeg with m_considerRegionVsRegion := false } : MultiSeg).m_regions ∧
    (∀ r ∈ ({ twoPixelSeg with m_considerRegionVsRegion := false } : MultiSeg).m_regions,
      1 ≤ r.m_size) ∧
    ∃ sc, mergeRegions { twoPixelSeg with m_considerRegionVsRegion := false } [0, 1] = some sc ∧
      logChain { twoPixelSeg with m_considerRegionVsRegion := false } sc.log sc.seg ∧
      ∀ e ∈ sc.log, ∃ A B, getRegion e.before.m_regions e.survivor = some A ∧
        getRegion e.before.m_regions e.absorbed = some B ∧ (A.m_size = 1 ∨ B.m_size = 1) :=
  ⟨rfl, by decide, by decide,
    (seeds_only_growth { twoPixelSeg with m_considerRegionVsRegion := false } rfl (by decide)
      (by decide) [0, 1]).1⟩

/-! ## Annealing of the merge threshold -/

theorem executeRegionGrowingTrace_fst (useRandomSeeds : Bool)
    (shuffle : Nat → List Nat → List Nat) (maxIterations : Nat) :
    ∀ (fuel : Nat) (g : Growth),
      (executeRegionGrowingTrace useRandomSeeds shuffle maxIterations fuel g).map Prod.fst =
        executeRegionGrowingLoop useRandomSeeds shuffle maxIterations fuel g := by
  intro fuel
  induction fuel with
  | zero => intro g; rfl
  | succ fuel ih =>
    intro g
    unfold executeRegionGrowingTrace executeRegionGrowingLoop
    cases hsc : (if useRandomSeeds = false then mergeRegions g.seg g.regions
           else mergeRegionsRandomly (shuffle g.iteration) g.seg g.regions) with
    | none => rfl
    | some sc =>
      simp only
      by_cases hmax : g.iteration + 1 = maxIterations
      · rw [if_pos hmax, if_pos hmax]; rfl
      · rw [if_neg hmax, if_neg hmax]
        by_cases hzero : sc.mergedRegions = 0
        · rw [if_pos hzero, if_pos hzero]
          by_cases hbrk : g.noMergeIterations + 1 > g.seg.m_similarityIncreaseStep
          · rw [if_pos hbrk, if_pos hbrk]; rfl
          · rw [if_neg hbrk, if_neg hbrk, Option.map_map, ← ih]
            rfl
        · rw [if_neg hzero, if_neg hzero, Option.map_map, ← ih]
          rfl

theorem mergeStep_merger (s : MultiSeg) (R m : Nat) :
    (mergeStep s R m).m_merger = s.m_merger := by
  unfold mergeStep
  cases getRegion s.m_regions m <;> rfl

theorem mergeStep_currentSimilarity (s : MultiSeg) (R m : Nat) :
    (mergeStep s R m).m_currentSimilarity = s.m_currentSimilarity := by
  unfold mergeStep
  cases getRegion s.m_regions m <;> rfl

/-- A growth scan returns, and changes neither the strategy nor the thresholds of the
engine. -/
theorem scan_parameters (useRandomSeeds : Bool) (shuffle : List Nat → List Nat) (s : MultiSeg)
    (regions : List Nat) (hs : TableSorted s.m_regions) :
    ∃ sc, (if useRandomSeeds = false then mergeRegions s regions
        else mergeRegionsRandomly shuffle s regions) = some sc ∧
      TableSorted sc.seg.m_regions ∧
      sc.seg.m_regions.length + sc.mergedRegions = s.m_regions.length ∧
      sc.seg.m_similarityIncreaseStep = s.m_similarityIncreaseStep ∧
      sc.seg.m_merger = s.m_merger ∧ sc.seg.m_currentSimilarity = s.m_currentSimilarity := by
  have hstep : ∀ (sc : Scan) (cur : Nat) (cr cn : Region),
      (sc.seg.m_merger = s.m_merger ∧ sc.seg.m_currentSimilarity = s.m_currentSimilarity) →
      getRegion sc.seg.m_regions cur = some cr → findMergePartner sc.seg cr = some cn →
      ((sc.merge cr cn).seg.m_merger = s.m_merger ∧
        (sc.merge cr cn).seg.m_currentSimilarity = s.m_currentSimilarity) := by
    intro sc cur cr cn hinv _ _
    simp only [Scan.merge, mergeStep_merger, mergeStep_currentSimilarity]
    exact hinv
  cases useRandomSeeds
  · obtain ⟨sc, h, h1, h2, h3⟩ := mergeRegions_count s regions hs
    have := mergeRegionsLoop_invariant _ hstep _ ⟨s, regions, 0, []⟩ _ _ ⟨rfl, rfl⟩ h
    exact ⟨sc, by simpa using h, h1, h2, h3, this.1, this.2⟩
  · obtain ⟨sc, h, h1, h2, h3⟩ := mergeRegionsRandomly_count shuffle s regions hs
    have := mergeRegionsRandomlyLoop_invariant _ hstep _ ⟨s, regions, 0, []⟩ _ ⟨rfl, rfl⟩ h
    exact ⟨sc, by simpa using h, h1, h2, h3, this.1, this.2⟩

theorem zeroMergeScans_cons (e : ScanRecord) (l : List ScanRecord) :
    zeroMergeScans (e :: l) = (if e.mergedRegions = 0 then 1 else 0) + zeroMergeScans l := by
  unfold zeroMergeScans
  by_cases h : e.mergedRegions = 0
  · simp [List.filter_cons, h]; omega
  · simp [List.filter_cons, h]

/-- The loop of `executeRegionGrowing` from a loop head: it returns, and every scan
starts below the cap, after at most `S` scans without merge, with the threshold that
belongs to the number of scans without merge so far. -/
theorem executeRegionGrowingTrace_spec (useRandomSeeds : Bool)
    (shuffle : Nat → List Nat → List Nat) (M S : Nat) (T : ℚ) :
    ∀ (fuel : Nat) (g : Growth), TableSorted g.seg.m_regions →
      g.seg.m_similarityIncreaseStep = S → g.seg.m_currentSimilarity = T →
      g.noMergeIterations ≤ S → g.iteration < M →
      g.seg.m_merger.m_params.euclidean_distance_threshold = g.threshold →
      g.threshold = ((g.noMergeIterations : ℚ) + 1) * (T / ((S + 1 : Nat) : ℚ)) →
      g.seg.m_regions.length + (S + 1 - g.noMergeIterations) ≤ fuel →
      ∃ g' scans, executeRegionGrowingTrace useRandomSeeds shuffle M fuel g = some (g', scans) ∧
        g'.seg.m_currentSimilarity = T ∧
        g'.iteration = g.iteration + scans.length ∧ g'.iteration ≤ M ∧ scans ≠ [] ∧
        (g'.iteration = M ∨ g.noMergeIterations + zeroMergeScans scans = S + 1) ∧
        ∀ pre e post, scans = pre ++ e :: post →
          e.head.iteration = g.iteration + pre.length ∧ e.head.iteration < M ∧
          e.head.noMergeIterations = g.noMergeIterations + zeroMergeScans pre ∧
          e.head.noMergeIterations ≤ S ∧
          e.head.seg.m_merger.m_params.euclidean_distance_threshold =
            ((e.head.noMergeIterations : ℚ) + 1) * (T / ((S + 1 : Nat) : ℚ)) := by
  intro fuel
  induction fuel with
  | zero => intro g _ _ _ h1 _ _ _ h2; omega
  | succ fuel ih =>
    intro g hs hS hT hno hit hthr hval hfuel
    obtain ⟨sc, hsc, hs', hcnt, hstep, hmerger, hsim⟩ :=
      scan_parameters useRandomSeeds (shuffle g.iteration) g.seg g.regions hs
    have hhead : ∀ (tail : List ScanRecord) (pre : List ScanRecord) (e : ScanRecord)
        (post : List ScanRecord) (n : Nat),
        (⟨g, sc.mergedRegions⟩ : ScanRecord) :: tail = pre ++ e :: post →
        (∀ pre' e' post', tail = pre' ++ e' :: post' →
          e'.head.iteration = g.iteration + 1 + pre'.length ∧ e'.head.iteration < M ∧
          e'.head.noMergeIterations = n + zeroMergeScans pre' ∧
          e'.head.noMergeIterations ≤ S ∧
          e'.head.seg.m_merger.m_params.euclidean_distance_threshold =
            ((e'.head.noMergeIterations : ℚ) + 1) * (T / ((S + 1 : Nat) : ℚ))) →
        n = g.noMergeIterations + (if sc.mergedRegions = 0 then 1 else 0) →
        e.head.iteration = g.iteration + pre.length ∧ e.head.iteration < M ∧
          e.head.noMergeIterations = g.noMergeIterations + zeroMergeScans pre ∧
          e.head.noMergeIterations ≤ S ∧
          e.head.seg.m_merger.m_params.euclidean_distance_threshold =
            ((e.head.noMergeIterations : ℚ) + 1) * (T / ((S + 1 : Nat) : ℚ)) := by
      intro tail pre e post n hsplit htail hn
      cases pre with
      | nil =>
        simp only [List.nil_append, List.cons.injEq] at hsplit
        rw [← hsplit.1]
        refine ⟨rfl, hit, rfl, hno, ?_⟩
        simp only [hthr, hval]
      | cons p pre' =>
        simp only [List.cons_append, List.cons.injEq] at hsplit
        obtain ⟨h1, h2, h3, h4, h5⟩ := htail pre' e post hsplit.2
        refine ⟨?_, h2, ?_, h4, h5⟩
        · rw [h1, List.length_cons]; omega
        · rw [h3, zeroMergeScans_cons, ← hsplit.1, hn]; dsimp only; omega
    unfold executeRegionGrowingTrace
    rw [hsc]
    simp only
    by_cases hmax : g.iteration + 1 = M
    · rw [if_pos hmax]
      refine ⟨_, _, rfl, by rw [hsim, hT], rfl, by simp only; omega, by simp,
        Or.inl hmax, ?_⟩
      intro pre e post hsplit
      exact hhead [] pre e post (g.noMergeIterations + (if sc.mergedRegions = 0 then 1 else 0))
        hsplit (fun pre' e' post' h => by simp at h) rfl
    · rw [if_neg hmax]
      by_cases hzero : sc.mergedRegions = 0
      · rw [if_pos hzero]
        by_cases hbrk : g.noMergeIterations + 1 > g.seg.m_similarityIncreaseStep
        · rw [if_pos hbrk]
          refine ⟨_, _, rfl, by rw [hsim, hT], rfl, by simp only; omega, by simp,
            Or.inr ?_, ?_⟩
          · rw [zeroMergeScans_cons]
            simp only [hzero, if_true, zeroMergeScans, List.filter_nil, List.length_nil]
            omega
          · intro pre e post hsplit
            exact hhead [] pre e post
              (g.noMergeIterations + (if sc.mergedRegions = 0 then 1 else 0))
              hsplit (fun pre' e' post' h => by simp at h) rfl
        · rw [if_neg hbrk]
          obtain ⟨g', scans, h1, h2, h3, h4, h5, h6, h7⟩ := ih
            { g with seg := { sc.seg with
                        m_merger := sc.seg.m_merger.setEuclideanDistanceThreshold
                          (g.threshold + g.seg.m_currentSimilarity /
                            ((g.seg.m_similarityIncreaseStep + 1 : Nat) : ℚ)) }
                     regions := sc.regions
                     iteration := g.iteration + 1
                     counts := g.counts ++ [sc.seg.m_regions.length]
                     noMergeIterations := g.noMergeIterations + 1
                     threshold := g.threshold + g.seg.m_currentSimilarity /
                            ((g.seg.m_similarityIncreaseStep + 1 : Nat) : ℚ) }
            hs' (by simp only [hstep, hS]) (by simp only [hsim, hT])
            (by simp only; omega) (by simp only; omega) rfl
            (by simp only [hval, hS, hT]; push_cast; ring)
            (by simp only; omega)
          rw [h1]
          refine ⟨g', _, rfl, h2, ?_, h4, by simp, ?_, ?_⟩
          · rw [h3, List.length_cons]; simp only; omega
          · rcases h6 with h6 | h6
            · exact Or.inl h6
            · right
              rw [zeroMergeScans_cons]
              simp only [hzero, if_true]
              simp only at h6
              omega
          · intro pre e post hsplit
            exact hhead scans pre e post (g.noMergeIterations + 1) hsplit h7
              (by simp only [hzero, if_true])
      · rw [if_neg hzero]
        obtain ⟨g', scans, h1, h2, h3, h4, h5, h6, h7⟩ := ih
          { g with seg := sc.seg, regions := sc.regions, iteration := g.iteration + 1,
                   counts := g.counts ++ [sc.seg.m_regions.length] }
          hs' (by simp only [hstep, hS]) (by simp only [hsim, hT])
          hno (by simp only; omega) (by simp only [hmerger, hthr]) hval
          (by simp only; omega)
        rw [h1]
        refine ⟨g', _, rfl, h2, ?_, h4, by simp, ?_, ?_⟩
        · rw [h3, List.length_cons]; simp only; omega
        · rcases h6 with h6 | h6
          · exact Or.inl h6
          · right
            rw [zeroMergeScans_cons]
            simp only [hzero, if_false]
            simp only at h6
            omega
        · intro pre e post hsplit
          exact hhead scans pre e post g.noMergeIterations hsplit h7
            (by simp only [hzero, if_false, Nat.add_zero])

/-- C24: for every working set, annealing step count `S` (with `S + 1` below `2 ^ 64`,
the range of the counter), target threshold `T` and cap `M` of 1 or more,
`executeRegionGrowing` returns after at least one and at most `M` scans; a scan
preceded by `j` scans without merge starts below the cap, has `j` at most `S`, and
runs with the threshold `(j + 1) * T / (S + 1)`; the call ends with scan number `M`
or with the scan that brings the scans without merge to `S + 1`; and on return the
parameter `euclidean_distance_threshold` of the strategy is `T`. -/
theorem executeRegionGrowing_annealing (s : MultiSeg) (regions : List Nat)
    (useRandomSeeds : Bool) (shuffle : Nat → List Nat → List Nat) (maxIterations : Nat)
    (hs : TableSorted s.m_regions) (hS : s.m_similarityIncreaseStep + 1 < 2 ^ 64)
    (hM : 1 ≤ maxIterations) :
    ∃ g scans, executeRegionGrowing s regions useRandomSeeds shuffle maxIterations = some g ∧
      executeRegionGrowingScans s regions useRandomSeeds shuffle maxIterations = some scans ∧
      scans.length = g.iteration ∧ 1 ≤ scans.length ∧ scans.length ≤ maxIterations ∧
      (∀ pre e post, scans = pre ++ e :: post →
        pre.length < maxIterations ∧ zeroMergeScans pre ≤ s.m_similarityIncreaseStep ∧
        e.head.seg.m_merger.m_params.euclidean_distance_threshold =
          ((zeroMergeScans pre : ℚ) + 1) * s.m_currentSimilarity /
            ((s.m_similarityIncreaseStep : ℚ) + 1)) ∧
      (scans.length = maxIterations ∨ zeroMergeScans scans = s.m_similarityIncreaseStep + 1) ∧
      g.seg.m_merger.m_params.euclidean_distance_threshold = s.m_currentSimilarity := by
  have _ := hS
  obtain ⟨g', scans, h1, h2, h3, h4, h5, h6, h7⟩ :=
    executeRegionGrowingTrace_spec useRandomSeeds shuffle maxIterations
      s.m_similarityIncreaseStep s.m_currentSimilarity
      (s.m_regions.length + s.m_similarityIncreaseStep + 1)
      ⟨{ s with
          m_merger := s.m_merger.setEuclideanDistanceThreshold
            (s.m_currentSimilarity / ((s.m_similarityIncreaseStep + 1 : Nat) : ℚ)) },
        regions, 0, 0, s.m_currentSimilarity / ((s.m_similarityIncreaseStep + 1 : Nat) : ℚ), []⟩
      hs rfl rfl (Nat.zero_le _) hM rfl (by simp) (by simp only; omega)
  have hloop := executeRegionGrowingTrace_fst useRandomSeeds shuffle maxIterations
      (s.m_regions.length + s.m_similarityIncreaseStep + 1)
      ⟨{ s with
          m_merger := s.m_merger.setEuclideanDistanceThreshold
            (s.m_currentSimilarity / ((s.m_similarityIncreaseStep + 1 : Nat) : ℚ)) },
        regions, 0, 0, s.m_currentSimilarity / ((s.m_similarityIncreaseStep + 1 : Nat) : ℚ), []⟩
  rw [h1] at hloop
  simp only [Option.map_some'] at hloop
  simp only [Nat.zero_add] at h3 h6 h7
  have hlen : scans.length = g'.iteration := h3.symm
  refine ⟨{ g' with seg := { g'.seg with
      m_merger := g'.seg.m_merger.setEuclideanDistanceThreshold g'.seg.m_currentSimilarity } },
    scans, ?_, ?_, ?_, ?_, ?_, ?_, ?_, ?_⟩
  · unfold executeRegionGrowing
    simp only
    rw [← hloop]
  · unfold executeRegionGrowingScans
    simp only
    rw [h1]
    rfl
  · exact hlen
  · cases scans with
    | nil => exact absurd rfl h5
    | cons a t => simp
  · rw [hlen]; exact h4
  · intro pre e post hsplit
    obtain ⟨k1, k2, k3, k4, k5⟩ := h7 pre e post hsplit
    refine ⟨by omega, by omega, ?_⟩
    rw [k5, k3]
    push_cast
    ring
  · rcases h6 with h6 | h6
    · exact Or.inl (hlen.trans h6)
    · exact Or.inr h6
  · simp only [AbstractMerger.setEuclideanDistanceThreshold]
    exact h2

/-- C24 on the 1 x 2 grid of two pixels of value 10, with the default cap of 100
scans. -/
theorem executeRegionGrowing_annealing_witness :
    TableSorted twoPixelSeg.m_regions ∧ twoPixelSeg.m_similarityIncreaseStep + 1 < 2 ^ 64 ∧
    1 ≤ 100 ∧
    ∃ g scans, executeRegionGrowing twoPixelSeg [0, 1] false (fun _ l => l) 100 = some g ∧
      executeRegionGrowingScans twoPixelSeg [0, 1] false (fun _ l => l) 100 = some scans ∧
      scans.length = g.iteration ∧ 1 ≤ scans.length ∧ scans.length ≤ 100 ∧
      (∀ pre e post, scans = pre ++ e :: post →
        pre.length < 100 ∧ zeroMergeScans pre ≤ twoPixelSeg.m_similarityIncreaseStep ∧
        e.head.seg.m_merger.m_params.euclidean_distance_threshold =
          ((zeroMergeScans pre : ℚ) + 1) * twoPixelSeg.m_currentSimilarity /
            ((twoPixelSeg.m_similarityIncreaseStep : ℚ) + 1)) ∧
      (scans.length = 100 ∨ zeroMergeScans scans = twoPixelSeg.m_similarityIncreaseStep + 1) ∧
      g.seg.m_merger.m_params.euclidean_distance_threshold = twoPixelSeg.m_currentSimilarity :=
  ⟨by decide, by decide, by decide,
    executeRegionGrowing_annealing twoPixelSeg [0, 1] false (fun _ l => l) 100 (by decide)
      (by decide) (by decide)⟩

/-! ## The working set of a growth scan -/

theorem mergeRegionsVisits_fst :
    ∀ (fuel : Nat) (sc : Scan) (it : Option Nat),
      (mergeRegionsVisits fuel sc it).map Prod.fst = mergeRegionsLoop fuel sc it := by
  intro fuel
  induction fuel with
  | zero => intro sc it; rfl
  | succ fuel ih =>
    intro sc it
    cases it with
    | none => rfl
    | some cur =>
      unfold mergeRegionsVisits mergeRegionsLoop
      cases hg : getRegion sc.seg.m_regions cur with
      | none =>
        simp only
        rw [Option.map_map, ← ih]; rfl
      | some cr =>
        simp only
        cases hp : findMergePartner sc.seg cr with
        | none =>
          simp only
          rw [Option.map_map, ← ih]; rfl
        | some cn =>
          simp only
          split
          · rw [Option.map_map, ← ih]; rfl
          · rw [Option.map_map, ← ih]; rfl

theorem growRegionVisits_fst :
    ∀ (fuel : Nat) (sc : Scan) (cur : Nat),
      (growRegionVisits fuel sc cur).map Prod.fst = growRegion fuel sc cur := by
  intro fuel
  induction fuel with
  | zero => intro sc cur; rfl
  | succ fuel ih =>
    intro sc cur
    unfold growRegionVisits growRegion
    cases hg : getRegion sc.seg.m_regions cur with
    | none => rfl
    | some cr =>
      simp only
      cases hp : findMergePartner sc.seg cr with
      | none => rfl
      | some cn =>
        simp only
        split
        · rfl
        · rw [Option.map_map, ← ih]; rfl

theorem mergeRegionsRandomlyVisits_fst :
    ∀ (ids : List Nat) (sc : Scan),
      (mergeRegionsRandomlyVisits ids sc).map Prod.fst = mergeRegionsRandomlyLoop ids sc := by
  intro ids
  induction ids with
  | nil => intro sc; rfl
  | cons id ids ih =>
    intro sc
    unfold mergeRegionsRandomlyVisits mergeRegionsRandomlyLoop
    split
    · rw [← growRegionVisits_fst]
      cases hgr : growRegionVisits (sc.seg.m_regions.length + 1) sc id with
      | none => rfl
      | some p =>
        obtain ⟨sc1, visits⟩ := p
        simp only [Option.map_some']
        rw [Option.map_map, ← ih]; rfl
    · exact ih sc

theorem nextKey_mem {l : List Nat} {cur k : Nat} (h : nextKey l cur = some k) : k ∈ l :=
  List.mem_of_find?_eq_some h

/-- The merge block of a scan keeps the table well formed and the working set inside
the table; the absorbed region leaves both, the visited key stays. -/
theorem scan_working_set_step (sc : Scan) (cur : Nat) (cr cn : Region)
    (hinv : TableSorted sc.seg.m_regions ∧ SymmetricLive sc.seg.m_regions ∧
      NoSelfNeighbour sc.seg.m_regions ∧ WorkingSetLive sc)
    (hg : getRegion sc.seg.m_regions cur = some cr)
    (hp : findMergePartner sc.seg cr = some cn) :
    (TableSorted (sc.merge cr cn).seg.m_regions ∧ SymmetricLive (sc.merge cr cn).seg.m_regions ∧
      NoSelfNeighbour (sc.merge cr cn).seg.m_regions ∧ WorkingSetLive (sc.merge cr cn)) ∧
    cn.m_id ≠ cur ∧ isLive sc.seg.m_regions cn.m_id = true ∧
    isLive (sc.merge cr cn).seg.m_regions cn.m_id = false ∧
    cn.m_id ∉ (sc.merge cr cn).regions ∧
    (cur ∈ sc.regions → cur ∈ (sc.merge cr cn).regions) := by
  obtain ⟨hs, hsym, hno, hws⟩ := hinv
  obtain ⟨hne, hR, hm⟩ := partner_distinct_live hno hg (findMergePartner_live hp)
  have hcur : cr.m_id = cur := (getRegion_some hg).1
  have hs' := tableSorted_mergeStep sc.seg cr.m_id cn.m_id hs
  refine ⟨⟨hs', ?_, ?_, ?_⟩, ?_, hm, ?_, ?_, ?_⟩
  · exact (symmetricLive_iff hs').2
      (mergeStep_symmetric sc.seg cr.m_id cn.m_id hne hR hm ((symmetricLive_iff hs).1 hsym))
  · exact (noSelfNeighbour_iff hs').2
      (mergeStep_noSelf sc.seg cr.m_id cn.m_id hne hm ((noSelfNeighbour_iff hs).1 hno))
  · intro k hk
    simp only [Scan.merge, List.mem_filter, bne_iff_ne, ne_eq] at hk
    simp only [Scan.merge]
    rw [isLive_mergeStep sc.seg cr.m_id cn.m_id hm, hws k hk.1]
    simp [hk.2]
  · rw [← hcur]; exact fun h => hne h.symm
  · simp only [Scan.merge]
    rw [isLive_mergeStep sc.seg cr.m_id cn.m_id hm]
    simp
  · simp [Scan.merge]
  · intro hin
    simp only [Scan.merge, List.mem_filter, bne_iff_ne, ne_eq]
    exact ⟨hin, by rw [← hcur]; exact hne⟩

theorem mergeRegionsVisits_invariant :
    ∀ (fuel : Nat) (sc : Scan) (it : Option Nat) (res : Scan) (visits : List Visit),
      (TableSorted sc.seg.m_regions ∧ SymmetricLive sc.seg.m_regions ∧
        NoSelfNeighbour sc.seg.m_regions ∧ WorkingSetLive sc) →
      (∀ cur, it = some cur → cur ∈ sc.regions) →
      mergeRegionsVisits fuel sc it = some (res, visits) →
      (TableSorted res.seg.m_regions ∧ SymmetricLive res.seg.m_regions ∧
        NoSelfNeighbour res.seg.m_regions ∧ WorkingSetLive res) ∧
      ∀ v ∈ visits, (TableSorted v.state.seg.m_regions ∧ SymmetricLive v.state.seg.m_regions ∧
        NoSelfNeighbour v.state.seg.m_regions ∧ WorkingSetLive v.state) ∧
        v.key ∈ v.state.regions := by
  intro fuel
  induction fuel with
  | zero => intro sc it res visits _ _ h; simp [mergeRegionsVisits] at h
  | succ fuel ih =>
    intro sc it res visits hinv hit h
    cases it with
    | none =>
      simp only [mergeRegionsVisits, Option.some.injEq, Prod.mk.injEq] at h
      obtain ⟨h1, h2⟩ := h
      subst h1; subst h2
      exact ⟨hinv, fun v hv => absurd hv (List.not_mem_nil v)⟩
    | some cur =>
      have hcur : cur ∈ sc.regions := hit cur rfl
      have hcons : ∀ (sc1 : Scan) (it1 : Option Nat),
          (TableSorted sc1.seg.m_regions ∧ SymmetricLive sc1.seg.m_regions ∧
            NoSelfNeighbour sc1.seg.m_regions ∧ WorkingSetLive sc1) →
          (∀ c, it1 = some c → c ∈ sc1.regions) →
          (mergeRegionsVisits fuel sc1 it1).map (fun p => (p.1, (⟨sc, cur⟩ : Visit) :: p.2)) =
            some (res, visits) →
          (TableSorted res.seg.m_regions ∧ SymmetricLive res.seg.m_regions ∧
            NoSelfNeighbour res.seg.m_regions ∧ WorkingSetLive res) ∧
          ∀ v ∈ visits, (TableSorted v.state.seg.m_regions ∧
            SymmetricLive v.state.seg.m_regions ∧
            NoSelfNeighbour v.state.seg.m_regions ∧ WorkingSetLive v.state) ∧
            v.key ∈ v.state.regions := by
        intro sc1 it1 hinv1 hit1 hmap
        cases hrec : mergeRegionsVisits fuel sc1 it1 with
        | none => rw [hrec] at hmap; cases hmap
        | some p =>
          obtain ⟨res1, visits1⟩ := p
          rw [hrec] at hmap
          simp only [Option.map_some', Option.some.injEq, Prod.mk.injEq] at hmap
          obtain ⟨h1, h2⟩ := hmap
          subst h1; subst h2
          obtain ⟨k1, k2⟩ := ih sc1 it1 res1 visits1 hinv1 hit1 hrec
          refine ⟨k1, ?_⟩
          intro v hv
          rcases List.mem_cons.1 hv with hv | hv
          · subst hv; exact ⟨hinv, hcur⟩
          · exact k2 v hv
      unfold mergeRegionsVisits at h
      cases hg : getRegion sc.seg.m_regions cur with
      | none =>
        rw [hg] at h
        exact hcons sc _ hinv (fun c hc => nextKey_mem hc) h
      | some cr =>
        rw [hg] at h
        simp only at h
        cases hp : findMergePartner sc.seg cr with
        | none =>
          rw [hp] at h
          exact hcons sc _ hinv (fun c hc => nextKey_mem hc) h
        | some cn =>
          rw [hp] at h
          simp only at h
          obtain ⟨hinv', _, _, _, _, hkeep⟩ := scan_working_set_step sc cur cr cn hinv hg hp
          split at h
          · exact hcons _ _ hinv'
              (fun c hc => by rw [← Option.some.inj hc]; exact hkeep hcur) h
          · exact hcons _ _ hinv' (fun c hc => nextKey_mem hc) h

theorem growRegionVisits_invariant :
    ∀ (fuel : Nat) (sc : Scan) (cur : Nat) (res : Scan) (visits : List Visit),
      (TableSorted sc.seg.m_regions ∧ SymmetricLive sc.seg.m_regions ∧
        NoSelfNeighbour sc.seg.m_regions ∧ WorkingSetLive sc) →
      cur ∈ sc.regions →
      growRegionVisits fuel sc cur = some (res, visits) →
      (TableSorted res.seg.m_regions ∧ SymmetricLive res.seg.m_regions ∧
        NoSelfNeighbour res.seg.m_regions ∧ WorkingSetLive res) ∧
      ∀ v ∈ visits, (TableSorted v.state.seg.m_regions ∧ SymmetricLive v.state.seg.m_regions ∧
        NoSelfNeighbour v.state.seg.m_regions ∧ WorkingSetLive v.state) ∧
        v.key ∈ v.state.regions := by
  intro fuel
  induction fuel with
  | zero => intro sc cur res visits _ _ h; simp [growRegionVisits] at h
  | succ fuel ih =>
    intro sc cur res visits hinv hcur h
    have hone : ∀ v ∈ [(⟨sc, cur⟩ : Visit)],
        (TableSorted v.state.seg.m_regions ∧ SymmetricLive v.state.seg.m_regions ∧
          NoSelfNeighbour v.state.seg.m_regions ∧ WorkingSetLive v.state) ∧
          v.key ∈ v.state.regions := by
      intro v hv
      rw [List.mem_singleton] at hv
      subst hv
      exact ⟨hinv, hcur⟩
    unfold growRegionVisits at h
    cases hg : getRegion sc.seg.m_regions cur with
    | none =>
      rw [hg] at h
      simp only [Option.some.injEq, Prod.mk.injEq] at h
      obtain ⟨h1, h2⟩ := h
      subst h1; subst h2
      exact ⟨hinv, hone⟩
    | some cr =>
      rw [hg] at h
      simp only at h
      cases hp : findMergePartner sc.seg cr with
      | none =>
        rw [hp] at h
        simp only [Option.some.injEq, Prod.mk.injEq] at h
        obtain ⟨h1, h2⟩ := h
        subst h1; subst h2
        exact ⟨hinv, hone⟩
      | some cn =>
        rw [hp] at h
        simp only at h
        obtain ⟨hinv', _, _, _, _, hkeep⟩ := scan_working_set_step sc cur cr cn hinv hg hp
        split at h
        · simp only [Option.some.injEq, Prod.mk.injEq] at h
          obtain ⟨h1, h2⟩ := h
          subst h1; subst h2
          exact ⟨hinv', hone⟩
        · cases hrec : growRegionVisits fuel (sc.merge cr cn) cur with
          | none => rw [hrec] at h; cases h
          | some p =>
            obtain ⟨res1, visits1⟩ := p
            rw [hrec] at h
            simp only [Option.map_some', Option.some.injEq, Prod.mk.injEq] at h
            obtain ⟨h1, h2⟩ := h
            subst h1; subst h2
            obtain ⟨k1, k2⟩ := ih _ cur res1 visits1 hinv' (hkeep hcur) hrec
            refine ⟨k1, ?_⟩
            intro v hv
            rcases List.mem_cons.1 hv with hv | hv
            · subst hv; exact ⟨hinv, hcur⟩
            · exact k2 v hv

theorem mergeRegionsRandomlyVisits_invariant :
    ∀ (ids : List Nat) (sc res : Scan) (visits : List Visit),
      (TableSorted sc.seg.m_regions ∧ SymmetricLive sc.seg.m_regions ∧
        NoSelfNeighbour sc.seg.m_regions ∧ WorkingSetLive sc) →
      mergeRegionsRandomlyVisits ids sc = some (res, visits) →
      (TableSorted res.seg.m_regions ∧ SymmetricLive res.seg.m_regions ∧
        NoSelfNeighbour res.seg.m_regions ∧ WorkingSetLive res) ∧
      ∀ v ∈ visits, (TableSorted v.state.seg.m_regions ∧ SymmetricLive v.state.seg.m_regions ∧
        NoSelfNeighbour v.state.seg.m_regions ∧ WorkingSetLive v.state) ∧
        v.key ∈ v.state.regions := by
  intro ids
  induction ids with
  | nil =>
    intro sc res visits hinv h
    simp only [mergeRegionsRandomlyVisits, Option.some.injEq, Prod.mk.injEq] at h
    obtain ⟨h1, h2⟩ := h
    subst h1; subst h2
    exact ⟨hinv, fun v hv => absurd hv (List.not_mem_nil v)⟩
  | cons id ids ih =>
    intro sc res visits hinv h
    unfold mergeRegionsRandomlyVisits at h
    by_cases hc : sc.regions.contains id = true
    · rw [if_pos hc] at h
      have hid : id ∈ sc.regions := by simpa using hc
      cases hgr : growRegionVisits (sc.seg.m_regions.length + 1) sc id with
      | none => rw [hgr] at h; cases h
      | some p =>
        obtain ⟨sc1, visits1⟩ := p
        rw [hgr] at h
        simp only at h
        obtain ⟨g1, g2⟩ := growRegionVisits_invariant _ sc id sc1 visits1 hinv hid hgr
        cases hrec : mergeRegionsRandomlyVisits ids sc1 with
        | none => rw [hrec] at h; cases h
        | some q =>
          obtain ⟨res1, visits2⟩ := q
          rw [hrec] at h
          simp only [Option.map_some', Option.some.injEq, Prod.mk.injEq] at h
          obtain ⟨h1, h2⟩ := h
          subst h1; subst h2
          obtain ⟨k1, k2⟩ := ih sc1 res1 visits2 g1 hrec
          refine ⟨k1, ?_⟩
          intro v hv
          rcases List.mem_append.1 hv with hv | hv
          · exact g2 v hv
          · exact k2 v hv
    · rw [if_neg hc] at h
      exact ih sc res visits hinv h

theorem visit_safe_of_invariant (v : Visit)
    (h : (TableSorted v.state.seg.m_regions ∧ SymmetricLive v.state.seg.m_regions ∧
      NoSelfNeighbour v.state.seg.m_regions ∧ WorkingSetLive v.state) ∧
      v.key ∈ v.state.regions) : v.safe := by
  obtain ⟨hinv, hkey⟩ := h
  refine ⟨hinv.2.2.2, hkey, hinv.2.2.2 _ hkey, ?_, ?_⟩
  · intro r hr b hb
    obtain ⟨rb, hrb, hid, _⟩ := hinv.2.1 r hr b hb
    exact isLive_iff_mem.2 (hid ▸ List.mem_map_of_mem _ hrb)
  · intro cr cn hg hp
    obtain ⟨h1, h2, h3, h4, h5, _⟩ := scan_working_set_step v.state v.key cr cn hinv hg hp
    exact ⟨h3, h2, h4, h5, h1.2.2.2⟩

/-- C30: when a growth scan starts on a table kept as a `std::map`, with a symmetric
neighbour relation in which no region lists itself, and on a working set whose keys
are all keys of the table, then `mergeRegions` and `mergeRegionsRandomly` return, the
working set is inside the table at every visit and on return, every visited key and
every listed neighbour is a key of the table, and every merge erases its absorbed
region, a live region other than the visited one, from both maps and leaves the
working set inside the table. -/
theorem working_set_stays_in_table (s : MultiSeg) (regions : List Nat)
    (hs : TableSorted s.m_regions) (hsym : SymmetricLive s.m_regions)
    (hno : NoSelfNeighbour s.m_regions)
    (hsub : ∀ k ∈ regions, isLive s.m_regions k = true) :
    (∃ sc visits, mergeRegions s regions = some sc ∧
      mergeRegionsTrace s regions = some (sc, visits) ∧ WorkingSetLive sc ∧
      ∀ v ∈ visits, v.safe) ∧
    (∀ shuffle : List Nat → List Nat, ∃ sc visits,
      mergeRegionsRandomly shuffle s regions = some sc ∧
      mergeRegionsRandomlyTrace shuffle s regions = some (sc, visits) ∧ WorkingSetLive sc ∧
      ∀ v ∈ visits, v.safe) := by
  have hinit : TableSorted (⟨s, regions, 0, []⟩ : Scan).seg.m_regions ∧
      SymmetricLive (⟨s, regions, 0, []⟩ : Scan).seg.m_regions ∧
      NoSelfNeighbour (⟨s, regions, 0, []⟩ : Scan).seg.m_regions ∧
      WorkingSetLive ⟨s, regions, 0, []⟩ := ⟨hs, hsym, hno, hsub⟩
  refine ⟨?_, ?_⟩
  · obtain ⟨sc, h, _⟩ := mergeRegions_count s regions hs
    have he := mergeRegionsVisits_fst (s.m_regions.length + regions.length + 1)
      ⟨s, regions, 0, []⟩ regions.head?
    unfold mergeRegions at h
    rw [h] at he
    cases ht : mergeRegionsVisits (s.m_regions.length + regions.length + 1)
        ⟨s, regions, 0, []⟩ regions.head? with
    | none => rw [ht] at he; cases he
    | some p =>
      obtain ⟨res, visits⟩ := p
      rw [ht] at he
      simp only [Option.map_some', Option.some.injEq] at he
      subst he
      obtain ⟨k1, k2⟩ := mergeRegionsVisits_invariant _ _ _ res visits hinit
        (fun c hc => List.mem_of_mem_head? hc) ht
      exact ⟨res, visits, h, ht, k1.2.2.2, fun v hv => visit_safe_of_invariant v (k2 v hv)⟩
  · intro shuffle
    obtain ⟨sc, h, _⟩ := mergeRegionsRandomly_count shuffle s regions hs
    have he := mergeRegionsRandomlyVisits_fst (shuffle regions) ⟨s, regions, 0, []⟩
    unfold mergeRegionsRandomly at h
    rw [h] at he
    cases ht : mergeRegionsRandomlyVisits (shuffle regions) ⟨s, regions, 0, []⟩ with
    | none => rw [ht] at he; cases he
    | some p =>
      obtain ⟨res, visits⟩ := p
      rw [ht] at he
      simp only [Option.map_some', Option.some.injEq] at he
      subst he
      obtain ⟨k1, k2⟩ := mergeRegionsRandomlyVisits_invariant _ _ res visits hinit ht
      exact ⟨res, visits, h, ht, k1.2.2.2, fun v hv => visit_safe_of_invariant v (k2 v hv)⟩

/-- C30 on the 1 x 2 grid of two linked pixels of value 10, both in the working
set. -/
theorem working_set_stays_in_table_witness :
    TableSorted twoPixelSeg.m_regions ∧ SymmetricLive twoPixelSeg.m_regions ∧
    NoSelfNeighbour twoPixelSeg.m_regions ∧
    (∀ k ∈ [0, 1], isLive twoPixelSeg.m_regions k = true) ∧
    ∃ sc visits, mergeRegions twoPixelSeg [0, 1] = some sc ∧
      mergeRegionsTrace twoPixelSeg [0, 1] = some (sc, visits) ∧ WorkingSetLive sc ∧
      ∀ v ∈ visits, v.safe :=
  ⟨by decide, by decide, by decide, by decide,
    (working_set_stays_in_table twoPixelSeg [0, 1] (by decide) (by decide) (by decide)
      (by decide)).1⟩

/-! ## Exact statistics under merges -/

theorem filter_split_sum {α : Type} (l : List α) (f g h : α → Bool) (w : α → ℚ)
    (hf : ∀ a ∈ l, f a = (g a || h a)) (hd : ∀ a ∈ l, ¬ (g a = true ∧ h a = true)) :
    ((l.filter f).map w).sum = ((l.filter g).map w).sum + ((l.filter h).map w).sum := by
  induction l with
  | nil => simp
  | cons a t ih =>
    have ih' := ih (fun x hx => hf x (List.mem_cons_of_mem _ hx))
      (fun x hx => hd x (List.mem_cons_of_mem _ hx))
    have hfa := hf a (List.mem_cons_self _ _)
    have hda := hd a (List.mem_cons_self _ _)
    cases hg : g a <;> cases hh : h a
    · simp [List.filter_cons, hfa, hg, hh, ih']
    · simp [List.filter_cons, hfa, hg, hh, ih']; ring
    · simp [List.filter_cons, hfa, hg, hh, ih']; ring
    · exact absurd ⟨hg, hh⟩ hda

theorem filter_split_length {α : Type} (l : List α) (f g h : α → Bool)
    (hf : ∀ a ∈ l, f a = (g a || h a)) (hd : ∀ a ∈ l, ¬ (g a = true ∧ h a = true)) :
    (l.filter f).length = (l.filter g).length + (l.filter h).length := by
  induction l with
  | nil => simp
  | cons a t ih =>
    have ih' := ih (fun x hx => hf x (List.mem_cons_of_mem _ hx))
      (fun x hx => hd x (List.mem_cons_of_mem _ hx))
    have hfa := hf a (List.mem_cons_self _ _)
    have hda := hd a (List.mem_cons_self _ _)
    cases hg : g a <;> cases hh : h a
    · simp [List.filter_cons, hfa, hg, hh, ih']
    · simp [List.filter_cons, hfa, hg, hh, ih']; omega
    · simp [List.filter_cons, hfa, hg, hh, ih']; omega
    · exact absurd ⟨hg, hh⟩ hda

theorem zipWith_map_same {α β γ δ : Type} (f : β → γ → δ) (g : α → β) (h : α → γ)
    (l : List α) :
    List.zipWith f (l.map g) (l.map h) = l.map (fun a => f (g a) (h a)) := by
  induction l with
  | nil => rfl
  | cons a t ih => simp [ih]

theorem filter_eq_singleton {α : Type} (l : List α) (p : α → Bool) (a : α) (hn : l.Nodup)
    (ha : a ∈ l) (hp : ∀ x ∈ l, p x = true ↔ x = a) : l.filter p = [a] := by
  induction l with
  | nil => cases ha
  | cons x t ih =>
    rw [List.nodup_cons] at hn
    by_cases hx : x = a
    · subst hx
      have h1 : p x = true := (hp x (List.mem_cons_self _ _)).2 rfl
      have h2 : t.filter p = [] := by
        rw [List.filter_eq_nil_iff]
        intro y hy hpy
        have := (hp y (List.mem_cons_of_mem _ hy)).1 hpy
        exact hn.1 (this ▸ hy)
      rw [List.filter_cons, if_pos h1, h2]
    · have h1 : ¬ p x = true := fun h => hx ((hp x (List.mem_cons_self _ _)).1 h)
      have hat : a ∈ t := by
        rcases List.mem_cons.1 ha with h | h
        · exact absurd h.symm hx
        · exact h
      rw [List.filter_cons, if_neg h1]
      exact ih hn.2 hat (fun y hy => hp y (List.mem_cons_of_mem _ hy))

theorem countLabel_eq (img : LabelImage) (id : Nat) :
    countLabel img id = (labelCells img id).length := rfl

theorem gridCells_of_dims {img img' : LabelImage} (h1 : img'.nlines = img.nlines)
    (h2 : img'.ncols = img.ncols) : gridCells img' = gridCells img := by
  unfold gridCells
  rw [h1, h2]

theorem nodup_gridCells (img : LabelImage) : (gridCells img).Nodup := by
  rw [gridCells_eq_boxCells]
  exact nodup_boxCells _

theorem mergeStep_bands (s : MultiSeg) (R m : Nat) : (mergeStep s R m).m_bands = s.m_bands := by
  unfold mergeStep
  cases getRegion s.m_regions m <;> rfl

/-- The label grid after a merge block, when the cells of the absorbed region lie in
its bounding box. -/
theorem mergeStep_cell (s : MultiSeg) (R m : Nat) (mr : Region)
    (hm : getRegion s.m_regions m = some mr)
    (hcov : ∀ lin col, lin < s.m_labelledImage.nlines → col < s.m_labelledImage.ncols →
      s.m_labelledImage.cell lin col = m → mr.inBox lin col)
    (lin col : Nat) (hl : lin < s.m_labelledImage.nlines) (hc : col < s.m_labelledImage.ncols) :
    (mergeStep s R m).m_labelledImage.cell lin col =
      if s.m_labelledImage.cell lin col = m then R else s.m_labelledImage.cell lin col := by
  have hmid : mr.m_id = m := (getRegion_some hm).1
  rw [mergeStep_labelledImage s R m mr hm, updateLabelledImage_eq, relabelCells_cell, hmid]
  by_cases hv : s.m_labelledImage.cell lin col = m
  · simp [hv, hl, hc, (mem_boxCells _ lin col).2 (hcov lin col hl hc hv)]
  · simp [hv]

theorem labelCells_mergeStep (s : MultiSeg) (R m : Nat) (mr : Region)
    (hm : getRegion s.m_regions m = some mr)
    (hcov : ∀ lin col, lin < s.m_labelledImage.nlines → col < s.m_labelledImage.ncols →
      s.m_labelledImage.cell lin col = m → mr.inBox lin col) (x : Nat) :
    labelCells (mergeStep s R m).m_labelledImage x =
      (gridCells s.m_labelledImage).filter (fun p =>
        (if s.m_labelledImage.cell p.1 p.2 = m then R else s.m_labelledImage.cell p.1 p.2)
          == x) := by
  unfold labelCells
  rw [gridCells_of_dims (mergeStep_dims s R m).1 (mergeStep_dims s R m).2]
  apply List.filter_congr
  intro p hp
  obtain ⟨l, c⟩ := p
  obtain ⟨hl, hc⟩ := (mem_gridCells _ l c).1 hp
  rw [mergeStep_cell s R m mr hm hcov l c hl hc]

/-- The cells of a region other than the survivor and the absorbed region are the
same after a merge block. -/
theorem labelCells_mergeStep_other (s : MultiSeg) (R m : Nat) (mr : Region)
    (hm : getRegion s.m_regions m = some mr)
    (hcov : ∀ lin col, lin < s.m_labelledImage.nlines → col < s.m_labelledImage.ncols →
      s.m_labelledImage.cell lin col = m → mr.inBox lin col) (x : Nat)
    (hxR : x ≠ R) (hxm : x ≠ m) :
    labelCells (mergeStep s R m).m_labelledImage x = labelCells s.m_labelledImage x := by
  rw [labelCells_mergeStep s R m mr hm hcov x]
  unfold labelCells
  apply List.filter_congr
  intro p _
  by_cases hv : s.m_labelledImage.cell p.1 p.2 = m
  · rw [if_pos hv, hv]
    have h1 : (R == x) = false := by simpa using fun h => hxR h.symm
    have h2 : (m == x) = false := by simpa using fun h => hxm h.symm
    rw [h1, h2]
  · rw [if_neg hv]

/-- The cells of the survivor after a merge block are its own and those of the
absorbed region: the counts and the sums of image values add up. -/
theorem labelCells_mergeStep_survivor (s : MultiSeg) (R m : Nat) (mr : Region)
    (hm : getRegion s.m_regions m = some mr) (hRm : R ≠ m)
    (hcov : ∀ lin col, lin < s.m_labelledImage.nlines → col < s.m_labelledImage.ncols →
      s.m_labelledImage.cell lin col = m → mr.inBox lin col) :
    (labelCells (mergeStep s R m).m_labelledImage R).length =
      (labelCells s.m_labelledImage R).length + (labelCells s.m_labelledImage m).length ∧
    ∀ w : Nat × Nat → ℚ,
      ((labelCells (mergeStep s R m).m_labelledImage R).map w).sum =
        ((labelCells s.m_labelledImage R).map w).sum +
          ((labelCells s.m_labelledImage m).map w).sum := by
  rw [labelCells_mergeStep s R m mr hm hcov R]
  have hf : ∀ p ∈ gridCells s.m_labelledImage,
      ((if s.m_labelledImage.cell p.1 p.2 = m then R else s.m_labelledImage.cell p.1 p.2)
          == R) =
        ((s.m_labelledImage.cell p.1 p.2 == R) || (s.m_labelledImage.cell p.1 p.2 == m)) := by
    intro p _
    by_cases hv : s.m_labelledImage.cell p.1 p.2 = m
    · simp [hv]
    · simp [hv]
  have hd : ∀ p ∈ gridCells s.m_labelledImage,
      ¬ ((s.m_labelledImage.cell p.1 p.2 == R) = true ∧
        (s.m_labelledImage.cell p.1 p.2 == m) = true) := by
    intro p _ h
    simp only [beq_iff_eq] at h
    exact hRm (h.1.symm.trans h.2)
  exact ⟨filter_split_length _ _ _ _ hf hd, fun w => filter_split_sum _ _ _ _ w hf hd⟩

/-- A merge block on two distinct live regions keeps the statistics exact. -/
theorem mergeStep_statistics (s : MultiSeg) (image : Image) (R m : Nat)
    (hinv : TableSorted s.m_regions ∧ BoxCovers s.m_regions s.m_labelledImage ∧
      (∀ r ∈ s.m_regions, 1 ≤ r.m_size) ∧ StatisticsExact s image)
    (hRm : R ≠ m) (hR : isLive s.m_regions R = true) (hm : isLive s.m_regions m = true) :
    TableSorted (mergeStep s R m).m_regions ∧
      BoxCovers (mergeStep s R m).m_regions (mergeStep s R m).m_labelledImage ∧
      (∀ r ∈ (mergeStep s R m).m_regions, 1 ≤ r.m_size) ∧
      StatisticsExact (mergeStep s R m) image := by
  obtain ⟨hs, hbox, hpos, hstat⟩ := hinv
  obtain ⟨rr, hrr⟩ := Option.isSome_iff_exists.1 hR
  obtain ⟨mr, hmr⟩ := Option.isSome_iff_exists.1 hm
  have hs' := tableSorted_mergeStep s R m hs
  have hrrmem := (getRegion_eq_some_iff hs).1 hrr
  have hmrmem := (getRegion_eq_some_iff hs).1 hmr
  have hcov : ∀ lin col, lin < s.m_labelledImage.nlines → col < s.m_labelledImage.ncols →
      s.m_labelledImage.cell lin col = m → mr.inBox lin col := by
    intro lin col hl hc hv
    exact hbox mr hmrmem.1 lin col hl hc (hv.trans hmrmem.2.symm)
  -- every region of the new table is the blend or an old region
  have hnew : ∀ r ∈ (mergeStep s R m).m_regions, r.m_id ≠ m ∧
      ((r.m_id = R ∧ r.core = (EuclideanMerger.merge rr mr).core) ∨
        (r.m_id ≠ R ∧ ∃ q ∈ s.m_regions, q.m_id = r.m_id ∧ r.core = q.core)) := by
    intro r hr
    have hget : getRegion (mergeStep s R m).m_regions r.m_id = some r :=
      (getRegion_eq_some_iff hs').2 ⟨hr, rfl⟩
    have hne : r.m_id ≠ m := by
      intro h
      have hl := isLive_mergeStep s R m hm r.m_id
      rw [isLive_of_getRegion hget] at hl
      simp [h] at hl
    have hcore := getRegion_core_mergeStep s R m rr mr hrr hmr r.m_id hne
    rw [hget] at hcore
    refine ⟨hne, ?_⟩
    by_cases hx : r.m_id = R
    · rw [if_pos hx] at hcore
      exact Or.inl ⟨hx, Option.some.inj hcore⟩
    · rw [if_neg hx] at hcore
      cases hq : getRegion s.m_regions r.m_id with
      | none => rw [hq] at hcore; cases hcore
      | some q =>
        rw [hq] at hcore
        exact Or.inr ⟨hx, q, (getRegion_some hq).2, (getRegion_some hq).1,
          Option.some.inj hcore⟩
  have hdims := mergeStep_dims s R m
  have hsur := labelCells_mergeStep_survivor s R m mr hmr hRm hcov
  refine ⟨hs', ?_, ?_, ?_⟩
  · intro r hr lin col hl hc hv
    rw [hdims.1] at hl
    rw [hdims.2] at hc
    rw [mergeStep_cell s R m mr hmr hcov lin col hl hc] at hv
    obtain ⟨hne, hcase⟩ := hnew r hr
    rcases hcase with ⟨hid, hcore⟩ | ⟨hid, q, hq, hqid, hcore⟩
    · rw [inBox_of_core_eq hcore]
      apply merge_inBox_of_inBox
      by_cases hold : s.m_labelledImage.cell lin col = m
      · exact Or.inr (hcov lin col hl hc hold)
      · rw [if_neg hold] at hv
        exact Or.inl (hbox rr hrrmem.1 lin col hl hc (by rw [hv, hid, hrrmem.2]))
    · rw [inBox_of_core_eq hcore]
      by_cases hold : s.m_labelledImage.cell lin col = m
      · rw [if_pos hold] at hv
        exact absurd hv.symm hid
      · rw [if_neg hold] at hv
        exact hbox q hq lin col hl hc (by rw [hv, hqid])
  · intro r hr
    obtain ⟨_, hcase⟩ := hnew r hr
    rcases hcase with ⟨_, hcore⟩ | ⟨_, q, hq, _, hcore⟩
    · have hsz : r.core.m_size = (EuclideanMerger.merge rr mr).core.m_size :=
        congrArg Region.m_size hcore
      have hsz2 : r.m_size = rr.m_size + mr.m_size := hsz
      have := hpos rr hrrmem.1
      omega
    · have hsz : r.core.m_size = q.core.m_size := congrArg Region.m_size hcore
      have hsz2 : r.m_size = q.m_size := hsz
      have := hpos q hq
      omega
  · intro r hr
    rw [mergeStep_bands]
    obtain ⟨hne, hcase⟩ := hnew r hr
    rcases hcase with ⟨hid, hcore⟩ | ⟨hid, q, hq, hqid, hcore⟩
    · have hsz : r.core.m_size = (EuclideanMerger.merge rr mr).core.m_size :=
        congrArg Region.m_size hcore
      have hsz2 : r.m_size = rr.m_size + mr.m_size := hsz
      have hmean : r.core.m_mean = (EuclideanMerger.merge rr mr).core.m_mean :=
        congrArg Region.m_mean hcore
      have hmean2 : r.m_mean = List.zipWith
          (fun mean1 mean2 => ((mean1 * (rr.m_size : ℚ)) + (mean2 * (mr.m_size : ℚ))) /
            (((rr.m_size + mr.m_size : Nat)) : ℚ)) rr.m_mean mr.m_mean := hmean
      obtain ⟨hR1, hR2⟩ := hstat rr hrrmem.1
      obtain ⟨hm1, hm2⟩ := hstat mr hmrmem.1
      rw [hrrmem.2] at hR1 hR2
      rw [hmrmem.2] at hm1 hm2
      have hcnt : countLabel (mergeStep s R m).m_labelledImage r.m_id =
          rr.m_size + mr.m_size := by
        rw [hid, countLabel_eq, hsur.1, ← countLabel_eq, ← countLabel_eq, ← hR1, ← hm1]
      refine ⟨by rw [hsz2, hcnt], ?_⟩
      rw [hmean2, hcnt, hR2, hm2, zipWith_map_same, hid]
      apply List.map_congr_left
      intro b _
      rw [hsur.2 (fun p => image p.1 p.2 b), ← hR1, ← hm1]
      have h1 : (rr.m_size : ℚ) ≠ 0 := by
        have := hpos rr hrrmem.1
        exact_mod_cast (by omega : rr.m_size ≠ 0)
      have h2 : (mr.m_size : ℚ) ≠ 0 := by
        have := hpos mr hmrmem.1
        exact_mod_cast (by omega : mr.m_size ≠ 0)
      rw [div_mul_cancel₀ _ h1, div_mul_cancel₀ _ h2]
    · have hsz : r.core.m_size = q.core.m_size := congrArg Region.m_size hcore
      have hsz2 : r.m_size = q.m_size := hsz
      have hmean : r.core.m_mean = q.core.m_mean := congrArg Region.m_mean hcore
      have hmean2 : r.m_mean = q.m_mean := hmean
      obtain ⟨hq1, hq2⟩ := hstat q hq
      have hcells := labelCells_mergeStep_other s R m mr hmr hcov r.m_id hid hne
      rw [countLabel_eq, hcells, ← countLabel_eq, hsz2, hmean2, ← hqid]
      exact ⟨hq1, hq2⟩

/-- After `initializeRegions` from an empty table every region is one pixel: the table
is sorted, every region owns exactly the cell of its id, which is its bounding box,
and its mean is the pixel value. -/
theorem initializeRegions_statistics (s : MultiSeg) (image : Image)
    (hempty : s.m_regions = []) :
    TableSorted (initializeRegions s image).m_regions ∧
      BoxCovers (initializeRegions s image).m_regions (initializeRegions s image).m_labelledImage ∧
      (∀ r ∈ (initializeRegions s image).m_regions, 1 ≤ r.m_size) ∧
      StatisticsExact (initializeRegions s image) image := by
  obtain ⟨h1, _, _, h4, h5, h6⟩ := initializeRegions_result s image hempty
  have hs := initializeRegions_sorted s image hempty
  -- every region is the pixel of its id
  have hpix : ∀ r ∈ (initializeRegions s image).m_regions,
      r.m_id < s.m_labelledImage.nlines * s.m_labelledImage.ncols ∧
      r.core = Region.new r.m_id
        (getPixelValues s.m_bands image (r.m_id / s.m_labelledImage.ncols)
          (r.m_id % s.m_labelledImage.ncols))
        (r.m_id / s.m_labelledImage.ncols) (r.m_id % s.m_labelledImage.ncols) := by
    intro r hr
    have hc : r.core ∈ (initializeRegions s image).m_regions.map Region.core :=
      List.mem_map_of_mem _ hr
    rw [h1, List.mem_map] at hc
    obtain ⟨i, hi, hri⟩ := hc
    have hid : r.m_id = i := (congrArg Region.m_id hri).symm
    rw [hid]
    exact ⟨List.mem_range.1 hi, hri.symm⟩
  -- the cells of the grid
  have hcell : ∀ l c, l < s.m_labelledImage.nlines → c < s.m_labelledImage.ncols →
      (initializeRegions s image).m_labelledImage.cell l c = l * s.m_labelledImage.ncols + c := by
    intro l c hl hc
    rw [h6, if_pos ⟨hc, index_lt_of_coords _ _ l c hl hc⟩]
  have hown : ∀ i, i < s.m_labelledImage.nlines * s.m_labelledImage.ncols →
      labelCells (initializeRegions s image).m_labelledImage i =
        [(i / s.m_labelledImage.ncols, i % s.m_labelledImage.ncols)] := by
    intro i hi
    have hW : 0 < s.m_labelledImage.ncols := by
      rcases Nat.eq_zero_or_pos s.m_labelledImage.ncols with h | h
      · rw [h] at hi; omega
      · exact h
    have hdiv : i / s.m_labelledImage.ncols < s.m_labelledImage.nlines := by
      rw [Nat.div_lt_iff_lt_mul hW]; exact hi
    unfold labelCells
    apply filter_eq_singleton _ _ _ (nodup_gridCells _)
    · rw [mem_gridCells, h4, h5]
      exact ⟨hdiv, Nat.mod_lt _ hW⟩
    · intro p hp
      obtain ⟨l, c⟩ := p
      rw [mem_gridCells, h4, h5] at hp
      rw [beq_iff_eq, hcell l c hp.1 hp.2, Prod.mk.injEq, index_cell_iff _ hW]
      exact ⟨fun h => ⟨hp.2, h⟩, fun h => h.2⟩
  refine ⟨hs, ?_, ?_, ?_⟩
  · intro r hr lin col hl hc hv
    rw [h4] at hl
    rw [h5] at hc
    rw [hcell lin col hl hc] at hv
    obtain ⟨_, hcore⟩ := hpix r hr
    have hW : 0 < s.m_labelledImage.ncols := by omega
    obtain ⟨e1, e2⟩ := (index_cell_iff _ hW lin col r.m_id).2 ⟨hc, hv⟩
    have hcore2 : r.core = (Region.new r.m_id
        (getPixelValues s.m_bands image (r.m_id / s.m_labelledImage.ncols)
          (r.m_id % s.m_labelledImage.ncols))
        (r.m_id / s.m_labelledImage.ncols) (r.m_id % s.m_labelledImage.ncols)).core := hcore
    rw [inBox_of_core_eq hcore2, ← e1, ← e2]
    unfold Region.inBox Region.new
    simp only
    omega
  · intro r hr
    obtain ⟨_, hcore⟩ := hpix r hr
    have hsz : r.core.m_size = 1 := by rw [hcore]; rfl
    have hsz2 : r.m_size = 1 := hsz
    omega
  · intro r hr
    obtain ⟨hi, hcore⟩ := hpix r hr
    have hsz : r.core.m_size = 1 := by rw [hcore]; rfl
    have hsz2 : r.m_size = 1 := hsz
    have hmean : r.core.m_mean = getPixelValues s.m_bands image
        (r.m_id / s.m_labelledImage.ncols) (r.m_id % s.m_labelledImage.ncols) := by
      rw [hcore]; rfl
    have hmean2 : r.m_mean = getPixelValues s.m_bands image
        (r.m_id / s.m_labelledImage.ncols) (r.m_id % s.m_labelledImage.ncols) := hmean
    have hb : (initializeRegions s image).m_bands = s.m_bands := rfl
    rw [countLabel_eq, hown r.m_id hi, hb, hsz2, hmean2]
    refine ⟨rfl, ?_⟩
    unfold getPixelValues
    apply List.map_congr_left
    intro b _
    simp

theorem mergeStep_exact (s : MultiSeg) (image : Image) (R m : Nat)
    (hinv : (TableSorted s.m_regions ∧ BoxCovers s.m_regions s.m_labelledImage ∧
      (∀ r ∈ s.m_regions, 1 ≤ r.m_size) ∧ StatisticsExact s image) ∧
      NoSelfNeighbour s.m_regions)
    (hRm : R ≠ m) (hR : isLive s.m_regions R = true) (hm : isLive s.m_regions m = true) :
    (TableSorted (mergeStep s R m).m_regions ∧
      BoxCovers (mergeStep s R m).m_regions (mergeStep s R m).m_labelledImage ∧
      (∀ r ∈ (mergeStep s R m).m_regions, 1 ≤ r.m_size) ∧
      StatisticsExact (mergeStep s R m) image) ∧
      NoSelfNeighbour (mergeStep s R m).m_regions := by
  have h1 := mergeStep_statistics s image R m hinv.1 hRm hR hm
  exact ⟨h1, (noSelfNeighbour_iff h1.1).2
    (mergeStep_noSelf s R m hRm hm ((noSelfNeighbour_iff hinv.1.1).1 hinv.2))⟩

theorem mergeSteps_exact (image : Image) :
    ∀ (steps : List (Nat × Nat)) (s : MultiSeg),
      ((TableSorted s.m_regions ∧ BoxCovers s.m_regions s.m_labelledImage ∧
        (∀ r ∈ s.m_regions, 1 ≤ r.m_size) ∧ StatisticsExact s image) ∧
        NoSelfNeighbour s.m_regions) →
      validSteps s steps = true →
      ((TableSorted (mergeSteps s steps).m_regions ∧
        BoxCovers (mergeSteps s steps).m_regions (mergeSteps s steps).m_labelledImage ∧
        (∀ r ∈ (mergeSteps s steps).m_regions, 1 ≤ r.m_size) ∧
        StatisticsExact (mergeSteps s steps) image) ∧
        NoSelfNeighbour (mergeSteps s steps).m_regions) := by
  intro steps
  induction steps with
  | nil => intro s hinv _; exact hinv
  | cons p rest ih =>
    intro s hinv hv
    unfold validSteps at hv
    simp only [Bool.and_eq_true, decide_eq_true_eq] at hv
    obtain ⟨⟨⟨hne, hR⟩, hm⟩, hrest⟩ := hv
    exact ih _ (mergeStep_exact s image p.1 p.2 hinv hne hR hm) hrest

theorem scan_exact_step (image : Image) (sc : Scan) (cur : Nat) (cr cn : Region)
    (hinv : (TableSorted sc.seg.m_regions ∧ BoxCovers sc.seg.m_regions sc.seg.m_labelledImage ∧
      (∀ r ∈ sc.seg.m_regions, 1 ≤ r.m_size) ∧ StatisticsExact sc.seg image) ∧
      NoSelfNeighbour sc.seg.m_regions)
    (hg : getRegion sc.seg.m_regions cur = some cr)
    (hp : findMergePartner sc.seg cr = some cn) :
    (TableSorted (sc.merge cr cn).seg.m_regions ∧
      BoxCovers (sc.merge cr cn).seg.m_regions (sc.merge cr cn).seg.m_labelledImage ∧
      (∀ r ∈ (sc.merge cr cn).seg.m_regions, 1 ≤ r.m_size) ∧
      StatisticsExact (sc.merge cr cn).seg image) ∧
      NoSelfNeighbour (sc.merge cr cn).seg.m_regions := by
  obtain ⟨hne, hR, hm⟩ := partner_distinct_live hinv.2 hg (findMergePartner_live hp)
  exact mergeStep_exact sc.seg image cr.m_id cn.m_id hinv hne hR hm

/-- C29: starting from `initializeRegions` on an empty table and applying any sequence
of merge blocks, each on two distinct regions of the table, every region of the table
has as size the number of cells of the label grid that carry its id, which is 1 or
more, and as mean of every band the sum of the image values at those cells divided
by their number, as exact rationals; the growth scans `mergeRegions` and
`mergeRegionsRandomly` started from such a state return a state with the same
property. -/
theorem statistics_stay_exact (s : MultiSeg) (image : Image) (hempty : s.m_regions = [])
    (steps : List (Nat × Nat))
    (hvalid : validSteps (initializeRegions s image) steps = true) :
    (∀ r ∈ (mergeSteps (initializeRegions s image) steps).m_regions,
      1 ≤ r.m_size ∧
      r.m_size = countLabel (mergeSteps (initializeRegions s image) steps).m_labelledImage
        r.m_id ∧
      r.m_mean = (mergeSteps (initializeRegions s image) steps).m_bands.map (fun b =>
        ((labelCells (mergeSteps (initializeRegions s image) steps).m_labelledImage
            r.m_id).map (fun p => image p.1 p.2 b)).sum /
          ((countLabel (mergeSteps (initializeRegions s image) steps).m_labelledImage
            r.m_id : Nat) : ℚ))) ∧
    (∀ regions : List Nat, ∃ sc,
      mergeRegions (mergeSteps (initializeRegions s image) steps) regions = some sc ∧
      StatisticsExact sc.seg image) ∧
    (∀ (shuffle : List Nat → List Nat) (regions : List Nat), ∃ sc,
      mergeRegionsRandomly shuffle (mergeSteps (initializeRegions s image) steps) regions
        = some sc ∧
      StatisticsExact sc.seg image) := by
  have hinit := initializeRegions_statistics s image hempty
  have hno := (initializeRegions_wf s image hempty).2.2
  have hinv := mergeSteps_exact image steps _ ⟨hinit, hno⟩ hvalid
  refine ⟨?_, ?_, ?_⟩
  · intro r hr
    exact ⟨hinv.1.2.2.1 r hr, hinv.1.2.2.2 r hr⟩
  · intro regions
    obtain ⟨sc, h, _⟩ := mergeRegions_count _ regions hinv.1.1
    have := mergeRegionsLoop_invariant _ (scan_exact_step image) _
      ⟨mergeSteps (initializeRegions s image) steps, regions, 0, []⟩ _ _ hinv h
    exact ⟨sc, h, this.1.2.2.2⟩
  · intro shuffle regions
    obtain ⟨sc, h, _⟩ := mergeRegionsRandomly_count shuffle _ regions hinv.1.1
    have := mergeRegionsRandomlyLoop_invariant _ (scan_exact_step image) _
      ⟨mergeSteps (initializeRegions s image) steps, regions, 0, []⟩ _ hinv h
    exact ⟨sc, h, this.1.2.2.2⟩

/-- C29 on the 1 x 2 grid of two pixels of value 10, after the merge of pixel 1 into
pixel 0. -/
theorem statistics_stay_exact_witness :
    (sampleSeg 1 2).m_regions = [] ∧
    validSteps (initializeRegions (sampleSeg 1 2) sampleImage) [(0, 1)] = true ∧
    ∀ r ∈ (mergeSteps (initializeRegions (sampleSeg 1 2) sampleImage) [(0, 1)]).m_regions,
      1 ≤ r.m_size ∧
      r.m_size = countLabel
        (mergeSteps (initializeRegions (sampleSeg 1 2) sampleImage) [(0, 1)]).m_labelledImage
        r.m_id ∧
      r.m_mean = (mergeSteps (initializeRegions (sampleSeg 1 2) sampleImage) [(0, 1)]).m_bands.map
        (fun b =>
          ((labelCells
            (mergeSteps (initializeRegions (sampleSeg 1 2) sampleImage) [(0, 1)]).m_labelledImage
            r.m_id).map (fun p => sampleImage p.1 p.2 b)).sum /
          ((countLabel
            (mergeSteps (initializeRegions (sampleSeg 1 2) sampleImage) [(0, 1)]).m_labelledImage
            r.m_id : Nat) : ℚ)) :=
  ⟨rfl, by decide,
    (statistics_stay_exact (sampleSeg 1 2) sampleImage rfl [(0, 1)] (by decide)).1⟩

/-! ## splitRegion: the neighbours of the new regions -/

theorem isLive_linkWithCellIf (c : Prop) [Decidable c] (rs : List Region) (img : LabelImage)
    (id col lin x : Nat) :
    isLive (if c then linkWithCell rs img id col lin else rs) x = isLive rs x := by
  by_cases hc : c
  · rw [if_pos hc]
    unfold linkWithCell
    cases img.getElement col lin with
    | none => rfl
    | some v =>
      simp only
      split
      · cases getRegion rs v with
        | none => rfl
        | some n => exact isLive_link _ _ _ _
      · rfl
  · rw [if_neg hc]

/-- One neighbourhood block of `splitRegion`, exactly: the new region and the owner of
the cell list each other when the block runs on a cell that is not invalidated. -/
theorem mem_neighboursOf_linkWithCellIf (c : Prop) [Decidable c] (rs : List Region)
    (img : LabelImage) (id col lin x y : Nat) (hid : isLive rs id = true)
    (hlive : lin < img.nlines → col < img.ncols → img.cell lin col ≠ npos →
      isLive rs (img.cell lin col) = true) :
    y ∈ neighboursOf (if c then linkWithCell rs img id col lin else rs) x ↔
      y ∈ neighboursOf rs x ∨
        (c ∧ lin < img.nlines ∧ col < img.ncols ∧ img.cell lin col ≠ npos ∧
          ((x = id ∧ y = img.cell lin col) ∨ (x = img.cell lin col ∧ y = id))) := by
  by_cases hc : c
  · rw [if_pos hc]
    unfold linkWithCell
    rw [getElement_eq]
    by_cases hin : lin < img.nlines ∧ col < img.ncols
    · rw [if_pos hin]
      simp only
      by_cases hv : img.cell lin col ≠ npos
      · rw [if_pos hv]
        have hl := hlive hin.1 hin.2 hv
        obtain ⟨n, hn⟩ := Option.isSome_iff_exists.1 hl
        rw [hn]
        simp only
        have hnid : n.m_id = img.cell lin col := (getRegion_some hn).1
        rw [mem_neighboursOf_link, hnid]
        constructor
        · rintro (h | ⟨h1, h2, _⟩ | ⟨h1, h2, _⟩)
          · exact Or.inl h
          · exact Or.inr ⟨hc, hin.1, hin.2, hv, Or.inl ⟨h1, h2⟩⟩
          · exact Or.inr ⟨hc, hin.1, hin.2, hv, Or.inr ⟨h1, h2⟩⟩
        · rintro (h | ⟨_, _, _, _, ⟨h1, h2⟩ | ⟨h1, h2⟩⟩)
          · exact Or.inl h
          · exact Or.inr (Or.inl ⟨h1, h2, hid⟩)
          · exact Or.inr (Or.inr ⟨h1, h2, hl⟩)
      · rw [if_neg hv]
        constructor
        · exact fun h => Or.inl h
        · rintro (h | ⟨_, _, _, h4, _⟩)
          · exact h
          · exact absurd h4 hv
    · rw [if_neg hin]
      constructor
      · exact fun h => Or.inl h
      · rintro (h | ⟨_, h2, h3, _⟩)
        · exact h
        · exact absurd ⟨h2, h3⟩ hin
  · rw [if_neg hc]
    constructor
    · exact fun h => Or.inl h
    · rintro (h | ⟨h1, _⟩)
      · exact h
      · exact absurd h1 hc

theorem adjacentCell_ne {p q : Nat × Nat} (h : adjacentCell p q) : q ≠ p := by
  intro hq
  subst hq
  unfold adjacentCell at h
  omega

theorem adjacentCell_symm {p q : Nat × Nat} (h : adjacentCell p q) : adjacentCell q p := by
  unfold adjacentCell at *
  omega

/-- One pixel of `splitRegion` that is turned into a region, exactly: the neighbour
relation gains the pairs of the new region and the owners of the 4-neighbour cells
that are not invalidated. -/
theorem splitPixel_neighbours (bands : List Nat) (image : Image) (st : Split)
    (p : Nat × Nat) (h : isInvalidated st.labelledImage p = true)
    (hle : ∀ r ∈ st.regions, r.m_id ≤ st.lastId)
    (hcells : ∀ l c, l < st.labelledImage.nlines → c < st.labelledImage.ncols →
      st.labelledImage.cell l c ≠ npos → isLive st.regions (st.labelledImage.cell l c) = true)
    (x y : Nat) :
    y ∈ neighboursOf (splitPixel bands image st p.1 p.2).regions x ↔
      y ∈ neighboursOf st.regions x ∨
        ∃ q : Nat × Nat, adjacentCell p q ∧ q.1 < st.labelledImage.nlines ∧
          q.2 < st.labelledImage.ncols ∧ st.labelledImage.cell q.1 q.2 ≠ npos ∧
          ((x = st.lastId + 1 ∧ y = st.labelledImage.cell q.1 q.2) ∨
            (x = st.labelledImage.cell q.1 q.2 ∧ y = st.lastId + 1)) := by
  have hin : p.1 < st.labelledImage.nlines ∧ p.2 < st.labelledImage.ncols ∧
      st.labelledImage.cell p.1 p.2 = npos := by
    simpa [isInvalidated] using h
  have hnotlive : isLive st.regions (st.lastId + 1) = false := by
    cases hl : isLive st.regions (st.lastId + 1) with
    | false => rfl
    | true =>
      obtain ⟨r, hr, hrid⟩ := List.mem_map.1 (isLive_iff_mem.1 hl)
      have := hle r hr
      omega
  have hnewid : (Region.new (st.lastId + 1) (getPixelValues bands image p.1 p.2) p.1 p.2).m_id =
      st.lastId + 1 := rfl
  have hN0 : ∀ x y, y ∈ neighboursOf (insertRegion st.regions
      (Region.new (st.lastId + 1) (getPixelValues bands image p.1 p.2) p.1 p.2)) x ↔
      y ∈ neighboursOf st.regions x := by
    intro x y
    rw [mem_neighboursOf_insert, hnewid]
    constructor
    · rintro (⟨_, h2⟩ | ⟨_, h2⟩)
      · cases h2
      · exact h2
    · intro h2
      refine Or.inr ⟨?_, h2⟩
      intro hx
      have := isLive_of_mem_neighboursOf h2
      rw [← hx, hnotlive] at this
      cases this
  have hlive0 : ∀ z, isLive (insertRegion st.regions
      (Region.new (st.lastId + 1) (getPixelValues bands image p.1 p.2) p.1 p.2)) z =
      (decide (st.lastId + 1 = z) || isLive st.regions z) := by
    intro z
    rw [isLive_insertRegion, hnewid]
  -- the grid after the write, away from the pixel
  have hcell : ∀ l c, (l, c) ≠ p →
      (st.labelledImage.setElement p.2 p.1 (st.lastId + 1)).cell l c =
        st.labelledImage.cell l c := by
    intro l c hne
    have hcond : ¬ (l = p.1 ∧ c = p.2 ∧ p.1 < st.labelledImage.nlines ∧
        p.2 < st.labelledImage.ncols) := fun hh => hne (Prod.ext hh.1 hh.2.1)
    rw [setElement_cell, if_neg hcond]
  have hcU : (st.labelledImage.setElement p.2 p.1 (st.lastId + 1)).cell (p.1 - 1) p.2 =
      if p.1 = 0 then st.lastId + 1 else st.labelledImage.cell (p.1 - 1) p.2 := by
    by_cases h0 : p.1 = 0
    · rw [if_pos h0, setElement_cell, if_pos ⟨by omega, rfl, hin.1, hin.2.1⟩]
    · rw [if_neg h0]
      exact hcell _ _ (fun hh => by have := congrArg Prod.fst hh; simp at this; omega)
  have hcL : (st.labelledImage.setElement p.2 p.1 (st.lastId + 1)).cell p.1 (p.2 - 1) =
      if p.2 = 0 then st.lastId + 1 else st.labelledImage.cell p.1 (p.2 - 1) := by
    by_cases h0 : p.2 = 0
    · rw [if_pos h0, setElement_cell, if_pos ⟨rfl, by omega, hin.1, hin.2.1⟩]
    · rw [if_neg h0]
      exact hcell _ _ (fun hh => by have := congrArg Prod.snd hh; simp at this; omega)
  have hcD : (st.labelledImage.setElement p.2 p.1 (st.lastId + 1)).cell (p.1 + 1) p.2 =
      st.labelledImage.cell (p.1 + 1) p.2 :=
    hcell _ _ (fun hh => by have := congrArg Prod.fst hh; simp at this)
  have hcR : (st.labelledImage.setElement p.2 p.1 (st.lastId + 1)).cell p.1 (p.2 + 1) =
      st.labelledImage.cell p.1 (p.2 + 1) :=
    hcell _ _ (fun hh => by have := congrArg Prod.snd hh; simp at this)
  have hliveAny : ∀ (rs : List Region),
      (∀ z, isLive rs z = (decide (st.lastId + 1 = z) || isLive st.regions z)) →
      ∀ l c, l < (st.labelledImage.setElement p.2 p.1 (st.lastId + 1)).nlines →
        c < (st.labelledImage.setElement p.2 p.1 (st.lastId + 1)).ncols →
        (st.labelledImage.setElement p.2 p.1 (st.lastId + 1)).cell l c ≠ npos →
        isLive rs ((st.labelledImage.setElement p.2 p.1 (st.lastId + 1)).cell l c) = true := by
    intro rs hrs l c hl hc hv
    rw [setElement_nlines] at hl
    rw [setElement_ncols] at hc
    rw [hrs]
    rw [setElement_cell] at hv ⊢
    split
    · simp
    · rename_i hcond
      rw [if_neg hcond] at hv
      rw [hcells l c hl hc hv]
      simp
  unfold splitPixel
  rw [getElement_eq, if_pos ⟨hin.1, hin.2.1⟩]
  simp only [hin.2.2, ne_eq, not_true_eq_false, if_false]
  generalize hrs0 : insertRegion st.regions
      (Region.new (st.lastId + 1) (getPixelValues bands image p.1 p.2) p.1 p.2) = rs0
    at hN0 hlive0
  generalize himg : st.labelledImage.setElement p.2 p.1 (st.lastId + 1) = img
    at hcU hcL hcD hcR hliveAny
  have hdl : img.nlines = st.labelledImage.nlines := by rw [← himg, setElement_nlines]
  have hdc : img.ncols = st.labelledImage.ncols := by rw [← himg, setElement_ncols]
  have hid0 : isLive rs0 (st.lastId + 1) = true := by rw [hlive0]; simp
  have a1 := isLive_linkWithCellIf (¬ p.1 = 0) rs0 img (st.lastId + 1) p.2 (p.1 - 1)
  have a2 := mem_neighboursOf_linkWithCellIf (¬ p.1 = 0) rs0 img (st.lastId + 1) p.2 (p.1 - 1)
    x y hid0 (hliveAny rs0 hlive0 _ _)
  generalize (if ¬ p.1 = 0 then linkWithCell rs0 img (st.lastId + 1) p.2 (p.1 - 1) else rs0) = rs1
    at a1 a2
  have hlive1 : ∀ z, isLive rs1 z = (decide (st.lastId + 1 = z) || isLive st.regions z) :=
    fun z => by rw [a1, hlive0]
  have b1 := isLive_linkWithCellIf (¬ p.2 = 0) rs1 img (st.lastId + 1) (p.2 - 1) p.1
  have b2 := mem_neighboursOf_linkWithCellIf (¬ p.2 = 0) rs1 img (st.lastId + 1) (p.2 - 1) p.1
    x y (by rw [a1]; exact hid0) (hliveAny rs1 hlive1 _ _)
  generalize (if ¬ p.2 = 0 then linkWithCell rs1 img (st.lastId + 1) (p.2 - 1) p.1 else rs1) = rs2
    at b1 b2
  have hlive2 : ∀ z, isLive rs2 z = (decide (st.lastId + 1 = z) || isLive st.regions z) :=
    fun z => by rw [b1, hlive1]
  have c1 := isLive_linkWithCellIf (p.1 < img.nlines - 1) rs2 img (st.lastId + 1) p.2 (p.1 + 1)
  have c2 := mem_neighboursOf_linkWithCellIf (p.1 < img.nlines - 1) rs2 img (st.lastId + 1) p.2
    (p.1 + 1) x y (by rw [b1, a1]; exact hid0) (hliveAny rs2 hlive2 _ _)
  generalize (if p.1 < img.nlines - 1 then linkWithCell rs2 img (st.lastId + 1) p.2 (p.1 + 1)
    else rs2) = rs3 at c1 c2
  have hlive3 : ∀ z, isLive rs3 z = (decide (st.lastId + 1 = z) || isLive st.regions z) :=
    fun z => by rw [c1, hlive2]
  have d2 := mem_neighboursOf_linkWithCellIf (p.2 < img.ncols - 1) rs3 img (st.lastId + 1)
    (p.2 + 1) p.1 x y (by rw [c1, b1, a1]; exact hid0) (hliveAny rs3 hlive3 _ _)
  rw [d2, c2, b2, a2, hN0, hcD, hcR, hdl, hdc]
  constructor
  · rintro ((((h0 | ⟨u1, u2, u3, u4, u5⟩) | ⟨l1, l2, l3, l4, l5⟩) | ⟨e1, e2, e3, e4, e5⟩) |
      ⟨r1, r2, r3, r4, r5⟩)
    · exact Or.inl h0
    · rw [hcU, if_neg u1] at u4 u5
      exact Or.inr ⟨(p.1 - 1, p.2), Or.inl ⟨rfl, Or.inl (show p.1 - 1 + 1 = p.1 by omega)⟩,
        u2, u3, u4, u5⟩
    · rw [hcL, if_neg l1] at l4 l5
      exact Or.inr ⟨(p.1, p.2 - 1), Or.inr ⟨rfl, Or.inl (show p.2 - 1 + 1 = p.2 by omega)⟩,
        l2, l3, l4, l5⟩
    · exact Or.inr ⟨(p.1 + 1, p.2), Or.inl ⟨rfl, Or.inr rfl⟩, e2, e3, e4, e5⟩
    · exact Or.inr ⟨(p.1, p.2 + 1), Or.inr ⟨rfl, Or.inr rfl⟩, r2, r3, r4, r5⟩
  · rintro (h0 | ⟨⟨q1, q2⟩, hadj, hq1, hq2, hv, hxy⟩)
    · exact Or.inl (Or.inl (Or.inl (Or.inl h0)))
    · unfold adjacentCell at hadj
      simp only at hadj hq1 hq2 hv hxy
      rcases hadj with ⟨e2, e1 | e1⟩ | ⟨e1, e2 | e2⟩
      · have h1 : q1 = p.1 - 1 := by omega
        have h0 : ¬ p.1 = 0 := by omega
        subst h1; subst e2
        refine Or.inl (Or.inl (Or.inl (Or.inr ⟨h0, hq1, hq2, ?_, ?_⟩)))
        · rw [hcU, if_neg h0]; exact hv
        · rw [hcU, if_neg h0]; exact hxy
      · subst e1; subst e2
        exact Or.inl (Or.inr ⟨by omega, hq1, hq2, hv, hxy⟩)
      · have h1 : q2 = p.2 - 1 := by omega
        have h0 : ¬ p.2 = 0 := by omega
        subst h1; subst e1
        refine Or.inl (Or.inl (Or.inr ⟨h0, hq1, hq2, ?_, ?_⟩))
        · rw [hcL, if_neg h0]; exact hv
        · rw [hcL, if_neg h0]; exact hxy
      · subst e1; subst e2
        exact Or.inr ⟨by omega, hq1, hq2, hv, hxy⟩

theorem splitPixel_isLive (bands : List Nat) (image : Image) (st : Split)
    (p : Nat × Nat) (h : isInvalidated st.labelledImage p = true) (z : Nat) :
    isLive (splitPixel bands image st p.1 p.2).regions z =
      (decide (st.lastId + 1 = z) || isLive st.regions z) := by
  have hin : p.1 < st.labelledImage.nlines ∧ p.2 < st.labelledImage.ncols ∧
      st.labelledImage.cell p.1 p.2 = npos := by
    simpa [isInvalidated] using h
  unfold splitPixel
  rw [getElement_eq, if_pos ⟨hin.1, hin.2.1⟩]
  simp only [hin.2.2, ne_eq, not_true_eq_false, if_false]
  rw [isLive_linkWithCellIf, isLive_linkWithCellIf, isLive_linkWithCellIf,
    isLive_linkWithCellIf, isLive_insertRegion]
  rfl

/-- One pixel of `splitRegion` that is turned into a region keeps the description of
the neighbours of the new regions by the label grid. -/
theorem splitPixel_owner_neighbours (bands : List Nat) (image : Image) (st : Split)
    (p : Nat × Nat) (L0 : Nat) (h : isInvalidated st.labelledImage p = true)
    (hle : ∀ r ∈ st.regions, r.m_id ≤ st.lastId)
    (hcells : ∀ l c, l < st.labelledImage.nlines → c < st.labelledImage.ncols →
      st.labelledImage.cell l c ≠ npos →
      st.labelledImage.cell l c ≤ st.lastId ∧
        isLive st.regions (st.labelledImage.cell l c) = true)
    (hn : st.lastId + 1 < npos)
    (hK : ∀ x y, L0 < x → x ≤ st.lastId →
      (y ∈ neighboursOf st.regions x ↔ ownNeighbourCells st.labelledImage x y ∧ y ≠ npos)) :
    ∀ x y, L0 < x → x ≤ st.lastId + 1 →
      (y ∈ neighboursOf (splitPixel bands image st p.1 p.2).regions x ↔
        ownNeighbourCells (st.labelledImage.setElement p.2 p.1 (st.lastId + 1)) x y ∧
          y ≠ npos) := by
  have hin : p.1 < st.labelledImage.nlines ∧ p.2 < st.labelledImage.ncols ∧
      st.labelledImage.cell p.1 p.2 = npos := by
    simpa [isInvalidated] using h
  have hc : ∀ z : Nat × Nat,
      (st.labelledImage.setElement p.2 p.1 (st.lastId + 1)).cell z.1 z.2 =
        if z = p then st.lastId + 1 else st.labelledImage.cell z.1 z.2 := by
    intro z
    rw [setElement_cell]
    by_cases hz : z = p
    · subst hz
      rw [if_pos ⟨rfl, rfl, hin.1, hin.2.1⟩, if_pos rfl]
    · rw [if_neg hz, if_neg (fun hh => hz (Prod.ext hh.1 hh.2.1))]
  have hfresh : ∀ z : Nat × Nat, z.1 < st.labelledImage.nlines → z.2 < st.labelledImage.ncols →
      st.labelledImage.cell z.1 z.2 ≠ st.lastId + 1 := by
    intro z h1 h2 h3
    by_cases hv : st.labelledImage.cell z.1 z.2 = npos
    · omega
    · have := (hcells z.1 z.2 h1 h2 hv).1
      omega
  have hnot : ∀ y, y ∉ neighboursOf st.regions (st.lastId + 1) := by
    intro y hy
    obtain ⟨r, hr, hrid⟩ := List.mem_map.1 (isLive_iff_mem.1 (isLive_of_mem_neighboursOf hy))
    have := hle r hr
    omega
  intro x y hx1 hx2
  rw [splitPixel_neighbours bands image st p h hle
    (fun l c hl hc' hv => (hcells l c hl hc' hv).2) x y]
  unfold ownNeighbourCells
  simp only [setElement_nlines, setElement_ncols]
  by_cases hxn : x = st.lastId + 1
  · subst hxn
    constructor
    · rintro (h0 | ⟨q, hadj, hq1, hq2, hv, ⟨_, h2⟩ | ⟨h1, _⟩⟩)
      · exact absurd h0 (hnot y)
      · refine ⟨⟨p, q, hin.1, hin.2.1, hq1, hq2, hadj, ?_, ?_⟩, ?_⟩
        · rw [hc, if_pos rfl]
        · rw [hc, if_neg (adjacentCell_ne hadj), h2]
        · rw [h2]; exact hv
      · exact absurd h1.symm (hfresh q hq1 hq2)
    · rintro ⟨⟨p1, q1, hp1, hp2, hq1, hq2, hadj, hcp, hcq⟩, hy⟩
      have hp : p1 = p := by
        by_contra hne
        rw [hc, if_neg hne] at hcp
        exact hfresh p1 hp1 hp2 hcp
      subst hp
      rw [hc, if_neg (adjacentCell_ne hadj)] at hcq
      exact Or.inr ⟨q1, hadj, hq1, hq2, by rw [hcq]; exact hy, Or.inl ⟨rfl, hcq.symm⟩⟩
  · have hx3 : x ≤ st.lastId := by omega
    constructor
    · rintro (h0 | ⟨q, hadj, hq1, hq2, hv, ⟨h1, _⟩ | ⟨h1, h2⟩⟩)
      · obtain ⟨⟨p1, q1, hp1, hp2, hq1, hq2, hadj, hcp, hcq⟩, hy⟩ := (hK x y hx1 hx3).1 h0
        have hp1p : p1 ≠ p := by
          intro hh
          rw [hh, hin.2.2] at hcp
          omega
        have hq1p : q1 ≠ p := by
          intro hh
          rw [hh, hin.2.2] at hcq
          exact hy hcq.symm
        refine ⟨⟨p1, q1, hp1, hp2, hq1, hq2, hadj, ?_, ?_⟩, hy⟩
        · rw [hc, if_neg hp1p]; exact hcp
        · rw [hc, if_neg hq1p]; exact hcq
      · exact absurd h1 hxn
      · refine ⟨⟨q, p, hq1, hq2, hin.1, hin.2.1, adjacentCell_symm hadj, ?_, ?_⟩, ?_⟩
        · rw [hc, if_neg (adjacentCell_ne hadj)]; exact h1.symm
        · rw [hc, if_pos rfl]; exact h2.symm
        · omega
    · rintro ⟨⟨p1, q1, hp1, hp2, hq1, hq2, hadj, hcp, hcq⟩, hy⟩
      have hp1p : p1 ≠ p := by
        intro hh
        rw [hc, if_pos hh] at hcp
        exact hxn hcp.symm
      rw [hc, if_neg hp1p] at hcp
      by_cases hq1p : q1 = p
      · rw [hc, if_pos hq1p] at hcq
        subst hq1p
        refine Or.inr ⟨p1, adjacentCell_symm hadj, hp1, hp2, ?_, Or.inr ⟨hcp.symm, hcq.symm⟩⟩
        rw [hcp]; omega
      · rw [hc, if_neg hq1p] at hcq
        exact Or.inl ((hK x y hx1 hx3).2 ⟨⟨p1, q1, hp1, hp2, hq1, hq2, hadj, hcp, hcq⟩, hy⟩)

/-- The pixel loops of `splitRegion`: at the end a new region lists exactly the owners
of the 4-neighbour cells of its cell that are not invalidated. -/
theorem splitLoop_owner_neighbours (bands : List Nat) (image : Image) (L0 : Nat) :
    ∀ (cells : List (Nat × Nat)) (st : Split), cells.Nodup → L0 ≤ st.lastId →
      (∀ r ∈ st.regions, r.m_id ≤ st.lastId) →
      (∀ l c, l < st.labelledImage.nlines → c < st.labelledImage.ncols →
        st.labelledImage.cell l c ≠ npos →
        st.labelledImage.cell l c ≤ st.lastId ∧
          isLive st.regions (st.labelledImage.cell l c) = true) →
      st.lastId + (cells.filter (isInvalidated st.labelledImage)).length < npos →
      (∀ x y, L0 < x → x ≤ st.lastId →
        (y ∈ neighboursOf st.regions x ↔ ownNeighbourCells st.labelledImage x y ∧ y ≠ npos)) →
      ∀ x y, L0 < x →
        x ≤ (cells.foldl (fun st p => splitPixel bands image st p.1 p.2) st).lastId →
        (y ∈ neighboursOf
            (cells.foldl (fun st p => splitPixel bands image st p.1 p.2) st).regions x ↔
          ownNeighbourCells
            (cells.foldl (fun st p => splitPixel bands image st p.1 p.2) st).labelledImage x y ∧
            y ≠ npos) := by
  intro cells
  induction cells with
  | nil => intro st _ _ _ _ _ hK; exact hK
  | cons p rest ih =>
    intro st hnd hL0 hle hcells hbound hK
    have hp : p ∉ rest := (List.nodup_cons.1 hnd).1
    have hnd' : rest.Nodup := (List.nodup_cons.1 hnd).2
    rw [List.foldl_cons]
    cases hinv : isInvalidated st.labelledImage p with
    | false =>
      rw [splitPixel_not_invalidated bands image st p hinv]
      have hS : (p :: rest).filter (isInvalidated st.labelledImage) =
          rest.filter (isInvalidated st.labelledImage) := by
        rw [List.filter_cons, hinv]; rfl
      rw [hS] at hbound
      exact ih st hnd' hL0 hle hcells hbound hK
    | true =>
      obtain ⟨s1, s2, s3, _⟩ := splitPixel_invalidated bands image st p hinv hle
      have hin : p.1 < st.labelledImage.nlines ∧ p.2 < st.labelledImage.ncols ∧
          st.labelledImage.cell p.1 p.2 = npos := by
        simpa [isInvalidated] using hinv
      have hS : (p :: rest).filter (isInvalidated st.labelledImage) =
          p :: rest.filter (isInvalidated st.labelledImage) := by
        rw [List.filter_cons, hinv]; rfl
      rw [hS, List.length_cons] at hbound
      have hle1 : ∀ r ∈ (splitPixel bands image st p.1 p.2).regions,
          r.m_id ≤ (splitPixel bands image st p.1 p.2).lastId := by
        intro r hr
        rw [s1]
        rcases mem_of_map_core_eq_append s2 hr with ⟨q, hq, hqe⟩ | ⟨q, hq, hqe⟩
        · have := hle q hq; omega
        · rw [List.mem_singleton] at hq
          subst hq
          have : (Region.new (st.lastId + 1) (getPixelValues bands image p.1 p.2)
            p.1 p.2).m_id = st.lastId + 1 := rfl
          omega
      apply ih (splitPixel bands image st p.1 p.2) hnd' (by rw [s1]; omega) hle1
      · intro l c hl hc hv
        rw [s3, setElement_nlines] at hl
        rw [s3, setElement_ncols] at hc
        rw [s3] at hv ⊢
        rw [s1, splitPixel_isLive bands image st p hinv]
        rw [setElement_cell] at hv ⊢
        split
        · exact ⟨le_refl _, by simp⟩
        · rename_i hcond
          rw [if_neg hcond] at hv
          obtain ⟨h1, h2⟩ := hcells l c hl hc hv
          exact ⟨by omega, by rw [h2]; simp⟩
      · rw [s1, s3, filter_isInvalidated_setElement _ _ _ _ hp]
        omega
      · rw [s1, s3]
        exact splitPixel_owner_neighbours bands image st p L0 hinv hle hcells (by omega) hK

theorem linkLoop_untouched (n x y : Nat) (hxn : x ≠ n) (L : List Nat) (hxL : x ∉ L)
    (rs : List Region) :
    y ∈ neighboursOf (L.foldl (fun rs nn => if n ≠ nn then linkRegions rs n nn else rs) rs) x ↔
      y ∈ neighboursOf rs x := by
  induction L generalizing rs with
  | nil => rfl
  | cons nn L ih =>
    rw [List.foldl_cons]
    have hxnn : x ≠ nn := fun h => hxL (h ▸ List.mem_cons_self _ _)
    have hxL' : x ∉ L := fun h => hxL (List.mem_cons_of_mem _ h)
    rw [ih hxL']
    by_cases h : n ≠ nn
    · rw [if_pos h, mem_neighboursOf_link]
      constructor
      · rintro (h1 | ⟨h1, _⟩ | ⟨h1, _⟩)
        · exact h1
        · exact absurd h1 hxn
        · exact absurd h1 hxnn
      · exact fun h1 => Or.inl h1
    · rw [if_neg h]

theorem removeLoop_untouched (a : Nat) (link : Bool) (L : List Nat) (x y : Nat) (hxL : x ∉ L)
    (Q : List Nat) (hxQ : x ∉ Q) (rs : List Region) :
    y ∈ neighboursOf (Q.foldl
        (fun rs neighbor =>
          let rs := updateRegion rs neighbor (fun n => n.removeNeighbour a)
          let isEmpty := match getRegion rs neighbor with
            | some n => n.m_neighbours.isEmpty
            | none => false
          if link || isEmpty then
            L.foldl (fun rs nn => if neighbor ≠ nn then linkRegions rs neighbor nn else rs) rs
          else rs) rs) x ↔ y ∈ neighboursOf rs x := by
  induction Q generalizing rs with
  | nil => rfl
  | cons n Q ih =>
    rw [List.foldl_cons]
    have hxn : x ≠ n := fun h => hxQ (h ▸ List.mem_cons_self _ _)
    have hxQ' : x ∉ Q := fun h => hxQ (List.mem_cons_of_mem _ h)
    rw [ih hxQ']
    have hN1 : y ∈ neighboursOf (updateRegion rs n (fun r => r.removeNeighbour a)) x ↔
        y ∈ neighboursOf rs x := by
      rw [mem_neighboursOf_remove]
      exact ⟨fun h => h.1, fun h => ⟨h, fun hh => hxn hh.1⟩⟩
    simp only
    split
    · rw [linkLoop_untouched n x y hxn L hxL, hN1]
    · exact hN1

/-- `removeRegion` leaves the neighbour list of a region alone that is neither the
removed region nor one of its neighbours. -/
theorem removeRegion_untouched (rs : List Region) (a : Nat) (link : Bool) (x y : Nat)
    (hxa : x ≠ a) (hx : x ∉ neighboursOf rs a) :
    y ∈ neighboursOf (removeRegion rs a link) x ↔ y ∈ neighboursOf rs x := by
  unfold removeRegion
  cases hr : getRegion rs a with
  | none => rfl
  | some r =>
    have hL : neighboursOf rs a = r.m_neighbours := by simp [neighboursOf, hr]
    rw [hL] at hx
    simp only
    rw [mem_neighboursOf_erase, removeLoop_untouched a link r.m_neighbours x y hx
      r.m_neighbours hx rs]
    exact ⟨fun h => h.1, fun h => ⟨h, hxa⟩⟩

/-- C23: after `splitRegion` on a live region that does not list itself and whose
cells all lie inside its bounding box, on a sorted table with a symmetric neighbour
relation over live regions, in a label grid whose cells all hold live ids (with the
new ids below `npos`), the new region of every cell of the split region is in the
table and lists exactly the regions that own the in-grid 4-neighbour cells of its
cell in the grid after the call, surviving and new regions alike; each of them is in
the table and lists the new region in return. -/
theorem splitRegion_neighbours (s : MultiSeg) (region : Region) (image : Image)
    (newRegions : List Nat) (hs : TableSorted s.m_regions) (hsym : SymmetricLive s.m_regions)
    (hlive : getRegion s.m_regions region.m_id = some region)
    (hself : region.m_id ∉ region.m_neighbours)
    (hcells : ∀ l c, l < s.m_labelledImage.nlines → c < s.m_labelledImage.ncols →
      isLive s.m_regions (s.m_labelledImage.cell l c) = true)
    (hbox : ∀ lin col, lin < s.m_labelledImage.nlines → col < s.m_labelledImage.ncols →
      s.m_labelledImage.cell lin col = region.m_id → region.inBox lin col)
    (hids : lastRegionId s.m_regions + countLabel s.m_labelledImage region.m_id < npos) :
    ∀ j (hj : j < (regionCells s.m_labelledImage region).length),
      (splitRegion s region image newRegions).1.m_labelledImage.cell
        ((regionCells s.m_labelledImage region)[j]).1
        ((regionCells s.m_labelledImage region)[j]).2 = lastRegionId s.m_regions + 1 + j ∧
      isLive (splitRegion s region image newRegions).1.m_regions
        (lastRegionId s.m_regions + 1 + j) = true ∧
      (∀ y, y ∈ neighboursOf (splitRegion s region image newRegions).1.m_regions
            (lastRegionId s.m_regions + 1 + j) ↔
        ∃ q : Nat × Nat,
          q.1 < (splitRegion s region image newRegions).1.m_labelledImage.nlines ∧
          q.2 < (splitRegion s region image newRegions).1.m_labelledImage.ncols ∧
          adjacentCell ((regionCells s.m_labelledImage region)[j]) q ∧
          (splitRegion s region image newRegions).1.m_labelledImage.cell q.1 q.2 = y) ∧
      (∀ y, y ∈ neighboursOf (splitRegion s region image newRegions).1.m_regions
            (lastRegionId s.m_regions + 1 + j) →
        isLive (splitRegion s region image newRegions).1.m_regions y = true ∧
        lastRegionId s.m_regions + 1 + j ∈
          neighboursOf (splitRegion s region image newRegions).1.m_regions y) := by
  intro j hj
  have hmax := lastRegionId_max hs
  have hrid : region.m_id ≤ lastRegionId s.m_regions := hmax region (getRegion_some hlive).2
  have hle0 : ∀ l c, l < s.m_labelledImage.nlines → c < s.m_labelledImage.ncols →
      s.m_labelledImage.cell l c ≤ lastRegionId s.m_regions := by
    intro l c hl hc
    obtain ⟨r, hr, hrid'⟩ := List.mem_map.1 (isLive_iff_mem.1 (hcells l c hl hc))
    have := hmax r hr
    omega
  have hnp : ∀ l c, l < s.m_labelledImage.nlines → c < s.m_labelledImage.ncols →
      s.m_labelledImage.cell l c ≠ npos := by
    intro l c hl hc
    have := hle0 l c hl hc
    omega
  have hlen := regionCells_length s.m_labelledImage region hbox
  have hsymN := (symmetricLive_iff hs).1 hsym
  obtain ⟨r1, r2, r3, r4, r5, _⟩ := splitRegion_result s region image newRegions hs hlive hnp
  obtain ⟨_, w2, _⟩ := splitRegion_wf s region image newRegions hs hsymN hlive hself
  have hdims := relabelCells_dims (boxCells region) s.m_labelledImage region.m_id npos
  rw [← invalidateRegionPixels_eq] at hdims
  -- the cells of the grid after the call
  have hcellF : ∀ l c, l < s.m_labelledImage.nlines → c < s.m_labelledImage.ncols →
      (∃ (k : Nat) (hk : k < (regionCells s.m_labelledImage region).length),
        (regionCells s.m_labelledImage region)[k] = (l, c) ∧
        (splitRegion s region image newRegions).1.m_labelledImage.cell l c =
          lastRegionId s.m_regions + 1 + k) ∨
      ((splitRegion s region image newRegions).1.m_labelledImage.cell l c =
          s.m_labelledImage.cell l c ∧ s.m_labelledImage.cell l c ≠ region.m_id) := by
    intro l c hl hc
    by_cases hq : (l, c) ∈ regionCells s.m_labelledImage region
    · obtain ⟨k, hk, hkq⟩ := List.getElem_of_mem hq
      left
      refine ⟨k, hk, hkq, ?_⟩
      have := r4 k hk
      rw [hkq] at this
      exact this
    · right
      refine ⟨r5 l c hq, ?_⟩
      intro hv
      apply hq
      unfold regionCells
      rw [List.mem_filter]
      exact ⟨(mem_boxCells _ l c).2 (hbox l c hl hc hv), by simpa using ⟨hl, hc, hv⟩⟩
  -- the pixel loops
  have hI2 : ∀ l c, l < (invalidateRegionPixels s.m_labelledImage region).nlines →
      c < (invalidateRegionPixels s.m_labelledImage region).ncols →
      (invalidateRegionPixels s.m_labelledImage region).cell l c ≠ npos →
      (invalidateRegionPixels s.m_labelledImage region).cell l c ≤ lastRegionId s.m_regions ∧
        isLive s.m_regions ((invalidateRegionPixels s.m_labelledImage region).cell l c) = true := by
    intro l c hl hc hv
    rw [hdims.1] at hl
    rw [hdims.2] at hc
    rw [invalidateRegionPixels_eq, relabelCells_cell] at hv ⊢
    split
    · rename_i hcond
      rw [if_pos hcond] at hv
      exact absurd rfl hv
    · exact ⟨hle0 l c hl hc, hcells l c hl hc⟩
  have hI3 : lastRegionId s.m_regions + ((boxCells region).filter
      (isInvalidated (invalidateRegionPixels s.m_labelledImage region))).length < npos := by
    rw [invalidate_filter s.m_labelledImage region hnp, hlen]
    exact hids
  obtain ⟨a1, _, _⟩ := splitLoop_adjacency s.m_bands image (boxCells region)
    { regions := s.m_regions
      labelledImage := invalidateRegionPixels s.m_labelledImage region
      newRegions := newRegions
      lastId := lastRegionId s.m_regions } hmax hsymN
  obtain ⟨i1, _⟩ := splitLoop_result s.m_bands image (boxCells region)
    { regions := s.m_regions
      labelledImage := invalidateRegionPixels s.m_labelledImage region
      newRegions := newRegions
      lastId := lastRegionId s.m_regions } (nodup_boxCells region) hmax
  have hK := splitLoop_owner_neighbours s.m_bands image (lastRegionId s.m_regions)
    (boxCells region)
    { regions := s.m_regions
      labelledImage := invalidateRegionPixels s.m_labelledImage region
      newRegions := newRegions
      lastId := lastRegionId s.m_regions } (nodup_boxCells region) (le_refl _) hmax hI2 hI3
    (fun x y h1 h2 => by simp only at h2; omega)
  simp only at a1 i1 hK
  rw [invalidate_filter s.m_labelledImage region hnp] at i1
  have hFr : (splitRegion s region image newRegions).1.m_regions =
      removeRegion ((boxCells region).foldl
        (fun st p => splitPixel s.m_bands image st p.1 p.2)
        { regions := s.m_regions
          labelledImage := invalidateRegionPixels s.m_labelledImage region
          newRegions := newRegions
          lastId := lastRegionId s.m_regions }).regions region.m_id false := rfl
  have hFi : (splitRegion s region image newRegions).1.m_labelledImage =
      ((boxCells region).foldl
        (fun st p => splitPixel s.m_bands image st p.1 p.2)
        { regions := s.m_regions
          labelledImage := invalidateRegionPixels s.m_labelledImage region
          newRegions := newRegions
          lastId := lastRegionId s.m_regions }).labelledImage := rfl
  generalize (boxCells region).foldl
      (fun st p => splitPixel s.m_bands image st p.1 p.2)
      { regions := s.m_regions
        labelledImage := invalidateRegionPixels s.m_labelledImage region
        newRegions := newRegions
        lastId := lastRegionId s.m_regions } = st at a1 i1 hK hFr hFi
  rw [← hFi] at hK
  have hx1 : lastRegionId s.m_regions < lastRegionId s.m_regions + 1 + j := by omega
  have hx2 : lastRegionId s.m_regions + 1 + j ≤ st.lastId := by rw [i1]; omega
  -- a cell that reads the new id is the cell of the new region
  have hown : ∀ l c, l < s.m_labelledImage.nlines → c < s.m_labelledImage.ncols →
      (splitRegion s region image newRegions).1.m_labelledImage.cell l c =
        lastRegionId s.m_regions + 1 + j →
      (l, c) = (regionCells s.m_labelledImage region)[j] := by
    intro l c hl hc hv
    rcases hcellF l c hl hc with ⟨k, hk, hkq, hkv⟩ | ⟨h1, _⟩
    · have hkj : k = j := by omega
      subst hkj
      exact hkq.symm
    · have := hle0 l c hl hc
      omega
  have hpin : ((regionCells s.m_labelledImage region)[j]).1 < s.m_labelledImage.nlines ∧
      ((regionCells s.m_labelledImage region)[j]).2 < s.m_labelledImage.ncols := by
    have hmem : (regionCells s.m_labelledImage region)[j] ∈
        regionCells s.m_labelledImage region := List.getElem_mem _
    unfold regionCells at hmem
    rw [List.mem_filter] at hmem
    have := hmem.2
    simp only [decide_eq_true_eq] at this
    exact ⟨this.1, this.2.1⟩
  have hnotnpos : ∀ l c, l < s.m_labelledImage.nlines → c < s.m_labelledImage.ncols →
      (splitRegion s region image newRegions).1.m_labelledImage.cell l c ≠ npos := by
    intro l c hl hc
    rcases hcellF l c hl hc with ⟨k, hk, _, hkv⟩ | ⟨h1, _⟩
    · rw [hkv]; omega
    · rw [h1]; exact hnp l c hl hc
  have hnotin : lastRegionId s.m_regions + 1 + j ∉ neighboursOf st.regions region.m_id := by
    intro h
    have h2 := a1 _ _ h
    obtain ⟨⟨p1, q1, _, _, hq1, hq2, _, _, hcq⟩, _⟩ := (hK _ _ hx1 hx2).1 h2
    rw [r2] at hq1
    rw [r3] at hq2
    rcases hcellF q1.1 q1.2 hq1 hq2 with ⟨k, hk, _, hkv⟩ | ⟨h1, h3⟩
    · omega
    · exact h3 (h1.symm.trans hcq)
  have hB : ∀ y, y ∈ neighboursOf (splitRegion s region image newRegions).1.m_regions
      (lastRegionId s.m_regions + 1 + j) ↔
      y ∈ neighboursOf st.regions (lastRegionId s.m_regions + 1 + j) := by
    intro y
    rw [hFr]
    exact removeRegion_untouched st.regions region.m_id false _ y (by omega) hnotin
  refine ⟨r4 j hj, ?_, ?_, ?_⟩
  · rw [isLive_iff_mem, ← ids_of_core, r1, List.map_append, List.mem_append]
    right
    rw [newRegionsFrom_map_id, List.mem_range'_1]
    omega
  · intro y
    rw [hB y, hK _ y hx1 hx2, r2, r3]
    constructor
    · rintro ⟨⟨p1, q1, hp1, hp2, hq1, hq2, hadj, hcp, hcq⟩, _⟩
      rw [r2] at hp1 hq1
      rw [r3] at hp2 hq2
      have hp := hown p1.1 p1.2 hp1 hp2 hcp
      have hp' : p1 = (regionCells s.m_labelledImage region)[j] := hp
      rw [← hp']
      exact ⟨q1, hq1, hq2, hadj, hcq⟩
    · rintro ⟨q, hq1, hq2, hadj, hcq⟩
      refine ⟨⟨(regionCells s.m_labelledImage region)[j], q, ?_, ?_, ?_, ?_, hadj, r4 j hj,
        hcq⟩, ?_⟩
      · rw [r2]; exact hpin.1
      · rw [r3]; exact hpin.2
      · rw [r2]; exact hq1
      · rw [r3]; exact hq2
      · rw [← hcq]; exact hnotnpos q.1 q.2 hq1 hq2
  · intro y hy
    have h2 := w2 _ _ hy
    exact ⟨isLive_of_mem_neighboursOf h2, h2⟩

/-- C23 on the 1 x 3 grid with the regions 0 (columns 0-1) and 1 (column 2): after the
split of region 0 the new region 2 of the cell `(0, 0)` is in the table and is listed
by each of its neighbours; its neighbour list is `[3]`, the sibling of the cell
`(0, 1)` created after it, and that of region 3 is `[2, 1]`. -/
theorem splitRegion_neighbours_witness :
    TableSorted (twoRegionSeg 2 1 0).m_regions ∧ SymmetricLive (twoRegionSeg 2 1 0).m_regions ∧
    getRegion (twoRegionSeg 2 1 0).m_regions leftRegion.m_id = some leftRegion ∧
    leftRegion.m_id ∉ leftRegion.m_neighbours ∧
    lastRegionId (twoRegionSeg 2 1 0).m_regions +
      countLabel (twoRegionSeg 2 1 0).m_labelledImage leftRegion.m_id < npos ∧
    isLive (splitRegion (twoRegionSeg 2 1 0) leftRegion sampleImage []).1.m_regions
      (lastRegionId (twoRegionSeg 2 1 0).m_regions + 1 + 0) = true ∧
    (∀ y, y ∈ neighboursOf (splitRegion (twoRegionSeg 2 1 0) leftRegion sampleImage []).1.m_regions
        (lastRegionId (twoRegionSeg 2 1 0).m_regions + 1 + 0) →
      isLive (splitRegion (twoRegionSeg 2 1 0) leftRegion sampleImage []).1.m_regions y = true ∧
      lastRegionId (twoRegionSeg 2 1 0).m_regions + 1 + 0 ∈
        neighboursOf (splitRegion (twoRegionSeg 2 1 0) leftRegion sampleImage []).1.m_regions y) ∧
    neighboursOf (splitRegion (twoRegionSeg 2 1 0) leftRegion sampleImage []).1.m_regions 2
      = [3] ∧
    neighboursOf (splitRegion (twoRegionSeg 2 1 0) leftRegion sampleImage []).1.m_regions 3
      = [2, 1] :=
  have hcells : ∀ l c, l < (twoRegionSeg 2 1 0).m_labelledImage.nlines →
      c < (twoRegionSeg 2 1 0).m_labelledImage.ncols →
      isLive (twoRegionSeg 2 1 0).m_regions
        ((twoRegionSeg 2 1 0).m_labelledImage.cell l c) = true := by
    intro l c _ _
    show isLive (twoRegionSeg 2 1 0).m_regions (if c < 2 then 0 else 1) = true
    split <;> rfl
  have hbox : ∀ lin col, lin < (twoRegionSeg 2 1 0).m_labelledImage.nlines →
      col < (twoRegionSeg 2 1 0).m_labelledImage.ncols →
      (twoRegionSeg 2 1 0).m_labelledImage.cell lin col = leftRegion.m_id →
      leftRegion.inBox lin col := by
    intro lin col hl _ h
    have h1 : lin < 1 := hl
    have h2 : (if col < 2 then 0 else 1) = 0 := h
    have h3 : col < 2 := by
      by_contra hcon
      rw [if_neg hcon] at h2
      omega
    show 0 ≤ lin ∧ lin < 1 ∧ 0 ≤ col ∧ col < 2
    omega
  ⟨by decide, by decide, rfl, by decide, by decide,
    ((splitRegion_neighbours (twoRegionSeg 2 1 0) leftRegion sampleImage [] (by decide)
      (by decide) rfl (by decide) hcells hbox (by decide)) 0 (by decide)).2.1,
    ((splitRegion_neighbours (twoRegionSeg 2 1 0) leftRegion sampleImage [] (by decide)
      (by decide) rfl (by decide) hcells hbox (by decide)) 0 (by decide)).2.2.2,
    by decide, by decide⟩

end MSeg
